import Mathlib

/-!
# Binary translation (`cruise::Definition`, `cruise::DefinitionRegistry`, `cruise::MessageWriter`)

A shallow embedding of the C++ sources under
`packages/webviz-core/src/util/binaryObjects/binaryTranslation/cpp`.

Conventions of the embedding.

* `std::vector<uint8_t>` is `List UInt8`; an index into a vector is a `Nat`.
* The sources are embedded twice.  In the first reading `size_t` quantities are natural
  numbers and `size_t` arithmetic is exact: it is the program on a target whose `size_t`
  never overflows.  The second reading is the 32-bit target (WebAssembly, the target of
  the Emscripten bindings of `main.cpp`): every `size_t` sum and product is reduced
  modulo `2 ^ 32`, and a call has no result (`none`) when a `memcpy` it reaches would
  leave its source or its buffer.  The functions of the second reading carry the suffix
  `32`; functions without `size_t` arithmetic are shared.  The theorem
  `MessageWriter.dispatch32_of_fits` relates the two: on runs that stay below `2 ^ 31`
  bytes the 32-bit target computes what exact arithmetic computes.
* Every narrowing conversion of the source is explicit: a `uint32_t` written by
  `writeOffsets` is reduced modulo `2 ^ 32`, the `int32_t` returned by
  `MessageWriter::write` is the two's complement reading of the low 32 bits, and
  `readLength` produces a value below `2 ^ 32` by construction.
* `uint32_t` values are laid out in little-endian order (the byte order of the
  WebAssembly target and of the tests' inputs).
* A `Definition*` is the registry key of the definition it points to; the null pointer
  is `none`.
* A function that mutates its object returns the new state next to its result.
* Recursion of the source that is not structural (`Definition::finalize`, the command
  recorder) takes a fuel argument and returns `none` when the fuel runs out.
-/

namespace cruise

/-! ## Commands (`Definition.hpp`) -/

/-- Byte buffers: `using Buffer = std::vector<uint8_t>`. -/
abbrev Buffer := List UInt8

/-- The enumeration `Definition::Command::Type`, in declaration order. -/
inductive CommandType where
  | READ_FIXED_SIZE_DATA
  | READ_STRING
  | READ_DYNAMIC_SIZE_DATA
  | CONSTANT_ARRAY
  | DYNAMIC_ARRAY
  deriving DecidableEq, Repr

/-- The integer value of an enumerator (`int(cmd.type)`). -/
def CommandType.toInt : CommandType → Int
  | .READ_FIXED_SIZE_DATA => 0
  | .READ_STRING => 1
  | .READ_DYNAMIC_SIZE_DATA => 2
  | .CONSTANT_ARRAY => 3
  | .DYNAMIC_ARRAY => 4

/-- The struct `Definition::Command`; `subcommands` is a `CommandBuffer`. -/
inductive Command where
  | mk (type : CommandType) (label : String) (size : Nat) (length : Nat)
      (subcommands : List Command)
  deriving Repr

/-- The type `Definition::CommandBuffer`. -/
abbrev CommandBuffer := List Command

namespace Command

/-- Field `type`. -/
def type : Command → CommandType
  | mk t _ _ _ _ => t

/-- Field `label`. -/
def label : Command → String
  | mk _ l _ _ _ => l

/-- Field `size`. -/
def size : Command → Nat
  | mk _ _ s _ _ => s

/-- Field `length`. -/
def length : Command → Nat
  | mk _ _ _ n _ => n

/-- Field `subcommands`. -/
def subcommands : Command → CommandBuffer
  | mk _ _ _ _ subs => subs

end Command

/-! ## The peephole optimizer (`Definition::optimizeCommands`) -/

/-- The `READ_FIXED_SIZE_DATA` case of the loop body of `optimizeCommands`: push `cmd`
when `ret` is empty or its last command is not a fixed read, else merge `cmd` into the
last command (`top.label += "+" + cmd.label; top.size += cmd.size`). -/
def pushFixed (ret : CommandBuffer) (cmd : Command) : CommandBuffer :=
  match ret.getLast? with
  | none => ret ++ [cmd]
  | some top =>
    if top.type ≠ CommandType.READ_FIXED_SIZE_DATA then ret ++ [cmd]
    else ret.dropLast ++
      [Command.mk top.type (top.label ++ ("+" ++ cmd.label)) (top.size + cmd.size)
        top.length top.subcommands]

mutual
/-- One iteration of the loop of `optimizeCommands`: the switch on `cmd.type`, applied
to the output `ret` built so far. -/
def optimizeStep (ret : CommandBuffer) : Command → CommandBuffer
  | .mk .READ_FIXED_SIZE_DATA label size length subs =>
    pushFixed ret (.mk .READ_FIXED_SIZE_DATA label size length subs)
  | .mk .CONSTANT_ARRAY label size length subs =>
    ret ++ [.mk .CONSTANT_ARRAY label size length (optimizeLoop subs [])]
  | .mk .DYNAMIC_ARRAY label size length subs =>
    ret ++ [.mk .DYNAMIC_ARRAY label size length (optimizeLoop subs [])]
  | .mk .READ_STRING label size length subs =>
    ret ++ [.mk .READ_STRING label size length subs]
  | .mk .READ_DYNAMIC_SIZE_DATA label size length subs =>
    ret ++ [.mk .READ_DYNAMIC_SIZE_DATA label size length subs]
/-- The loop `for (const auto& cmd : input)` of `optimizeCommands`, with the output
vector `ret` as accumulator. -/
def optimizeLoop : CommandBuffer → CommandBuffer → CommandBuffer
  | [], ret => ret
  | cmd :: rest, ret => optimizeLoop rest (optimizeStep ret cmd)
end

/-- The function `Definition::optimizeCommands`. -/
def optimizeCommands (input : CommandBuffer) : CommandBuffer :=
  optimizeLoop input []

mutual
/-- The body of the loop of `Definition::flatten` for one command. -/
def flattenCommand : Command → List Int
  | .mk t _ _ _ subs => t.toInt :: flatten subs
/-- The function `Definition::flatten`, returning what it appends to `out`. -/
def flatten : CommandBuffer → List Int
  | [] => []
  | cmd :: rest => flattenCommand cmd ++ flatten rest
end

/-! ## Definitions (`Definition.hpp`) -/

/-- The struct `Definition::Field`.  The pointer `definition` is the registry key of the
definition it points to, `none` for `nullptr`. -/
structure Field where
  type : String
  name : String
  definition : Option String
  isArray : Bool
  arraySize : Int
  deriving Repr, DecidableEq

/-- The data members of the class `Definition` (the back pointer `_registry` is never
set or read by the sources and is left out). -/
structure Definition where
  _name : String
  _size : Nat
  _fields : List Field
  _isString : Bool
  _isValid : Bool
  _hasConstantSize : Bool
  _commands : CommandBuffer

namespace Definition

/-- The constructor `Definition(name, size, isString)`; the members it does not
initialise take their default member initialisers. -/
def new (name : String) (size : Nat) (isString : Bool) : Definition :=
  { _name := name, _size := size, _fields := [], _isString := isString, _isValid := true,
    _hasConstantSize := !isString, _commands := [] }

/-- The getter `getName`. -/
def getName (d : Definition) : String := d._name

/-- The getter `getSize`. -/
def getSize (d : Definition) : Nat := d._size

/-- The getter `hasFields`: `!_fields.empty()`. -/
def hasFields (d : Definition) : Bool := !d._fields.isEmpty

/-- The getter `getFields`. -/
def getFields (d : Definition) : List Field := d._fields

/-- The getter `isString`. -/
def isString (d : Definition) : Bool := d._isString

/-- The getter `isValid`. -/
def isValid (d : Definition) : Bool := d._isValid

/-- The getter `hasConstantSize`. -/
def hasConstantSize (d : Definition) : Bool := d._hasConstantSize

/-- The getter `getCommands`. -/
def getCommands (d : Definition) : CommandBuffer := d._commands

/-- The function `Definition::addField`: the result and the new state. -/
def addField (d : Definition) (type name : String) (isArray : Bool) (arraySize : Int) :
    Bool × Definition :=
  let field : Field :=
    { type := type, name := name, definition := none, isArray := isArray,
      arraySize := arraySize }
  (true, { d with _fields := d._fields ++ [field], _isValid := false })

/-- The function `Definition::flattenCommands`. -/
def flattenCommands (d : Definition) : List Int := flatten d._commands

end Definition

/-! ## The registry (`DefinitionRegistry.hpp`, `DefinitionRegistry.cpp`) -/

/-- The class `DefinitionRegistry`: its only member `_definitions`, as the list of the
map's entries in iteration order.  Every `Definition` is owned by its entry, so a
`Definition*` is the key of the entry. -/
abbrev DefinitionRegistry := List (String × Definition)

namespace DefinitionRegistry

/-- The function `DefinitionRegistry::getDefinition`, returning the definition the
pointer points to (`none` for `nullptr`). -/
def getDefinition : DefinitionRegistry → String → Option Definition
  | [], _ => none
  | (k, d) :: rest, name => if k = name then some d else getDefinition rest name

/-- A mutation of the definition `name` points to: `g` maps the old state to the new. -/
def modify : DefinitionRegistry → String → (Definition → Definition) → DefinitionRegistry
  | [], _, _ => []
  | (k, d) :: rest, name, g =>
    if k = name then (k, g d) :: rest else (k, d) :: modify rest name g

/-- The constructor `DefinitionRegistry()`: the entries in the order of the source. -/
def new : DefinitionRegistry :=
  [ ("bool", Definition.new "bool" 1 false),
    ("uint8", Definition.new "uint8" 1 false),
    ("int8", Definition.new "int8" 1 false),
    ("uint16", Definition.new "uint16" 2 false),
    ("int16", Definition.new "int16" 2 false),
    ("uint32", Definition.new "uint32" 4 false),
    ("int32", Definition.new "int32" 4 false),
    ("uint64", Definition.new "uint64" 8 false),
    ("int64", Definition.new "int64" 8 false),
    ("float32", Definition.new "float32" 4 false),
    ("float64", Definition.new "float64" 8 false),
    ("string", Definition.new "string" (2 * 4) true),
    ("json", Definition.new "json" (2 * 4) true),
    ("time", Definition.new "time" (2 * 4) false),
    ("duration", Definition.new "duration" (2 * 4) false) ]

/-- The function `DefinitionRegistry::createDefinition`: `_definitions[name]` is
assigned a fresh definition (a new entry goes to the end of the iteration order); the
returned pointer is the key `name`. -/
def createDefinition (reg : DefinitionRegistry) (name : String) :
    String × DefinitionRegistry :=
  match reg.getDefinition name with
  | some _ => (name, reg.modify name (fun _ => Definition.new name 0 false))
  | none => (name, reg ++ [(name, Definition.new name 0 false)])

end DefinitionRegistry

/-! ## Command recording (`Definition.cpp`) -/

/-- The function `Definition::recordStringDefinitionCommands`. -/
def recordStringDefinitionCommands (definition : Definition) : CommandBuffer :=
  [.mk .READ_STRING definition.getName 0 0 []]

/-- The function `Definition::recordNonStringDefinitionCommands`. -/
def recordNonStringDefinitionCommands (definition : Definition) (count : Nat) :
    CommandBuffer :=
  [.mk .READ_FIXED_SIZE_DATA definition.getName (count * definition.getSize) 0 []]

/-- The loops `for (auto i = 0l; i < arraySize; i++)` of the recorder: the commands
`cmds` of one element are appended `n` times (`cmds` is `none` when recording the
element does not return; the element is not recorded at all when `n = 0`). -/
def recordTimes (cmds : Option CommandBuffer) : Nat → Option CommandBuffer
  | 0 => some []
  | n + 1 =>
    match cmds, recordTimes cmds n with
    | some a, some b => some (a ++ b)
    | _, _ => none

/-- The label rewrite `cmd.label = f.name + "(" + cmd.label + ")"`. -/
def wrapLabel (fieldName : String) : Command → Command
  | .mk t label size length subs => .mk t (fieldName ++ "(" ++ label ++ ")") size length subs

/-- The function `Definition::recordArrayDefinitionCommands`; `record` stands for the
calls of `recordDefinitionCommands` it makes. -/
def recordArrayDefinitionCommandsWith (record : Definition → Option CommandBuffer)
    (definition : Definition) (arraySize : Int) : Option CommandBuffer :=
  if arraySize ≥ 0 then
    let subs :=
      if definition.isString then
        recordTimes (some (recordStringDefinitionCommands definition)) arraySize.toNat
      else if definition.hasConstantSize then
        some (recordNonStringDefinitionCommands definition arraySize.toNat)
      else recordTimes (record definition) arraySize.toNat
    subs.map fun s =>
      [.mk .CONSTANT_ARRAY definition.getName definition.getSize (arraySize.toNat % 2 ^ 32) s]
  else if definition.hasConstantSize then
    some [.mk .READ_DYNAMIC_SIZE_DATA definition.getName definition.getSize 0 []]
  else
    let subs :=
      if definition.isString then some (recordStringDefinitionCommands definition)
      else if definition.hasConstantSize then
        some (recordNonStringDefinitionCommands definition 1)
      else record definition
    subs.map fun s => [.mk .DYNAMIC_ARRAY definition.getName definition.getSize 0 s]

/-- The loop of `Definition::recordComplexDefinitionCommands` over the fields; a field
pointer is dereferenced in `reg` (dereferencing `nullptr` has no result). -/
def recordFields (record : Definition → Option CommandBuffer) (reg : DefinitionRegistry) :
    List Field → Option CommandBuffer
  | [] => some []
  | f :: rest =>
    match f.definition.bind reg.getDefinition with
    | none => none
    | some fd =>
      let cmds :=
        if f.isArray then recordArrayDefinitionCommandsWith record fd f.arraySize
        else record fd
      match cmds, recordFields record reg rest with
      | some c, some r => some (c.map (wrapLabel f.name) ++ r)
      | _, _ => none

/-- The function `Definition::recordComplexDefinitionCommands`. -/
def recordComplexDefinitionCommandsWith (record : Definition → Option CommandBuffer)
    (reg : DefinitionRegistry) (definition : Definition) : Option CommandBuffer :=
  recordFields record reg definition.getFields

/-- The function `Definition::recordDefinitionCommands`; every call consumes one unit
of fuel. -/
def recordDefinitionCommands : Nat → DefinitionRegistry → Definition → Option CommandBuffer
  | 0, _, _ => none
  | fuel + 1, reg, definition =>
    if definition.hasFields then
      recordComplexDefinitionCommandsWith (recordDefinitionCommands fuel reg) reg definition
    else if definition.isString then some (recordStringDefinitionCommands definition)
    else if definition.getSize > 0 then some (recordNonStringDefinitionCommands definition 1)
    else some []

/-- The function `Definition::recordComplexDefinitionCommands`, called with `fuel`
units left. -/
def recordComplexDefinitionCommands (fuel : Nat) (reg : DefinitionRegistry)
    (definition : Definition) : Option CommandBuffer :=
  recordComplexDefinitionCommandsWith (recordDefinitionCommands fuel reg) reg definition

/-- The function `Definition::recordArrayDefinitionCommands`, called with `fuel` units
left. -/
def recordArrayDefinitionCommands (fuel : Nat) (reg : DefinitionRegistry)
    (definition : Definition) (arraySize : Int) : Option CommandBuffer :=
  recordArrayDefinitionCommandsWith (recordDefinitionCommands fuel reg) definition arraySize

/-! ## Finalization (`Definition.cpp`, `DefinitionRegistry.cpp`) -/

/-- The function `Definition::Field::getSize`, the pointer dereferenced in `reg`. -/
def Field.getSize (reg : DefinitionRegistry) (f : Field) : Nat :=
  if f.isArray then 2 * 4
  else
    match f.definition.bind reg.getDefinition with
    | some fd => fd.getSize
    | none => 0

/-- Assignment to the member `definition` of field number `i`. -/
def setFieldDefinition (i : Nat) (p : Option String) (d : Definition) : Definition :=
  { d with _fields := d._fields.modify (fun f => { f with definition := p }) i }

/-- The first statement of `Definition::Field::finalize`, the value of the pointer after
`if (definition == nullptr) definition = registry->getDefinition(type);`. -/
def Field.resolve (f : Field) (reg : DefinitionRegistry) : Option String :=
  match f.definition with
  | some t => some t
  | none => (reg.getDefinition f.type).map fun _ => f.type

/-- The function `Definition::Field::finalize` for field number `i` (whose value is `f`)
of the definition `self`; `finalize` stands for `Definition::finalize`.  Returns the
result, the field after the call and the registry after the call. -/
def Field.finalize (finalize : DefinitionRegistry → String → Option (Bool × DefinitionRegistry))
    (reg : DefinitionRegistry) (self : String) (i : Nat) (f : Field) :
    Option (Bool × Field × DefinitionRegistry) :=
  let p : Option String := f.resolve reg
  let reg1 := reg.modify self (setFieldDefinition i p)
  let f1 : Field := { f with definition := p }
  match p with
  | none => some (false, f1, reg1)
  | some t =>
    match finalize reg1 t with
    | none => none
    | some (b, reg2) => some (b, f1, reg2)

/-- The loop `for (auto& f : _fields)` of `Definition::finalize` on the definition
`self`, from field number `i` on (`fields` are the fields not yet visited). -/
def finalizeFields (finalize : DefinitionRegistry → String → Option (Bool × DefinitionRegistry))
    (self : String) : List Field → Nat → DefinitionRegistry → Option DefinitionRegistry
  | [], _, reg => some reg
  | f :: rest, i, reg =>
    match Field.finalize finalize reg self i f with
    | none => none
    | some (false, _, reg1) =>
      some (reg1.modify self fun d => { d with _isValid := false })
    | some (true, f1, reg1) =>
      let reg2 := reg1.modify self fun d => { d with _size := d._size + f1.getSize reg1 }
      let clear :=
        match f1.definition.bind reg2.getDefinition with
        | some fd => f1.isArray || fd.isString || !fd.hasConstantSize
        | none => f1.isArray
      let reg3 :=
        if clear then reg2.modify self fun d => { d with _hasConstantSize := false }
        else reg2
      finalizeFields finalize self rest (i + 1) reg3

/-- The function `Definition::finalize` on the definition the pointer `self` points to:
the result and the registry after the call.  Every call consumes one unit of fuel. -/
def Definition.finalize : Nat → DefinitionRegistry → String → Option (Bool × DefinitionRegistry)
  | 0, _, _ => none
  | fuel + 1, reg, self =>
    match reg.getDefinition self with
    | none => none
    | some d =>
      if d._isValid then some (true, reg)
      else
        let reg1 := reg.modify self fun d => { d with _isValid := true }
        let looped :=
          if d._fields.length > 0 then
            finalizeFields (Definition.finalize fuel) self d._fields 0
              (reg1.modify self fun d => { d with _size := 0 })
          else some reg1
        match looped with
        | none => none
        | some reg2 =>
          match reg2.getDefinition self with
          | none => none
          | some d2 =>
            if d2._isValid then
              match recordDefinitionCommands fuel reg2 d2 with
              | none => none
              | some cmds =>
                some (true, reg2.modify self fun d => { d with _commands := optimizeCommands cmds })
            else some (false, reg2)

namespace DefinitionRegistry

/-- The loop of `DefinitionRegistry::finalizeAll` over the entries with the keys `keys`. -/
def finalizeEntries (fuel : Nat) : List String → DefinitionRegistry →
    Option (Bool × DefinitionRegistry)
  | [], reg => some (true, reg)
  | k :: keys, reg =>
    match Definition.finalize fuel reg k with
    | none => none
    | some (false, reg1) => some (false, reg1)
    | some (true, reg1) => finalizeEntries fuel keys reg1

/-- The function `DefinitionRegistry::finalizeAll`: the result and the registry after
the call. -/
def finalizeAll (fuel : Nat) (reg : DefinitionRegistry) : Option (Bool × DefinitionRegistry) :=
  finalizeEntries fuel (reg.map Prod.fst) reg

end DefinitionRegistry

/-! ## Readers and writers (`MessageWriter.hpp`) -/

/-- The two buffers a `Buffer*` of the writer can point to: `&_dataBuffer` and
`&_stringBuffer`. -/
inductive BufferId where
  | data
  | strings
  deriving DecidableEq, Repr

/-- The data members of the class `MessageWriter`. -/
structure MessageWriter where
  _dataBuffer : Buffer
  _stringBuffer : Buffer
  deriving DecidableEq, Repr

namespace MessageWriter

/-- Dereference of a `Buffer*`. -/
def get (mw : MessageWriter) : BufferId → Buffer
  | .data => mw._dataBuffer
  | .strings => mw._stringBuffer

/-- Assignment through a `Buffer*`. -/
def set (mw : MessageWriter) (b : BufferId) (buf : Buffer) : MessageWriter :=
  match b with
  | .data => { mw with _dataBuffer := buf }
  | .strings => { mw with _stringBuffer := buf }

/-- The default constructor: two empty buffers. -/
def new : MessageWriter := { _dataBuffer := [], _stringBuffer := [] }

end MessageWriter

/-- The call `memcpy(buffer->data() + pos, src, size)` with `size = src.length`: the
bytes at `[pos, pos + size)` are replaced.  A vector does not grow under `memcpy`: the
bytes that would fall behind the end of the buffer (undefined in C++) are dropped. -/
def memcpy (buf : Buffer) (pos : Nat) (src : List UInt8) : Buffer :=
  buf.take pos ++ src.take (buf.length - pos) ++ buf.drop (pos + src.length)

/-- The four bytes of a `uint32_t` (the value is reduced modulo `2 ^ 32`). -/
def uint32Bytes (n : Nat) : List UInt8 :=
  [UInt8.ofNat n, UInt8.ofNat (n / 256), UInt8.ofNat (n / 65536), UInt8.ofNat (n / 16777216)]

/-- The `uint32_t` stored in the first four bytes of `bs` (missing bytes read as 0). -/
def uint32OfBytes (bs : List UInt8) : Nat :=
  (bs.getD 0 0).toNat + 256 * (bs.getD 1 0).toNat + 65536 * (bs.getD 2 0).toNat
    + 16777216 * (bs.getD 3 0).toNat

/-- The struct `DataWriter`: a view `[next, end)` into one of the writer's buffers. -/
structure DataWriter where
  buffer : BufferId
  next : Nat
  end_ : Nat
  deriving DecidableEq, Repr

namespace DataWriter

/-- The function `DataWriter::write(src, size)` with `size = src.length`: the result, the
new view and the new buffers. -/
def write (dst : DataWriter) (mw : MessageWriter) (src : List UInt8) :
    Bool × DataWriter × MessageWriter :=
  if dst.next + src.length > dst.end_ then (false, dst, mw)
  else
    (true, { dst with next := dst.next + src.length },
      mw.set dst.buffer (memcpy (mw.get dst.buffer) dst.next src))

/-- The function `DataWriter::writeOffsets(count, begin)`: both arguments are `uint32_t`. -/
def writeOffsets (dst : DataWriter) (mw : MessageWriter) (count begin_ : Nat) :
    Bool × DataWriter × MessageWriter :=
  dst.write mw (uint32Bytes count ++ uint32Bytes begin_)

end DataWriter

/-- The class `DataReader`: the input bytes (`_data`, of size `_size`) and the cursor. -/
structure DataReader where
  _data : List UInt8
  _read : Nat
  deriving DecidableEq, Repr

namespace DataReader

/-- The member `_size`: the number of input bytes. -/
def _size (src : DataReader) : Nat := src._data.length

/-- The constructor `DataReader(data, size)`. -/
def new (data : List UInt8) : DataReader := { _data := data, _read := 0 }

/-- The function `DataReader::readLength`: the result, the value stored through the
pointer (0 when nothing is stored, as the callers initialise it) and the new reader. -/
def readLength (src : DataReader) : Bool × Nat × DataReader :=
  if src._read + 4 > src._size then (false, 0, src)
  else
    (true, uint32OfBytes ((src._data.drop src._read).take 4),
      { src with _read := src._read + 4 })

/-- The function `DataReader::read(size, dst)`. -/
def read (src : DataReader) (size : Nat) (dst : DataWriter) (mw : MessageWriter) :
    Bool × DataReader × DataWriter × MessageWriter :=
  if src._read + size > src._size then (false, src, dst, mw)
  else
    match dst.write mw ((src._data.drop src._read).take size) with
    | (false, dst1, mw1) => (false, src, dst1, mw1)
    | (true, dst1, mw1) => (true, { src with _read := src._read + size }, dst1, mw1)

end DataReader

/-! ## The message writer (`MessageWriter.cpp`) -/

/-- The state after a call of `dispatchCommands` or `readDynamicData`: the result and
the objects the call mutates through its pointers. -/
structure Run where
  ok : Bool
  src : DataReader
  dst : DataWriter
  mw : MessageWriter
  deriving DecidableEq, Repr

namespace MessageWriter

/-- The function `MessageWriter::allocate`: the new view and the grown buffer
(`resize` appends zero bytes). -/
def allocate (mw : MessageWriter) (buffer : BufferId) (size : Nat) :
    DataWriter × MessageWriter :=
  let begin_ := (mw.get buffer).length
  let mw1 := if size ≠ 0 then mw.set buffer (mw.get buffer ++ List.replicate size 0) else mw
  ({ buffer := buffer, next := begin_, end_ := begin_ + size }, mw1)

/-- The function `MessageWriter::readDynamicData` (the label only feeds the log).  The
result of `writeOffsets` is dropped, as in the source. -/
def readDynamicData (mw : MessageWriter) (src : DataReader) (dst : DataWriter)
    (buffer : BufferId) (size : Nat) : Run :=
  match src.readLength with
  | (false, _, src1) => { ok := false, src := src1, dst := dst, mw := mw }
  | (true, length, src1) =>
    let (writer, mw1) := mw.allocate buffer (length * size)
    let (_, dst1, mw2) := dst.writeOffsets mw1 length (writer.next % 2 ^ 32)
    if length > 0 then
      match src1.read (length * size) writer mw2 with
      | (ok, src2, _, mw3) => { ok := ok, src := src2, dst := dst1, mw := mw3 }
    else { ok := true, src := src1, dst := dst1, mw := mw2 }

/-- The loop `for (auto i = 0l; i < length; ++i)` of the `DYNAMIC_ARRAY` case: `body`
is `dispatchCommands(cmd.subcommands, src, &writer)`; the first failure returns. -/
def dispatchTimes (body : DataReader → DataWriter → MessageWriter → Run) :
    Nat → DataReader → DataWriter → MessageWriter → Run
  | 0, src, writer, mw => { ok := true, src := src, dst := writer, mw := mw }
  | n + 1, src, writer, mw =>
    let r := body src writer mw
    if r.ok then dispatchTimes body n r.src r.dst r.mw else r

mutual
/-- The switch of `MessageWriter::dispatchCommands` for one command. -/
def dispatchCommand : Command → DataReader → DataWriter → MessageWriter → Run
  | .mk .READ_FIXED_SIZE_DATA _ size _ _, src, dst, mw =>
    match src.read size dst mw with
    | (ok, src1, dst1, mw1) => { ok := ok, src := src1, dst := dst1, mw := mw1 }
  | .mk .READ_STRING _ _ _ _, src, dst, mw => mw.readDynamicData src dst .strings 1
  | .mk .READ_DYNAMIC_SIZE_DATA _ size _ _, src, dst, mw =>
    mw.readDynamicData src dst .data size
  | .mk .CONSTANT_ARRAY _ size length subs, src, dst, mw =>
    let (writer, mw1) := mw.allocate .data (length * size)
    let (_, dst1, mw2) := dst.writeOffsets mw1 length (writer.next % 2 ^ 32)
    if length > 0 then
      let r := dispatchCommands subs src writer mw2
      { ok := r.ok, src := r.src, dst := dst1, mw := r.mw }
    else { ok := true, src := src, dst := dst1, mw := mw2 }
  | .mk .DYNAMIC_ARRAY _ size _ subs, src, dst, mw =>
    match src.readLength with
    | (false, _, src1) => { ok := false, src := src1, dst := dst, mw := mw }
    | (true, length, src1) =>
      let (writer, mw1) := mw.allocate .data (length * size)
      let (_, dst1, mw2) := dst.writeOffsets mw1 length (writer.next % 2 ^ 32)
      if length > 0 then
        let r := dispatchTimes (fun s w m => dispatchCommands subs s w m) length src1 writer mw2
        { ok := r.ok, src := r.src, dst := dst1, mw := r.mw }
      else { ok := true, src := src1, dst := dst1, mw := mw2 }
/-- The function `MessageWriter::dispatchCommands`: the loop over `cmds`, which
returns `false` at the first command that fails. -/
def dispatchCommands : CommandBuffer → DataReader → DataWriter → MessageWriter → Run
  | [], src, dst, mw => { ok := true, src := src, dst := dst, mw := mw }
  | cmd :: rest, src, dst, mw =>
    let r := dispatchCommand cmd src dst mw
    if r.ok then dispatchCommands rest r.src r.dst r.mw else r
end

/-- The conversion of a `size_t` to `int32_t`: the low 32 bits in two's complement. -/
def toInt32 (n : Nat) : Int :=
  if n % 2 ^ 32 < 2 ^ 31 then ((n % 2 ^ 32 : Nat) : Int) else ((n % 2 ^ 32 : Nat) : Int) - 2 ^ 32

/-- The function `MessageWriter::write(definition, data, size)`: `definition` is `none`
for `nullptr` and `data` holds the `size` input bytes.  A failed dispatch executes
`return false`, which the return type `int32_t` converts to 0. -/
def write (mw : MessageWriter) (definition : Option Definition) (data : List UInt8) :
    Int × MessageWriter :=
  match definition with
  | none => (-1, mw)
  | some d =>
    if !d.isValid then (-1, mw)
    else
      let offset := mw._dataBuffer.length
      let src := DataReader.new data
      let (dst, mw1) := mw.allocate .data d.getSize
      let r := dispatchCommands d.getCommands src dst mw1
      if !r.ok then (0, r.mw) else (toInt32 offset, r.mw)

/-- The function `MessageWriter::reserve`: `std::vector::reserve` changes neither the
size nor the contents of a buffer, so only the result remains. -/
def reserve (mw : MessageWriter) (definition : Option Definition) (_messageCount : Nat)
    (_totalBytes : Nat) : Bool × MessageWriter :=
  match definition with
  | none => (false, mw)
  | some d => if !d.isValid then (false, mw) else (true, mw)

end MessageWriter

/-! ## Shape of optimized command buffers -/

/-- Two neighbouring commands are not both fixed reads. -/
def NotBothFixed (a b : Command) : Prop :=
  ¬(a.type = CommandType.READ_FIXED_SIZE_DATA ∧ b.type = CommandType.READ_FIXED_SIZE_DATA)

mutual
/-- The subcommands of an array command have no two neighbouring fixed reads, at any
depth. -/
def Command.Optimized : Command → Prop
  | .mk t _ _ _ subs =>
    (t = CommandType.CONSTANT_ARRAY ∨ t = CommandType.DYNAMIC_ARRAY) →
      (List.Chain' NotBothFixed subs ∧ OptimizedAll subs)
/-- Every command of the buffer satisfies `Command.Optimized`. -/
def OptimizedAll : CommandBuffer → Prop
  | [] => True
  | c :: rest => c.Optimized ∧ OptimizedAll rest
end

/-- A command buffer without two neighbouring fixed reads at any nesting level. -/
def Optimized (cs : CommandBuffer) : Prop :=
  List.Chain' NotBothFixed cs ∧ OptimizedAll cs

/-! ## Predicates on runs of the writer -/

/-- What a run from the state `(src, dst, mw)` to `r` keeps: the input bytes, the buffer
and the end of the view; both cursors only advance; the buffers only grow; and every
prefix `p` of a buffer that lies before the view stays a prefix. -/
def Frame (src : DataReader) (dst : DataWriter) (mw : MessageWriter) (r : Run) : Prop :=
  r.src._data = src._data ∧ src._read ≤ r.src._read ∧
  r.dst.buffer = dst.buffer ∧ r.dst.end_ = dst.end_ ∧ dst.next ≤ r.dst.next ∧
  (∀ b, (mw.get b).length ≤ (r.mw.get b).length) ∧
  (∀ b p, p <+: mw.get b → (dst.buffer = b → p.length ≤ dst.next) → p <+: r.mw.get b)

/-! ## Example schemas -/

namespace DefinitionRegistry

/-- The call `p->addField(type, name, isArray, arraySize)` on the pointer `self`: the
result and the registry after the call. -/
def addField (reg : DefinitionRegistry) (self type name : String) (isArray : Bool)
    (arraySize : Int) : Bool × DefinitionRegistry :=
  (true, reg.modify self fun d => (d.addField type name isArray arraySize).2)

/-- The registry after registering `P { a: int32, b: int32 }`. -/
def exampleP : DefinitionRegistry :=
  (((DefinitionRegistry.new.createDefinition "P").2.addField "P" "int32" "a" false (-1)).2.addField
    "P" "int32" "b" false (-1)).2

end DefinitionRegistry

/-- The definition a pointer obtained from the registry points to after `finalizeAll`
has returned (`none` when the pointer is null or `finalizeAll` does not return). -/
def finalized (fuel : Nat) (reg : DefinitionRegistry) (name : String) : Option Definition :=
  match reg.finalizeAll fuel with
  | some (_, reg1) => reg1.getDefinition name
  | none => none

/-- The finalized `P { a: int32, b: int32 }`: what the pointer to `P` points to after
`finalizeAll` on `DefinitionRegistry.exampleP`. -/
def examplePFinalized : Definition :=
  { _name := "P", _size := 8,
    _fields :=
      [ { type := "int32", name := "a", definition := some "int32", isArray := false,
          arraySize := -1 },
        { type := "int32", name := "b", definition := some "int32", isArray := false,
          arraySize := -1 } ],
    _isString := false, _isValid := true, _hasConstantSize := true,
    _commands := [.mk .READ_FIXED_SIZE_DATA "a(int32)+b(int32)" 8 0 []] }

/-- Two runs agree: they have the same result, they end in the same state when they
succeed, and they leave buffers of the same lengths in every case. -/
def RunEquiv (r1 r2 : Run) : Prop :=
  r1.ok = r2.ok ∧ (r1.ok = true → r1 = r2) ∧
    ∀ b, (r1.mw.get b).length = (r2.mw.get b).length

/-- Two command buffers whose runs agree from every state. -/
def CmdsEquiv (xs ys : CommandBuffer) : Prop :=
  ∀ src dst mw, RunEquiv (MessageWriter.dispatchCommands xs src dst mw)
    (MessageWriter.dispatchCommands ys src dst mw)

/-- The commands recorded for the finalized `P { a: int32, b: int32 }`, before
optimization. -/
def examplePRecorded : CommandBuffer :=
  [.mk .READ_FIXED_SIZE_DATA "a(int32)" 4 0 [], .mk .READ_FIXED_SIZE_DATA "b(int32)" 4 0 []]

/-! ## Invariants of finalization -/

/-- The sum of the footprints `Field::getSize` of the fields. -/
def fieldsSize (reg : DefinitionRegistry) (fields : List Field) : Nat :=
  (fields.map (Field.getSize reg)).sum

/-- An acyclic schema: `rank` decreases from every definition to the types of its
fields; a field pointer that is set points to the entry named by the field's type. -/
def Ranked (rank : String → Nat) (reg : DefinitionRegistry) : Prop :=
  ∀ k d, reg.getDefinition k = some d → ∀ f ∈ d._fields,
    rank f.type < rank k ∧
      ∀ t, f.definition = some t → t = f.type ∧ (reg.getDefinition t).isSome = true

/-- The fields are resolved: every pointer is set, to the entry named by the type of the
field, and that entry is a valid definition outside `S`. -/
def Resolved (S : String → Prop) (reg : DefinitionRegistry) (fields : List Field) : Prop :=
  ∀ f ∈ fields, f.definition = some f.type ∧
    ∃ fd, reg.getDefinition f.type = some fd ∧ fd._isValid = true ∧ ¬ S f.type

/-- No field is an array, a string or a definition without constant size. -/
def ConstantFields (reg : DefinitionRegistry) (fields : List Field) : Prop :=
  ∀ f ∈ fields, f.isArray = false ∧
    ∀ fd, reg.getDefinition f.type = some fd →
      fd._isString = false ∧ fd._hasConstantSize = true

/-- The state of a record `self` inside the loop of its `finalize`: it is marked valid,
the fields `done` are visited and `rest` are not, and size and constant-size flag
account for the visited fields. -/
def InProgress (S : String → Prop) (reg : DefinitionRegistry) (self : String)
    (done rest : List Field) : Prop :=
  ∃ d, reg.getDefinition self = some d ∧ d._isValid = true ∧ d._fields = done ++ rest ∧
    Resolved S reg done ∧ d._size = fieldsSize reg done ∧
    (d._hasConstantSize = true → ConstantFields reg done)

/-- A record whose finalization is complete in `reg`: every field is resolved to a
valid definition outside `S` (the definitions whose finalization is in progress), the
size is the sum of the footprints, the commands are the optimized recording of the
record, and a constant-size flag that is still set is justified by the fields. -/
structure Settled (S : String → Prop) (reg : DefinitionRegistry) (d : Definition) : Prop where
  resolved : Resolved S reg d._fields
  size : d._size = fieldsSize reg d._fields
  commands : ∃ fuel cmds, recordDefinitionCommands fuel reg d = some cmds ∧
    d._commands = optimizeCommands cmds
  constant : d._hasConstantSize = true → ConstantFields reg d._fields

/-- Every valid record outside `S` is settled. -/
def GoodExcept (S : String → Prop) (reg : DefinitionRegistry) : Prop :=
  ∀ k d, reg.getDefinition k = some d → d._isValid = true → d._fields ≠ [] → ¬ S k →
    Settled S reg d

/-- The registry `reg1` keeps every definition that is valid in `reg` and not in `P`,
and has the same keys. -/
def Kept (P : String → Prop) (reg reg1 : DefinitionRegistry) : Prop :=
  (∀ k d, reg.getDefinition k = some d → d._isValid = true → ¬ P k →
      reg1.getDefinition k = some d) ∧
    ∀ k, (reg1.getDefinition k).isSome = (reg.getDefinition k).isSome

/-- The field `f1` is the field `f` up to its pointer. -/
def Field.SameSlot (f f1 : Field) : Prop :=
  f1.type = f.type ∧ f1.name = f.name ∧ f1.isArray = f.isArray ∧ f1.arraySize = f.arraySize

/-- The definition `d1` has the shape of `d`: the same name and string flag and the same
fields up to their pointers; a definition without fields keeps its size; the
constant-size flag is at most cleared. -/
def Definition.SameShape (d d1 : Definition) : Prop :=
  d1._name = d._name ∧ d1._isString = d._isString ∧
    List.Forall₂ Field.SameSlot d._fields d1._fields ∧
    (d._fields = [] → d1._size = d._size) ∧
    (d1._hasConstantSize = true → d._hasConstantSize = true)

/-- Every definition of `reg1` has the shape of the definition of `reg` with its key. -/
def ShapeKept (reg reg1 : DefinitionRegistry) : Prop :=
  ∀ k d1, reg1.getDefinition k = some d1 →
    ∃ d, reg.getDefinition k = some d ∧ d.SameShape d1

/-- What a step of finalization from `reg` to `reg1` keeps: the schema stays ranked, the
valid records outside `S` stay settled, the valid definitions outside `P` are kept and
every definition keeps its shape. -/
def Post (rank : String → Nat) (S P : String → Prop) (reg reg1 : DefinitionRegistry) : Prop :=
  Ranked rank reg1 ∧ GoodExcept S reg1 ∧ Kept P reg reg1 ∧ ShapeKept reg reg1

/-- The specification of `Definition::finalize` on an acyclic schema, for a function
`fin` that stands for it: a call that returns keeps the schema ranked, the settled
records settled and the valid definitions unchanged, and returns `true` only with the
definition valid. `S` are the definitions whose finalization is in progress; they lie
above the definition the call is made on. -/
def FinalizeSpec (rank : String → Nat)
    (fin : DefinitionRegistry → String → Option (Bool × DefinitionRegistry)) : Prop :=
  ∀ (S : String → Prop) (reg : DefinitionRegistry) (t : String) (b : Bool)
    (reg1 : DefinitionRegistry),
    Ranked rank reg → GoodExcept S reg → (∀ k, S k → rank t < rank k) →
    fin reg t = some (b, reg1) →
      Post rank S (fun _ => False) reg reg1 ∧
        (b = true → ∃ d, reg1.getDefinition t = some d ∧ d._isValid = true)

namespace DefinitionRegistry

/-- An acyclic schema: `rank` decreases from every definition to the types of its
fields. -/
def Acyclic (rank : String → Nat) (reg : DefinitionRegistry) : Prop :=
  ∀ p ∈ reg, ∀ f ∈ p.2._fields, rank f.type < rank p.1

/-- A registry in its registration phase: no record with fields has been finalized,
so every definition with fields is invalid and its field pointers are null. -/
def Fresh (reg : DefinitionRegistry) : Prop :=
  ∀ p ∈ reg, p.2._fields ≠ [] → p.2._isValid = false ∧ ∀ f ∈ p.2._fields, f.definition = none

/-- The registry after registering `C { a: int32 }` and `P { c: C }`, finalizing,
adding the field `b: int32` to `C` and finalizing again (`[]` if a call does not
return). -/
def exampleStale : DefinitionRegistry :=
  match finalizeAll 5
      ((((DefinitionRegistry.new.createDefinition "C").2.addField "C" "int32" "a" false (-1)).2
        |>.createDefinition "P").2.addField "P" "C" "c" false (-1)).2 with
  | none => []
  | some (_, reg1) =>
    match finalizeAll 5 (reg1.addField "C" "int32" "b" false (-1)).2 with
    | none => []
    | some (_, reg2) => reg2

/-- The registry after registering `B { y: int32, a: A[] }` and `A { b: B, x: int32 }`,
in this order. -/
def exampleCycleRegistered : DefinitionRegistry :=
  ((((((DefinitionRegistry.new.createDefinition "B").2.addField "B" "int32" "y" false (-1)).2
    |>.addField "B" "A" "a" true (-1)).2.createDefinition "A").2.addField
      "A" "B" "b" false (-1)).2.addField "A" "int32" "x" false (-1)).2

/-- The registry `exampleCycleRegistered` after `finalizeAll` (`[]` if the call does not
return). -/
def exampleCycle : DefinitionRegistry :=
  match finalizeAll 5 exampleCycleRegistered with
  | none => []
  | some (_, reg1) => reg1

end DefinitionRegistry

/-- The rank of the types of the example schemas: records above the built-in types. -/
def exampleRank (k : String) : Nat :=
  if k = "P" then 2 else if k = "C" then 1 else 0

/-- The registry after `finalizeAll` on `DefinitionRegistry.exampleP` (`[]` if the call
does not return). -/
def DefinitionRegistry.examplePFinal : DefinitionRegistry :=
  match DefinitionRegistry.exampleP.finalizeAll 3 with
  | none => []
  | some (_, reg1) => reg1

/-- What every call of `Definition::finalize` that returns guarantees, for a function
`fin` that stands for it: the valid definitions are unchanged, the keys are the same,
and the definition is valid afterwards exactly when the call returns `true`. -/
def FrameSpec (fin : DefinitionRegistry → String → Option (Bool × DefinitionRegistry)) : Prop :=
  ∀ (reg : DefinitionRegistry) (t : String) (b : Bool) (reg1 : DefinitionRegistry),
    fin reg t = some (b, reg1) →
      Kept (fun _ => False) reg reg1 ∧ reg1.map Prod.fst = reg.map Prod.fst ∧
        ∃ d, reg1.getDefinition t = some d ∧ d._isValid = b

/-- A failed call of `fin` fails again, with the same registry, when it is repeated. -/
def ReplaySpec (fin : DefinitionRegistry → String → Option (Bool × DefinitionRegistry)) : Prop :=
  ∀ (reg : DefinitionRegistry) (t : String) (reg1 : DefinitionRegistry),
    fin reg t = some (false, reg1) → fin reg1 t = some (false, reg1)

/-- When `fin` returns at all, it returns `true` without any change on a definition
that is valid. -/
def ValidSpec (fin : DefinitionRegistry → String → Option (Bool × DefinitionRegistry)) : Prop :=
  ∀ (r : DefinitionRegistry) (s : String), (fin r s).isSome = true →
    ∀ (reg : DefinitionRegistry) (t : String) (d : Definition),
      reg.getDefinition t = some d → d._isValid = true → fin reg t = some (true, reg)

/-- The state of the definition `self` after one successful iteration of the loop of
`finalize`: `d` is its state before, `p` and `isArray` are the pointer and the array
flag of the field, `g` is the footprint added to the size. -/
def iterated (reg : DefinitionRegistry) (self : String) (p : Option String) (isArray : Bool)
    (g : Nat) (d : Definition) : Definition :=
  { d with
    _size := d._size + g,
    _hasConstantSize :=
      if (match p.bind (reg.modify self fun _ => { d with _size := d._size + g }).getDefinition
          with
          | some fd => isArray || fd.isString || !fd.hasConstantSize
          | none => isArray) = true
      then false else d._hasConstantSize }

/-! ## The input byte format and the output layout (specification, section 6) -/

/-- A value of a definition, as the input byte format describes it: the raw bytes of a
primitive, the body of a string, the values of the fields of a record, and, for an array
field, the values of the elements. -/
inductive Value where
  | prim (bytes : List UInt8)
  | str (bytes : List UInt8)
  | record (fields : List Value)
  | array (elements : List Value)

mutual
/-- The input byte format: the encoding of the value `v` of the definition `d` (`none`
when `v` is not a value of `d`).  A definition without fields that is not a string is a
primitive, of exactly `d._size` raw bytes; a string is a `uint32` count followed by
that many bytes; a record is the concatenation of the encodings of its fields. -/
def encode (reg : DefinitionRegistry) : Definition → Value → Option (List UInt8)
  | d, .prim bs =>
    if d._fields.isEmpty && !d._isString && bs.length == d._size then some bs else none
  | d, .str bs =>
    if d._fields.isEmpty && d._isString && decide (bs.length < 2 ^ 32) then
      some (uint32Bytes bs.length ++ bs)
    else none
  | d, .record vs => if d._fields.isEmpty then none else encodeFields reg d._fields vs
  | _, .array _ => none
/-- The encodings of the fields of a record, in declared order: a field that is not an
array is the encoding of its type. -/
def encodeFields (reg : DefinitionRegistry) : List Field → List Value → Option (List UInt8)
  | [], [] => some []
  | f :: fs, v :: vs =>
    match reg.getDefinition f.type with
    | none => none
    | some fd =>
      match (if f.isArray then encodeArray reg fd f.arraySize v else encode reg fd v),
        encodeFields reg fs vs with
      | some b, some bs => some (b ++ bs)
      | _, _ => none
  | _, _ => none
/-- The encoding of an array field with the elements `es` of the definition `d`: a
constant-length array of length `n` is the concatenation of `n` element encodings; a
dynamic-length array (`arraySize < 0`) is a `uint32` length followed by that many
element encodings. -/
def encodeArray (reg : DefinitionRegistry) : Definition → Int → Value → Option (List UInt8)
  | d, arraySize, .array es =>
    if arraySize ≥ 0 then
      if es.length = arraySize.toNat then encodeElements reg d es else none
    else if es.length < 2 ^ 32 then
      (encodeElements reg d es).map fun b => uint32Bytes es.length ++ b
    else none
  | _, _, _ => none
/-- The concatenation of the encodings of the elements of an array. -/
def encodeElements (reg : DefinitionRegistry) : Definition → List Value → Option (List UInt8)
  | _, [] => some []
  | d, v :: vs =>
    match encode reg d v, encodeElements reg d vs with
    | some b, some bs => some (b ++ bs)
    | _, _ => none
end

/-- The `len` bytes of a buffer from the offset `off` on. -/
def slice (buf : Buffer) (off len : Nat) : List UInt8 := (buf.drop off).take len

/-- The offset held by the 8-byte slot `(count, offset)` at the offset `pos` of the
data buffer. -/
def slotOffset (mw : MessageWriter) (pos : Nat) : Nat :=
  uint32OfBytes (slice mw._dataBuffer (pos + 4) 4)

/-- The 8-byte slot `(count, offset)` at the offset `pos` of the data buffer is there
and holds the count `count`. -/
def slotHolds (mw : MessageWriter) (pos count : Nat) : Bool :=
  slice mw._dataBuffer pos 4 == uint32Bytes count &&
    (slice mw._dataBuffer (pos + 4) 4).length == 4

mutual
/-- The output layout: the `d._size` bytes at the offset `pos` of the data buffer
represent the value `v` of `d`.  A primitive is its input bytes; a string is a slot
`(count, offset)` whose offset points to the body in the string buffer; a record is its
fields, one after the other. -/
def represents (reg : DefinitionRegistry) (mw : MessageWriter) :
    Definition → Nat → Value → Bool
  | d, pos, .prim bs => slice mw._dataBuffer pos d._size == bs
  | _, pos, .str bs =>
    slotHolds mw pos bs.length &&
      slice mw._stringBuffer (slotOffset mw pos) bs.length == bs
  | d, pos, .record vs => representsFields reg mw d._fields pos vs
  | _, _, .array _ => false
/-- The fields of a record from the offset `pos` on: a field that is not an array takes
the size of its type, an array field takes the 8 bytes of a slot. -/
def representsFields (reg : DefinitionRegistry) (mw : MessageWriter) :
    List Field → Nat → List Value → Bool
  | [], _, [] => true
  | f :: fs, pos, v :: vs =>
    match reg.getDefinition f.type with
    | none => false
    | some fd =>
      (if f.isArray then representsArray reg mw fd pos v else represents reg mw fd pos v) &&
        representsFields reg mw fs (pos + if f.isArray then 2 * 4 else fd._size) vs
  | _, _, _ => false
/-- An array field: a slot `(count, offset)` whose offset points to the elements in the
data buffer. -/
def representsArray (reg : DefinitionRegistry) (mw : MessageWriter) :
    Definition → Nat → Value → Bool
  | d, pos, .array es =>
    slotHolds mw pos es.length && representsElements reg mw d (slotOffset mw pos) es
  | _, _, _ => false
/-- The elements of an array from the offset `pos` of the data buffer on, each of the
size of the element type. -/
def representsElements (reg : DefinitionRegistry) (mw : MessageWriter) :
    Definition → Nat → List Value → Bool
  | _, _, [] => true
  | d, pos, v :: vs => represents reg mw d pos v && representsElements reg mw d (pos + d._size) vs
end

namespace DefinitionRegistry

/-- The registry after registering `T { s: string, xs: int32[] }`. -/
def exampleT : DefinitionRegistry :=
  (((DefinitionRegistry.new.createDefinition "T").2.addField "T" "string" "s" false (-1)).2.addField
    "T" "int32" "xs" true (-1)).2

/-- The registry `exampleT` after `finalizeAll` (`[]` if the call does not return). -/
def exampleTFinal : DefinitionRegistry :=
  match exampleT.finalizeAll 3 with
  | none => []
  | some (_, reg1) => reg1

end DefinitionRegistry

/-- The finalized `T`: what the pointer to `T` points to after `finalizeAll` on
`DefinitionRegistry.exampleT`. -/
def exampleTFinalized : Definition :=
  (DefinitionRegistry.exampleTFinal.getDefinition "T").getD (Definition.new "T" 0 false)

/-- A rank of the types of `DefinitionRegistry.exampleT`: `T` above the built-in types. -/
def exampleTRank (k : String) : Nat := if k = "T" then 1 else 0

/-- A value of `T`: `s` is `"hi"` and `xs` has the one element `05 06 07 08`. -/
def exampleTValue : Value := .record [.str [104, 105], .array [.prim [5, 6, 7, 8]]]

/-- The encoding of `exampleTValue` in the input byte format. -/
def exampleTInput : List UInt8 := [2, 0, 0, 0, 104, 105, 1, 0, 0, 0, 5, 6, 7, 8]

/-! ## Predicates on the bytes a run writes -/

/-- What a run that writes the bytes `[lo, hi)` of its view does to the buffers: they
grow, and every byte that was there stays, but for `[lo, hi)` in the data buffer. -/
def Changes (lo hi : Nat) (mw r : MessageWriter) : Prop :=
  ∀ b, (mw.get b).length ≤ (r.get b).length ∧
    ∀ i, i < (mw.get b).length → (b = .data → i < lo ∨ hi ≤ i) →
      (r.get b)[i]? = (mw.get b)[i]?

/-- The buffers `mw1` agree with the buffers `r` after a run from `mw` on the bytes the
run owns: `[lo, hi)` in the data buffer and everything the run has appended. -/
def Owned (lo hi : Nat) (mw r mw1 : MessageWriter) : Prop :=
  ∀ b i, i < (r.get b).length → ((b = .data ∧ lo ≤ i ∧ i < hi) ∨ (mw.get b).length ≤ i) →
    (mw1.get b)[i]? = (r.get b)[i]?

/-- Both buffers are shorter than `2 ^ 32` bytes, so that every offset fits a slot. -/
def Small (mw : MessageWriter) : Prop := ∀ b, (mw.get b).length < 2 ^ 32

/-- The state before a run that consumes `bytes` and fills `w` bytes of its view: the
input continues with `bytes` at the cursor, and the view lies in the data buffer and has
room for `w` bytes. -/
def Ready (bytes : List UInt8) (w : Nat) (src : DataReader) (dst : DataWriter)
    (mw : MessageWriter) : Prop :=
  (src._read ≤ src._data.length ∧ bytes <+: src._data.drop src._read) ∧
    dst.buffer = .data ∧ dst.next + w ≤ dst.end_ ∧ dst.end_ ≤ mw._dataBuffer.length

/-- The state after a run that succeeds: `n` bytes are consumed, `w` bytes of the view
are filled, nothing else is overwritten, and `R` holds of the buffers, whatever happens
later to the bytes the run does not own. -/
def Outcome (n w : Nat) (R : MessageWriter → Prop) (src : DataReader) (dst : DataWriter)
    (mw : MessageWriter) (r : Run) : Prop :=
  r.ok = true ∧ r.src = { src with _read := src._read + n } ∧
    r.dst = { dst with next := dst.next + w } ∧ Changes dst.next (dst.next + w) mw r.mw ∧
    (Small r.mw → ∀ mw1, Owned dst.next (dst.next + w) mw r.mw mw1 → R mw1)

/-- The commands `cmds` consume `bytes`, fill `w` bytes of the view and establish `R`
at the position where they start, from every state that is ready for them. -/
def Runs (cmds : CommandBuffer) (bytes : List UInt8) (w : Nat)
    (R : Nat → MessageWriter → Prop) : Prop :=
  ∀ src dst mw, Ready bytes w src dst mw →
    Outcome bytes.length w (R dst.next) src dst mw
      (MessageWriter.dispatchCommands cmds src dst mw)

/-- The registry after finalization, as far as the writer depends on it: every valid
record is settled, the string-typed definitions are as the constructor of the registry
makes them (no fields, 8 bytes, not of constant size), and the array sizes are in the
range of `int32_t`. -/
structure Finalized (reg : DefinitionRegistry) : Prop where
  good : GoodExcept (fun _ => False) reg
  strings : ∀ k d, reg.getDefinition k = some d → d._isString = true →
    d._fields = [] ∧ d._size = 2 * 4 ∧ d._hasConstantSize = false
  arraySizes : ∀ k d, reg.getDefinition k = some d → ∀ f ∈ d._fields, f.arraySize < 2 ^ 31

/-- The definition `d` is a valid definition of the registry. -/
def Good (reg : DefinitionRegistry) (d : Definition) : Prop :=
  ∃ k, reg.getDefinition k = some d ∧ d._isValid = true

/-- The size of the fields in a record, by the types of the fields: 8 bytes for an array
field, the size of its type for another field. -/
def layoutSize (reg : DefinitionRegistry) : List Field → Nat
  | [] => 0
  | f :: fs =>
    (match reg.getDefinition f.type with
      | none => 0
      | some fd => if f.isArray then 2 * 4 else fd._size) + layoutSize reg fs

/-- A schema in its registration phase, before the first finalization: it is acyclic, no
record has been finalized, the string-typed definitions are as the constructor of the
registry makes them (no fields, 8 bytes, not of constant size), and the array sizes are
in the range of `int32_t`. -/
structure Schema (rank : String → Nat) (reg : DefinitionRegistry) : Prop where
  acyclic : reg.Acyclic rank
  fresh : reg.Fresh
  strings : ∀ p ∈ reg, p.2._isString = true →
    p.2._fields = [] ∧ p.2._size = 2 * 4 ∧ p.2._hasConstantSize = false
  arraySizes : ∀ p ∈ reg, ∀ f ∈ p.2._fields, f.arraySize < 2 ^ 31

namespace DefinitionRegistry

/-- The registry after registering `T { children: T[] }`. -/
def exampleRecursive : DefinitionRegistry :=
  ((DefinitionRegistry.new.createDefinition "T").2.addField "T" "T" "children" true (-1)).2

/-- The registry after registering `T { children: T[] }` and
`X { t: T, y: NoSuchType }`. -/
def exampleDiverging : DefinitionRegistry :=
  (((exampleRecursive.createDefinition "X").2.addField "X" "T" "t" false (-1)).2.addField
    "X" "NoSuchType" "y" false (-1)).2

/-- The registry after registering `X { y: NoSuchType }`. -/
def exampleUnresolved : DefinitionRegistry :=
  ((DefinitionRegistry.new.createDefinition "X").2.addField "X" "NoSuchType" "y" false (-1)).2

end DefinitionRegistry

/-- A rank of the types of `DefinitionRegistry.exampleUnresolved`: `X` above the other
types. -/
def exampleXRank (k : String) : Nat := if k = "X" then 1 else 0

/-- The registry after registering `C { a: int32 }` and `P { c: C }`, finalizing, adding
the field `b: int32` to `C`, registering `Q { p: P }` and finalizing again (`[]` if a call
does not return). -/
def DefinitionRegistry.exampleStaleParent : DefinitionRegistry :=
  match DefinitionRegistry.finalizeAll 5
      ((((DefinitionRegistry.new.createDefinition "C").2.addField "C" "int32" "a" false (-1)).2
        |>.createDefinition "P").2.addField "P" "C" "c" false (-1)).2 with
  | none => []
  | some (_, reg1) =>
    match DefinitionRegistry.finalizeAll 5
        ((((reg1.addField "C" "int32" "b" false (-1)).2).createDefinition "Q").2.addField
          "Q" "P" "p" false (-1)).2 with
    | none => []
    | some (_, reg2) => reg2

/-- Every command is a fixed read without length and subcommands, as the recorder makes
them. -/
def AllFixed (cmds : CommandBuffer) : Prop :=
  ∀ c ∈ cmds, c.type = .READ_FIXED_SIZE_DATA ∧ c.length = 0 ∧ c.subcommands = []

/-- The sum of the sizes of the commands. -/
def totalSize (cmds : CommandBuffer) : Nat := (cmds.map Command.size).sum

/-- The registry after registering `C { a: int32 }` and `P { c: C }`, finalizing,
adding the field `xs: int32[]` to `C` and finalizing again (`[]` if a call does not
return). -/
def DefinitionRegistry.exampleStaleArray : DefinitionRegistry :=
  match DefinitionRegistry.finalizeAll 5
      ((((DefinitionRegistry.new.createDefinition "C").2.addField "C" "int32" "a" false (-1)).2
        |>.createDefinition "P").2.addField "P" "C" "c" false (-1)).2 with
  | none => []
  | some (_, reg1) =>
    match DefinitionRegistry.finalizeAll 5 (reg1.addField "C" "int32" "xs" true (-1)).2 with
    | none => []
    | some (_, reg2) => reg2

/-- The field `f1` is the field `f` at a later point of finalization: the array flag is
the same, and a pointer that is set stays. -/
def Field.Follows (f f1 : Field) : Prop :=
  f1.isArray = f.isArray ∧ ∀ t, f.definition = some t → f1.definition = some t

/-- The test of the loop of `finalize` that clears the constant-size flag, on the field
`f` with its pointer dereferenced in `reg`: the field is an array, or it points to a
string or to a definition without constant size. -/
def Clears (reg : DefinitionRegistry) (f : Field) : Prop :=
  f.isArray = true ∨ ∃ fd, f.definition.bind reg.getDefinition = some fd ∧
    (fd._isString = true ∨ fd._hasConstantSize = false)

/-- The definition `d1` of the registry `reg1` is the definition `d` at a later point of
finalization: the string flag is the same, the fields follow the fields, and the
constant-size flag is at most cleared, and only with a field that clears it. -/
def Definition.Follows (reg1 : DefinitionRegistry) (d d1 : Definition) : Prop :=
  d1._isString = d._isString ∧ List.Forall₂ Field.Follows d._fields d1._fields ∧
    (d1._hasConstantSize = true → d._hasConstantSize = true) ∧
    (d._hasConstantSize = true → d1._hasConstantSize = false →
      ∃ f ∈ d1._fields, Clears reg1 f)

/-- The registry `reg1` has the keys of `reg`, and every definition of `reg1` follows
the definition of `reg` with its key. -/
def Justifies (reg reg1 : DefinitionRegistry) : Prop :=
  (∀ k d1, reg1.getDefinition k = some d1 →
      ∃ d, reg.getDefinition k = some d ∧ d.Follows reg1 d1) ∧
    ∀ k, (reg.getDefinition k).isSome = true → (reg1.getDefinition k).isSome = true

namespace DefinitionRegistry

/-- The registry after registering `S { name: string }`. -/
def exampleS : DefinitionRegistry :=
  ((DefinitionRegistry.new.createDefinition "S").2.addField "S" "string" "name" false (-1)).2

/-- The registry `exampleS` after `finalizeAll` (`[]` if the call does not return). -/
def exampleSFinal : DefinitionRegistry :=
  match exampleS.finalizeAll 3 with
  | none => []
  | some (_, reg1) => reg1

end DefinitionRegistry

/-- The finalized `S`: what the pointer to `S` points to after `finalizeAll` on
`DefinitionRegistry.exampleS`. -/
def exampleSFinalized : Definition :=
  (DefinitionRegistry.exampleSFinal.getDefinition "S").getD (Definition.new "S" 0 false)

namespace DefinitionRegistry

/-- The registry after registering `A { v: int16[4] }`. -/
def exampleA : DefinitionRegistry :=
  ((DefinitionRegistry.new.createDefinition "A").2.addField "A" "int16" "v" true 4).2

/-- The registry `exampleA` after `finalizeAll` (`[]` if the call does not return). -/
def exampleAFinal : DefinitionRegistry :=
  match exampleA.finalizeAll 3 with
  | none => []
  | some (_, reg1) => reg1

end DefinitionRegistry

/-- The finalized `A`: what the pointer to `A` points to after `finalizeAll` on
`DefinitionRegistry.exampleA`. -/
def exampleAFinalized : Definition :=
  (DefinitionRegistry.exampleAFinal.getDefinition "A").getD (Definition.new "A" 0 false)

/-- A rank of the types of `DefinitionRegistry.exampleA`: `A` above the built-in types. -/
def exampleARank (k : String) : Nat := if k = "A" then 1 else 0

namespace DefinitionRegistry

end DefinitionRegistry

/-- The output layout of the elements of a string array (specification): one 8-byte slot
per string, with its count and the index in the string buffer where its body starts; the
first body starts at `off`, every other body where the body before it ends. -/
def stringSlots (off : Nat) : List (List UInt8) → List UInt8
  | [] => []
  | body :: bodies =>
    uint32Bytes body.length ++ uint32Bytes off ++ stringSlots (off + body.length) bodies

/-- The registry after a field `x: int32` is added to the built-in definition `string`
and `finalizeAll` is called (`[]` if the call does not return). -/
def DefinitionRegistry.exampleStringField : DefinitionRegistry :=
  match DefinitionRegistry.finalizeAll 3
      (DefinitionRegistry.new.addField "string" "int32" "x" false (-1)).2 with
  | none => []
  | some (_, reg1) => reg1

/-- The definition `string` of `DefinitionRegistry.exampleStringField`. -/
def exampleStringFieldFinalized : Definition :=
  (DefinitionRegistry.exampleStringField.getDefinition "string").getD
    (Definition.new "string" 0 false)

mutual
/-- The command without the fixed reads among the subcommands of an array, at every
depth; a command that is not an array is left as it is. -/
def Command.dropFixed : Command → Command
  | .mk .CONSTANT_ARRAY label size length subs =>
    .mk .CONSTANT_ARRAY label size length (dropFixedAll subs)
  | .mk .DYNAMIC_ARRAY label size length subs =>
    .mk .DYNAMIC_ARRAY label size length (dropFixedAll subs)
  | .mk .READ_FIXED_SIZE_DATA label size length subs =>
    .mk .READ_FIXED_SIZE_DATA label size length subs
  | .mk .READ_STRING label size length subs => .mk .READ_STRING label size length subs
  | .mk .READ_DYNAMIC_SIZE_DATA label size length subs =>
    .mk .READ_DYNAMIC_SIZE_DATA label size length subs
/-- The commands of the buffer that are not fixed reads, in their order, each without
the fixed reads among the subcommands of the arrays. -/
def dropFixedAll : CommandBuffer → CommandBuffer
  | [] => []
  | c :: rest =>
    if c.type = CommandType.READ_FIXED_SIZE_DATA then dropFixedAll rest
    else c.dropFixed :: dropFixedAll rest
end

/-- The registry after registering `C { a: int32 }` and `P { c: C }`, finalizing, adding
the field `s: string` to `C`, registering `Q { p: P }` and finalizing again (`[]` if a
call does not return). -/
def DefinitionRegistry.exampleStaleSlot : DefinitionRegistry :=
  match DefinitionRegistry.finalizeAll 5
      ((((DefinitionRegistry.new.createDefinition "C").2.addField "C" "int32" "a" false (-1)).2
        |>.createDefinition "P").2.addField "P" "C" "c" false (-1)).2 with
  | none => []
  | some (_, reg1) =>
    match DefinitionRegistry.finalizeAll 5
        ((((reg1.addField "C" "string" "s" false (-1)).2).createDefinition "Q").2.addField
          "Q" "P" "p" false (-1)).2 with
    | none => []
    | some (_, reg2) => reg2

/-- The definition `Q` of `DefinitionRegistry.exampleStaleSlot`. -/
def exampleStaleSlotQ : Definition :=
  (DefinitionRegistry.exampleStaleSlot.getDefinition "Q").getD (Definition.new "Q" 0 false)

/-- The buffer that hosts the payload of a command: the string buffer for a string read,
the data buffer for the other commands. -/
def slotHost : CommandType → BufferId
  | .READ_STRING => .strings
  | _ => .data

/-- The count a command writes into its slot: the length of the command for a constant
array, the `uint32` at the cursor of the input for the other commands. -/
def slotCount (cmd : Command) (src : DataReader) : Nat :=
  if cmd.type = CommandType.CONSTANT_ARRAY then cmd.length
  else uint32OfBytes ((src._data.drop src._read).take 4)

/-- The bytes a command takes in the view it is dispatched against: its size for a fixed
read, the 8 bytes of a slot for every other command. -/
def Command.dstSize (c : Command) : Nat :=
  if c.type = CommandType.READ_FIXED_SIZE_DATA then c.size else 8

/-- The bytes the commands of a buffer take in the view they are dispatched against. -/
def dstTotal (cmds : CommandBuffer) : Nat := (cmds.map Command.dstSize).sum

mutual
/-- The layout invariant of a command, at every depth of subcommands: the subcommands of
a constant array take `length * size` bytes, the subcommands of a dynamic array take
`size` bytes. -/
def Command.Layout : Command → Prop
  | .mk t _ size length subs =>
    (t = CommandType.CONSTANT_ARRAY → dstTotal subs = length * size) ∧
      (t = CommandType.DYNAMIC_ARRAY → dstTotal subs = size) ∧ LayoutAll subs
/-- Every command of the buffer satisfies `Command.Layout`. -/
def LayoutAll : CommandBuffer → Prop
  | [] => True
  | c :: rest => c.Layout ∧ LayoutAll rest
end

/-! ## The writer with the accesses to its buffers checked -/

/-- The view lies inside its buffer: `next ≤ end ≤ size of the buffer`. -/
def DataWriter.inBounds (dst : DataWriter) (mw : MessageWriter) : Bool :=
  decide (dst.next ≤ dst.end_ ∧ dst.end_ ≤ (mw.get dst.buffer).length)

/-- The function `DataWriter::write` with its view and its copy checked: `none` when the
view does not lie inside its buffer at the call or after it, or when `memcpy` would write
behind the end of the buffer. -/
def DataWriter.writeChecked (dst : DataWriter) (mw : MessageWriter) (src : List UInt8) :
    Option (Bool × DataWriter × MessageWriter) :=
  if dst.inBounds mw = false then none
  else if dst.next + src.length > dst.end_ then some (false, dst, mw)
  else if dst.next + src.length > (mw.get dst.buffer).length then none
  else
    let dst1 : DataWriter := { dst with next := dst.next + src.length }
    let mw1 := mw.set dst.buffer (memcpy (mw.get dst.buffer) dst.next src)
    if dst1.inBounds mw1 = false then none else some (true, dst1, mw1)

/-- The function `DataWriter::writeOffsets` over the checked `write`. -/
def DataWriter.writeOffsetsChecked (dst : DataWriter) (mw : MessageWriter)
    (count begin_ : Nat) : Option (Bool × DataWriter × MessageWriter) :=
  dst.writeChecked mw (uint32Bytes count ++ uint32Bytes begin_)

/-- The function `DataReader::read` over the checked `write`. -/
def DataReader.readChecked (src : DataReader) (size : Nat) (dst : DataWriter)
    (mw : MessageWriter) : Option (Bool × DataReader × DataWriter × MessageWriter) :=
  if src._read + size > src._size then some (false, src, dst, mw)
  else
    (dst.writeChecked mw ((src._data.drop src._read).take size)).map fun w =>
      if w.1 then (true, { src with _read := src._read + size }, w.2.1, w.2.2)
      else (false, src, w.2.1, w.2.2)

namespace MessageWriter

/-- The function `MessageWriter::allocate` with the view it returns checked: `none` when
the new view does not lie inside its buffer. -/
def allocateChecked (mw : MessageWriter) (buffer : BufferId) (size : Nat) :
    Option (DataWriter × MessageWriter) :=
  if (mw.allocate buffer size).1.inBounds (mw.allocate buffer size).2 = false then none
  else some (mw.allocate buffer size)

/-- The function `MessageWriter::readDynamicData` over the checked functions. -/
def readDynamicDataChecked (mw : MessageWriter) (src : DataReader) (dst : DataWriter)
    (buffer : BufferId) (size : Nat) : Option Run :=
  if src.readLength.1 = false then
    some { ok := false, src := src.readLength.2.2, dst := dst, mw := mw }
  else
    (mw.allocateChecked buffer (src.readLength.2.1 * size)).bind fun a =>
    (dst.writeOffsetsChecked a.2 src.readLength.2.1 (a.1.next % 2 ^ 32)).bind fun w =>
      if src.readLength.2.1 > 0 then
        (src.readLength.2.2.readChecked (src.readLength.2.1 * size) a.1 w.2.2).map fun rd =>
          { ok := rd.1, src := rd.2.1, dst := w.2.1, mw := rd.2.2.2 }
      else some { ok := true, src := src.readLength.2.2, dst := w.2.1, mw := w.2.2 }

/-- The loop of the `DYNAMIC_ARRAY` case over a checked body. -/
def dispatchTimesChecked (body : DataReader → DataWriter → MessageWriter → Option Run) :
    Nat → DataReader → DataWriter → MessageWriter → Option Run
  | 0, src, writer, mw => some { ok := true, src := src, dst := writer, mw := mw }
  | n + 1, src, writer, mw =>
    (body src writer mw).bind fun r =>
      if r.ok then dispatchTimesChecked body n r.src r.dst r.mw else some r

mutual
/-- The switch of `MessageWriter::dispatchCommands` for one command, over the checked
functions. -/
def dispatchCommandChecked : Command → DataReader → DataWriter → MessageWriter → Option Run
  | .mk .READ_FIXED_SIZE_DATA _ size _ _, src, dst, mw =>
    (src.readChecked size dst mw).map fun rd =>
      { ok := rd.1, src := rd.2.1, dst := rd.2.2.1, mw := rd.2.2.2 }
  | .mk .READ_STRING _ _ _ _, src, dst, mw => mw.readDynamicDataChecked src dst .strings 1
  | .mk .READ_DYNAMIC_SIZE_DATA _ size _ _, src, dst, mw =>
    mw.readDynamicDataChecked src dst .data size
  | .mk .CONSTANT_ARRAY _ size length subs, src, dst, mw =>
    (mw.allocateChecked .data (length * size)).bind fun a =>
    (dst.writeOffsetsChecked a.2 length (a.1.next % 2 ^ 32)).bind fun w =>
      if length > 0 then
        (dispatchCommandsChecked subs src a.1 w.2.2).map fun r =>
          { ok := r.ok, src := r.src, dst := w.2.1, mw := r.mw }
      else some { ok := true, src := src, dst := w.2.1, mw := w.2.2 }
  | .mk .DYNAMIC_ARRAY _ size _ subs, src, dst, mw =>
    if src.readLength.1 = false then
      some { ok := false, src := src.readLength.2.2, dst := dst, mw := mw }
    else
      (mw.allocateChecked .data (src.readLength.2.1 * size)).bind fun a =>
      (dst.writeOffsetsChecked a.2 src.readLength.2.1 (a.1.next % 2 ^ 32)).bind fun w =>
        if src.readLength.2.1 > 0 then
          (dispatchTimesChecked (fun s w1 m => dispatchCommandsChecked subs s w1 m)
            src.readLength.2.1 src.readLength.2.2 a.1 w.2.2).map fun r =>
            { ok := r.ok, src := r.src, dst := w.2.1, mw := r.mw }
        else some { ok := true, src := src.readLength.2.2, dst := w.2.1, mw := w.2.2 }
/-- The function `MessageWriter::dispatchCommands` over the checked functions. -/
def dispatchCommandsChecked : CommandBuffer → DataReader → DataWriter → MessageWriter →
    Option Run
  | [], src, dst, mw => some { ok := true, src := src, dst := dst, mw := mw }
  | cmd :: rest, src, dst, mw =>
    (dispatchCommandChecked cmd src dst mw).bind fun r =>
      if r.ok then dispatchCommandsChecked rest r.src r.dst r.mw else some r
end

/-- The function `MessageWriter::write` over the checked functions: `none` when a view
of the call leaves its buffer or a copy would write behind the end of a buffer. -/
def writeChecked (mw : MessageWriter) (definition : Option Definition) (data : List UInt8) :
    Option (Int × MessageWriter) :=
  match definition with
  | none => some (-1, mw)
  | some d =>
    if !d.isValid then some (-1, mw)
    else
      (mw.allocateChecked .data d.getSize).bind fun a =>
      (dispatchCommandsChecked d.getCommands (DataReader.new data) a.1 a.2).map fun r =>
        if !r.ok then (0, r.mw) else (toInt32 mw._dataBuffer.length, r.mw)

end MessageWriter

/-- The checked function `g` passes all its checks on every view inside its buffer,
agrees with `f`, and leaves the view inside its buffer. -/
def MessageWriter.Safe (f : DataReader → DataWriter → MessageWriter → Run)
    (g : DataReader → DataWriter → MessageWriter → Option Run) : Prop :=
  ∀ src dst mw, dst.inBounds mw = true →
    g src dst mw = some (f src dst mw) ∧ (f src dst mw).dst.inBounds (f src dst mw).mw = true

/-! ## The 32-bit target: commands and finalization

The library is built for WebAssembly, where a `size_t` has 32 bits.  The functions of this
section and of the next are the functions above with every `size_t` sum and product
reduced modulo `2 ^ 32`; their names end in `32`.  Functions that do no `size_t`
arithmetic are shared by both readings. -/

/-- The `READ_FIXED_SIZE_DATA` case of the loop body of `optimizeCommands` on the 32-bit
target: `top.size += cmd.size` is a `size_t` sum. -/
def pushFixed32 (ret : CommandBuffer) (cmd : Command) : CommandBuffer :=
  match ret.getLast? with
  | none => ret ++ [cmd]
  | some top =>
    if top.type ≠ CommandType.READ_FIXED_SIZE_DATA then ret ++ [cmd]
    else ret.dropLast ++
      [Command.mk top.type (top.label ++ ("+" ++ cmd.label)) ((top.size + cmd.size) % 2 ^ 32)
        top.length top.subcommands]

mutual
/-- One iteration of the loop of `optimizeCommands` on the 32-bit target. -/
def optimizeStep32 (ret : CommandBuffer) : Command → CommandBuffer
  | .mk .READ_FIXED_SIZE_DATA label size length subs =>
    pushFixed32 ret (.mk .READ_FIXED_SIZE_DATA label size length subs)
  | .mk .CONSTANT_ARRAY label size length subs =>
    ret ++ [.mk .CONSTANT_ARRAY label size length (optimizeLoop32 subs [])]
  | .mk .DYNAMIC_ARRAY label size length subs =>
    ret ++ [.mk .DYNAMIC_ARRAY label size length (optimizeLoop32 subs [])]
  | .mk .READ_STRING label size length subs =>
    ret ++ [.mk .READ_STRING label size length subs]
  | .mk .READ_DYNAMIC_SIZE_DATA label size length subs =>
    ret ++ [.mk .READ_DYNAMIC_SIZE_DATA label size length subs]
/-- The loop `for (const auto& cmd : input)` of `optimizeCommands` on the 32-bit
target, with the output vector `ret` as accumulator. -/
def optimizeLoop32 : CommandBuffer → CommandBuffer → CommandBuffer
  | [], ret => ret
  | cmd :: rest, ret => optimizeLoop32 rest (optimizeStep32 ret cmd)
end

/-- The function `Definition::optimizeCommands` on the 32-bit target. -/
def optimizeCommands32 (input : CommandBuffer) : CommandBuffer :=
  optimizeLoop32 input []

/-- The function `Definition::recordNonStringDefinitionCommands` on the 32-bit target:
`count * definition.getSize()` is a `size_t` product. -/
def recordNonStringDefinitionCommands32 (definition : Definition) (count : Nat) :
    CommandBuffer :=
  [.mk .READ_FIXED_SIZE_DATA definition.getName ((count * definition.getSize) % 2 ^ 32) 0 []]

/-- The function `Definition::recordArrayDefinitionCommands` on the 32-bit target;
`record` stands for the calls of `recordDefinitionCommands` it makes. -/
def recordArrayDefinitionCommandsWith32 (record : Definition → Option CommandBuffer)
    (definition : Definition) (arraySize : Int) : Option CommandBuffer :=
  if arraySize ≥ 0 then
    let subs :=
      if definition.isString then
        recordTimes (some (recordStringDefinitionCommands definition)) arraySize.toNat
      else if definition.hasConstantSize then
        some (recordNonStringDefinitionCommands32 definition arraySize.toNat)
      else recordTimes (record definition) arraySize.toNat
    subs.map fun s =>
      [.mk .CONSTANT_ARRAY definition.getName definition.getSize (arraySize.toNat % 2 ^ 32) s]
  else if definition.hasConstantSize then
    some [.mk .READ_DYNAMIC_SIZE_DATA definition.getName definition.getSize 0 []]
  else
    let subs :=
      if definition.isString then some (recordStringDefinitionCommands definition)
      else if definition.hasConstantSize then
        some (recordNonStringDefinitionCommands32 definition 1)
      else record definition
    subs.map fun s => [.mk .DYNAMIC_ARRAY definition.getName definition.getSize 0 s]

/-- The loop of `Definition::recordComplexDefinitionCommands` over the fields on the
32-bit target. -/
def recordFields32 (record : Definition → Option CommandBuffer) (reg : DefinitionRegistry) :
    List Field → Option CommandBuffer
  | [] => some []
  | f :: rest =>
    match f.definition.bind reg.getDefinition with
    | none => none
    | some fd =>
      let cmds :=
        if f.isArray then recordArrayDefinitionCommandsWith32 record fd f.arraySize
        else record fd
      match cmds, recordFields32 record reg rest with
      | some c, some r => some (c.map (wrapLabel f.name) ++ r)
      | _, _ => none

/-- The function `Definition::recordDefinitionCommands` on the 32-bit target; every call
consumes one unit of fuel. -/
def recordDefinitionCommands32 : Nat → DefinitionRegistry → Definition → Option CommandBuffer
  | 0, _, _ => none
  | fuel + 1, reg, definition =>
    if definition.hasFields then
      recordFields32 (recordDefinitionCommands32 fuel reg) reg definition.getFields
    else if definition.isString then some (recordStringDefinitionCommands definition)
    else if definition.getSize > 0 then some (recordNonStringDefinitionCommands32 definition 1)
    else some []

/-- The loop `for (auto& f : _fields)` of `Definition::finalize` on the 32-bit target:
`_size += f.getSize()` is a `size_t` sum. -/
def finalizeFields32
    (finalize : DefinitionRegistry → String → Option (Bool × DefinitionRegistry))
    (self : String) : List Field → Nat → DefinitionRegistry → Option DefinitionRegistry
  | [], _, reg => some reg
  | f :: rest, i, reg =>
    match Field.finalize finalize reg self i f with
    | none => none
    | some (false, _, reg1) =>
      some (reg1.modify self fun d => { d with _isValid := false })
    | some (true, f1, reg1) =>
      let reg2 :=
        reg1.modify self fun d => { d with _size := (d._size + f1.getSize reg1) % 2 ^ 32 }
      let clear :=
        match f1.definition.bind reg2.getDefinition with
        | some fd => f1.isArray || fd.isString || !fd.hasConstantSize
        | none => f1.isArray
      let reg3 :=
        if clear then reg2.modify self fun d => { d with _hasConstantSize := false }
        else reg2
      finalizeFields32 finalize self rest (i + 1) reg3

/-- The function `Definition::finalize` on the 32-bit target.  Every call consumes one
unit of fuel. -/
def Definition.finalize32 :
    Nat → DefinitionRegistry → String → Option (Bool × DefinitionRegistry)
  | 0, _, _ => none
  | fuel + 1, reg, self =>
    match reg.getDefinition self with
    | none => none
    | some d =>
      if d._isValid then some (true, reg)
      else
        let reg1 := reg.modify self fun d => { d with _isValid := true }
        let looped :=
          if d._fields.length > 0 then
            finalizeFields32 (Definition.finalize32 fuel) self d._fields 0
              (reg1.modify self fun d => { d with _size := 0 })
          else some reg1
        match looped with
        | none => none
        | some reg2 =>
          match reg2.getDefinition self with
          | none => none
          | some d2 =>
            if d2._isValid then
              match recordDefinitionCommands32 fuel reg2 d2 with
              | none => none
              | some cmds =>
                some (true,
                  reg2.modify self fun d => { d with _commands := optimizeCommands32 cmds })
            else some (false, reg2)

namespace DefinitionRegistry

/-- The loop of `DefinitionRegistry::finalizeAll` on the 32-bit target. -/
def finalizeEntries32 (fuel : Nat) : List String → DefinitionRegistry →
    Option (Bool × DefinitionRegistry)
  | [], reg => some (true, reg)
  | k :: keys, reg =>
    match Definition.finalize32 fuel reg k with
    | none => none
    | some (false, reg1) => some (false, reg1)
    | some (true, reg1) => finalizeEntries32 fuel keys reg1

/-- The function `DefinitionRegistry::finalizeAll` on the 32-bit target. -/
def finalizeAll32 (fuel : Nat) (reg : DefinitionRegistry) :
    Option (Bool × DefinitionRegistry) :=
  finalizeEntries32 fuel (reg.map Prod.fst) reg

end DefinitionRegistry

/-! ## The 32-bit target: the writer

On the 32-bit target the bounds checks of the reader and of the views compare reduced
sums, so a size near `2 ^ 32` can pass them.  A call has no result (`none`) when a
`memcpy` it reaches would read behind the end of its source or write behind the end of
its buffer: that is undefined behaviour.  An allocation is taken to succeed. -/

/-- The function `std::vector::resize(n)`: the first `n` bytes stay, and zero bytes are
appended up to the length `n`. -/
def resize (buf : Buffer) (n : Nat) : Buffer :=
  buf.take n ++ List.replicate (n - buf.length) 0

/-- The state after a call of the writer on the 32-bit target: the state `run`, and the
ghost flag `overflow`, which records whether some call of `DataWriter::write` made on
the way returned `false`, that is, found no room in its view. -/
structure Run32 where
  run : Run
  overflow : Bool
  deriving DecidableEq, Repr

namespace DataWriter

/-- The function `DataWriter::write(src, size)` on the 32-bit target; `avail` holds the
bytes that can be read at the pointer `src`.  The test is `next + size > end` with the
sum reduced. -/
def write32 (dst : DataWriter) (mw : MessageWriter) (avail : List UInt8) (size : Nat) :
    Option (Bool × DataWriter × MessageWriter) :=
  if (dst.next + size) % 2 ^ 32 > dst.end_ then some (false, dst, mw)
  else if avail.length < size ∨ (mw.get dst.buffer).length < dst.next + size then none
  else
    some (true, { dst with next := (dst.next + size) % 2 ^ 32 },
      mw.set dst.buffer (memcpy (mw.get dst.buffer) dst.next (avail.take size)))

/-- The function `DataWriter::writeOffsets(count, begin)` on the 32-bit target: the
source is the array `tmp` of two `uint32_t`. -/
def writeOffsets32 (dst : DataWriter) (mw : MessageWriter) (count begin_ : Nat) :
    Option (Bool × DataWriter × MessageWriter) :=
  dst.write32 mw (uint32Bytes count ++ uint32Bytes begin_) (2 * 4)

end DataWriter

namespace DataReader

/-- The function `DataReader::readLength` on the 32-bit target: the test is
`_read + sizeof(uint32_t) > _size` with the sum reduced; no result when the copy would
read behind the end of the input. -/
def readLength32 (src : DataReader) : Option (Bool × Nat × DataReader) :=
  if (src._read + 4) % 2 ^ 32 > src._size then some (false, 0, src)
  else if src._size < src._read + 4 then none
  else
    some (true, uint32OfBytes ((src._data.drop src._read).take 4),
      { src with _read := (src._read + 4) % 2 ^ 32 })

/-- The function `DataReader::read(size, dst)` on the 32-bit target: the test is
`_read + size > _size` with the sum reduced, and the bytes from `_data + _read` on are
handed to `DataWriter::write`. -/
def read32 (src : DataReader) (size : Nat) (dst : DataWriter) (mw : MessageWriter) :
    Option Run32 :=
  if (src._read + size) % 2 ^ 32 > src._size then
    some { run := { ok := false, src := src, dst := dst, mw := mw }, overflow := false }
  else
    (dst.write32 mw (src._data.drop src._read) size).map fun w =>
      if w.1 then
        { run := { ok := true, src := { src with _read := (src._read + size) % 2 ^ 32 },
                   dst := w.2.1, mw := w.2.2 },
          overflow := false }
      else { run := { ok := false, src := src, dst := w.2.1, mw := w.2.2 }, overflow := true }

end DataReader

namespace MessageWriter

/-- The function `MessageWriter::allocate` on the 32-bit target: `begin + size` is a
`size_t` sum, so `resize` truncates the buffer when the sum wraps. -/
def allocate32 (mw : MessageWriter) (buffer : BufferId) (size : Nat) :
    DataWriter × MessageWriter :=
  let begin_ := (mw.get buffer).length
  let mw1 :=
    if size ≠ 0 then mw.set buffer (resize (mw.get buffer) ((begin_ + size) % 2 ^ 32)) else mw
  ({ buffer := buffer, next := begin_, end_ := (begin_ + size) % 2 ^ 32 }, mw1)

/-- The function `MessageWriter::readDynamicData` on the 32-bit target: `length * size`
is a `size_t` product.  The result of `writeOffsets` is dropped, as in the source, and
kept in the ghost flag. -/
def readDynamicData32 (mw : MessageWriter) (src : DataReader) (dst : DataWriter)
    (buffer : BufferId) (size : Nat) : Option Run32 :=
  src.readLength32.bind fun rl =>
    if rl.1 = false then
      some { run := { ok := false, src := rl.2.2, dst := dst, mw := mw }, overflow := false }
    else
      (dst.writeOffsets32 (mw.allocate32 buffer ((rl.2.1 * size) % 2 ^ 32)).2 rl.2.1
          ((mw.allocate32 buffer ((rl.2.1 * size) % 2 ^ 32)).1.next % 2 ^ 32)).bind fun w =>
        if rl.2.1 > 0 then
          (rl.2.2.read32 ((rl.2.1 * size) % 2 ^ 32)
              (mw.allocate32 buffer ((rl.2.1 * size) % 2 ^ 32)).1 w.2.2).map fun rd =>
            { run := { ok := rd.run.ok, src := rd.run.src, dst := w.2.1, mw := rd.run.mw },
              overflow := !w.1 || rd.overflow }
        else
          some { run := { ok := true, src := rl.2.2, dst := w.2.1, mw := w.2.2 },
                 overflow := !w.1 }

/-- The loop `for (auto i = 0l; i < length; ++i)` of the `DYNAMIC_ARRAY` case on the
32-bit target (the counter `i` is taken as exact); `body` is
`dispatchCommands(cmd.subcommands, src, &writer)`; the first failure returns. -/
def dispatchTimes32 (body : DataReader → DataWriter → MessageWriter → Option Run32) :
    Nat → DataReader → DataWriter → MessageWriter → Option Run32
  | 0, src, writer, mw =>
    some { run := { ok := true, src := src, dst := writer, mw := mw }, overflow := false }
  | n + 1, src, writer, mw =>
    (body src writer mw).bind fun r =>
      if r.run.ok then
        (dispatchTimes32 body n r.run.src r.run.dst r.run.mw).map fun r1 =>
          { r1 with overflow := r.overflow || r1.overflow }
      else some r

mutual
/-- The switch of `MessageWriter::dispatchCommands` for one command on the 32-bit
target: `length * size` is a `size_t` product. -/
def dispatchCommand32 : Command → DataReader → DataWriter → MessageWriter → Option Run32
  | .mk .READ_FIXED_SIZE_DATA _ size _ _, src, dst, mw => src.read32 size dst mw
  | .mk .READ_STRING _ _ _ _, src, dst, mw => mw.readDynamicData32 src dst .strings 1
  | .mk .READ_DYNAMIC_SIZE_DATA _ size _ _, src, dst, mw =>
    mw.readDynamicData32 src dst .data size
  | .mk .CONSTANT_ARRAY _ size length subs, src, dst, mw =>
    (dst.writeOffsets32 (mw.allocate32 .data ((length * size) % 2 ^ 32)).2 length
        ((mw.allocate32 .data ((length * size) % 2 ^ 32)).1.next % 2 ^ 32)).bind fun w =>
      if length > 0 then
        (dispatchCommands32 subs src (mw.allocate32 .data ((length * size) % 2 ^ 32)).1
            w.2.2).map fun r =>
          { run := { ok := r.run.ok, src := r.run.src, dst := w.2.1, mw := r.run.mw },
            overflow := !w.1 || r.overflow }
      else
        some { run := { ok := true, src := src, dst := w.2.1, mw := w.2.2 },
               overflow := !w.1 }
  | .mk .DYNAMIC_ARRAY _ size _ subs, src, dst, mw =>
    src.readLength32.bind fun rl =>
      if rl.1 = false then
        some { run := { ok := false, src := rl.2.2, dst := dst, mw := mw }, overflow := false }
      else
        (dst.writeOffsets32 (mw.allocate32 .data ((rl.2.1 * size) % 2 ^ 32)).2 rl.2.1
            ((mw.allocate32 .data ((rl.2.1 * size) % 2 ^ 32)).1.next % 2 ^ 32)).bind fun w =>
          if rl.2.1 > 0 then
            (dispatchTimes32 (fun s w1 m => dispatchCommands32 subs s w1 m) rl.2.1 rl.2.2
                (mw.allocate32 .data ((rl.2.1 * size) % 2 ^ 32)).1 w.2.2).map fun r =>
              { run := { ok := r.run.ok, src := r.run.src, dst := w.2.1, mw := r.run.mw },
                overflow := !w.1 || r.overflow }
          else
            some { run := { ok := true, src := rl.2.2, dst := w.2.1, mw := w.2.2 },
                   overflow := !w.1 }
/-- The function `MessageWriter::dispatchCommands` on the 32-bit target: the loop over
`cmds`, which returns `false` at the first command that fails. -/
def dispatchCommands32 : CommandBuffer → DataReader → DataWriter → MessageWriter →
    Option Run32
  | [], src, dst, mw =>
    some { run := { ok := true, src := src, dst := dst, mw := mw }, overflow := false }
  | cmd :: rest, src, dst, mw =>
    (dispatchCommand32 cmd src dst mw).bind fun r =>
      if r.run.ok then
        (dispatchCommands32 rest r.run.src r.run.dst r.run.mw).map fun r1 =>
          { r1 with overflow := r.overflow || r1.overflow }
      else some r
end

/-- The function `MessageWriter::write(definition, data, size)` on the 32-bit target:
`definition` is `none` for `nullptr` and `data` holds the `size` input bytes. -/
def write32 (mw : MessageWriter) (definition : Option Definition) (data : List UInt8) :
    Option (Int × MessageWriter) :=
  match definition with
  | none => some (-1, mw)
  | some d =>
    if !d.isValid then some (-1, mw)
    else
      (dispatchCommands32 d.getCommands (DataReader.new data) (mw.allocate32 .data d.getSize).1
          (mw.allocate32 .data d.getSize).2).map fun r =>
        if !r.run.ok then (0, r.run.mw) else (toInt32 mw._dataBuffer.length, r.run.mw)

end MessageWriter

/-! ## Example schemas on the 32-bit target -/

namespace DefinitionRegistry

/-- The registry after `finalizeAll` on the 32-bit target (`[]` if the call does not
return). -/
def finalized32 (fuel : Nat) (reg : DefinitionRegistry) : DefinitionRegistry :=
  match reg.finalizeAll32 fuel with
  | none => []
  | some (_, reg1) => reg1

/-- The definition the pointer `name` points to (a placeholder if there is none). -/
def deref (reg : DefinitionRegistry) (name : String) : Definition :=
  (reg.getDefinition name).getD (Definition.new name 0 false)

/-- The registry after registering `R { a: int64, b: int64, s: string }`. -/
def exampleR : DefinitionRegistry :=
  ((((DefinitionRegistry.new.createDefinition "R").2.addField "R" "int64" "a" false (-1)).2
    |>.addField "R" "int64" "b" false (-1)).2.addField "R" "string" "s" false (-1)).2

/-- The registry after registering `E { a: int32 }` and `A { v: E[2] }`, finalizing,
adding the field `b: int32` to `E` and finalizing again, on the 32-bit target. -/
def exampleStaleElement : DefinitionRegistry :=
  finalized32 5
    ((finalized32 5
      ((((DefinitionRegistry.new.createDefinition "E").2.addField "E" "int32" "a" false (-1)).2
        |>.createDefinition "A").2.addField "A" "E" "v" true 2).2).addField
      "E" "int32" "b" false (-1)).2

/-- The registry after registering `W { v: int64[536870912] }`: the array takes
`2 ^ 32` bytes. -/
def exampleWide : DefinitionRegistry :=
  ((DefinitionRegistry.new.createDefinition "W").2.addField "W" "int64" "v" true 536870912).2

/-- The registry after adding the field `x: int32` to the built-in `string` and
registering `L { xs: string[] }`. -/
def exampleStringElement : DefinitionRegistry :=
  (((DefinitionRegistry.new.addField "string" "int32" "x" false (-1)).2.createDefinition
    "L").2.addField "L" "string" "xs" true (-1)).2

end DefinitionRegistry

/-- A rank of the types of the example schemas with one record over the built-in types:
the record above the built-in types. -/
def exampleRecordRank (k : String) : Nat :=
  if k = "R" ∨ k = "W" ∨ k = "S" ∨ k = "A" ∨ k = "T" ∨ k = "L" then 1 else 0

/-! ## Runs of the 32-bit target without wrap-around -/

/-- The conditions under which a run from the state `(src, dst, mw)` computes no sum or
product that wraps on the 32-bit target, stated with the run `r` of exact arithmetic: `r`
succeeds, the view lies inside its buffer, the cursor of the reader lies inside the
input, and the input and both buffers after `r` are shorter than `2 ^ 31` bytes. -/
def Fits (src : DataReader) (dst : DataWriter) (mw : MessageWriter) (r : Run) : Prop :=
  r.ok = true ∧ dst.inBounds mw = true ∧ src._read ≤ src._size ∧ src._size < 2 ^ 31 ∧
    ∀ b, (r.mw.get b).length < 2 ^ 31

/-- The function `g` of the 32-bit target simulates the function `f` of exact
arithmetic on the runs that fit: it returns the state `f` returns, with the cursor of the
reader inside the input and the view inside its buffer; and when the commands satisfy
the layout invariant `layout` and the view has room for the `total` bytes they take, no
call of `DataWriter::write` finds its view full and the cursor of the view advances by
`total`. -/
def Simulates (layout : Prop) (total : Nat)
    (f : DataReader → DataWriter → MessageWriter → Run)
    (g : DataReader → DataWriter → MessageWriter → Option Run32) : Prop :=
  ∀ src dst mw, Fits src dst mw (f src dst mw) →
    ∃ flag, g src dst mw = some ⟨f src dst mw, flag⟩ ∧
      (f src dst mw).src._read ≤ (f src dst mw).src._size ∧
      (f src dst mw).dst.inBounds (f src dst mw).mw = true ∧
      (layout → dst.next + total ≤ dst.end_ →
        flag = false ∧ (f src dst mw).dst.next = dst.next + total)

namespace DefinitionRegistry

/-- The registry after registering `C { a: int32 }` and `P { c: C }`. -/
def exampleNested : DefinitionRegistry :=
  ((((DefinitionRegistry.new.createDefinition "C").2.addField "C" "int32" "a" false (-1)).2
    |>.createDefinition "P").2.addField "P" "C" "c" false (-1)).2

/-- The registry `exampleNested` after `finalizeAll`, the addition of the field
`b: int32` to `C` and a second `finalizeAll`, on the 32-bit target. -/
def exampleStale32 : DefinitionRegistry :=
  finalized32 5 ((finalized32 5 exampleNested).addField "C" "int32" "b" false (-1)).2

/-- The registry `exampleNested` after `finalizeAll`, the addition of the field
`b: int32` to `C`, the registration of `Q { p: P }` and a second `finalizeAll`, on the
32-bit target. -/
def exampleStaleParent32 : DefinitionRegistry :=
  finalized32 5
    ((((finalized32 5 exampleNested).addField "C" "int32" "b" false (-1)).2.createDefinition
      "Q").2.addField "Q" "P" "p" false (-1)).2

end DefinitionRegistry

namespace DefinitionRegistry

/-- The registry in which `Definition::finalize`, called on the definition `self` that is
not valid and whose first field is `f`, makes the call `f.finalize(registry)` and from it
the call of `finalize` on the type of `f`: `_isValid` is set, `_size` is reset and the
pointer of the field is assigned. -/
def entered (reg : DefinitionRegistry) (self : String) (f : Field) : DefinitionRegistry :=
  let reg1 :=
    (reg.modify self fun d => { d with _isValid := true }).modify self
      fun d => { d with _size := 0 }
  reg1.modify self (setFieldDefinition 0 (f.resolve reg1))

/-- The registry after registering `E { a: int32 }` and `A { v: E[2] }`. -/
def exampleElement : DefinitionRegistry :=
  ((((DefinitionRegistry.new.createDefinition "E").2.addField "E" "int32" "a" false (-1)).2
    |>.createDefinition "A").2.addField "A" "E" "v" true 2).2

/-- The field `v: E[2]` as `addField` creates it. -/
def exampleElementField : Field :=
  { type := "E", name := "v", definition := none, isArray := true, arraySize := 2 }

/-- The registry after the call of `finalize` on `E` that the finalization of `A` makes
in `exampleElement`, on the 32-bit target (`[]` if the call does not return). -/
def exampleElementEntered : DefinitionRegistry :=
  match Definition.finalize32 3 (exampleElement.entered "A" exampleElementField) "E" with
  | none => []
  | some (_, reg1) => reg1

end DefinitionRegistry

namespace DefinitionRegistry

/-- The registry after registering `E { w: int8[0] }` and `D { es: E[] }`. -/
def exampleZeroElements : DefinitionRegistry :=
  ((((DefinitionRegistry.new.createDefinition "E").2.addField "E" "int8" "w" true 0).2
    |>.createDefinition "D").2.addField "D" "E" "es" true (-1)).2

/-- The registry `exampleZeroElements` after `finalizeAll` on the 32-bit target. -/
def exampleZeroFinal : DefinitionRegistry := finalized32 4 exampleZeroElements

end DefinitionRegistry

/-- The finalized `D { es: E[] }` of `DefinitionRegistry.exampleZeroElements`. -/
def exampleZeroD : Definition := DefinitionRegistry.exampleZeroFinal.deref "D"

/-- The finalized `E { w: int8[0] }` of `DefinitionRegistry.exampleZeroElements`. -/
def exampleZeroE : Definition := DefinitionRegistry.exampleZeroFinal.deref "E"

/-- The value of `D { es: E[] }` with `2 ^ 30` elements; each element, a record with an
empty array, takes no bytes in the input and 8 bytes in the output. -/
def exampleZeroValue : Value :=
  .record [.array (List.replicate 1073741824 (.record [.array []]))]

/-- A rank of the types of `DefinitionRegistry.exampleZeroElements`: `D` above `E` above
the built-in types. -/
def exampleZeroRank (k : String) : Nat := if k = "D" then 2 else if k = "E" then 1 else 0

/-! ## Exact arithmetic and the 32-bit target

The 32-bit target computes the sizes of exact arithmetic modulo `2 ^ 32`: `wrap32` reduces
the size of a definition and the sizes in its commands. -/

mutual
/-- The command with its size, and the sizes of its subcommands at every depth, reduced
modulo `2 ^ 32`. -/
def Command.wrap32 : Command → Command
  | .mk t l s n subs => .mk t l (s % 2 ^ 32) n (wrapAll32 subs)
/-- The commands of a buffer with their sizes reduced modulo `2 ^ 32`. -/
def wrapAll32 : CommandBuffer → CommandBuffer
  | [] => []
  | c :: cs => c.wrap32 :: wrapAll32 cs
end

/-- The definition with its size and the sizes in its commands reduced modulo
`2 ^ 32`. -/
def Definition.wrap32 (d : Definition) : Definition :=
  { d with _size := d._size % 2 ^ 32, _commands := wrapAll32 d._commands }

/-- The registry with the sizes of its definitions reduced modulo `2 ^ 32`. -/
def DefinitionRegistry.wrap32 (reg : DefinitionRegistry) : DefinitionRegistry :=
  reg.map fun p => (p.1, p.2.wrap32)

/-- The definitions without fields (whose size no finalization changes) have a size in
the range of the `size_t` of the 32-bit target. -/
def Leaves (reg : DefinitionRegistry) : Prop :=
  ∀ k d, reg.getDefinition k = some d → d._fields = [] → d._size < 2 ^ 32

/-- What relates a function `fin32` that stands for `Definition::finalize` on the 32-bit
target to the function `fin` that stands for it in exact arithmetic: on the registry
with the sizes reduced, `fin32` returns the result of `fin` with the sizes reduced. -/
def WrapSpec (fin fin32 : DefinitionRegistry → String → Option (Bool × DefinitionRegistry)) :
    Prop :=
  ∀ reg t, Leaves reg →
    fin32 reg.wrap32 t = (fin reg t).map (fun p => (p.1, p.2.wrap32)) ∧
      ∀ b r, fin reg t = some (b, r) → Leaves r

mutual
/-- The size of the command and the sizes of its subcommands at every depth are below
`2 ^ 32`. -/
def Command.narrow : Command → Bool
  | .mk _ _ s _ subs => decide (s < 2 ^ 32) && narrowAll subs
/-- The sizes of the commands of the buffer, at every depth, are below `2 ^ 32`. -/
def narrowAll : CommandBuffer → Bool
  | [] => true
  | c :: cs => c.narrow && narrowAll cs
end

end cruise

namespace cruise

/-! ## The optimizer: shape and idempotence -/

@[simp] theorem Command.type_mk (t : CommandType) (l : String) (s n : Nat)
    (subs : CommandBuffer) : (Command.mk t l s n subs).type = t := rfl

@[simp] theorem Command.label_mk (t : CommandType) (l : String) (s n : Nat)
    (subs : CommandBuffer) : (Command.mk t l s n subs).label = l := rfl

@[simp] theorem Command.size_mk (t : CommandType) (l : String) (s n : Nat)
    (subs : CommandBuffer) : (Command.mk t l s n subs).size = s := rfl

@[simp] theorem Command.length_mk (t : CommandType) (l : String) (s n : Nat)
    (subs : CommandBuffer) : (Command.mk t l s n subs).length = n := rfl

@[simp] theorem Command.subcommands_mk (t : CommandType) (l : String) (s n : Nat)
    (subs : CommandBuffer) : (Command.mk t l s n subs).subcommands = subs := rfl

theorem optimizedAll_append (xs ys : CommandBuffer) :
    OptimizedAll (xs ++ ys) ↔ OptimizedAll xs ∧ OptimizedAll ys := by
  induction xs with
  | nil => simp [OptimizedAll]
  | cons x xs ih => simp [OptimizedAll, ih, and_assoc]

theorem optimizedAll_singleton (c : Command) : OptimizedAll [c] ↔ c.Optimized := by
  simp [OptimizedAll]

theorem optimized_nil : Optimized [] := by
  simp [Optimized, OptimizedAll]

theorem chain_snoc (ret : CommandBuffer) (c : Command) :
    List.Chain' NotBothFixed (ret ++ [c]) ↔
      List.Chain' NotBothFixed ret ∧ ∀ t ∈ ret.getLast?, NotBothFixed t c := by
  rw [List.chain'_append]
  simp

theorem pushFixed_nil (c : Command) : pushFixed [] c = [c] := by
  simp [pushFixed]

theorem pushFixed_snoc (pre : CommandBuffer) (top c : Command) :
    pushFixed (pre ++ [top]) c =
      if top.type ≠ CommandType.READ_FIXED_SIZE_DATA then pre ++ [top] ++ [c]
      else pre ++ [Command.mk top.type (top.label ++ ("+" ++ c.label)) (top.size + c.size)
        top.length top.subcommands] := by
  simp [pushFixed]

/-- Pushing a fixed read on a buffer that does not end in one appends it. -/
theorem pushFixed_of_notBoth (ret : CommandBuffer) (c : Command)
    (hc : c.type = CommandType.READ_FIXED_SIZE_DATA)
    (h : ∀ t ∈ ret.getLast?, NotBothFixed t c) : pushFixed ret c = ret ++ [c] := by
  rcases List.eq_nil_or_concat' ret with rfl | ⟨pre, top, rfl⟩
  · simp [pushFixed]
  · have := h top (by simp)
    have htop : top.type ≠ CommandType.READ_FIXED_SIZE_DATA := fun e => this ⟨e, hc⟩
    rw [pushFixed_snoc]; simp [htop]

theorem pushFixed_optimized (ret : CommandBuffer) (c : Command)
    (hc : c.type = CommandType.READ_FIXED_SIZE_DATA) (h : Optimized ret) :
    Optimized (pushFixed ret c) := by
  have hcO : c.Optimized := by
    cases c with
    | mk t l s n subs =>
      simp only [Command.type_mk] at hc
      subst hc
      simp [Command.Optimized]
  rcases List.eq_nil_or_concat' ret with rfl | ⟨pre, top, rfl⟩
  · simp [pushFixed, Optimized, OptimizedAll, hcO]
  · rw [pushFixed_snoc]
    obtain ⟨h1, h2⟩ := h
    rw [optimizedAll_append] at h2
    by_cases htop : top.type = CommandType.READ_FIXED_SIZE_DATA
    · simp only [htop, ne_eq, not_true_eq_false, if_false]
      rw [chain_snoc] at h1
      refine ⟨?_, ?_⟩
      · rw [chain_snoc]
        refine ⟨h1.1, ?_⟩
        intro t ht
        have := h1.2 t ht
        intro hh
        exact this ⟨hh.1, htop⟩
      · rw [optimizedAll_append]
        refine ⟨h2.1, ?_⟩
        simp [OptimizedAll, Command.Optimized]
    · simp only [ne_eq, htop, not_false_eq_true, if_true]
      refine ⟨?_, ?_⟩
      · rw [chain_snoc]
        refine ⟨h1, ?_⟩
        intro t ht
        simp at ht
        subst ht
        simp [NotBothFixed, htop]
      · rw [optimizedAll_append, optimizedAll_append]
        exact ⟨⟨h2.1, h2.2⟩, by simpa [OptimizedAll] using hcO⟩

theorem optimized_snoc_of_not_fixed (ret : CommandBuffer) (c : Command)
    (hc : c.type ≠ CommandType.READ_FIXED_SIZE_DATA) (hcO : c.Optimized)
    (h : Optimized ret) : Optimized (ret ++ [c]) := by
  refine ⟨?_, ?_⟩
  · rw [chain_snoc]
    refine ⟨h.1, ?_⟩
    intro t _
    simp [NotBothFixed, hc]
  · rw [optimizedAll_append]
    exact ⟨h.2, by simpa [OptimizedAll] using hcO⟩

mutual
/-- One step of the optimizer keeps its output free of neighbouring fixed reads. -/
theorem optimizeStep_optimized : ∀ (c : Command) (ret : CommandBuffer),
    Optimized ret → Optimized (optimizeStep ret c)
  | .mk .READ_FIXED_SIZE_DATA label size length subs, ret, h => by
    rw [optimizeStep]
    exact pushFixed_optimized ret _ rfl h
  | .mk .CONSTANT_ARRAY label size length subs, ret, h => by
    rw [optimizeStep]
    refine optimized_snoc_of_not_fixed ret _ (by simp) ?_ h
    have := optimizeLoop_optimized subs [] optimized_nil
    simpa [Command.Optimized, Optimized] using this
  | .mk .DYNAMIC_ARRAY label size length subs, ret, h => by
    rw [optimizeStep]
    refine optimized_snoc_of_not_fixed ret _ (by simp) ?_ h
    have := optimizeLoop_optimized subs [] optimized_nil
    simpa [Command.Optimized, Optimized] using this
  | .mk .READ_STRING label size length subs, ret, h => by
    rw [optimizeStep]
    exact optimized_snoc_of_not_fixed ret _ (by simp)
      (by simp [Command.Optimized]) h
  | .mk .READ_DYNAMIC_SIZE_DATA label size length subs, ret, h => by
    rw [optimizeStep]
    exact optimized_snoc_of_not_fixed ret _ (by simp)
      (by simp [Command.Optimized]) h
/-- The optimizer loop keeps its output free of neighbouring fixed reads. -/
theorem optimizeLoop_optimized : ∀ (input ret : CommandBuffer),
    Optimized ret → Optimized (optimizeLoop input ret)
  | [], ret, h => by rw [optimizeLoop]; exact h
  | c :: rest, ret, h => by
    rw [optimizeLoop]
    exact optimizeLoop_optimized rest _ (optimizeStep_optimized c ret h)
end

mutual
/-- On a command that is already optimized and does not continue a fixed read, the
optimizer step appends the command unchanged. -/
theorem optimizeStep_of_optimized : ∀ (c : Command) (ret : CommandBuffer),
    c.Optimized → (∀ t ∈ ret.getLast?, NotBothFixed t c) → optimizeStep ret c = ret ++ [c]
  | .mk .READ_FIXED_SIZE_DATA label size length subs, ret, _, h => by
    rw [optimizeStep]
    exact pushFixed_of_notBoth ret _ rfl h
  | .mk .CONSTANT_ARRAY label size length subs, ret, hc, _ => by
    rw [optimizeStep]
    have h := hc (Or.inl rfl)
    rw [optimizeLoop_of_optimized subs [] (by simpa using h.1) h.2]
    simp
  | .mk .DYNAMIC_ARRAY label size length subs, ret, hc, _ => by
    rw [optimizeStep]
    have h := hc (Or.inr rfl)
    rw [optimizeLoop_of_optimized subs [] (by simpa using h.1) h.2]
    simp
  | .mk .READ_STRING label size length subs, ret, _, _ => by rw [optimizeStep]
  | .mk .READ_DYNAMIC_SIZE_DATA label size length subs, ret, _, _ => by rw [optimizeStep]
/-- On an input that is already optimized, also across the junction with the output
built so far, the optimizer loop appends the input unchanged. -/
theorem optimizeLoop_of_optimized : ∀ (input ret : CommandBuffer),
    List.Chain' NotBothFixed (ret ++ input) → OptimizedAll input →
      optimizeLoop input ret = ret ++ input
  | [], ret, _, _ => by rw [optimizeLoop]; simp
  | c :: rest, ret, h1, h2 => by
    rw [optimizeLoop]
    have hj : ∀ t ∈ ret.getLast?, NotBothFixed t c := by
      rw [List.chain'_append] at h1
      intro t ht
      exact h1.2.2 t ht c (by simp)
    rw [optimizeStep_of_optimized c ret h2.1 hj]
    rw [optimizeLoop_of_optimized rest (ret ++ [c]) (by simpa using h1) h2.2]
    simp
end

/-- C9: the optimizer is idempotent on every command buffer, of any nesting depth:
optimizing an optimized buffer returns it unchanged, with the same types, sizes,
lengths, labels and subcommands. -/
theorem optimizeCommands_idempotent (c : CommandBuffer) :
    optimizeCommands (optimizeCommands c) = optimizeCommands c := by
  have h : Optimized (optimizeCommands c) := optimizeLoop_optimized c [] optimized_nil
  have := optimizeLoop_of_optimized (optimizeCommands c) [] (by simpa using h.1) h.2
  simpa [optimizeCommands] using this

/-! ## Buffers and views -/

@[simp] theorem memcpy_length (buf : Buffer) (pos : Nat) (src : List UInt8) :
    (memcpy buf pos src).length = buf.length := by
  simp only [memcpy, List.length_append, List.length_take, List.length_drop]
  omega

/-- A copy at or behind position `p.length` keeps the prefix `p` of the buffer. -/
theorem memcpy_keeps (p buf : Buffer) (pos : Nat) (src : List UInt8)
    (hp : p <+: buf) (hpos : p.length ≤ pos) : p <+: memcpy buf pos src := by
  obtain ⟨t, rfl⟩ := hp
  unfold memcpy
  rw [List.take_append_eq_append_take, List.take_of_length_le hpos, List.append_assoc,
    List.append_assoc]
  exact List.prefix_append _ _

/-- Two adjacent copies are one copy of the concatenation. -/
theorem memcpy_memcpy (buf : Buffer) (pos : Nat) (xs ys : List UInt8) :
    memcpy (memcpy buf pos xs) (pos + xs.length) ys = memcpy buf pos (xs ++ ys) := by
  apply List.ext_getElem
  · simp
  · intro i h1 h2
    simp only [memcpy_length] at h1
    simp only [memcpy, List.getElem_append, List.length_take, List.length_append,
      List.length_drop, List.getElem_take, List.getElem_drop]
    split_ifs <;> first | rfl | omega | (congr 1; omega)

namespace MessageWriter

@[simp] theorem get_set_same (mw : MessageWriter) (b : BufferId) (buf : Buffer) :
    (mw.set b buf).get b = buf := by
  cases b <;> rfl

theorem get_set_ne (mw : MessageWriter) (b c : BufferId) (buf : Buffer) (h : c ≠ b) :
    (mw.set b buf).get c = mw.get c := by
  cases b <;> cases c <;> first | rfl | exact absurd rfl h

theorem set_get (mw : MessageWriter) (b : BufferId) : mw.set b (mw.get b) = mw := by
  cases b <;> rfl

@[simp] theorem set_set (mw : MessageWriter) (b : BufferId) (x y : Buffer) :
    (mw.set b x).set b y = mw.set b y := by
  cases b <;> rfl

@[simp] theorem get_data (mw : MessageWriter) : mw.get .data = mw._dataBuffer := rfl

@[simp] theorem get_strings (mw : MessageWriter) : mw.get .strings = mw._stringBuffer := rfl

end MessageWriter

/-! ## Equations of the writer in projection form -/

namespace DataWriter

theorem write_def (dst : DataWriter) (mw : MessageWriter) (src : List UInt8) :
    dst.write mw src =
      if dst.next + src.length ≤ dst.end_ then
        (true, { dst with next := dst.next + src.length },
          mw.set dst.buffer (memcpy (mw.get dst.buffer) dst.next src))
      else (false, dst, mw) := by
  unfold write
  by_cases h : dst.next + src.length ≤ dst.end_
  · simp [h, Nat.not_lt.mpr h]
  · simp [h, Nat.lt_of_not_le h]

@[simp] theorem write_buffer (dst : DataWriter) (mw : MessageWriter) (src : List UInt8) :
    (dst.write mw src).2.1.buffer = dst.buffer := by
  rw [write_def]; split <;> rfl

@[simp] theorem write_end (dst : DataWriter) (mw : MessageWriter) (src : List UInt8) :
    (dst.write mw src).2.1.end_ = dst.end_ := by
  rw [write_def]; split <;> rfl

theorem write_next_le (dst : DataWriter) (mw : MessageWriter) (src : List UInt8) :
    dst.next ≤ (dst.write mw src).2.1.next := by
  rw [write_def]; split <;> simp

@[simp] theorem write_length (dst : DataWriter) (mw : MessageWriter) (src : List UInt8)
    (b : BufferId) : ((dst.write mw src).2.2.get b).length = (mw.get b).length := by
  rw [write_def]
  split
  · by_cases hb : b = dst.buffer
    · subst hb; simp
    · simp [MessageWriter.get_set_ne _ _ _ _ hb]
  · rfl

/-- A write through a view that starts behind the prefix `p` of buffer `b` keeps `p`. -/
theorem write_keeps (dst : DataWriter) (mw : MessageWriter) (src : List UInt8)
    (b : BufferId) (p : Buffer) (hp : p <+: mw.get b)
    (hdst : dst.buffer = b → p.length ≤ dst.next) : p <+: (dst.write mw src).2.2.get b := by
  rw [write_def]
  split
  · by_cases hb : b = dst.buffer
    · subst hb
      simp only [MessageWriter.get_set_same]
      exact memcpy_keeps p _ _ _ hp (hdst rfl)
    · simpa [MessageWriter.get_set_ne _ _ _ _ hb] using hp
  · exact hp

@[simp] theorem writeOffsets_buffer (dst : DataWriter) (mw : MessageWriter) (c o : Nat) :
    (dst.writeOffsets mw c o).2.1.buffer = dst.buffer := write_buffer _ _ _

@[simp] theorem writeOffsets_end (dst : DataWriter) (mw : MessageWriter) (c o : Nat) :
    (dst.writeOffsets mw c o).2.1.end_ = dst.end_ := write_end _ _ _

theorem writeOffsets_next_le (dst : DataWriter) (mw : MessageWriter) (c o : Nat) :
    dst.next ≤ (dst.writeOffsets mw c o).2.1.next := write_next_le _ _ _

@[simp] theorem writeOffsets_length (dst : DataWriter) (mw : MessageWriter) (c o : Nat)
    (b : BufferId) : ((dst.writeOffsets mw c o).2.2.get b).length = (mw.get b).length :=
  write_length _ _ _ _

theorem writeOffsets_keeps (dst : DataWriter) (mw : MessageWriter) (c o : Nat)
    (b : BufferId) (p : Buffer) (hp : p <+: mw.get b)
    (hdst : dst.buffer = b → p.length ≤ dst.next) :
    p <+: (dst.writeOffsets mw c o).2.2.get b := write_keeps _ _ _ _ _ hp hdst

end DataWriter

namespace DataReader

theorem readLength_eq (src : DataReader) :
    src.readLength =
      if src._read + 4 ≤ src._size then
        (true, uint32OfBytes ((src._data.drop src._read).take 4),
          { src with _read := src._read + 4 })
      else (false, 0, src) := by
  unfold readLength
  by_cases h : src._read + 4 ≤ src._size
  · simp [h, Nat.not_lt.mpr h]
  · simp [h, Nat.lt_of_not_le h]

theorem read_eq (src : DataReader) (size : Nat) (dst : DataWriter) (mw : MessageWriter) :
    src.read size dst mw =
      if src._read + size ≤ src._size then
        ((dst.write mw ((src._data.drop src._read).take size)).1,
          (if (dst.write mw ((src._data.drop src._read).take size)).1 then
            { src with _read := src._read + size } else src),
          (dst.write mw ((src._data.drop src._read).take size)).2.1,
          (dst.write mw ((src._data.drop src._read).take size)).2.2)
      else (false, src, dst, mw) := by
  unfold read
  by_cases h : src._read + size ≤ src._size
  · simp only [h, Nat.not_lt.mpr h, if_true, if_false]
    rcases hw : dst.write mw ((src._data.drop src._read).take size) with ⟨ok, d1, m1⟩
    cases ok <;> simp
  · simp [h, Nat.lt_of_not_le h]

@[simp] theorem read_data (src : DataReader) (size : Nat) (dst : DataWriter)
    (mw : MessageWriter) : (src.read size dst mw).2.1._data = src._data := by
  rw [read_eq]; split
  · simp only; split <;> rfl
  · rfl

@[simp] theorem read_buffer (src : DataReader) (size : Nat) (dst : DataWriter)
    (mw : MessageWriter) : (src.read size dst mw).2.2.1.buffer = dst.buffer := by
  rw [read_eq]; split <;> simp

@[simp] theorem read_end (src : DataReader) (size : Nat) (dst : DataWriter)
    (mw : MessageWriter) : (src.read size dst mw).2.2.1.end_ = dst.end_ := by
  rw [read_eq]; split <;> simp

theorem read_next_le (src : DataReader) (size : Nat) (dst : DataWriter)
    (mw : MessageWriter) : dst.next ≤ (src.read size dst mw).2.2.1.next := by
  rw [read_eq]; split
  · exact DataWriter.write_next_le _ _ _
  · exact Nat.le_refl _

@[simp] theorem read_length (src : DataReader) (size : Nat) (dst : DataWriter)
    (mw : MessageWriter) (b : BufferId) :
    ((src.read size dst mw).2.2.2.get b).length = (mw.get b).length := by
  rw [read_eq]; split <;> simp

theorem read_keeps (src : DataReader) (size : Nat) (dst : DataWriter) (mw : MessageWriter)
    (b : BufferId) (p : Buffer) (hp : p <+: mw.get b)
    (hdst : dst.buffer = b → p.length ≤ dst.next) :
    p <+: (src.read size dst mw).2.2.2.get b := by
  rw [read_eq]; split
  · exact DataWriter.write_keeps _ _ _ _ _ hp hdst
  · exact hp

end DataReader

namespace MessageWriter

theorem allocate_eq (mw : MessageWriter) (b : BufferId) (size : Nat) :
    mw.allocate b size =
      ({ buffer := b, next := (mw.get b).length, end_ := (mw.get b).length + size },
        mw.set b (mw.get b ++ List.replicate size 0)) := by
  unfold allocate
  by_cases h : size = 0
  · subst h; simp [set_get]
  · simp [h]

@[simp] theorem allocate_fst (mw : MessageWriter) (b : BufferId) (size : Nat) :
    (mw.allocate b size).1 =
      { buffer := b, next := (mw.get b).length, end_ := (mw.get b).length + size } := by
  rw [allocate_eq]

theorem allocate_snd (mw : MessageWriter) (b : BufferId) (size : Nat) :
    (mw.allocate b size).2 = mw.set b (mw.get b ++ List.replicate size 0) := by
  rw [allocate_eq]

theorem allocate_get (mw : MessageWriter) (b c : BufferId) (size : Nat) :
    (mw.allocate b size).2.get c =
      if c = b then mw.get b ++ List.replicate size 0 else mw.get c := by
  rw [allocate_snd]
  by_cases h : c = b
  · subst h; simp
  · simp [h, get_set_ne _ _ _ _ h]

theorem allocate_keeps (mw : MessageWriter) (b c : BufferId) (size : Nat) (p : Buffer)
    (hp : p <+: mw.get c) : p <+: (mw.allocate b size).2.get c := by
  rw [allocate_get]
  split
  · rename_i h; subst h
    exact hp.trans (List.prefix_append _ _)
  · exact hp

theorem allocate_length_le (mw : MessageWriter) (b c : BufferId) (size : Nat) :
    (mw.get c).length ≤ ((mw.allocate b size).2.get c).length := by
  rw [allocate_get]
  split
  · rename_i h; subst h; simp
  · exact Nat.le_refl _

end MessageWriter

/-! ## Runs only append to the buffers -/

namespace MessageWriter

theorem readDynamicData_eq (mw : MessageWriter) (src : DataReader) (dst : DataWriter)
    (buffer : BufferId) (size : Nat) :
    mw.readDynamicData src dst buffer size =
      if src._read + 4 ≤ src._size then
        let length := uint32OfBytes ((src._data.drop src._read).take 4)
        let src1 : DataReader := { src with _read := src._read + 4 }
        let a := mw.allocate buffer (length * size)
        let w := dst.writeOffsets a.2 length (a.1.next % 2 ^ 32)
        let rd := src1.read (length * size) a.1 w.2.2
        if length > 0 then { ok := rd.1, src := rd.2.1, dst := w.2.1, mw := rd.2.2.2 }
        else { ok := true, src := src1, dst := w.2.1, mw := w.2.2 }
      else { ok := false, src := src, dst := dst, mw := mw } := by
  unfold readDynamicData
  rw [DataReader.readLength_eq]
  by_cases h : src._read + 4 ≤ src._size
  · simp only [h, if_true]
  · simp only [h, if_false]

theorem dispatchCommand_fixed (l : String) (size n : Nat) (subs : CommandBuffer)
    (src : DataReader) (dst : DataWriter) (mw : MessageWriter) :
    dispatchCommand (.mk .READ_FIXED_SIZE_DATA l size n subs) src dst mw =
      { ok := (src.read size dst mw).1, src := (src.read size dst mw).2.1,
        dst := (src.read size dst mw).2.2.1, mw := (src.read size dst mw).2.2.2 } := by
  rw [dispatchCommand]

theorem dispatchCommand_string (l : String) (size n : Nat) (subs : CommandBuffer)
    (src : DataReader) (dst : DataWriter) (mw : MessageWriter) :
    dispatchCommand (.mk .READ_STRING l size n subs) src dst mw =
      mw.readDynamicData src dst .strings 1 := by
  rw [dispatchCommand]

theorem dispatchCommand_dynamicSize (l : String) (size n : Nat) (subs : CommandBuffer)
    (src : DataReader) (dst : DataWriter) (mw : MessageWriter) :
    dispatchCommand (.mk .READ_DYNAMIC_SIZE_DATA l size n subs) src dst mw =
      mw.readDynamicData src dst .data size := by
  rw [dispatchCommand]

theorem dispatchCommand_constantArray (l : String) (size length : Nat) (subs : CommandBuffer)
    (src : DataReader) (dst : DataWriter) (mw : MessageWriter) :
    dispatchCommand (.mk .CONSTANT_ARRAY l size length subs) src dst mw =
      let a := mw.allocate .data (length * size)
      let w := dst.writeOffsets a.2 length (a.1.next % 2 ^ 32)
      let r := dispatchCommands subs src a.1 w.2.2
      if length > 0 then { ok := r.ok, src := r.src, dst := w.2.1, mw := r.mw }
      else { ok := true, src := src, dst := w.2.1, mw := w.2.2 } := by
  rw [dispatchCommand]

theorem dispatchCommand_dynamicArray (l : String) (size n : Nat) (subs : CommandBuffer)
    (src : DataReader) (dst : DataWriter) (mw : MessageWriter) :
    dispatchCommand (.mk .DYNAMIC_ARRAY l size n subs) src dst mw =
      if src._read + 4 ≤ src._size then
        let length := uint32OfBytes ((src._data.drop src._read).take 4)
        let src1 : DataReader := { src with _read := src._read + 4 }
        let a := mw.allocate .data (length * size)
        let w := dst.writeOffsets a.2 length (a.1.next % 2 ^ 32)
        let r := dispatchTimes (fun s w m => dispatchCommands subs s w m) length src1 a.1 w.2.2
        if length > 0 then { ok := r.ok, src := r.src, dst := w.2.1, mw := r.mw }
        else { ok := true, src := src1, dst := w.2.1, mw := w.2.2 }
      else { ok := false, src := src, dst := dst, mw := mw } := by
  rw [dispatchCommand, DataReader.readLength_eq]
  by_cases h : src._read + 4 ≤ src._size
  · simp only [h, if_true]
  · simp only [h, if_false]

theorem dispatchCommands_nil (src : DataReader) (dst : DataWriter) (mw : MessageWriter) :
    dispatchCommands [] src dst mw = { ok := true, src := src, dst := dst, mw := mw } := by
  rw [dispatchCommands]

theorem dispatchCommands_cons (cmd : Command) (rest : CommandBuffer) (src : DataReader)
    (dst : DataWriter) (mw : MessageWriter) :
    dispatchCommands (cmd :: rest) src dst mw =
      if (dispatchCommand cmd src dst mw).ok then
        dispatchCommands rest (dispatchCommand cmd src dst mw).src
          (dispatchCommand cmd src dst mw).dst (dispatchCommand cmd src dst mw).mw
      else dispatchCommand cmd src dst mw := by
  rw [dispatchCommands]

end MessageWriter

theorem frame_refl (ok : Bool) (src : DataReader) (dst : DataWriter) (mw : MessageWriter) :
    Frame src dst mw ⟨ok, src, dst, mw⟩ :=
  ⟨rfl, Nat.le_refl _, rfl, rfl, Nat.le_refl _, fun _ => Nat.le_refl _, fun _ _ h _ => h⟩

theorem frame_trans {src : DataReader} {dst : DataWriter} {mw : MessageWriter} {r r' : Run}
    (h : Frame src dst mw r) (h' : Frame r.src r.dst r.mw r') : Frame src dst mw r' := by
  obtain ⟨a1, a2, a3, a4, a5, a6, a7⟩ := h
  obtain ⟨b1, b2, b3, b4, b5, b6, b7⟩ := h'
  refine ⟨b1.trans a1, a2.trans b2, b3.trans a3, b4.trans a4, a5.trans b5,
    fun b => (a6 b).trans (b6 b), fun b p hp hd => b7 b p (a7 b p hp hd) ?_⟩
  intro hb
  exact (hd (a3 ▸ hb)).trans a5

namespace MessageWriter

theorem frame_read (ok : Bool) (src : DataReader) (size : Nat) (dst : DataWriter)
    (mw : MessageWriter) :
    Frame src dst mw
      ⟨ok, (src.read size dst mw).2.1, (src.read size dst mw).2.2.1,
        (src.read size dst mw).2.2.2⟩ := by
  refine ⟨by simp, ?_, by simp, by simp, DataReader.read_next_le _ _ _ _,
    fun b => by simp, fun b p hp hd => DataReader.read_keeps _ _ _ _ _ _ hp hd⟩
  rw [DataReader.read_eq]
  split
  · simp only; split <;> simp
  · exact Nat.le_refl _

/-- The frame of an allocation, the write of its slot and a run `r` into the new view,
after which the caller goes on with its own view. -/
theorem frame_nested (src src1 : DataReader) (dst : DataWriter) (mw : MessageWriter)
    (buffer : BufferId) (n count off : Nat) (r : Run) (ok : Bool)
    (hd : src1._data = src._data) (hr : src._read ≤ src1._read)
    (h : Frame src1 (mw.allocate buffer n).1
      (dst.writeOffsets (mw.allocate buffer n).2 count off).2.2 r) :
    Frame src dst mw
      ⟨ok, r.src, (dst.writeOffsets (mw.allocate buffer n).2 count off).2.1, r.mw⟩ := by
  obtain ⟨a1, a2, _, _, _, a6, a7⟩ := h
  refine ⟨a1.trans hd, hr.trans a2, by simp, by simp,
    DataWriter.writeOffsets_next_le _ _ _ _, ?_, ?_⟩
  · intro b
    refine Nat.le_trans ?_ (a6 b)
    simpa using allocate_length_le mw buffer b n
  · intro b p hp hdst
    refine a7 b p (DataWriter.writeOffsets_keeps _ _ _ _ _ _
      (allocate_keeps _ _ _ _ _ hp) hdst) ?_
    intro hb
    simp only [allocate_fst] at hb ⊢
    subst hb
    exact hp.length_le

theorem frame_readDynamicData (mw : MessageWriter) (src : DataReader) (dst : DataWriter)
    (buffer : BufferId) (size : Nat) :
    Frame src dst mw (mw.readDynamicData src dst buffer size) := by
  rw [readDynamicData_eq]
  split
  · dsimp only
    split
    · exact frame_nested src { src with _read := src._read + 4 } dst mw buffer _ _ _
        ⟨_, _, _, _⟩ _ rfl (Nat.le_add_right _ _) (frame_read true _ _ _ _)
    · exact frame_nested src { src with _read := src._read + 4 } dst mw buffer _ _ _
        ⟨true, _, _, _⟩ _ rfl (Nat.le_add_right _ _) (frame_refl _ _ _ _)
  · exact frame_refl _ _ _ _

theorem frame_dispatchTimes (body : DataReader → DataWriter → MessageWriter → Run)
    (hbody : ∀ s w m, Frame s w m (body s w m)) :
    ∀ (n : Nat) (src : DataReader) (dst : DataWriter) (mw : MessageWriter),
      Frame src dst mw (dispatchTimes body n src dst mw)
  | 0, src, dst, mw => by rw [dispatchTimes]; exact frame_refl _ _ _ _
  | n + 1, src, dst, mw => by
    rw [dispatchTimes]
    split
    · exact frame_trans (hbody src dst mw) (frame_dispatchTimes body hbody n _ _ _)
    · exact hbody src dst mw

mutual
/-- Every command only appends to the buffers and writes behind the start of its view. -/
theorem frame_dispatchCommand : ∀ (cmd : Command) (src : DataReader) (dst : DataWriter)
    (mw : MessageWriter), Frame src dst mw (dispatchCommand cmd src dst mw)
  | .mk .READ_FIXED_SIZE_DATA l size n subs, src, dst, mw => by
    rw [dispatchCommand_fixed]; exact frame_read _ _ _ _ _
  | .mk .READ_STRING l size n subs, src, dst, mw => by
    rw [dispatchCommand_string]; exact frame_readDynamicData _ _ _ _ _
  | .mk .READ_DYNAMIC_SIZE_DATA l size n subs, src, dst, mw => by
    rw [dispatchCommand_dynamicSize]; exact frame_readDynamicData _ _ _ _ _
  | .mk .CONSTANT_ARRAY l size length subs, src, dst, mw => by
    rw [dispatchCommand_constantArray]
    dsimp only
    split
    · exact frame_nested src src dst mw .data _ _ _ _ _ rfl (Nat.le_refl _)
        (frame_dispatchCommands subs src _ _)
    · exact frame_nested src src dst mw .data _ _ _ ⟨true, _, _, _⟩ _ rfl (Nat.le_refl _)
        (frame_refl _ _ _ _)
  | .mk .DYNAMIC_ARRAY l size n subs, src, dst, mw => by
    rw [dispatchCommand_dynamicArray]
    split
    · dsimp only
      split
      · exact frame_nested src { src with _read := src._read + 4 } dst mw .data _ _ _ _ _
          rfl (Nat.le_add_right _ _)
          (frame_dispatchTimes _ (fun s w m => frame_dispatchCommands subs s w m) _ _ _ _)
      · exact frame_nested src { src with _read := src._read + 4 } dst mw .data _ _ _
          ⟨true, _, _, _⟩ _ rfl (Nat.le_add_right _ _) (frame_refl _ _ _ _)
    · exact frame_refl _ _ _ _
/-- Every command buffer only appends to the buffers and writes behind the start of
its view. -/
theorem frame_dispatchCommands : ∀ (cmds : CommandBuffer) (src : DataReader)
    (dst : DataWriter) (mw : MessageWriter), Frame src dst mw (dispatchCommands cmds src dst mw)
  | [], src, dst, mw => by rw [dispatchCommands_nil]; exact frame_refl _ _ _ _
  | cmd :: rest, src, dst, mw => by
    rw [dispatchCommands_cons]
    split
    · exact frame_trans (frame_dispatchCommand cmd src dst mw)
        (frame_dispatchCommands rest _ _ _)
    · exact frame_dispatchCommand cmd src dst mw
end

end MessageWriter

/-! ## `MessageWriter::write` -/

namespace MessageWriter

theorem write_valid (mw : MessageWriter) (d : Definition) (data : List UInt8)
    (hv : d.isValid = true) :
    mw.write (some d) data =
      if (dispatchCommands d.getCommands (DataReader.new data) (mw.allocate .data d.getSize).1
          (mw.allocate .data d.getSize).2).ok then
        (toInt32 mw._dataBuffer.length,
          (dispatchCommands d.getCommands (DataReader.new data)
            (mw.allocate .data d.getSize).1 (mw.allocate .data d.getSize).2).mw)
      else
        (0, (dispatchCommands d.getCommands (DataReader.new data)
          (mw.allocate .data d.getSize).1 (mw.allocate .data d.getSize).2).mw) := by
  unfold write
  simp only [hv, Bool.not_true, Bool.false_eq_true, if_false]
  split <;> simp_all

theorem toInt32_of_lt (n : Nat) (h : n < 2 ^ 31) : toInt32 n = (n : Int) := by
  unfold toInt32
  have h1 : n % 2 ^ 32 = n := Nat.mod_eq_of_lt (by omega)
  rw [h1]
  have h2 : n < 2147483648 := by omega
  simp [h2]

/-- The buffers after a run that starts with the allocation of the record extend the
buffers before the call. -/
theorem dispatch_after_allocate_extends (mw : MessageWriter) (cmds : CommandBuffer)
    (src : DataReader) (size : Nat) (b : BufferId) :
    mw.get b <+: (dispatchCommands cmds src (mw.allocate .data size).1
      (mw.allocate .data size).2).mw.get b := by
  have h := frame_dispatchCommands cmds src (mw.allocate .data size).1 (mw.allocate .data size).2
  refine h.2.2.2.2.2.2 b (mw.get b) (allocate_keeps _ _ _ _ _ (List.prefix_refl _)) ?_
  intro hb
  simp only [allocate_fst] at hb ⊢
  subst hb
  exact Nat.le_refl _

/-- C7: `write` with a null definition or with a definition that is not valid returns
-1 and leaves the data buffer and the string buffer unchanged, for every writer state
and input. -/
theorem write_invalid (mw : MessageWriter) (definition : Option Definition)
    (data : List UInt8) (h : ∀ d, definition = some d → d.isValid = false) :
    mw.write definition data = (-1, mw) := by
  cases definition with
  | none => rfl
  | some d => simp [write, h d rfl]

theorem write_invalid_witness :
    (∀ d, (some ((Definition.new "P" 0 false).addField "int32" "a" false (-1)).2) = some d →
        d.isValid = false) ∧
      (MessageWriter.mk [1, 2] [3]).write
        (some ((Definition.new "P" 0 false).addField "int32" "a" false (-1)).2) [7, 0, 0, 0]
        = (-1, MessageWriter.mk [1, 2] [3]) :=
  ⟨by intro d hd; cases hd; rfl,
    write_invalid _ _ _ (by intro d hd; cases hd; rfl)⟩

/-- In exact arithmetic every call of `write`, successful or not, only appends to the two
buffers: the data buffer before the call is a prefix of the data buffer after it, and
likewise the string buffer, so no byte at an offset returned earlier is modified. -/
theorem write_appends (mw : MessageWriter) (definition : Option Definition)
    (data : List UInt8) :
    mw._dataBuffer <+: (mw.write definition data).2._dataBuffer ∧
      mw._stringBuffer <+: (mw.write definition data).2._stringBuffer := by
  cases definition with
  | none => exact ⟨List.prefix_refl _, List.prefix_refl _⟩
  | some d =>
    by_cases hv : d.isValid = true
    · rw [write_valid mw d data hv]
      have h1 := dispatch_after_allocate_extends mw d.getCommands (DataReader.new data)
        d.getSize .data
      have h2 := dispatch_after_allocate_extends mw d.getCommands (DataReader.new data)
        d.getSize .strings
      split <;> exact ⟨h1, h2⟩
    · have hv' : d.isValid = false := by simpa using hv
      rw [write_invalid mw (some d) data (by intro d' hd; cases hd; exact hv')]
      exact ⟨List.prefix_refl _, List.prefix_refl _⟩

/-- C5: when `write` is called with a valid definition and the dispatch of its commands
succeeds, the returned `int32_t` is the length the data buffer had before the call (the
length itself whenever it is below `2 ^ 31`), and the record window is the view of
`getSize` bytes that starts at that index and lies inside the data buffer after the
call. -/
theorem write_returns_offset (mw : MessageWriter) (d : Definition) (data : List UInt8)
    (hv : d.isValid = true)
    (hok : (dispatchCommands d.getCommands (DataReader.new data)
      (mw.allocate .data d.getSize).1 (mw.allocate .data d.getSize).2).ok = true) :
    (mw.write (some d) data).1 = toInt32 mw._dataBuffer.length ∧
      (mw._dataBuffer.length < 2 ^ 31 →
        (mw.write (some d) data).1 = (mw._dataBuffer.length : Int)) ∧
      (mw.allocate .data d.getSize).1 =
        { buffer := .data, next := mw._dataBuffer.length,
          end_ := mw._dataBuffer.length + d.getSize } ∧
      mw._dataBuffer.length + d.getSize ≤ (mw.write (some d) data).2._dataBuffer.length := by
  have hw := write_valid mw d data hv
  rw [hok] at hw
  simp only [if_true] at hw
  refine ⟨by rw [hw], fun hlt => by rw [hw, toInt32_of_lt _ hlt], by simp, ?_⟩
  rw [hw]
  have h := frame_dispatchCommands d.getCommands (DataReader.new data)
    (mw.allocate .data d.getSize).1 (mw.allocate .data d.getSize).2
  have h6 := h.2.2.2.2.2.1 .data
  simp only [get_data] at h6
  refine Nat.le_trans ?_ h6
  rw [allocate_snd]
  simp [MessageWriter.set]

end MessageWriter

theorem finalized_exampleP :
    finalized 3 DefinitionRegistry.exampleP "P" = some examplePFinalized := by rfl

namespace MessageWriter

theorem write_returns_offset_witness :
    (examplePFinalized.isValid = true ∧
      (dispatchCommands examplePFinalized.getCommands (DataReader.new [1, 0, 0, 0, 2, 0, 0, 0])
        ((MessageWriter.mk [9, 9] []).allocate .data examplePFinalized.getSize).1
        ((MessageWriter.mk [9, 9] []).allocate .data examplePFinalized.getSize).2).ok = true) ∧
      ((MessageWriter.mk [9, 9] []).write (some examplePFinalized)
          [1, 0, 0, 0, 2, 0, 0, 0]).1 = toInt32 (MessageWriter.mk [9, 9] [])._dataBuffer.length ∧
      ((MessageWriter.mk [9, 9] [])._dataBuffer.length < 2 ^ 31 →
        ((MessageWriter.mk [9, 9] []).write (some examplePFinalized)
          [1, 0, 0, 0, 2, 0, 0, 0]).1 = ((MessageWriter.mk [9, 9] [])._dataBuffer.length : Int)) ∧
      ((MessageWriter.mk [9, 9] []).allocate .data examplePFinalized.getSize).1 =
        { buffer := .data, next := (MessageWriter.mk [9, 9] [])._dataBuffer.length,
          end_ := (MessageWriter.mk [9, 9] [])._dataBuffer.length + examplePFinalized.getSize } ∧
      (MessageWriter.mk [9, 9] [])._dataBuffer.length + examplePFinalized.getSize ≤
        ((MessageWriter.mk [9, 9] []).write (some examplePFinalized)
          [1, 0, 0, 0, 2, 0, 0, 0]).2._dataBuffer.length :=
  ⟨⟨by rfl, by decide⟩, write_returns_offset _ _ _ (by rfl) (by decide)⟩

/-- C6 (failing input): on the finalized `P { a: int32, b: int32 }` and an input of four
bytes the dispatch fails for lack of input and `write` returns 0, not -1; 0 is also
what the first successful `write` returns. -/
theorem write_underrun_returns_zero :
    finalized 3 DefinitionRegistry.exampleP "P" = some examplePFinalized ∧
      (dispatchCommands examplePFinalized.getCommands (DataReader.new [1, 0, 0, 0])
        (MessageWriter.new.allocate .data examplePFinalized.getSize).1
        (MessageWriter.new.allocate .data examplePFinalized.getSize).2).ok = false ∧
      MessageWriter.new.write (some examplePFinalized) [1, 0, 0, 0] =
        (0, MessageWriter.mk [0, 0, 0, 0, 0, 0, 0, 0] []) ∧
      MessageWriter.new.write (some examplePFinalized) [1, 0, 0, 0, 2, 0, 0, 0] =
        (0, MessageWriter.mk [1, 0, 0, 0, 2, 0, 0, 0] []) :=
  ⟨by rfl, by decide, by decide, by decide⟩

end MessageWriter

/-! ## The optimizer preserves the runs -/

theorem runEquiv_refl (r : Run) : RunEquiv r r := ⟨rfl, fun _ => rfl, fun _ => rfl⟩

theorem runEquiv_symm {r1 r2 : Run} (h : RunEquiv r1 r2) : RunEquiv r2 r1 :=
  ⟨h.1.symm, fun hok => (h.2.1 (h.1.trans hok)).symm, fun b => (h.2.2 b).symm⟩

theorem runEquiv_trans {r1 r2 r3 : Run} (h : RunEquiv r1 r2) (h' : RunEquiv r2 r3) :
    RunEquiv r1 r3 :=
  ⟨h.1.trans h'.1, fun hok => (h.2.1 hok).trans (h'.2.1 (h.1.symm.trans hok)),
    fun b => (h.2.2 b).trans (h'.2.2 b)⟩

theorem cmdsEquiv_refl (xs : CommandBuffer) : CmdsEquiv xs xs := fun _ _ _ => runEquiv_refl _

theorem cmdsEquiv_symm {xs ys : CommandBuffer} (h : CmdsEquiv xs ys) : CmdsEquiv ys xs :=
  fun s d m => runEquiv_symm (h s d m)

theorem cmdsEquiv_trans {xs ys zs : CommandBuffer} (h : CmdsEquiv xs ys)
    (h' : CmdsEquiv ys zs) : CmdsEquiv xs zs :=
  fun s d m => runEquiv_trans (h s d m) (h' s d m)

/-- Runs that agree stay in agreement when both go on with continuations that agree. -/
theorem runEquiv_bind {r1 r2 : Run} (h : RunEquiv r1 r2)
    (f g : DataReader → DataWriter → MessageWriter → Run)
    (hfg : ∀ s d m, RunEquiv (f s d m) (g s d m)) :
    RunEquiv (if r1.ok then f r1.src r1.dst r1.mw else r1)
      (if r2.ok then g r2.src r2.dst r2.mw else r2) := by
  by_cases hok : r1.ok = true
  · have h12 := h.2.1 hok
    subst h12
    simp only [hok, if_true]
    exact hfg _ _ _
  · have hok2 : ¬ r2.ok = true := fun h2 => hok (h.1.trans h2)
    simp only [hok, hok2, if_false]
    exact h

namespace MessageWriter

theorem dispatchCommands_append (xs ys : CommandBuffer) (src : DataReader) (dst : DataWriter)
    (mw : MessageWriter) :
    dispatchCommands (xs ++ ys) src dst mw =
      if (dispatchCommands xs src dst mw).ok then
        dispatchCommands ys (dispatchCommands xs src dst mw).src
          (dispatchCommands xs src dst mw).dst (dispatchCommands xs src dst mw).mw
      else dispatchCommands xs src dst mw := by
  induction xs generalizing src dst mw with
  | nil => simp [dispatchCommands_nil]
  | cons c xs ih =>
    rw [List.cons_append, dispatchCommands_cons, dispatchCommands_cons]
    by_cases hc : (dispatchCommand c src dst mw).ok = true
    · simp only [hc, if_true]
      exact ih _ _ _
    · simp [hc]

theorem dispatchCommands_singleton (c : Command) (src : DataReader) (dst : DataWriter)
    (mw : MessageWriter) : dispatchCommands [c] src dst mw = dispatchCommand c src dst mw := by
  rw [dispatchCommands_cons, dispatchCommands_nil]
  split
  · rename_i h
    rcases hr : dispatchCommand c src dst mw with ⟨ok, s, d, m⟩
    rw [hr] at h
    simp only at h
    subst h
    rfl
  · rfl

end MessageWriter

theorem cmdsEquiv_append {xs xs' ys ys' : CommandBuffer} (h : CmdsEquiv xs xs')
    (h' : CmdsEquiv ys ys') : CmdsEquiv (xs ++ ys) (xs' ++ ys') := by
  intro s d m
  rw [MessageWriter.dispatchCommands_append, MessageWriter.dispatchCommands_append]
  exact runEquiv_bind (h s d m) _ _ (fun s d m => h' s d m)

namespace DataReader

/-- A fixed read succeeds exactly when the input and the view both have room. -/
theorem read_of_room (src : DataReader) (size : Nat) (dst : DataWriter) (mw : MessageWriter)
    (h1 : src._read + size ≤ src._size) (h2 : dst.next + size ≤ dst.end_) :
    src.read size dst mw =
      (true, { src with _read := src._read + size }, { dst with next := dst.next + size },
        mw.set dst.buffer
          (memcpy (mw.get dst.buffer) dst.next ((src._data.drop src._read).take size))) := by
  have hlen : ((src._data.drop src._read).take size).length = size := by
    simp only [List.length_take, List.length_drop, _size] at h1 ⊢
    omega
  rw [read_eq, DataWriter.write_def]
  simp [h1, hlen, h2]

theorem read_of_no_room (src : DataReader) (size : Nat) (dst : DataWriter)
    (mw : MessageWriter)
    (h : ¬(src._read + size ≤ src._size ∧ dst.next + size ≤ dst.end_)) :
    src.read size dst mw = (false, src, dst, mw) := by
  rw [read_eq]
  by_cases h1 : src._read + size ≤ src._size
  · have hlen : ((src._data.drop src._read).take size).length = size := by
      simp only [List.length_take, List.length_drop, _size] at h1 ⊢
      omega
    have h2 : ¬ dst.next + size ≤ dst.end_ := fun h2 => h ⟨h1, h2⟩
    rw [DataWriter.write_def]
    simp [h1, hlen, h2]
  · simp [h1]

end DataReader

namespace MessageWriter

theorem dispatchCommands_fixed_cons (l : String) (size n : Nat) (subs rest : CommandBuffer)
    (src : DataReader) (dst : DataWriter) (mw : MessageWriter) :
    dispatchCommands (.mk .READ_FIXED_SIZE_DATA l size n subs :: rest) src dst mw =
      if src._read + size ≤ src._size ∧ dst.next + size ≤ dst.end_ then
        dispatchCommands rest { src with _read := src._read + size }
          { dst with next := dst.next + size }
          (mw.set dst.buffer
            (memcpy (mw.get dst.buffer) dst.next ((src._data.drop src._read).take size)))
      else ⟨false, src, dst, mw⟩ := by
  rw [dispatchCommands_cons, dispatchCommand_fixed]
  by_cases h : src._read + size ≤ src._size ∧ dst.next + size ≤ dst.end_
  · rw [DataReader.read_of_room _ _ _ _ h.1 h.2]
    simp [h]
  · rw [DataReader.read_of_no_room _ _ _ _ h]
    simp [h]

end MessageWriter

/-- Two fixed reads in a row run like one fixed read of the sum of their sizes. -/
theorem cmdsEquiv_merge (l1 l2 l3 : String) (a b n1 n2 n3 : Nat)
    (s1 s2 s3 : CommandBuffer) :
    CmdsEquiv [.mk .READ_FIXED_SIZE_DATA l3 (a + b) n3 s3]
      [.mk .READ_FIXED_SIZE_DATA l1 a n1 s1, .mk .READ_FIXED_SIZE_DATA l2 b n2 s2] := by
  intro src dst mw
  rw [MessageWriter.dispatchCommands_fixed_cons, MessageWriter.dispatchCommands_fixed_cons,
    MessageWriter.dispatchCommands_fixed_cons, MessageWriter.dispatchCommands_nil]
  by_cases hab : src._read + (a + b) ≤ src._size ∧ dst.next + (a + b) ≤ dst.end_
  · have ha : src._read + a ≤ src._size ∧ dst.next + a ≤ dst.end_ := ⟨by omega, by omega⟩
    have hb : src._read + a + b ≤ src._size ∧ dst.next + a + b ≤ dst.end_ :=
      ⟨by omega, by omega⟩
    have hlen : ((src._data.drop src._read).take a).length = a := by
      have := ha.1
      simp only [List.length_take, List.length_drop, DataReader._size] at this ⊢
      omega
    have hcat : (src._data.drop src._read).take (a + b) =
        (src._data.drop src._read).take a ++ (src._data.drop (src._read + a)).take b := by
      rw [List.take_add, List.drop_drop]
    simp only [hab, ha, and_self, if_true]
    simp only [DataReader._size] at hb ⊢
    simp only [hb, and_self, if_true]
    have hmem := memcpy_memcpy (mw.get dst.buffer) dst.next
      ((src._data.drop src._read).take a) ((src._data.drop (src._read + a)).take b)
    rw [hlen] at hmem
    simp only [MessageWriter.get_set_same, MessageWriter.set_set, hmem, hcat, Nat.add_assoc]
    exact runEquiv_refl _
  · simp only [hab, if_false]
    by_cases ha : src._read + a ≤ src._size ∧ dst.next + a ≤ dst.end_
    · have hb : ¬(src._read + a + b ≤ src._size ∧ dst.next + a + b ≤ dst.end_) := by
        intro hb
        exact hab ⟨by omega, by omega⟩
      simp only [ha, and_self, if_true]
      simp only [DataReader._size] at hb ⊢
      simp only [hb, if_false]
      refine ⟨rfl, fun h => by simp at h, fun c => ?_⟩
      by_cases hc : c = dst.buffer
      · subst hc; simp
      · simp [MessageWriter.get_set_ne _ _ _ _ hc]
    · simp only [ha, if_false]
      exact runEquiv_refl _

theorem runEquiv_nest {r r' : Run} (h : RunEquiv r r') (d : DataWriter) :
    RunEquiv ⟨r.ok, r.src, d, r.mw⟩ ⟨r'.ok, r'.src, d, r'.mw⟩ := by
  refine ⟨h.1, fun hok => ?_, h.2.2⟩
  have := h.2.1 hok
  subst this
  rfl

namespace MessageWriter

theorem runEquiv_dispatchTimes (f g : DataReader → DataWriter → MessageWriter → Run)
    (hfg : ∀ s d m, RunEquiv (f s d m) (g s d m)) :
    ∀ (n : Nat) (src : DataReader) (dst : DataWriter) (mw : MessageWriter),
      RunEquiv (dispatchTimes f n src dst mw) (dispatchTimes g n src dst mw)
  | 0, src, dst, mw => by rw [dispatchTimes, dispatchTimes]; exact runEquiv_refl _
  | n + 1, src, dst, mw => by
    rw [dispatchTimes, dispatchTimes]
    exact runEquiv_bind (hfg src dst mw) _ _
      (fun s d m => runEquiv_dispatchTimes f g hfg n s d m)

/-- A constant array runs the same with subcommands that run the same. -/
theorem runEquiv_constantArray (l l' : String) (size length : Nat) (subs subs' : CommandBuffer)
    (h : CmdsEquiv subs subs') (src : DataReader) (dst : DataWriter) (mw : MessageWriter) :
    RunEquiv (dispatchCommand (.mk .CONSTANT_ARRAY l size length subs) src dst mw)
      (dispatchCommand (.mk .CONSTANT_ARRAY l' size length subs') src dst mw) := by
  rw [dispatchCommand_constantArray, dispatchCommand_constantArray]
  dsimp only
  split
  · exact runEquiv_nest (h _ _ _) _
  · exact runEquiv_refl _

/-- A dynamic array runs the same with subcommands that run the same. -/
theorem runEquiv_dynamicArray (l l' : String) (size n n' : Nat) (subs subs' : CommandBuffer)
    (h : CmdsEquiv subs subs') (src : DataReader) (dst : DataWriter) (mw : MessageWriter) :
    RunEquiv (dispatchCommand (.mk .DYNAMIC_ARRAY l size n subs) src dst mw)
      (dispatchCommand (.mk .DYNAMIC_ARRAY l' size n' subs') src dst mw) := by
  rw [dispatchCommand_dynamicArray, dispatchCommand_dynamicArray]
  split
  · dsimp only
    split
    · exact runEquiv_nest (runEquiv_dispatchTimes _ _ (fun s d m => h s d m) _ _ _ _) _
    · exact runEquiv_refl _
  · exact runEquiv_refl _

end MessageWriter

theorem cmdsEquiv_singleton {c c' : Command}
    (h : ∀ src dst mw, RunEquiv (MessageWriter.dispatchCommand c src dst mw)
      (MessageWriter.dispatchCommand c' src dst mw)) : CmdsEquiv [c] [c'] := by
  intro s d m
  rw [MessageWriter.dispatchCommands_singleton, MessageWriter.dispatchCommands_singleton]
  exact h s d m

theorem cmdsEquiv_pushFixed (ret : CommandBuffer) (l : String) (size n : Nat)
    (subs : CommandBuffer) :
    CmdsEquiv (pushFixed ret (.mk .READ_FIXED_SIZE_DATA l size n subs))
      (ret ++ [.mk .READ_FIXED_SIZE_DATA l size n subs]) := by
  rcases List.eq_nil_or_concat' ret with rfl | ⟨pre, top, rfl⟩
  · rw [pushFixed_nil]; exact cmdsEquiv_refl _
  · rw [pushFixed_snoc]
    by_cases htop : top.type = CommandType.READ_FIXED_SIZE_DATA
    · simp only [htop, ne_eq, not_true_eq_false, if_false]
      rw [List.append_assoc]
      refine cmdsEquiv_append (cmdsEquiv_refl pre) ?_
      cases top with
      | mk t lt st nt subt =>
        simp only [Command.type_mk] at htop
        subst htop
        exact cmdsEquiv_merge _ _ _ _ _ _ _ _ _ _ _
    · simp only [ne_eq, htop, not_false_eq_true, if_true]
      exact cmdsEquiv_refl _

mutual
/-- One step of the optimizer leaves the run of the output built so far, followed by
the command, unchanged. -/
theorem optimizeStep_equiv : ∀ (c : Command) (ret : CommandBuffer),
    CmdsEquiv (optimizeStep ret c) (ret ++ [c])
  | .mk .READ_FIXED_SIZE_DATA label size length subs, ret => by
    rw [optimizeStep]; exact cmdsEquiv_pushFixed ret _ _ _ _
  | .mk .CONSTANT_ARRAY label size length subs, ret => by
    rw [optimizeStep]
    refine cmdsEquiv_append (cmdsEquiv_refl ret) (cmdsEquiv_singleton fun s d m => ?_)
    exact MessageWriter.runEquiv_constantArray _ _ _ _ _ _
      (by simpa using optimizeLoop_equiv subs []) s d m
  | .mk .DYNAMIC_ARRAY label size length subs, ret => by
    rw [optimizeStep]
    refine cmdsEquiv_append (cmdsEquiv_refl ret) (cmdsEquiv_singleton fun s d m => ?_)
    exact MessageWriter.runEquiv_dynamicArray _ _ _ _ _ _ _
      (by simpa using optimizeLoop_equiv subs []) s d m
  | .mk .READ_STRING label size length subs, ret => by
    rw [optimizeStep]; exact cmdsEquiv_refl _
  | .mk .READ_DYNAMIC_SIZE_DATA label size length subs, ret => by
    rw [optimizeStep]; exact cmdsEquiv_refl _
/-- The optimizer loop leaves the run of the output built so far, followed by the
input, unchanged. -/
theorem optimizeLoop_equiv : ∀ (input ret : CommandBuffer),
    CmdsEquiv (optimizeLoop input ret) (ret ++ input)
  | [], ret => by rw [optimizeLoop]; simpa using cmdsEquiv_refl ret
  | c :: rest, ret => by
    rw [optimizeLoop]
    have h1 := optimizeLoop_equiv rest (optimizeStep ret c)
    have h2 := cmdsEquiv_append (optimizeStep_equiv c ret) (cmdsEquiv_refl rest)
    simpa using cmdsEquiv_trans h1 h2
end

/-- Running an optimized command buffer agrees with running the buffer itself, from
every state: same result, same final state on success, same buffer lengths always. -/
theorem optimizeCommands_equiv (c : CommandBuffer) : CmdsEquiv (optimizeCommands c) c := by
  simpa [optimizeCommands] using optimizeLoop_equiv c []

namespace MessageWriter

/-- C3 (counterexample): for `P { a: int32, b: int32 }` the recorder produces two fixed
reads of four bytes; on an input of four bytes the unoptimized commands copy the first
four bytes into the record before they fail, the optimized command copies nothing, and
the data buffers differ. -/
theorem write_optimizeCommands_counterexample :
    ((DefinitionRegistry.finalizeAll 3 DefinitionRegistry.exampleP).bind fun r =>
        recordDefinitionCommands 2 r.2 examplePFinalized) = some examplePRecorded ∧
      MessageWriter.new.write (some { examplePFinalized with _commands := examplePRecorded })
        [1, 0, 0, 0] = (0, MessageWriter.mk [1, 0, 0, 0, 0, 0, 0, 0] []) ∧
      MessageWriter.new.write
        (some { examplePFinalized with _commands := optimizeCommands examplePRecorded })
        [1, 0, 0, 0] = (0, MessageWriter.mk [0, 0, 0, 0, 0, 0, 0, 0] []) ∧
      (MessageWriter.new.write (some { examplePFinalized with _commands := examplePRecorded })
        [1, 0, 0, 0]).2._dataBuffer ≠
      (MessageWriter.new.write
        (some { examplePFinalized with _commands := optimizeCommands examplePRecorded })
        [1, 0, 0, 0]).2._dataBuffer :=
  ⟨by rfl, by decide, by decide, by decide⟩

/-- C3 (amended): for every command sequence `c`, every input and every writer state,
when the execution of `c` or the execution of `optimizeCommands c` succeeds, both
succeed and `write` returns the same record offset and leaves byte-identical data and
string buffers. -/
theorem write_optimizeCommands (mw : MessageWriter) (d : Definition) (c : CommandBuffer)
    (data : List UInt8)
    (hok : (dispatchCommands c (DataReader.new data) (mw.allocate .data d.getSize).1
        (mw.allocate .data d.getSize).2).ok = true ∨
      (dispatchCommands (optimizeCommands c) (DataReader.new data)
        (mw.allocate .data d.getSize).1 (mw.allocate .data d.getSize).2).ok = true) :
    ((dispatchCommands c (DataReader.new data) (mw.allocate .data d.getSize).1
        (mw.allocate .data d.getSize).2).ok = true ∧
      (dispatchCommands (optimizeCommands c) (DataReader.new data)
        (mw.allocate .data d.getSize).1 (mw.allocate .data d.getSize).2).ok = true) ∧
    mw.write (some { d with _commands := optimizeCommands c }) data =
      mw.write (some { d with _commands := c }) data := by
  have h := optimizeCommands_equiv c (DataReader.new data) (mw.allocate .data d.getSize).1
    (mw.allocate .data d.getSize).2
  have hopt : (dispatchCommands (optimizeCommands c) (DataReader.new data)
      (mw.allocate .data d.getSize).1 (mw.allocate .data d.getSize).2).ok = true := by
    rcases hok with hok | hok
    · exact h.1.trans hok
    · exact hok
  have heq := h.2.1 hopt
  refine ⟨⟨h.1.symm.trans hopt, hopt⟩, ?_⟩
  by_cases hv : d.isValid = true
  · have e1 := write_valid mw { d with _commands := optimizeCommands c } data hv
    have e2 := write_valid mw { d with _commands := c } data hv
    simp only [Definition.getCommands, Definition.getSize] at e1 e2 heq
    rw [e1, e2, heq]
  · have hv' : d.isValid = false := by simpa using hv
    rw [write_invalid mw _ data (by intro d' hd; cases hd; exact hv'),
      write_invalid mw _ data (by intro d' hd; cases hd; exact hv')]

theorem write_optimizeCommands_witness :
    ((dispatchCommands examplePRecorded (DataReader.new [1, 0, 0, 0, 2, 0, 0, 0])
        ((MessageWriter.mk [9] [7]).allocate .data examplePFinalized.getSize).1
        ((MessageWriter.mk [9] [7]).allocate .data examplePFinalized.getSize).2).ok = true ∨
      (dispatchCommands (optimizeCommands examplePRecorded)
        (DataReader.new [1, 0, 0, 0, 2, 0, 0, 0])
        ((MessageWriter.mk [9] [7]).allocate .data examplePFinalized.getSize).1
        ((MessageWriter.mk [9] [7]).allocate .data examplePFinalized.getSize).2).ok = true) ∧
    (((dispatchCommands examplePRecorded (DataReader.new [1, 0, 0, 0, 2, 0, 0, 0])
        ((MessageWriter.mk [9] [7]).allocate .data examplePFinalized.getSize).1
        ((MessageWriter.mk [9] [7]).allocate .data examplePFinalized.getSize).2).ok = true ∧
      (dispatchCommands (optimizeCommands examplePRecorded)
        (DataReader.new [1, 0, 0, 0, 2, 0, 0, 0])
        ((MessageWriter.mk [9] [7]).allocate .data examplePFinalized.getSize).1
        ((MessageWriter.mk [9] [7]).allocate .data examplePFinalized.getSize).2).ok = true) ∧
    (MessageWriter.mk [9] [7]).write
        (some { examplePFinalized with _commands := optimizeCommands examplePRecorded })
        [1, 0, 0, 0, 2, 0, 0, 0] =
      (MessageWriter.mk [9] [7]).write
        (some { examplePFinalized with _commands := examplePRecorded })
        [1, 0, 0, 0, 2, 0, 0, 0]) :=
  ⟨Or.inl (by decide), write_optimizeCommands _ _ _ _ (Or.inl (by decide))⟩

end MessageWriter

/-! ## The registry as a map -/

namespace DefinitionRegistry

theorem getDefinition_modify_same (reg : DefinitionRegistry) (k : String)
    (g : Definition → Definition) :
    getDefinition (modify reg k g) k = (getDefinition reg k).map g := by
  induction reg with
  | nil => rfl
  | cons p rest ih =>
    obtain ⟨k1, d1⟩ := p
    by_cases h : k1 = k
    · simp [modify, getDefinition, h]
    · simp [modify, getDefinition, h, ih]

theorem getDefinition_modify_ne (reg : DefinitionRegistry) (k k1 : String)
    (g : Definition → Definition) (h : k1 ≠ k) :
    getDefinition (modify reg k g) k1 = getDefinition reg k1 := by
  induction reg with
  | nil => rfl
  | cons p rest ih =>
    obtain ⟨k2, d2⟩ := p
    by_cases h2 : k2 = k
    · subst h2
      have : ¬ k2 = k1 := fun e => h e.symm
      simp [modify, getDefinition, this]
    · by_cases h3 : k2 = k1
      · subst h3
        simp [modify, getDefinition, h2]
      · simp [modify, getDefinition, h2, h3, ih]

theorem getDefinition_modify (reg : DefinitionRegistry) (k k1 : String)
    (g : Definition → Definition) :
    getDefinition (modify reg k g) k1 =
      if k1 = k then (getDefinition reg k).map g else getDefinition reg k1 := by
  by_cases h : k1 = k
  · subst h; simp [getDefinition_modify_same]
  · simp [h, getDefinition_modify_ne _ _ _ _ h]

theorem modify_modify (reg : DefinitionRegistry) (k : String)
    (g g1 : Definition → Definition) :
    modify (modify reg k g) k g1 = modify reg k (fun d => g1 (g d)) := by
  induction reg with
  | nil => rfl
  | cons p rest ih =>
    obtain ⟨k1, d1⟩ := p
    by_cases h : k1 = k
    · simp [modify, h]
    · simp [modify, h, ih]

theorem modify_of_fixed (reg : DefinitionRegistry) (k : String) (g : Definition → Definition)
    (h : ∀ d, getDefinition reg k = some d → g d = d) : modify reg k g = reg := by
  induction reg with
  | nil => rfl
  | cons p rest ih =>
    obtain ⟨k1, d1⟩ := p
    by_cases h1 : k1 = k
    · have := h d1 (by simp [getDefinition, h1])
      simp [modify, h1, this]
    · have h2 : ∀ d, getDefinition rest k = some d → g d = d := by
        intro d hd
        exact h d (by simpa [getDefinition, h1] using hd)
      simp [modify, h1, ih h2]

theorem map_fst_modify (reg : DefinitionRegistry) (k : String) (g : Definition → Definition) :
    (modify reg k g).map Prod.fst = reg.map Prod.fst := by
  induction reg with
  | nil => rfl
  | cons p rest ih =>
    obtain ⟨k1, d1⟩ := p
    by_cases h : k1 = k
    · simp [modify, h]
    · simp [modify, h, ih]

theorem getDefinition_isSome_modify (reg : DefinitionRegistry) (k k1 : String)
    (g : Definition → Definition) :
    (getDefinition (modify reg k g) k1).isSome = (getDefinition reg k1).isSome := by
  rw [getDefinition_modify]
  split
  · rename_i h; subst h; cases getDefinition reg k1 <;> rfl
  · rfl

theorem getDefinition_isSome_of_mem (reg : DefinitionRegistry) (k : String)
    (h : k ∈ reg.map Prod.fst) : (getDefinition reg k).isSome = true := by
  induction reg with
  | nil => simp at h
  | cons p rest ih =>
    obtain ⟨k1, d1⟩ := p
    by_cases h1 : k1 = k
    · simp [getDefinition, h1]
    · have : k ∈ rest.map Prod.fst := by
        simp only [List.map_cons, List.mem_cons] at h
        rcases h with h | h
        · exact absurd h.symm h1
        · exact h
      simp [getDefinition, h1, ih this]

end DefinitionRegistry

/-! ## Relations between registries -/

theorem kept_refl (P : String → Prop) (reg : DefinitionRegistry) : Kept P reg reg :=
  ⟨fun _ _ h _ _ => h, fun _ => rfl⟩

theorem kept_mono {P Q : String → Prop} {reg reg1 : DefinitionRegistry}
    (hPQ : ∀ k, P k → Q k) (h : Kept P reg reg1) : Kept Q reg reg1 :=
  ⟨fun k d hd hv hq => h.1 k d hd hv (fun hp => hq (hPQ k hp)), h.2⟩

theorem kept_trans {P : String → Prop} {reg reg1 reg2 : DefinitionRegistry}
    (h : Kept P reg reg1) (h1 : Kept P reg1 reg2) : Kept P reg reg2 :=
  ⟨fun k d hd hv hp => h1.1 k d (h.1 k d hd hv hp) hv hp,
    fun k => (h1.2 k).trans (h.2 k)⟩

/-- A mutation of the definition `self` keeps every other definition. -/
theorem kept_modify (reg : DefinitionRegistry) (self : String) (g : Definition → Definition) :
    Kept (fun k => k = self) reg (reg.modify self g) := by
  refine ⟨fun k d hd _ hk => ?_, fun k => DefinitionRegistry.getDefinition_isSome_modify _ _ _ _⟩
  rw [DefinitionRegistry.getDefinition_modify_ne _ _ _ _ hk]
  exact hd

/-- A mutation of a definition that is not valid keeps every valid definition. -/
theorem kept_modify_of_invalid (reg : DefinitionRegistry) (self : String)
    (g : Definition → Definition)
    (h : ∀ d, reg.getDefinition self = some d → d._isValid = false) :
    Kept (fun _ => False) reg (reg.modify self g) := by
  refine ⟨fun k d hd hv _ => ?_, fun k => DefinitionRegistry.getDefinition_isSome_modify _ _ _ _⟩
  by_cases hk : k = self
  · subst hk
    rw [h d hd] at hv
    exact absurd hv (by simp)
  · rw [DefinitionRegistry.getDefinition_modify_ne _ _ _ _ hk]
    exact hd

theorem sameSlot_refl (f : Field) : f.SameSlot f := ⟨rfl, rfl, rfl, rfl⟩

theorem sameSlot_trans {f f1 f2 : Field} (h : f.SameSlot f1) (h1 : f1.SameSlot f2) :
    f.SameSlot f2 :=
  ⟨h1.1.trans h.1, h1.2.1.trans h.2.1, h1.2.2.1.trans h.2.2.1, h1.2.2.2.trans h.2.2.2⟩

theorem forall₂_sameSlot_refl (fs : List Field) : List.Forall₂ Field.SameSlot fs fs := by
  induction fs with
  | nil => exact List.Forall₂.nil
  | cons f fs ih => exact List.Forall₂.cons (sameSlot_refl f) ih

theorem forall₂_sameSlot_trans {as bs cs : List Field}
    (h : List.Forall₂ Field.SameSlot as bs) (h1 : List.Forall₂ Field.SameSlot bs cs) :
    List.Forall₂ Field.SameSlot as cs := by
  induction h generalizing cs with
  | nil => cases h1; exact List.Forall₂.nil
  | cons hab _ ih =>
    cases h1 with
    | cons hbc h1 => exact List.Forall₂.cons (sameSlot_trans hab hbc) (ih h1)

theorem sameShape_refl (d : Definition) : d.SameShape d :=
  ⟨rfl, rfl, forall₂_sameSlot_refl _, fun _ => rfl, fun h => h⟩

theorem sameShape_trans {d d1 d2 : Definition} (h : d.SameShape d1) (h1 : d1.SameShape d2) :
    d.SameShape d2 := by
  obtain ⟨a1, a2, a3, a4, a5⟩ := h
  obtain ⟨b1, b2, b3, b4, b5⟩ := h1
  refine ⟨b1.trans a1, b2.trans a2, forall₂_sameSlot_trans a3 b3, fun he => ?_,
    fun hc => a5 (b5 hc)⟩
  have he1 : d1._fields = [] := by
    rw [he] at a3
    exact List.forall₂_nil_left_iff.mp a3
  exact (b4 he1).trans (a4 he)

theorem shapeKept_refl (reg : DefinitionRegistry) : ShapeKept reg reg :=
  fun _ d1 h => ⟨d1, h, sameShape_refl d1⟩

theorem shapeKept_trans {reg reg1 reg2 : DefinitionRegistry} (h : ShapeKept reg reg1)
    (h1 : ShapeKept reg1 reg2) : ShapeKept reg reg2 := by
  intro k d2 hd2
  obtain ⟨d1, hd1, s1⟩ := h1 k d2 hd2
  obtain ⟨d, hd, s⟩ := h k d1 hd1
  exact ⟨d, hd, sameShape_trans s s1⟩

/-- A mutation that keeps the shape of the definition keeps the shapes of the registry. -/
theorem shapeKept_modify (reg : DefinitionRegistry) (self : String)
    (g : Definition → Definition)
    (hg : ∀ d, reg.getDefinition self = some d → d.SameShape (g d)) :
    ShapeKept reg (reg.modify self g) := by
  intro k d1 hd1
  rw [DefinitionRegistry.getDefinition_modify] at hd1
  by_cases hk : k = self
  · subst hk
    simp only [if_true] at hd1
    cases hd : reg.getDefinition k with
    | none => rw [hd] at hd1; simp at hd1
    | some d =>
      rw [hd] at hd1
      simp only [Option.map_some', Option.some.injEq] at hd1
      subst hd1
      exact ⟨d, rfl, hg d hd⟩
  · simp only [hk, if_false] at hd1
    exact ⟨d1, hd1, sameShape_refl d1⟩

/-! ## Settled records stay settled -/

theorem getSize_kept {P : String → Prop} {reg reg1 : DefinitionRegistry} (h : Kept P reg reg1)
    (f : Field) (hf : Resolved P reg [f]) : f.getSize reg1 = f.getSize reg := by
  obtain ⟨hp, fd, hfd, hv, hn⟩ := hf f (by simp)
  unfold Field.getSize
  rw [hp]
  simp only [Option.some_bind]
  rw [hfd, h.1 _ _ hfd hv hn]

theorem resolved_cons {S : String → Prop} {reg : DefinitionRegistry} {f : Field}
    {fs : List Field} : Resolved S reg (f :: fs) ↔ Resolved S reg [f] ∧ Resolved S reg fs := by
  unfold Resolved
  simp

theorem resolved_append {S : String → Prop} {reg : DefinitionRegistry} {fs gs : List Field} :
    Resolved S reg (fs ++ gs) ↔ Resolved S reg fs ∧ Resolved S reg gs := by
  unfold Resolved
  simp only [List.mem_append]
  constructor
  · intro h
    exact ⟨fun f hf => h f (Or.inl hf), fun f hf => h f (Or.inr hf)⟩
  · rintro ⟨h1, h2⟩ f (hf | hf)
    · exact h1 f hf
    · exact h2 f hf

theorem resolved_nil (S : String → Prop) (reg : DefinitionRegistry) : Resolved S reg [] := by
  intro f hf
  simp at hf

theorem resolved_kept {P : String → Prop} {reg reg1 : DefinitionRegistry}
    (h : Kept P reg reg1) {fs : List Field} (hf : Resolved P reg fs) : Resolved P reg1 fs := by
  intro f hmem
  obtain ⟨hp, fd, hfd, hv, hn⟩ := hf f hmem
  exact ⟨hp, fd, h.1 _ _ hfd hv hn, hv, hn⟩

theorem resolved_mono {S T : String → Prop} {reg : DefinitionRegistry} {fs : List Field}
    (hST : ∀ k, S k → T k) (hf : Resolved T reg fs) : Resolved S reg fs := by
  intro f hmem
  obtain ⟨hp, fd, hfd, hv, hn⟩ := hf f hmem
  exact ⟨hp, fd, hfd, hv, fun hs => hn (hST _ hs)⟩

theorem fieldsSize_nil (reg : DefinitionRegistry) : fieldsSize reg [] = 0 := rfl

theorem fieldsSize_cons (reg : DefinitionRegistry) (f : Field) (fs : List Field) :
    fieldsSize reg (f :: fs) = f.getSize reg + fieldsSize reg fs := by
  simp [fieldsSize]

theorem fieldsSize_append (reg : DefinitionRegistry) (fs gs : List Field) :
    fieldsSize reg (fs ++ gs) = fieldsSize reg fs + fieldsSize reg gs := by
  simp [fieldsSize]

theorem fieldsSize_kept {P : String → Prop} {reg reg1 : DefinitionRegistry}
    (h : Kept P reg reg1) (fs : List Field) (hf : Resolved P reg fs) :
    fieldsSize reg1 fs = fieldsSize reg fs := by
  induction fs with
  | nil => rfl
  | cons f fs ih =>
    rw [resolved_cons] at hf
    rw [fieldsSize_cons, fieldsSize_cons, getSize_kept h f hf.1, ih hf.2]

/-- The array recorder only calls `record` on the element definition. -/
theorem recordArrayDefinitionCommandsWith_congr (r r1 : Definition → Option CommandBuffer)
    (d : Definition) (n : Int) (h : r1 d = r d) :
    recordArrayDefinitionCommandsWith r1 d n = recordArrayDefinitionCommandsWith r d n := by
  unfold recordArrayDefinitionCommandsWith
  rw [h]

theorem recordFields_congr (r r1 : Definition → Option CommandBuffer)
    (reg reg1 : DefinitionRegistry) (fs : List Field)
    (hreg : ∀ f ∈ fs, f.definition.bind reg1.getDefinition = f.definition.bind reg.getDefinition)
    (hr : ∀ f ∈ fs, ∀ fd, f.definition.bind reg.getDefinition = some fd → r1 fd = r fd) :
    recordFields r1 reg1 fs = recordFields r reg fs := by
  induction fs with
  | nil => rfl
  | cons f fs ih =>
    have ih1 := ih (fun g hg => hreg g (List.mem_cons_of_mem _ hg))
      (fun g hg => hr g (List.mem_cons_of_mem _ hg))
    unfold recordFields
    rw [hreg f (List.mem_cons_self _ _), ih1]
    cases hfd : f.definition.bind reg.getDefinition with
    | none => rfl
    | some fd =>
      have h1 := hr f (List.mem_cons_self _ _) fd hfd
      simp only [h1, recordArrayDefinitionCommandsWith_congr r r1 fd f.arraySize h1]

/-- The recorder reads of a definition only its name, size, fields and string flag. -/
theorem recordDefinitionCommands_congr (fuel : Nat) (reg : DefinitionRegistry)
    (d d1 : Definition) (h1 : d1._name = d._name) (h2 : d1._size = d._size)
    (h3 : d1._fields = d._fields) (h4 : d1._isString = d._isString) :
    recordDefinitionCommands fuel reg d1 = recordDefinitionCommands fuel reg d := by
  cases fuel with
  | zero => rfl
  | succ fuel =>
    simp only [recordDefinitionCommands, Definition.hasFields, Definition.isString,
      Definition.getSize, recordComplexDefinitionCommandsWith, Definition.getFields,
      recordStringDefinitionCommands, recordNonStringDefinitionCommands, Definition.getName,
      h1, h2, h3, h4]

/-- The recording of a record whose fields are resolved does not change when the
registry keeps the valid definitions outside `S`. -/
theorem recordDefinitionCommands_kept {S : String → Prop} {reg reg1 : DefinitionRegistry}
    (hG : GoodExcept S reg) (hK : Kept S reg reg1) :
    ∀ (fuel : Nat) (d : Definition), Resolved S reg d._fields →
      recordDefinitionCommands fuel reg1 d = recordDefinitionCommands fuel reg d
  | 0, _, _ => rfl
  | fuel + 1, d, hres => by
    simp only [recordDefinitionCommands, recordComplexDefinitionCommandsWith,
      Definition.getFields]
    split
    · refine recordFields_congr _ _ _ _ _ ?_ ?_
      · intro f hf
        obtain ⟨hp, fd, hfd, hv, hn⟩ := hres f hf
        rw [hp]
        simp only [Option.some_bind]
        rw [hfd, hK.1 _ _ hfd hv hn]
      · intro f hf fd hfd
        obtain ⟨hp, fd1, hfd1, hv, hn⟩ := hres f hf
        rw [hp] at hfd
        simp only [Option.some_bind] at hfd
        rw [hfd1] at hfd
        have e : fd1 = fd := Option.some.inj hfd
        subst e
        apply recordDefinitionCommands_kept hG hK fuel fd1
        by_cases he : fd1._fields = []
        · rw [he]; exact resolved_nil _ _
        · exact (hG _ _ hfd1 hv he hn).resolved
    · rfl

theorem constantFields_kept {P : String → Prop} {reg reg1 : DefinitionRegistry}
    (hK : Kept P reg reg1) {fs : List Field} (hr : Resolved P reg fs)
    (h : ConstantFields reg fs) : ConstantFields reg1 fs := by
  intro f hf
  refine ⟨(h f hf).1, fun fd hfd => ?_⟩
  obtain ⟨_, fd1, hfd1, hv, hn⟩ := hr f hf
  rw [hK.1 _ _ hfd1 hv hn] at hfd
  have e : fd1 = fd := Option.some.inj hfd
  subst e
  exact (h f hf).2 fd1 hfd1

theorem constantFields_append {reg : DefinitionRegistry} {fs gs : List Field} :
    ConstantFields reg (fs ++ gs) ↔ ConstantFields reg fs ∧ ConstantFields reg gs := by
  unfold ConstantFields
  simp only [List.mem_append]
  constructor
  · intro h
    exact ⟨fun f hf => h f (Or.inl hf), fun f hf => h f (Or.inr hf)⟩
  · rintro ⟨h1, h2⟩ f (hf | hf)
    · exact h1 f hf
    · exact h2 f hf

theorem settled_kept {S : String → Prop} {reg reg1 : DefinitionRegistry} {d : Definition}
    (hG : GoodExcept S reg) (hK : Kept S reg reg1) (h : Settled S reg d) :
    Settled S reg1 d := by
  refine ⟨resolved_kept hK h.resolved, ?_, ?_, ?_⟩
  · rw [fieldsSize_kept hK _ h.resolved]; exact h.size
  · obtain ⟨fuel, cmds, hc, he⟩ := h.commands
    exact ⟨fuel, cmds, by rw [recordDefinitionCommands_kept hG hK fuel d h.resolved]; exact hc,
      he⟩
  · exact fun hc => constantFields_kept hK h.resolved (h.constant hc)

theorem settled_mono {S T : String → Prop} {reg : DefinitionRegistry} {d : Definition}
    (hST : ∀ k, S k → T k) (h : Settled T reg d) : Settled S reg d :=
  ⟨resolved_mono hST h.resolved, h.size, h.commands, h.constant⟩

/-- A mutation of a definition in `S` keeps the other records settled. -/
theorem goodExcept_modify {S : String → Prop} {reg : DefinitionRegistry} (hG : GoodExcept S reg)
    (self : String) (hS : S self) (g : Definition → Definition) :
    GoodExcept S (reg.modify self g) := by
  intro k d hd hv hf hk
  have hks : k ≠ self := fun e => hk (e ▸ hS)
  rw [DefinitionRegistry.getDefinition_modify_ne _ _ _ _ hks] at hd
  have hK : Kept S reg (reg.modify self g) :=
    kept_mono (fun k hk => by subst hk; exact hS) (kept_modify reg self g)
  exact settled_kept hG hK (hG k d hd hv hf hk)

/-- A definition that is not valid can be added to `S`. -/
theorem goodExcept_insert {S : String → Prop} {reg : DefinitionRegistry} (hG : GoodExcept S reg)
    (self : String) (h : ∀ d, reg.getDefinition self = some d → d._isValid = false) :
    GoodExcept (fun k => S k ∨ k = self) reg := by
  intro k d hd hv hf hk
  have hs := hG k d hd hv hf (fun hs => hk (Or.inl hs))
  refine ⟨?_, hs.size, hs.commands, hs.constant⟩
  intro f hmem
  obtain ⟨hp, fd, hfd, hvf, hn⟩ := hs.resolved f hmem
  refine ⟨hp, fd, hfd, hvf, ?_⟩
  rintro (h1 | h1)
  · exact hn h1
  · rw [h1] at hfd
    rw [h fd hfd] at hvf
    exact absurd hvf (by simp)

/-- A definition leaves `S` when it is settled, not valid or without fields. -/
theorem goodExcept_remove {S : String → Prop} {reg : DefinitionRegistry} (self : String)
    (hG : GoodExcept (fun k => S k ∨ k = self) reg)
    (h : ∀ d, reg.getDefinition self = some d → d._isValid = true → d._fields ≠ [] →
      Settled S reg d) :
    GoodExcept S reg := by
  intro k d hd hv hf hk
  by_cases hks : k = self
  · subst hks
    exact h d hd hv hf
  · exact settled_mono (fun k hk => Or.inl hk) (hG k d hd hv hf (fun h => h.elim hk hks))

/-! ## Steps of finalization -/

theorem ranked_modify {rank : String → Nat} {reg : DefinitionRegistry} (h : Ranked rank reg)
    (self : String) (g : Definition → Definition)
    (hg : ∀ d, reg.getDefinition self = some d → ∀ f1 ∈ (g d)._fields,
      rank f1.type < rank self ∧
        ∀ t, f1.definition = some t → t = f1.type ∧ (reg.getDefinition t).isSome = true) :
    Ranked rank (reg.modify self g) := by
  intro k d1 hd1 f1 hf1
  rw [DefinitionRegistry.getDefinition_modify] at hd1
  by_cases hk : k = self
  · subst hk
    simp only [if_true] at hd1
    cases hd : reg.getDefinition k with
    | none => rw [hd] at hd1; simp at hd1
    | some d =>
      rw [hd] at hd1
      simp only [Option.map_some', Option.some.injEq] at hd1
      subst hd1
      refine ⟨(hg d hd f1 hf1).1, fun t ht => ?_⟩
      rw [DefinitionRegistry.getDefinition_isSome_modify]
      exact (hg d hd f1 hf1).2 t ht
  · simp only [hk, if_false] at hd1
    refine ⟨(h k d1 hd1 f1 hf1).1, fun t ht => ?_⟩
    rw [DefinitionRegistry.getDefinition_isSome_modify]
    exact (h k d1 hd1 f1 hf1).2 t ht

theorem post_refl {rank : String → Nat} {S : String → Prop} (P : String → Prop)
    {reg : DefinitionRegistry} (hR : Ranked rank reg) (hG : GoodExcept S reg) :
    Post rank S P reg reg :=
  ⟨hR, hG, kept_refl P reg, shapeKept_refl reg⟩

theorem post_trans {rank : String → Nat} {S P : String → Prop}
    {reg reg1 reg2 : DefinitionRegistry} (h : Post rank S P reg reg1)
    (h1 : Post rank S P reg1 reg2) : Post rank S P reg reg2 :=
  ⟨h1.1, h1.2.1, kept_trans h.2.2.1 h1.2.2.1, shapeKept_trans h.2.2.2 h1.2.2.2⟩

theorem post_mono {rank : String → Nat} {S P Q : String → Prop}
    {reg reg1 : DefinitionRegistry} (hPQ : ∀ k, P k → Q k) (h : Post rank S P reg reg1) :
    Post rank S Q reg reg1 :=
  ⟨h.1, h.2.1, kept_mono hPQ h.2.2.1, h.2.2.2⟩

/-- A mutation of a definition in `S` that keeps its shape and its ranked fields. -/
theorem post_modify {rank : String → Nat} {S : String → Prop} {reg : DefinitionRegistry}
    (hR : Ranked rank reg) (hG : GoodExcept S reg) (self : String) (hS : S self)
    (g : Definition → Definition)
    (hshape : ∀ d, reg.getDefinition self = some d → d.SameShape (g d))
    (hrank : ∀ d, reg.getDefinition self = some d → ∀ f1 ∈ (g d)._fields,
      rank f1.type < rank self ∧
        ∀ t, f1.definition = some t → t = f1.type ∧ (reg.getDefinition t).isSome = true) :
    Post rank S (fun k => k = self) reg (reg.modify self g) :=
  ⟨ranked_modify hR self g hrank, goodExcept_modify hG self hS g, kept_modify reg self g,
    shapeKept_modify reg self g hshape⟩

/-- A mutation of members other than the fields of a definition in `S`. -/
theorem post_modify_members {rank : String → Nat} {S : String → Prop}
    {reg : DefinitionRegistry} (hR : Ranked rank reg) (hG : GoodExcept S reg) (self : String)
    (hS : S self) (g : Definition → Definition)
    (hf : ∀ d, (g d)._fields = d._fields) (hn : ∀ d, (g d)._name = d._name)
    (hs : ∀ d, (g d)._isString = d._isString)
    (hz : ∀ d, reg.getDefinition self = some d → d._fields = [] → (g d)._size = d._size)
    (hc : ∀ d, (g d)._hasConstantSize = true → d._hasConstantSize = true) :
    Post rank S (fun k => k = self) reg (reg.modify self g) := by
  refine post_modify hR hG self hS g (fun d hd => ⟨hn d, hs d, ?_, hz d hd, hc d⟩)
    (fun d hd f1 hf1 => ?_)
  · rw [hf d]; exact forall₂_sameSlot_refl _
  · rw [hf d] at hf1
    exact hR self d hd f1 hf1

theorem list_modify_append {α : Type} (g : α → α) (done : List α) (x : α) (rest : List α) :
    (done ++ x :: rest).modify g done.length = done ++ g x :: rest := by
  induction done with
  | nil => simp
  | cons a done ih => simp [ih]

theorem forall₂_sameSlot_update (done rest : List Field) (f : Field) (p : Option String) :
    List.Forall₂ Field.SameSlot (done ++ f :: rest)
      (done ++ { f with definition := p } :: rest) := by
  induction done with
  | nil => exact List.Forall₂.cons ⟨rfl, rfl, rfl, rfl⟩ (forall₂_sameSlot_refl _)
  | cons a done ih => exact List.Forall₂.cons (sameSlot_refl a) ih

/-- What `Field::resolve` returns: the pointer that was set, or the key of the entry
named by the type of the field, which exists. -/
theorem resolve_some {rank : String → Nat} {reg : DefinitionRegistry} (hR : Ranked rank reg)
    {self : String} {d : Definition} (hd : reg.getDefinition self = some d) {f : Field}
    (hf : f ∈ d._fields) {t : String} (ht : f.resolve reg = some t) :
    t = f.type ∧ (reg.getDefinition t).isSome = true := by
  unfold Field.resolve at ht
  cases hp : f.definition with
  | some t1 =>
    rw [hp] at ht
    simp only [Option.some.injEq] at ht
    subst ht
    exact (hR self d hd f hf).2 t1 hp
  | none =>
    rw [hp] at ht
    cases hl : reg.getDefinition f.type with
    | none => rw [hl] at ht; simp at ht
    | some fd =>
      rw [hl] at ht
      simp only [Option.map_some', Option.some.injEq] at ht
      subst ht
      simp [hl]

/-- The update of the pointer of the field being visited. -/
theorem post_setFieldDefinition {rank : String → Nat} {S : String → Prop}
    {reg : DefinitionRegistry} (hR : Ranked rank reg) (hG : GoodExcept S reg) (self : String)
    (hS : S self) (d : Definition) (hd : reg.getDefinition self = some d)
    (done rest : List Field) (f : Field) (hfields : d._fields = done ++ f :: rest) :
    Post rank S (fun k => k = self) reg
        (reg.modify self (setFieldDefinition done.length (f.resolve reg))) ∧
      (reg.modify self (setFieldDefinition done.length (f.resolve reg))).getDefinition self =
        some { d with _fields := done ++ { f with definition := f.resolve reg } :: rest } := by
  have hset : setFieldDefinition done.length (f.resolve reg) d =
      { d with _fields := done ++ { f with definition := f.resolve reg } :: rest } := by
    unfold setFieldDefinition
    rw [hfields, list_modify_append]
  refine ⟨post_modify hR hG self hS _ (fun d1 hd1 => ?_) (fun d1 hd1 f1 hf1 => ?_), ?_⟩
  · rw [hd] at hd1
    have e := Option.some.inj hd1
    subst e
    rw [hset]
    refine ⟨rfl, rfl, ?_, fun he => rfl, fun h => h⟩
    rw [hfields]
    exact forall₂_sameSlot_update done rest f _
  · rw [hd] at hd1
    have e := Option.some.inj hd1
    subst e
    rw [hset] at hf1
    simp only [List.mem_append, List.mem_cons] at hf1
    have hfmem : f ∈ d._fields := by rw [hfields]; simp
    rcases hf1 with h1 | h1 | h1
    · exact hR self d hd f1 (by rw [hfields]; simp [h1])
    · subst h1
      refine ⟨(hR self d hd f hfmem).1, fun t ht => ?_⟩
      exact resolve_some hR hd hfmem ht
    · exact hR self d hd f1 (by rw [hfields]; simp [h1])
  · rw [DefinitionRegistry.getDefinition_modify_same, hd]
    simp only [Option.map_some', hset]

theorem inProgress_done {S : String → Prop} {reg : DefinitionRegistry} {self : String}
    {done : List Field} (h : InProgress S reg self done []) :
    ∃ d, reg.getDefinition self = some d ∧
      (d._isValid = true → InProgress S reg self d._fields []) := by
  obtain ⟨d, hd, hv, hf, hres, hsz, hc⟩ := h
  have hf1 : d._fields = done := by simpa using hf
  refine ⟨d, hd, fun _ => ⟨d, hd, hv, by simp, ?_, ?_, ?_⟩⟩
  · rw [hf1]; exact hres
  · rw [hf1]; exact hsz
  · rw [hf1]; exact hc

/-- The exit of the loop of `finalize` after a field that fails. -/
theorem post_invalidate {rank : String → Nat} {S : String → Prop} {reg : DefinitionRegistry}
    (hR : Ranked rank reg) (hG : GoodExcept S reg) (self : String) (hS : S self)
    (d : Definition) (hd : reg.getDefinition self = some d) :
    Post rank S (fun k => k = self) reg
        (reg.modify self fun d => { d with _isValid := false }) ∧
      ∃ d1, (reg.modify self fun d => { d with _isValid := false }).getDefinition self = some d1 ∧
        (d1._isValid = true → InProgress S
          (reg.modify self fun d => { d with _isValid := false }) self d1._fields []) := by
  refine ⟨post_modify_members hR hG self hS _ (fun _ => rfl) (fun _ => rfl) (fun _ => rfl)
    (fun _ _ _ => rfl) (fun _ h => h), { d with _isValid := false }, ?_, ?_⟩
  · rw [DefinitionRegistry.getDefinition_modify_same, hd]; rfl
  · intro h; simp at h

/-- One iteration of the loop of `finalize` after `Field::finalize` has returned
`true` for the field `f1`: the size and the constant-size flag are updated. -/
theorem inProgress_step {rank : String → Nat} {S : String → Prop} {reg : DefinitionRegistry}
    (hR : Ranked rank reg) (hG : GoodExcept S reg) (self : String) (hS : S self)
    (d : Definition) (hd : reg.getDefinition self = some d) (hv : d._isValid = true)
    (done rest : List Field) (f1 : Field) (hf : d._fields = done ++ f1 :: rest)
    (hres : Resolved S reg (done ++ [f1])) (hsz : d._size = fieldsSize reg done)
    (hc : d._hasConstantSize = true → ConstantFields reg done) :
    Post rank S (fun k => k = self) reg
        (if (match f1.definition.bind
              (reg.modify self fun d => { d with _size := d._size + f1.getSize reg }).getDefinition
              with
            | some fd => f1.isArray || fd.isString || !fd.hasConstantSize
            | none => f1.isArray) = true then
          (reg.modify self fun d => { d with _size := d._size + f1.getSize reg }).modify self
            fun d => { d with _hasConstantSize := false }
        else reg.modify self fun d => { d with _size := d._size + f1.getSize reg }) ∧
      InProgress S
        (if (match f1.definition.bind
              (reg.modify self fun d => { d with _size := d._size + f1.getSize reg }).getDefinition
              with
            | some fd => f1.isArray || fd.isString || !fd.hasConstantSize
            | none => f1.isArray) = true then
          (reg.modify self fun d => { d with _size := d._size + f1.getSize reg }).modify self
            fun d => { d with _hasConstantSize := false }
        else reg.modify self fun d => { d with _size := d._size + f1.getSize reg })
        self (done ++ [f1]) rest := by
  obtain ⟨hp, fd, hfd, hfv, hfS⟩ := hres f1 (by simp)
  have hne : f1.type ≠ self := fun e => hfS (e ▸ hS)
  have hnil : d._fields ≠ [] := by rw [hf]; simp
  have hP3 : Post rank S (fun k => k = self) reg
      (reg.modify self fun d => { d with _size := d._size + f1.getSize reg }) :=
    post_modify_members hR hG self hS _ (fun _ => rfl) (fun _ => rfl) (fun _ => rfl)
      (fun d1 hd1 he => by
        rw [hd] at hd1
        have e := Option.some.inj hd1
        subst e
        exact absurd he hnil)
      (fun _ h => h)
  have hd3 : (reg.modify self fun d => { d with _size := d._size + f1.getSize reg }).getDefinition
      self = some { d with _size := d._size + f1.getSize reg } := by
    rw [DefinitionRegistry.getDefinition_modify_same, hd]; rfl
  have hfd3 : f1.definition.bind
      (reg.modify self fun d => { d with _size := d._size + f1.getSize reg }).getDefinition
        = some fd := by
    rw [hp]
    simp only [Option.some_bind]
    rw [DefinitionRegistry.getDefinition_modify_ne _ _ _ _ hne]
    exact hfd
  rw [hfd3]
  simp only
  have hK3 : Kept S reg
      (reg.modify self fun d => { d with _size := d._size + f1.getSize reg }) :=
    kept_mono (fun k hk => by subst hk; exact hS) hP3.2.2.1
  have hsize : d._size + f1.getSize reg = fieldsSize reg (done ++ [f1]) := by
    rw [fieldsSize_append, fieldsSize_cons, fieldsSize_nil, hsz]; rfl
  by_cases hclear : (f1.isArray || fd.isString || !fd.hasConstantSize) = true
  · simp only [hclear, if_true]
    have hP4 := post_modify_members hP3.1 hP3.2.1 self hS
      (fun d => { d with _hasConstantSize := false }) (fun _ => rfl) (fun _ => rfl)
      (fun _ => rfl) (fun _ _ _ => rfl) (fun _ h => by simp at h)
    have hP := post_trans hP3 hP4
    have hK : Kept S reg _ := kept_mono (fun k hk => by subst hk; exact hS) hP.2.2.1
    refine ⟨hP, { d with _size := d._size + f1.getSize reg, _hasConstantSize := false },
      ?_, ?_, ?_, resolved_kept hK hres, ?_, ?_⟩
    · rw [DefinitionRegistry.getDefinition_modify_same, hd3]; rfl
    · exact hv
    · simp [hf]
    · rw [fieldsSize_kept hK _ hres]; exact hsize
    · intro h; simp at h
  · simp only [hclear, Bool.false_eq_true, if_false]
    refine ⟨hP3, _, hd3, hv, by simp [hf], resolved_kept hK3 hres, ?_, ?_⟩
    · rw [fieldsSize_kept hK3 _ hres]; exact hsize
    · intro hcs
      simp only [Bool.or_eq_true, Bool.not_eq_true', not_or, Bool.not_eq_true,
        Bool.not_eq_false] at hclear
      refine constantFields_kept hK3 hres ?_
      rw [constantFields_append]
      refine ⟨hc hcs, ?_⟩
      intro g hg
      simp only [List.mem_singleton] at hg
      subst hg
      refine ⟨hclear.1.1, fun fd1 hfd1 => ?_⟩
      rw [hfd] at hfd1
      have e := Option.some.inj hfd1
      subst e
      exact ⟨hclear.1.2, hclear.2⟩

/-- The loop of `finalize` over the fields keeps the invariants; when it leaves the
record valid, all fields are resolved and accounted for. -/
theorem finalizeFields_spec {rank : String → Nat}
    {fin : DefinitionRegistry → String → Option (Bool × DefinitionRegistry)}
    (hfin : FinalizeSpec rank fin) (S : String → Prop) (self : String)
    (hS : ∀ k, S k → rank self < rank k) :
    ∀ (rest done : List Field) (reg out : DefinitionRegistry),
      Ranked rank reg → GoodExcept (fun k => S k ∨ k = self) reg →
      InProgress (fun k => S k ∨ k = self) reg self done rest →
      finalizeFields fin self rest done.length reg = some out →
        Post rank (fun k => S k ∨ k = self) (fun k => k = self) reg out ∧
          ∃ d, out.getDefinition self = some d ∧
            (d._isValid = true → InProgress (fun k => S k ∨ k = self) out self d._fields [])
  | [], done, reg, out, hR, hG, hI, h => by
    simp only [finalizeFields, Option.some.injEq] at h
    subst h
    exact ⟨post_refl _ hR hG, inProgress_done hI⟩
  | f :: rest, done, reg, out, hR, hG, hI, h => by
    obtain ⟨d, hd, hv, hf, hres, hsz, hc⟩ := hI
    have hX : (fun k => S k ∨ k = self) self := Or.inr rfl
    have hfmem : f ∈ d._fields := by rw [hf]; simp
    obtain ⟨hP1, hd1⟩ := post_setFieldDefinition hR hG self hX d hd done rest f hf
    simp only [finalizeFields, Field.finalize] at h
    cases hp : f.resolve reg with
    | none =>
      rw [hp] at h hP1 hd1
      simp only [Option.some.injEq] at h
      subst h
      obtain ⟨hP2, hd2⟩ := post_invalidate hP1.1 hP1.2.1 self hX _ hd1
      exact ⟨post_trans hP1 hP2, hd2⟩
    | some t =>
      rw [hp] at h hP1 hd1
      simp only at h
      obtain ⟨ht, _⟩ := resolve_some hR hd hfmem hp
      have hrank : rank t < rank self := by rw [ht]; exact (hR self d hd f hfmem).1
      cases hcall : fin (reg.modify self (setFieldDefinition done.length (some t))) t with
      | none => rw [hcall] at h; simp at h
      | some r =>
        obtain ⟨b, reg2⟩ := r
        rw [hcall] at h
        simp only at h
        obtain ⟨hPc, hb⟩ := hfin (fun k => S k ∨ k = self) _ t b reg2 hP1.1 hP1.2.1
          (by
            rintro k (hk | hk)
            · exact Nat.lt_trans hrank (hS k hk)
            · rw [hk]; exact hrank)
          hcall
        have hP2 : Post rank (fun k => S k ∨ k = self) (fun k => k = self) reg reg2 :=
          post_trans hP1 (post_mono (fun _ hk => hk.elim) hPc)
        have hd2 := hPc.2.2.1.1 self _ hd1 hv (fun hk => hk)
        have hK : Kept (fun k => S k ∨ k = self) reg reg2 :=
          kept_mono (fun k hk => Or.inr hk) hP2.2.2.1
        cases b with
        | false =>
          simp only [Option.some.injEq] at h
          subst h
          obtain ⟨hP3, hd3⟩ := post_invalidate hP2.1 hP2.2.1 self hX _ hd2
          exact ⟨post_trans hP2 hP3, hd3⟩
        | true =>
          simp only at h
          obtain ⟨fd, hfd, hfv⟩ := hb rfl
          have hres2 : Resolved (fun k => S k ∨ k = self) reg2
              (done ++ [{ f with definition := some t }]) := by
            rw [resolved_append]
            refine ⟨resolved_kept hK hres, ?_⟩
            intro g hg
            simp only [List.mem_singleton] at hg
            subst hg
            refine ⟨by rw [ht], fd, by rw [← ht]; exact hfd, hfv, ?_⟩
            simp only
            rw [← ht]
            rintro (hk | hk)
            · exact absurd (hS t hk) (Nat.lt_asymm hrank)
            · rw [hk] at hrank; exact absurd hrank (Nat.lt_irrefl _)
          obtain ⟨hP4, hI4⟩ := inProgress_step hP2.1 hP2.2.1 self hX _ hd2 hv done rest
            { f with definition := some t } rfl hres2
            (by rw [fieldsSize_kept hK _ hres]; exact hsz)
            (fun hcs => constantFields_kept hK hres (hc hcs))
          have hlen : (done ++ [{ f with definition := some t }]).length = done.length + 1 := by
            simp
          rw [← hlen] at h
          obtain ⟨hP5, hd5⟩ := finalizeFields_spec hfin S self hS rest _ _ out hP4.1 hP4.2.1
            hI4 h
          exact ⟨post_trans hP2 (post_trans hP4 hP5), hd5⟩

theorem kept_of_invalid {reg reg1 : DefinitionRegistry} {self : String}
    (h : Kept (fun k => k = self) reg reg1)
    (hinv : ∀ d, reg.getDefinition self = some d → d._isValid = false) :
    Kept (fun _ => False) reg reg1 := by
  refine ⟨fun k d hd hv _ => h.1 k d hd hv ?_, h.2⟩
  intro hk
  subst hk
  rw [hinv d hd] at hv
  exact absurd hv (by simp)

/-- The end of `finalize`: after the loop over the fields the commands are recorded
when the definition is still valid. -/
theorem finalize_tail {rank : String → Nat} {S : String → Prop}
    {reg reg2 reg1 : DefinitionRegistry} {self : String} {fuel : Nat} {b : Bool}
    (hinv : ∀ d, reg.getDefinition self = some d → d._isValid = false)
    (hP : Post rank (fun k => S k ∨ k = self) (fun k => k = self) reg reg2)
    (d2 : Definition) (hd2 : reg2.getDefinition self = some d2)
    (hI : d2._isValid = true → d2._fields ≠ [] →
      InProgress (fun k => S k ∨ k = self) reg2 self d2._fields [])
    (h : (if d2._isValid = true then
          match recordDefinitionCommands fuel reg2 d2 with
          | none => none
          | some cmds =>
            some (true, reg2.modify self fun d => { d with _commands := optimizeCommands cmds })
        else some (false, reg2)) = some (b, reg1)) :
    Post rank S (fun _ => False) reg reg1 ∧
      (b = true → ∃ d, reg1.getDefinition self = some d ∧ d._isValid = true) := by
  have hX : (fun k => S k ∨ k = self) self := Or.inr rfl
  by_cases hv : d2._isValid = true
  · simp only [hv, if_true] at h
    cases hrec : recordDefinitionCommands fuel reg2 d2 with
    | none => rw [hrec] at h; simp at h
    | some cmds =>
      rw [hrec] at h
      simp only [Option.some.injEq, Prod.mk.injEq] at h
      obtain ⟨hb, hreg⟩ := h
      subst hb hreg
      have hP3 := post_modify_members hP.1 hP.2.1 self hX
        (fun d => { d with _commands := optimizeCommands cmds }) (fun _ => rfl) (fun _ => rfl)
        (fun _ => rfl) (fun _ _ _ => rfl) (fun _ h => h)
      have hPall := post_trans hP hP3
      have hd3 : (reg2.modify self fun d =>
          { d with _commands := optimizeCommands cmds }).getDefinition self =
          some { d2 with _commands := optimizeCommands cmds } := by
        rw [DefinitionRegistry.getDefinition_modify_same, hd2]; rfl
      have hK3 : Kept (fun k => S k ∨ k = self) reg2 _ :=
        kept_mono (fun k hk => Or.inr hk) hP3.2.2.1
      refine ⟨⟨hPall.1, ?_, kept_of_invalid hPall.2.2.1 hinv, hPall.2.2.2⟩,
        fun _ => ⟨_, hd3, hv⟩⟩
      refine goodExcept_remove self hPall.2.1 ?_
      intro d3 hd3' _ hne
      rw [hd3] at hd3'
      have e := Option.some.inj hd3'
      subst e
      obtain ⟨d2', hd2', _, hf2, hres, hsz, hc⟩ := hI hv hne
      rw [hd2] at hd2'
      have e := Option.some.inj hd2'
      subst e
      simp only [List.append_nil] at hf2
      refine settled_mono (fun k hk => Or.inl hk) ⟨resolved_kept hK3 hres, ?_, ?_, ?_⟩
      · rw [fieldsSize_kept hK3 _ hres]; exact hsz
      · refine ⟨fuel, cmds, ?_, rfl⟩
        rw [recordDefinitionCommands_congr fuel _ d2
            { d2 with _commands := optimizeCommands cmds } rfl rfl rfl rfl,
          recordDefinitionCommands_kept hP.2.1 hK3 fuel d2 hres]
        exact hrec
      · exact fun hcs => constantFields_kept hK3 hres (hc hcs)
  · simp only [hv, Bool.false_eq_true, if_false, Option.some.injEq, Prod.mk.injEq] at h
    obtain ⟨hb, hreg⟩ := h
    subst hreg
    refine ⟨⟨hP.1, ?_, kept_of_invalid hP.2.2.1 hinv, hP.2.2.2⟩,
      fun h => by rw [← hb] at h; simp at h⟩
    refine goodExcept_remove self hP.2.1 ?_
    intro d3 hd3 hv3
    rw [hd2] at hd3
    have e := Option.some.inj hd3
    subst e
    exact absurd hv3 hv

/-- `Definition::finalize` meets its specification on an acyclic schema, for every
amount of fuel. -/
theorem finalize_spec (rank : String → Nat) :
    ∀ fuel : Nat, FinalizeSpec rank (Definition.finalize fuel)
  | 0 => by
    intro S reg t b reg1 _ _ _ h
    simp [Definition.finalize] at h
  | fuel + 1 => by
    intro S reg t b reg1 hR hG hS h
    rw [Definition.finalize] at h
    cases hd : reg.getDefinition t with
    | none => rw [hd] at h; simp at h
    | some d =>
      rw [hd] at h
      simp only at h
      by_cases hv : d._isValid = true
      · simp only [hv, if_true, Option.some.injEq, Prod.mk.injEq] at h
        obtain ⟨hb, hreg⟩ := h
        subst hb hreg
        exact ⟨post_refl _ hR hG, fun _ => ⟨d, hd, hv⟩⟩
      · simp only [hv, if_false] at h
        have hv' : d._isValid = false := by simpa using hv
        have hinv : ∀ d1, reg.getDefinition t = some d1 → d1._isValid = false := by
          intro d1 hd1
          rw [hd] at hd1
          have e := Option.some.inj hd1
          subst e
          exact hv'
        have hX : (fun k => S k ∨ k = t) t := Or.inr rfl
        have hG1 := goodExcept_insert hG t hinv
        have hPa := post_modify_members hR hG1 t hX (fun d => { d with _isValid := true })
          (fun _ => rfl) (fun _ => rfl) (fun _ => rfl) (fun _ _ _ => rfl) (fun _ h => h)
        have hda : (reg.modify t fun d => { d with _isValid := true }).getDefinition t =
            some { d with _isValid := true } := by
          rw [DefinitionRegistry.getDefinition_modify_same, hd]; rfl
        by_cases hlen : d._fields.length > 0
        · simp only [hlen, if_true] at h
          have hne : d._fields ≠ [] := by
            intro e; rw [e] at hlen; simp at hlen
          have hPb := post_modify_members hPa.1 hPa.2.1 t hX (fun d => { d with _size := 0 })
            (fun _ => rfl) (fun _ => rfl) (fun _ => rfl)
            (fun d1 hd1 he => by
              rw [hda] at hd1
              have e := Option.some.inj hd1
              subst e
              exact absurd he hne)
            (fun _ h => h)
          have hdb : ((reg.modify t fun d => { d with _isValid := true }).modify t
              fun d => { d with _size := 0 }).getDefinition t =
              some { d with _isValid := true, _size := 0 } := by
            rw [DefinitionRegistry.getDefinition_modify_same, hda]; rfl
          cases hloop : finalizeFields (Definition.finalize fuel) t d._fields 0
              ((reg.modify t fun d => { d with _isValid := true }).modify t
                fun d => { d with _size := 0 }) with
          | none => rw [hloop] at h; simp at h
          | some reg2 =>
            rw [hloop] at h
            simp only at h
            obtain ⟨hPl, d2, hd2, hI⟩ := finalizeFields_spec (finalize_spec rank fuel) S t hS
              d._fields [] _ reg2 hPb.1 hPb.2.1
              ⟨_, hdb, rfl, rfl, resolved_nil _ _, rfl, fun _ => by
                intro f hf; simp at hf⟩
              hloop
            rw [hd2] at h
            simp only at h
            exact finalize_tail hinv (post_trans hPa (post_trans hPb hPl)) d2 hd2
              (fun hv2 _ => hI hv2) h
        · simp only [hlen, if_false] at h
          rw [hda] at h
          simp only at h
          have he : d._fields = [] := by
            cases hf : d._fields with
            | nil => rfl
            | cons a l => rw [hf] at hlen; simp at hlen
          exact finalize_tail hinv hPa _ hda (fun _ hne => absurd he hne) h

/-! ## `finalizeAll` on an acyclic schema -/

namespace DefinitionRegistry

theorem mem_of_getDefinition {reg : DefinitionRegistry} {k : String} {d : Definition}
    (h : getDefinition reg k = some d) : (k, d) ∈ reg := by
  induction reg with
  | nil => simp [getDefinition] at h
  | cons p rest ih =>
    obtain ⟨k1, d1⟩ := p
    by_cases hk : k1 = k
    · subst hk
      simp only [getDefinition, if_true, Option.some.injEq] at h
      subst h
      exact List.mem_cons_self _ _
    · simp only [getDefinition, hk, if_false] at h
      exact List.mem_cons_of_mem _ (ih h)

theorem ranked_of_fresh {rank : String → Nat} {reg : DefinitionRegistry}
    (hA : reg.Acyclic rank) (hF : reg.Fresh) : Ranked rank reg := by
  intro k d hd f hf
  have hmem := mem_of_getDefinition hd
  refine ⟨hA _ hmem f hf, fun t ht => ?_⟩
  have hne : d._fields ≠ [] := by intro e; rw [e] at hf; simp at hf
  rw [(hF _ hmem hne).2 f hf] at ht
  simp at ht

theorem goodExcept_of_fresh {reg : DefinitionRegistry} (hF : reg.Fresh) :
    GoodExcept (fun _ => False) reg := by
  intro k d hd hv hne _
  rw [(hF _ (mem_of_getDefinition hd) hne).1] at hv
  simp at hv

/-- The loop of `finalizeAll` keeps the invariants of finalization and returns `true`
only with every visited definition valid. -/
theorem finalizeEntries_spec (rank : String → Nat) (fuel : Nat) :
    ∀ (keys : List String) (reg : DefinitionRegistry) (b : Bool) (reg1 : DefinitionRegistry),
      Ranked rank reg → GoodExcept (fun _ => False) reg →
      finalizeEntries fuel keys reg = some (b, reg1) →
        Post rank (fun _ => False) (fun _ => False) reg reg1 ∧
          (b = true → ∀ k ∈ keys, ∃ d, reg1.getDefinition k = some d ∧ d._isValid = true)
  | [], reg, b, reg1, hR, hG, h => by
    simp only [finalizeEntries, Option.some.injEq, Prod.mk.injEq] at h
    obtain ⟨_, hreg⟩ := h
    subst hreg
    exact ⟨post_refl _ hR hG, fun _ k hk => by simp at hk⟩
  | k :: keys, reg, b, reg1, hR, hG, h => by
    rw [finalizeEntries] at h
    cases hcall : Definition.finalize fuel reg k with
    | none => rw [hcall] at h; simp at h
    | some r =>
      obtain ⟨b1, reg2⟩ := r
      rw [hcall] at h
      obtain ⟨hP, hb⟩ := finalize_spec rank fuel (fun _ => False) reg k b1 reg2 hR hG
        (fun _ hk => hk.elim) hcall
      cases b1 with
      | false =>
        simp only [Option.some.injEq, Prod.mk.injEq] at h
        obtain ⟨hb1, hreg⟩ := h
        subst hreg
        exact ⟨hP, fun hbt => by rw [← hb1] at hbt; simp at hbt⟩
      | true =>
        simp only at h
        obtain ⟨hP2, hb2⟩ := finalizeEntries_spec rank fuel keys reg2 b reg1 hP.1 hP.2.1 h
        refine ⟨post_trans hP hP2, fun hbt k1 hk1 => ?_⟩
        simp only [List.mem_cons] at hk1
        rcases hk1 with hk1 | hk1
        · subst hk1
          obtain ⟨d, hd, hv⟩ := hb rfl
          exact ⟨d, hP2.2.2.1.1 _ _ hd hv (fun hf => hf), hv⟩
        · exact hb2 hbt k1 hk1

end DefinitionRegistry

namespace DefinitionRegistry

/-- C4 (counterexample): a valid record whose size is not the sum of the footprints of
its fields.  After `C { a: int32 }` and `P { c: C }` are finalized, a field is added to
`C` and `finalizeAll` runs again: `P` stays valid with size 4 while `C` now has size 8.
In the cyclic schema `B { y: int32, a: A[] }`, `A { b: B, x: int32 }` the record `A` is
finalized while `B` is in progress and keeps size 8 although `B` ends with size 12. -/
theorem finalizeAll_size_counterexample :
    ((exampleStale.getDefinition "P").map fun R =>
        (R._isValid, R._fields.length, R._size, fieldsSize exampleStale R._fields)) =
        some (true, 1, 4, 8) ∧
      ((exampleCycle.getDefinition "A").map fun R =>
        (R._isValid, R._fields.length, R._size, fieldsSize exampleCycle R._fields)) =
        some (true, 2, 8, 16) :=
  ⟨by decide, by decide⟩

/-- C4 (amended): for an acyclic schema whose records are all registered before the
first finalization, after `finalizeAll` has returned every valid record with at least
one field has as size the sum of the footprints of its fields: 8 for an array field,
otherwise the current size of the definition the field resolves to. -/
theorem finalizeAll_size (rank : String → Nat) (fuel : Nat) (reg reg1 : DefinitionRegistry)
    (b : Bool) (hA : reg.Acyclic rank) (hF : reg.Fresh)
    (h : reg.finalizeAll fuel = some (b, reg1)) (k : String) (R : Definition)
    (hR : reg1.getDefinition k = some R) (hv : R._isValid = true) (hne : R._fields ≠ []) :
    R._size = fieldsSize reg1 R._fields := by
  obtain ⟨hP, _⟩ := finalizeEntries_spec rank fuel _ reg b reg1 (ranked_of_fresh hA hF)
    (goodExcept_of_fresh hF) h
  exact (hP.2.1 k R hR hv hne (fun hf => hf)).size

theorem finalizeAll_size_witness :
    (exampleP.Acyclic exampleRank ∧ exampleP.Fresh ∧
      exampleP.finalizeAll 3 = some (true, examplePFinal) ∧
      examplePFinal.getDefinition "P" = some examplePFinalized ∧
      examplePFinalized._isValid = true ∧ examplePFinalized._fields ≠ []) ∧
    examplePFinalized._size = fieldsSize examplePFinal examplePFinalized._fields :=
  ⟨⟨by unfold Acyclic; decide, by unfold Fresh; decide, by rfl, by rfl, by rfl, by decide⟩,
    finalizeAll_size exampleRank 3 exampleP examplePFinal true (by unfold Acyclic; decide)
      (by unfold Fresh; decide) (by rfl) "P" examplePFinalized (by rfl) (by rfl) (by decide)⟩

end DefinitionRegistry

/-! ## What `finalize` keeps on every registry -/

theorem getDefinition_put (reg : DefinitionRegistry) (self : String) (d d1 : Definition)
    (hd : reg.getDefinition self = some d) :
    (reg.modify self fun _ => d1).getDefinition self = some d1 := by
  rw [DefinitionRegistry.getDefinition_modify_same, hd]; rfl

/-- The loop of `finalize` only changes the definition it runs on: the fields already
visited stay, and the constant-size flag is at most cleared. -/
theorem finalizeFields_frame
    {fin : DefinitionRegistry → String → Option (Bool × DefinitionRegistry)}
    (hfin : FrameSpec fin) (self : String) :
    ∀ (rest done : List Field) (reg out : DefinitionRegistry) (d : Definition),
      reg.getDefinition self = some d → d._isValid = true → d._fields = done ++ rest →
      finalizeFields fin self rest done.length reg = some out →
        Kept (fun k => k = self) reg out ∧ out.map Prod.fst = reg.map Prod.fst ∧
          ∃ d1, out.getDefinition self = some d1 ∧ d1._fields.take done.length = done ∧
            d1._fields.length = d._fields.length ∧ d1._isString = d._isString ∧
            (d1._hasConstantSize = true → d._hasConstantSize = true)
  | [], done, reg, out, d, hd, _, hf, h => by
    simp only [finalizeFields, Option.some.injEq] at h
    subst h
    refine ⟨kept_refl _ _, rfl, d, hd, ?_, rfl, rfl, fun h => h⟩
    rw [hf]; simp
  | f :: rest, done, reg, out, d, hd, hv, hf, h => by
    have hd1 : (reg.modify self (setFieldDefinition done.length (f.resolve reg))).getDefinition
        self = some { d with _fields := done ++ { f with definition := f.resolve reg } :: rest }
        := by
      rw [DefinitionRegistry.getDefinition_modify_same, hd]
      simp only [Option.map_some', setFieldDefinition, hf, list_modify_append]
    have hK1 := kept_modify reg self (setFieldDefinition done.length (f.resolve reg))
    have hm1 := DefinitionRegistry.map_fst_modify reg self
      (setFieldDefinition done.length (f.resolve reg))
    have hfail : ∀ (r : DefinitionRegistry) (dr : Definition),
        Kept (fun k => k = self) reg r → r.map Prod.fst = reg.map Prod.fst →
        r.getDefinition self = some dr → dr._fields.take done.length = done →
        dr._fields.length = d._fields.length → dr._isString = d._isString →
        (dr._hasConstantSize = true → d._hasConstantSize = true) →
        Kept (fun k => k = self) reg (r.modify self fun d => { d with _isValid := false }) ∧
          (r.modify self fun d => { d with _isValid := false }).map Prod.fst
            = reg.map Prod.fst ∧
          ∃ d1, (r.modify self fun d => { d with _isValid := false }).getDefinition self
              = some d1 ∧ d1._fields.take done.length = done ∧
            d1._fields.length = d._fields.length ∧ d1._isString = d._isString ∧
            (d1._hasConstantSize = true → d._hasConstantSize = true) := by
      intro r dr hK hm hdr htake hlen hstr hcs
      refine ⟨kept_trans hK (kept_modify _ _ _), ?_, { dr with _isValid := false }, ?_, htake,
        hlen, hstr, hcs⟩
      · rw [DefinitionRegistry.map_fst_modify, hm]
      · rw [DefinitionRegistry.getDefinition_modify_same, hdr]; rfl
    simp only [finalizeFields, Field.finalize] at h
    cases hp : f.resolve reg with
    | none =>
      rw [hp] at h hd1 hK1 hm1
      simp only [Option.some.injEq] at h
      subst h
      exact hfail _ _ hK1 hm1 hd1 (by simp) (by simp [hf]) rfl (fun h => h)
    | some t =>
      rw [hp] at h hd1 hK1 hm1
      simp only at h
      cases hcall : fin (reg.modify self (setFieldDefinition done.length (some t))) t with
      | none => rw [hcall] at h; simp at h
      | some r =>
        obtain ⟨b, reg2⟩ := r
        rw [hcall] at h
        simp only at h
        obtain ⟨hKc, hmc, _⟩ := hfin _ t b reg2 hcall
        have hd2 := hKc.1 self _ hd1 hv (fun hk => hk)
        have hK2 : Kept (fun k => k = self) reg reg2 :=
          kept_trans hK1 (kept_mono (fun _ hk => hk.elim) hKc)
        have hm2 : reg2.map Prod.fst = reg.map Prod.fst := hmc.trans hm1
        cases b with
        | false =>
          simp only [Option.some.injEq] at h
          subst h
          exact hfail _ _ hK2 hm2 hd2 (by simp) (by simp [hf]) rfl (fun h => h)
        | true =>
          simp only at h
          obtain ⟨g, hg⟩ : ∃ g, g = Field.getSize reg2 { f with definition := some t } :=
            ⟨_, rfl⟩
          rw [← hg] at h
          have hd3 : (reg2.modify self fun d1 => { d1 with _size := d1._size + g }).getDefinition
              self = some { d with _fields := done ++ { f with definition := some t } :: rest,
                                   _size := d._size + g } := by
            rw [DefinitionRegistry.getDefinition_modify_same, hd2]; rfl
          have hlen : (done ++ [{ f with definition := some t }]).length = done.length + 1 := by
            simp
          rw [← hlen] at h
          split at h
          · obtain ⟨hK5, hm5, d5, hd5, htake, hlen5, hstr5, hcs5⟩ := finalizeFields_frame hfin
              self rest _ _ out
              { d with _fields := done ++ { f with definition := some t } :: rest,
                       _size := d._size + g, _hasConstantSize := false }
              (by rw [DefinitionRegistry.getDefinition_modify_same, hd3]; rfl) hv (by simp) h
            refine ⟨kept_trans hK2 (kept_trans (kept_modify _ _ _)
              (kept_trans (kept_modify _ _ _) hK5)), ?_, d5, hd5, ?_, ?_, hstr5, ?_⟩
            · rw [hm5, DefinitionRegistry.map_fst_modify, DefinitionRegistry.map_fst_modify, hm2]
            · have := congrArg (List.take done.length) htake
              simpa [List.take_take] using this
            · rw [hlen5]; simp [hf]
            · intro hc; have := hcs5 hc; simp at this
          · obtain ⟨hK5, hm5, d5, hd5, htake, hlen5, hstr5, hcs5⟩ := finalizeFields_frame hfin
              self rest _ _ out _ hd3 hv (by simp) h
            refine ⟨kept_trans hK2 (kept_trans (kept_modify _ _ _) hK5), ?_, d5, hd5, ?_, ?_,
              hstr5, hcs5⟩
            · rw [hm5, DefinitionRegistry.map_fst_modify, hm2]
            · have := congrArg (List.take done.length) htake
              simpa [List.take_take] using this
            · rw [hlen5]; simp [hf]

/-- `Definition::finalize` keeps the valid definitions and the keys, on every registry. -/
theorem finalize_frame : ∀ fuel : Nat, FrameSpec (Definition.finalize fuel)
  | 0 => by
    intro reg t b reg1 h
    simp [Definition.finalize] at h
  | fuel + 1 => by
    intro reg t b reg1 h
    rw [Definition.finalize] at h
    cases hd : reg.getDefinition t with
    | none => rw [hd] at h; simp at h
    | some d =>
      rw [hd] at h
      simp only at h
      by_cases hv : d._isValid = true
      · simp only [hv, if_true, Option.some.injEq, Prod.mk.injEq] at h
        obtain ⟨hb, hreg⟩ := h
        subst hb hreg
        exact ⟨kept_refl _ _, rfl, d, hd, hv⟩
      · simp only [hv, Bool.false_eq_true, if_false] at h
        have hv' : d._isValid = false := by simpa using hv
        have hinv : ∀ d1, reg.getDefinition t = some d1 → d1._isValid = false := by
          intro d1 hd1
          rw [hd] at hd1
          have e := Option.some.inj hd1
          subst e
          exact hv'
        have hda : (reg.modify t fun d => { d with _isValid := true }).getDefinition t =
            some { d with _isValid := true } := by
          rw [DefinitionRegistry.getDefinition_modify_same, hd]; rfl
        -- the state after the loop
        have hloop : ∃ reg2 d2, reg2.getDefinition t = some d2 ∧
            Kept (fun k => k = t) reg reg2 ∧ reg2.map Prod.fst = reg.map Prod.fst ∧
            (if d2._isValid = true then
              match recordDefinitionCommands fuel reg2 d2 with
              | none => none
              | some cmds =>
                some (true, reg2.modify t fun d => { d with _commands := optimizeCommands cmds })
            else some (false, reg2)) = some (b, reg1) := by
          by_cases hlen : d._fields.length > 0
          · simp only [hlen, if_true] at h
            cases hl : finalizeFields (Definition.finalize fuel) t d._fields 0
                ((reg.modify t fun d => { d with _isValid := true }).modify t
                  fun d => { d with _size := 0 }) with
            | none => rw [hl] at h; simp at h
            | some reg2 =>
              rw [hl] at h
              simp only at h
              obtain ⟨hK, hm, d2, hd2, _⟩ := finalizeFields_frame (finalize_frame fuel) t
                d._fields [] _ reg2 { d with _isValid := true, _size := 0 }
                (by rw [DefinitionRegistry.getDefinition_modify_same, hda]; rfl) rfl rfl hl
              rw [hd2] at h
              refine ⟨reg2, d2, hd2, kept_trans (kept_modify _ _ _)
                (kept_trans (kept_modify _ _ _) hK), ?_, h⟩
              rw [hm, DefinitionRegistry.map_fst_modify, DefinitionRegistry.map_fst_modify]
          · simp only [hlen, if_false] at h
            rw [hda] at h
            exact ⟨_, _, hda, kept_modify _ _ _, DefinitionRegistry.map_fst_modify _ _ _, h⟩
        obtain ⟨reg2, d2, hd2, hK, hm, h2⟩ := hloop
        by_cases hv2 : d2._isValid = true
        · simp only [hv2, if_true] at h2
          cases hrec : recordDefinitionCommands fuel reg2 d2 with
          | none => rw [hrec] at h2; simp at h2
          | some cmds =>
            rw [hrec] at h2
            simp only [Option.some.injEq, Prod.mk.injEq] at h2
            obtain ⟨hb, hreg⟩ := h2
            subst hb hreg
            refine ⟨kept_of_invalid (kept_trans hK (kept_modify _ _ _)) hinv, ?_,
              { d2 with _commands := optimizeCommands cmds }, ?_, hv2⟩
            · rw [DefinitionRegistry.map_fst_modify, hm]
            · rw [DefinitionRegistry.getDefinition_modify_same, hd2]; rfl
        · simp only [hv2, Bool.false_eq_true, if_false, Option.some.injEq,
            Prod.mk.injEq] at h2
          obtain ⟨hb, hreg⟩ := h2
          subst hreg
          exact ⟨kept_of_invalid hK hinv, hm, d2, hd2, by rw [← hb]; simpa using hv2⟩

/-! ## A second `finalizeAll` changes nothing -/

theorem modify_put (reg : DefinitionRegistry) (k : String) (a : Definition)
    (g : Definition → Definition) :
    (reg.modify k fun _ => a).modify k g = reg.modify k fun _ => g a := by
  rw [DefinitionRegistry.modify_modify]

theorem put_modify (reg : DefinitionRegistry) (k : String) (a : Definition)
    (g : Definition → Definition) :
    (reg.modify k g).modify k (fun _ => a) = reg.modify k fun _ => a := by
  rw [DefinitionRegistry.modify_modify]

theorem put_self (reg : DefinitionRegistry) (k : String) (d : Definition)
    (hd : reg.getDefinition k = some d) : (reg.modify k fun _ => d) = reg := by
  apply DefinitionRegistry.modify_of_fixed
  intro d1 hd1
  rw [hd] at hd1
  exact Option.some.inj hd1

theorem setFieldDefinition_of_set (d : Definition) (done rest : List Field) (f : Field)
    (p : Option String) (hf : d._fields = done ++ f :: rest) (hp : f.definition = p) :
    setFieldDefinition done.length p d = d := by
  unfold setFieldDefinition
  rw [hf, list_modify_append]
  have : ({ f with definition := p } : Field) = f := by
    cases f
    simp only at hp
    subst hp
    rfl
  rw [this, ← hf]

/-- After the exit of the loop of `finalize` on a failed field, marking the definition
valid again gives back the registry before the exit. -/
theorem replay_exit (r : DefinitionRegistry) (self : String) (d1 : Definition)
    (hr : r.getDefinition self = some d1) (hv : d1._isValid = true) :
    (r.modify self fun d => { d with _isValid := false }).modify self
        (fun _ => { d1 with _isValid := true, _size := d1._size }) = r := by
  rw [put_modify]
  have : ({ d1 with _isValid := true, _size := d1._size } : Definition) = d1 := by
    cases d1
    simp only at hv
    subst hv
    rfl
  rw [this]
  exact put_self r self d1 hr

theorem resolve_none {reg : DefinitionRegistry} {f : Field} (h : f.resolve reg = none) :
    f.definition = none ∧ reg.getDefinition f.type = none := by
  unfold Field.resolve at h
  cases hp : f.definition with
  | some t => rw [hp] at h; simp at h
  | none =>
    rw [hp] at h
    cases hl : reg.getDefinition f.type with
    | none => exact ⟨rfl, rfl⟩
    | some fd => rw [hl] at h; simp at h

theorem getDefinition_eq_none_of_isSome {reg reg1 : DefinitionRegistry} {k : String}
    (h : (reg1.getDefinition k).isSome = (reg.getDefinition k).isSome)
    (hn : reg.getDefinition k = none) : reg1.getDefinition k = none := by
  rw [hn] at h
  cases h1 : reg1.getDefinition k with
  | none => rfl
  | some d => rw [h1] at h; simp at h

theorem modify_noop {reg : DefinitionRegistry} {k : String} {g : Definition → Definition}
    {d : Definition} (hd : reg.getDefinition k = some d) (hg : g d = d) :
    reg.modify k g = reg := by
  apply DefinitionRegistry.modify_of_fixed
  intro d1 hd1
  rw [hd] at hd1
  have e := Option.some.inj hd1
  subst e
  exact hg

theorem modify_eq_put {reg : DefinitionRegistry} {k : String} (g : Definition → Definition)
    {d : Definition} (hd : reg.getDefinition k = some d) :
    reg.modify k g = reg.modify k fun _ => g d := by
  induction reg with
  | nil => rfl
  | cons p rest ih =>
    obtain ⟨k1, d1⟩ := p
    by_cases h : k1 = k
    · subst h
      simp only [DefinitionRegistry.getDefinition, if_true, Option.some.injEq] at hd
      subst hd
      simp [DefinitionRegistry.modify]
    · simp only [DefinitionRegistry.getDefinition, h, if_false] at hd
      simp [DefinitionRegistry.modify, h, ih hd]

/-- The update of the registry in one iteration of the loop of `finalize`, as one
assignment to the definition. -/
theorem iteration_eq_put (reg : DefinitionRegistry) (self : String) (p : Option String)
    (isArray : Bool) (g : Nat) (d : Definition) (hd : reg.getDefinition self = some d) :
    (if (match p.bind (reg.modify self fun d => { d with _size := d._size + g }).getDefinition
          with
          | some fd => isArray || fd.isString || !fd.hasConstantSize
          | none => isArray) = true
      then (reg.modify self fun d => { d with _size := d._size + g }).modify self
        fun d => { d with _hasConstantSize := false }
      else reg.modify self fun d => { d with _size := d._size + g }) =
      reg.modify self fun _ => iterated reg self p isArray g d := by
  rw [modify_eq_put (fun d => { d with _size := d._size + g }) hd]
  unfold iterated
  split
  · rename_i h
    rw [modify_put]
  · rename_i h
    simp only [h, if_false]

theorem drop_of_take_succ {α : Type} (l a : List α) (x : α) (h : l.take (a.length + 1) = a ++ [x]) :
    l.drop a.length = x :: l.drop (a.length + 1) := by
  have e : l = a ++ x :: l.drop (a.length + 1) := by
    conv_lhs => rw [← List.take_append_drop (a.length + 1) l, h]
    simp
  conv_lhs => rw [e]
  simp

theorem finalizeFields_replay
    {fin : DefinitionRegistry → String → Option (Bool × DefinitionRegistry)}
    (hframe : FrameSpec fin) (hrep : ReplaySpec fin) (hval : ValidSpec fin) (self : String) :
    ∀ (rest done : List Field) (reg out : DefinitionRegistry) (d dOut : Definition),
      reg.getDefinition self = some d → d._isValid = true → d._fields = done ++ rest →
      finalizeFields fin self rest done.length reg = some out →
      out.getDefinition self = some dOut → dOut._isValid = false →
        finalizeFields fin self (dOut._fields.drop done.length) done.length
          (out.modify self fun _ => { dOut with _isValid := true, _size := d._size }) = some out
  | [], done, reg, out, d, dOut, hd, hv, _, h, hdo, hvo => by
    simp only [finalizeFields, Option.some.injEq] at h
    subst h
    rw [hd] at hdo
    have e := Option.some.inj hdo
    subst e
    rw [hv] at hvo
    simp at hvo
  | f :: rest, done, reg, out, d, dOut, hd, hv, hf, h, hdo, hvo => by
    have hd1 : (reg.modify self (setFieldDefinition done.length (f.resolve reg))).getDefinition
        self = some { d with _fields := done ++ { f with definition := f.resolve reg } :: rest }
        := by
      rw [DefinitionRegistry.getDefinition_modify_same, hd]
      simp only [Option.map_some', setFieldDefinition, hf, list_modify_append]
    have hK1 := kept_modify reg self (setFieldDefinition done.length (f.resolve reg))
    simp only [finalizeFields, Field.finalize] at h
    cases hp : f.resolve reg with
    | none =>
      rw [hp] at h hd1 hK1
      simp only [Option.some.injEq] at h
      subst h
      rw [DefinitionRegistry.getDefinition_modify_same, hd1] at hdo
      simp only [Option.map_some', Option.some.injEq] at hdo
      subst hdo
      have hrew := replay_exit _ self _ hd1 hv
      simp only at hrew ⊢
      rw [hrew]
      simp only [List.drop_left', finalizeFields, Field.finalize]
      have hn := resolve_none hp
      have hres : Field.resolve { f with definition := none }
          (reg.modify self (setFieldDefinition done.length none)) = none := by
        unfold Field.resolve
        simp only
        rw [getDefinition_eq_none_of_isSome (hK1.2 f.type) hn.2]
        rfl
      rw [hres]
      simp only
      rw [modify_noop hd1 (setFieldDefinition_of_set _ done rest
        { f with definition := none } none rfl rfl)]
    | some t =>
      rw [hp] at h hd1 hK1
      simp only at h
      cases hcall : fin (reg.modify self (setFieldDefinition done.length (some t))) t with
      | none => rw [hcall] at h; simp at h
      | some r =>
        obtain ⟨b, reg2⟩ := r
        rw [hcall] at h
        simp only at h
        obtain ⟨hKc, hmc, dt, hdt, hvt⟩ := hframe _ t b reg2 hcall
        have hd2 := hKc.1 self _ hd1 hv (fun hk => hk)
        have hres : ∀ r1 : DefinitionRegistry,
            Field.resolve { f with definition := some t } r1 = some t := fun _ => rfl
        cases b with
        | false =>
          simp only [Option.some.injEq] at h
          subst h
          rw [DefinitionRegistry.getDefinition_modify_same, hd2] at hdo
          simp only [Option.map_some', Option.some.injEq] at hdo
          subst hdo
          have hrew := replay_exit _ self _ hd2 hv
          simp only at hrew ⊢
          rw [hrew]
          simp only [List.drop_left', finalizeFields, Field.finalize, hres]
          rw [modify_noop hd2 (setFieldDefinition_of_set _ done rest
            { f with definition := some t } (some t) rfl rfl)]
          rw [hrep _ t reg2 hcall]
        | true =>
          simp only at h
          obtain ⟨g, hg⟩ : ∃ g, g = Field.getSize reg2 { f with definition := some t } :=
            ⟨_, rfl⟩
          rw [← hg] at h
          have hd3 : (reg2.modify self fun d1 => { d1 with _size := d1._size + g }).getDefinition
              self = some { d with _fields := done ++ { f with definition := some t } :: rest,
                                   _size := d._size + g } := by
            rw [DefinitionRegistry.getDefinition_modify_same, hd2]; rfl
          have hlen : (done ++ [{ f with definition := some t }]).length = done.length + 1 := by
            simp
          rw [← hlen] at h
          rw [iteration_eq_put reg2 self (some t) f.isArray g _ hd2] at h
          obtain ⟨d1, hd1e⟩ : ∃ d1 : Definition, d1 = { d with _fields :=
              done ++ { f with definition := some t } :: rest } := ⟨_, rfl⟩
          obtain ⟨f1, hf1⟩ : ∃ f1 : Field, f1 = { f with definition := some t } := ⟨_, rfl⟩
          rw [← hd1e] at h hd2
          rw [← hf1] at h hlen hg hd1e
          have hf1d : f1.definition = some t := by rw [hf1]
          have hf1a : f1.isArray = f.isArray := by rw [hf1]
          obtain ⟨d4, hd4e⟩ : ∃ d4, d4 = iterated reg2 self (some t) f.isArray g d1 := ⟨_, rfl⟩
          rw [← hd4e] at h
          have hd4 : (reg2.modify self fun _ => d4).getDefinition self = some d4 :=
            getDefinition_put reg2 self d1 d4 hd2
          have hv4 : d4._isValid = true := by rw [hd4e, hd1e]; exact hv
          have hf4 : d4._fields = (done ++ [f1]) ++ rest := by rw [hd4e, hd1e]; simp [iterated]
          have hs4 : d4._size = d._size + g := by rw [hd4e, hd1e]; rfl
          have hstr4 : d4._isString = d._isString := by rw [hd4e, hd1e]; rfl
          obtain ⟨hK4, hm4, dO, hdO, htake, hlenO, hstrO, hcsO⟩ :=
            finalizeFields_frame hframe self rest (done ++ [f1]) _ out d4 hd4 hv4 hf4 h
          rw [hdo] at hdO
          have e := Option.some.inj hdO
          subst e
          have ih := finalizeFields_replay hframe hrep hval self rest (done ++ [f1]) _ out d4
            dOut hd4 hv4 hf4 h hdo hvo
          rw [hlen] at ih htake
          rw [drop_of_take_succ dOut._fields done f1 htake]
          have hfO : dOut._fields = done ++ f1 :: dOut._fields.drop (done.length + 1) := by
            conv_lhs => rw [← List.take_append_drop (done.length + 1) dOut._fields, htake]
            simp
          obtain ⟨dR, hdRe⟩ : ∃ dR : Definition,
              dR = { dOut with _isValid := true, _size := d._size } := ⟨_, rfl⟩
          rw [← hdRe]
          have hR : (out.modify self fun _ => dR).getDefinition self = some dR :=
            getDefinition_put out self dOut dR hdo
          have hfR : dR._fields = done ++ f1 :: dOut._fields.drop (done.length + 1) := by
            rw [hdRe]; exact hfO
          have houtT : t ≠ self → out.getDefinition t = some dt := by
            intro hts
            apply hK4.1 t dt _ hvt hts
            rw [DefinitionRegistry.getDefinition_modify_ne _ _ _ _ hts]
            exact hdt
          have hcallR : fin (out.modify self fun _ => dR) t
              = some (true, out.modify self fun _ => dR) := by
            by_cases hts : t = self
            · subst hts
              exact hval _ _ (by rw [hcall]; rfl) _ t dR hR (by rw [hdRe])
            · refine hval _ _ (by rw [hcall]; rfl) _ t dt ?_ hvt
              rw [DefinitionRegistry.getDefinition_modify_ne _ _ _ _ hts]
              exact houtT hts
          have hgR : Field.getSize (out.modify self fun _ => dR) f1 = g := by
            rw [hg]
            unfold Field.getSize
            rw [hf1d]
            simp only [Option.some_bind]
            by_cases hts : t = self
            · subst hts
              rw [hR, hd2, hdRe, hd1e]
              rfl
            · rw [DefinitionRegistry.getDefinition_modify_ne _ _ _ _ hts, houtT hts, hdt]
          have hit : iterated (out.modify self fun _ => dR) self (some t) f1.isArray g dR
              = { dOut with _isValid := true, _size := d4._size } := by
            have hcs4 : d4._hasConstantSize = true →
                (f.isArray || (if t = self then d._isString else dt._isString) ||
                  !(if t = self then d._hasConstantSize else dt._hasConstantSize)) = false := by
              rw [hd4e, hd1e]
              unfold iterated
              simp only [Option.some_bind]
              by_cases hts : t = self
              · subst hts
                rw [getDefinition_put _ _ _ _ hd2]
                simp [Definition.isString, Definition.hasConstantSize]
              · rw [DefinitionRegistry.getDefinition_modify_ne _ _ _ _ hts, hdt]
                simp [Definition.isString, Definition.hasConstantSize, hts]
                intro a b c _
                exact ⟨⟨a, b⟩, c⟩
            have hmatch : dOut._hasConstantSize = true →
                (match (out.modify self fun _ =>
                    ({ dR with _size := dR._size + g } : Definition)).getDefinition t with
                  | some fd => f1.isArray || fd.isString || !fd.hasConstantSize
                  | none => f1.isArray) = false := by
              intro hO
              have h4 := hcs4 (hcsO hO)
              by_cases hts : t = self
              · subst hts
                rw [getDefinition_put _ _ _ _ hdo]
                simp only [if_true] at h4
                simp only [Definition.isString, Definition.hasConstantSize, hf1a, hdRe, hO,
                  hstrO, hstr4]
                simp only [Bool.or_eq_false_iff, Bool.not_eq_false_eq_eq_true] at h4 ⊢
                simp only [Bool.not_true, and_true]
                exact h4.1
              · rw [DefinitionRegistry.getDefinition_modify_ne _ _ _ _ hts, houtT hts]
                simp only [hts, if_false] at h4
                simp only [Definition.isString, Definition.hasConstantSize, hf1a]
                exact h4
            unfold iterated
            simp only [Option.some_bind]
            rw [put_modify]
            by_cases hO : dOut._hasConstantSize = true
            · simp only [hmatch hO]
              rw [hdRe, hs4]
              simp
            · rw [hdRe, hs4]
              simp only [Bool.not_eq_true] at hO
              simp [hO]
          simp only [finalizeFields, Field.finalize]
          have hresR : f1.resolve (out.modify self fun _ => dR) = some t := by
            rw [hf1]; rfl
          rw [hresR]
          simp only
          rw [modify_noop hR (setFieldDefinition_of_set dR done _ f1 (some t) hfR hf1d)]
          rw [hcallR]
          simp only
          have hf1eta : ({ f1 with definition := some t } : Field) = f1 := by
            rw [hf1]
          simp only [hf1eta, hgR]
          rw [iteration_eq_put _ self (some t) f1.isArray g dR hR, put_modify, hit]
          exact ih

/-- A call of `finalize` on a valid definition returns `true` and changes nothing. -/
theorem finalize_valid : ∀ fuel : Nat, ValidSpec (Definition.finalize fuel)
  | 0 => by
    intro r s h
    simp [Definition.finalize] at h
  | fuel + 1 => by
    intro _ _ _ reg t d hd hv
    simp only [Definition.finalize, hd, hv, if_true]

/-- A failed call of `finalize` fails again when it is repeated, and leaves the registry
as the first call left it. -/
theorem finalize_replay : ∀ fuel : Nat, ReplaySpec (Definition.finalize fuel)
  | 0 => by
    intro reg t reg1 h
    simp [Definition.finalize] at h
  | fuel + 1 => by
    intro reg t reg1 h
    simp only [Definition.finalize] at h
    cases hd : reg.getDefinition t with
    | none => rw [hd] at h; simp at h
    | some d =>
      rw [hd] at h
      simp only at h
      cases hv : d._isValid with
      | true => rw [hv] at h; simp at h
      | false =>
        rw [hv] at h
        simp only [Bool.false_eq_true, if_false] at h
        have hda : (reg.modify t fun d => { d with _isValid := true }).getDefinition t =
            some { d with _isValid := true } := by
          rw [DefinitionRegistry.getDefinition_modify_same, hd]; rfl
        by_cases hlen : d._fields.length > 0
        · simp only [hlen, if_true] at h
          cases hl : finalizeFields (Definition.finalize fuel) t d._fields 0
              ((reg.modify t fun d => { d with _isValid := true }).modify t
                fun d => { d with _size := 0 }) with
          | none => rw [hl] at h; simp at h
          | some reg2 =>
            rw [hl] at h
            simp only at h
            have hds : ((reg.modify t fun d => { d with _isValid := true }).modify t
                fun d => { d with _size := 0 }).getDefinition t
                = some { d with _isValid := true, _size := 0 } := by
              rw [DefinitionRegistry.getDefinition_modify_same, hda]; rfl
            obtain ⟨hK, hm, d2, hd2, _, hlen2, _, _⟩ := finalizeFields_frame
              (finalize_frame fuel) t d._fields [] _ reg2 { d with _isValid := true, _size := 0 }
              hds rfl rfl hl
            rw [hd2] at h
            simp only at h
            cases hv2 : d2._isValid with
            | true =>
              rw [hv2] at h
              simp only [if_true] at h
              cases hrec : recordDefinitionCommands fuel reg2 d2 with
              | none => rw [hrec] at h; simp at h
              | some cmds => rw [hrec] at h; simp at h
            | false =>
              rw [hv2] at h
              simp only [Bool.false_eq_true, if_false, Option.some.injEq, Prod.mk.injEq,
                true_and] at h
              subst h
              have hrep := finalizeFields_replay (finalize_frame fuel) (finalize_replay fuel)
                (finalize_valid fuel) t d._fields [] _ reg2 { d with _isValid := true, _size := 0 }
                d2 hds rfl rfl hl hd2 hv2
              simp only [List.length_nil, List.drop_zero] at hrep
              have hlen3 : d2._fields.length > 0 := by
                rw [hlen2]; exact hlen
              simp only [Definition.finalize, hd2, hv2, Bool.false_eq_true, if_false, hlen3,
                if_true]
              rw [DefinitionRegistry.modify_modify, modify_eq_put _ hd2]
              simp only [Function.comp]
              rw [hrep]
              simp only [hd2, hv2, Bool.false_eq_true, if_false]
        · simp only [hlen, if_false, hda, if_true] at h
          cases hrec : recordDefinitionCommands fuel
              (reg.modify t fun d => { d with _isValid := true }) { d with _isValid := true } with
          | none => rw [hrec] at h; simp at h
          | some cmds => rw [hrec] at h; simp at h

/-- The loop of `finalizeAll`, run again on the registry it produced, returns the same
result and changes nothing. -/
theorem finalizeEntries_replay (fuel : Nat) :
    ∀ (keys : List String) (reg reg1 : DefinitionRegistry) (b : Bool),
      DefinitionRegistry.finalizeEntries fuel keys reg = some (b, reg1) →
        Kept (fun _ => False) reg reg1 ∧ reg1.map Prod.fst = reg.map Prod.fst ∧
          DefinitionRegistry.finalizeEntries fuel keys reg1 = some (b, reg1)
  | [], reg, reg1, b, h => by
    simp only [DefinitionRegistry.finalizeEntries, Option.some.injEq, Prod.mk.injEq] at h
    obtain ⟨hb, hreg⟩ := h
    subst hb hreg
    exact ⟨kept_refl _ _, rfl, rfl⟩
  | k :: keys, reg, reg1, b, h => by
    simp only [DefinitionRegistry.finalizeEntries] at h
    cases hcall : Definition.finalize fuel reg k with
    | none => rw [hcall] at h; simp at h
    | some r =>
      obtain ⟨b1, regA⟩ := r
      rw [hcall] at h
      obtain ⟨hK, hm, dk, hdk, hvk⟩ := finalize_frame fuel reg k b1 regA hcall
      cases b1 with
      | false =>
        simp only [Option.some.injEq, Prod.mk.injEq] at h
        obtain ⟨hb, hreg⟩ := h
        subst hb hreg
        refine ⟨hK, hm, ?_⟩
        simp only [DefinitionRegistry.finalizeEntries, finalize_replay fuel reg k regA hcall]
      | true =>
        simp only at h
        obtain ⟨hK2, hm2, h2⟩ := finalizeEntries_replay fuel keys regA reg1 b h
        refine ⟨kept_trans hK hK2, hm2.trans hm, ?_⟩
        have hk1 : reg1.getDefinition k = some dk := hK2.1 k dk hdk hvk (fun hf => hf)
        have hv1 := finalize_valid fuel reg k (by rw [hcall]; rfl) reg1 k dk hk1 hvk
        simp only [DefinitionRegistry.finalizeEntries, hv1]
        exact h2

/-- Claim C10: when a call of `finalizeAll` returns, a second call in a row returns the
same result and leaves the registry exactly as the first call left it, so that every
definition keeps its size and its flattened command sequence. -/
theorem DefinitionRegistry.finalizeAll_idempotent (fuel : Nat) (reg reg1 : DefinitionRegistry)
    (b : Bool) (h : DefinitionRegistry.finalizeAll fuel reg = some (b, reg1)) :
    DefinitionRegistry.finalizeAll fuel reg1 = some (b, reg1) ∧
      ∀ (reg2 : DefinitionRegistry) (b2 : Bool),
        DefinitionRegistry.finalizeAll fuel reg1 = some (b2, reg2) →
          b2 = b ∧ ∀ k : String,
            (reg2.getDefinition k).map Definition.getSize
              = (reg1.getDefinition k).map Definition.getSize ∧
            (reg2.getDefinition k).map Definition.flattenCommands
              = (reg1.getDefinition k).map Definition.flattenCommands := by
  unfold DefinitionRegistry.finalizeAll at h ⊢
  obtain ⟨_, hm, h2⟩ := finalizeEntries_replay fuel _ reg reg1 b h
  rw [hm]
  refine ⟨h2, ?_⟩
  intro reg2 b2 h3
  rw [h2] at h3
  simp only [Option.some.injEq, Prod.mk.injEq] at h3
  obtain ⟨hb, hreg⟩ := h3
  subst hb hreg
  exact ⟨rfl, fun _ => ⟨rfl, rfl⟩⟩

theorem DefinitionRegistry.finalizeAll_idempotent_witness :
    DefinitionRegistry.finalizeAll 5 DefinitionRegistry.exampleCycleRegistered
        = some (true, DefinitionRegistry.exampleCycle) ∧
      (DefinitionRegistry.finalizeAll 5 DefinitionRegistry.exampleCycle
          = some (true, DefinitionRegistry.exampleCycle) ∧
        ∀ (reg2 : DefinitionRegistry) (b2 : Bool),
          DefinitionRegistry.finalizeAll 5 DefinitionRegistry.exampleCycle = some (b2, reg2) →
            b2 = true ∧ ∀ k : String,
              (reg2.getDefinition k).map Definition.getSize
                = (DefinitionRegistry.exampleCycle.getDefinition k).map Definition.getSize ∧
              (reg2.getDefinition k).map Definition.flattenCommands
                = (DefinitionRegistry.exampleCycle.getDefinition k).map
                    Definition.flattenCommands) :=
  ⟨rfl, DefinitionRegistry.finalizeAll_idempotent 5 DefinitionRegistry.exampleCycleRegistered
    DefinitionRegistry.exampleCycle true rfl⟩

/-! ## Bytes, slices and slots -/

theorem uint32OfBytes_uint32Bytes (n : Nat) (h : n < 2 ^ 32) :
    uint32OfBytes (uint32Bytes n) = n := by
  have hb : ∀ m : Nat, (UInt8.ofNat m).toNat = m % 256 := fun _ => rfl
  simp only [uint32OfBytes, uint32Bytes, List.getD_cons_zero, List.getD_cons_succ, hb]
  omega

theorem uint32Bytes_length (n : Nat) : (uint32Bytes n).length = 4 := rfl

theorem slice_length (buf : Buffer) (off len : Nat) (h : off + len ≤ buf.length) :
    (slice buf off len).length = len := by
  simp only [slice, List.length_take, List.length_drop]
  omega

theorem getElem?_slice (buf : Buffer) (off len i : Nat) :
    (slice buf off len)[i]? = if i < len then buf[off + i]? else none := by
  simp only [slice, List.getElem?_take, List.getElem?_drop]

theorem slice_congr {a b : Buffer} {off len : Nat}
    (h : ∀ i, off ≤ i → i < off + len → a[i]? = b[i]?) : slice a off len = slice b off len := by
  apply List.ext_getElem?
  intro i
  rw [getElem?_slice, getElem?_slice]
  split
  · exact h _ (by omega) (by omega)
  · rfl

theorem slice_append (buf : Buffer) (off n m : Nat) :
    slice buf off (n + m) = slice buf off n ++ slice buf (off + n) m := by
  simp only [slice]
  rw [List.take_add, List.drop_drop]

theorem getElem?_memcpy_out (buf : Buffer) (pos : Nat) (src : List UInt8) (i : Nat)
    (h : i < pos ∨ pos + src.length ≤ i) : (memcpy buf pos src)[i]? = buf[i]? := by
  unfold memcpy
  rcases h with h | h
  · by_cases hi : i < buf.length
    · rw [List.append_assoc, List.getElem?_append_left (by simp; omega)]
      simp [List.getElem?_take, h]
    · have h1 : (buf.take pos ++ src.take (buf.length - pos)
          ++ buf.drop (pos + src.length)).length ≤ i := by
        simp only [List.length_append, List.length_take, List.length_drop]
        omega
      rw [List.getElem?_eq_none_iff.mpr h1, List.getElem?_eq_none_iff.mpr (by omega)]
  · by_cases hb : pos + src.length ≤ buf.length
    · have hl : (buf.take pos ++ src.take (buf.length - pos)).length = pos + src.length := by
        simp only [List.length_append, List.length_take]
        omega
      rw [List.getElem?_append_right (by omega), hl, List.getElem?_drop]
      congr 1
      omega
    · have h1 : (buf.take pos ++ src.take (buf.length - pos)
          ++ buf.drop (pos + src.length)).length ≤ i := by
        simp only [List.length_append, List.length_take, List.length_drop]
        omega
      rw [List.getElem?_eq_none_iff.mpr h1, List.getElem?_eq_none_iff.mpr (by omega)]

theorem slice_memcpy (buf : Buffer) (pos : Nat) (src : List UInt8)
    (h : pos + src.length ≤ buf.length) : slice (memcpy buf pos src) pos src.length = src := by
  unfold memcpy slice
  have h1 : (buf.take pos).length = pos := by
    simp only [List.length_take]
    omega
  have h2 : src.take (buf.length - pos) = src := List.take_of_length_le (by omega)
  rw [h2, List.append_assoc, List.drop_append_of_le_length (by omega),
    List.drop_of_length_le (by omega), List.nil_append, List.take_left']
  rfl

/-! ## Runs that succeed: composition -/

theorem changes_refl (lo hi : Nat) (mw : MessageWriter) : Changes lo hi mw mw :=
  fun _ => ⟨Nat.le_refl _, fun _ _ _ => rfl⟩

theorem changes_trans {lo hi lo1 hi1 lo2 hi2 : Nat} {mw r1 r2 : MessageWriter}
    (h1 : Changes lo1 hi1 mw r1) (h2 : Changes lo2 hi2 r1 r2)
    (hl1 : lo ≤ lo1) (hh1 : hi1 ≤ hi) (hl2 : lo ≤ lo2) (hh2 : hi2 ≤ hi) :
    Changes lo hi mw r2 := by
  intro b
  refine ⟨Nat.le_trans (h1 b).1 (h2 b).1, fun i hi0 hout => ?_⟩
  rw [(h2 b).2 i (Nat.lt_of_lt_of_le hi0 (h1 b).1) (fun hb => by have := hout hb; omega),
    (h1 b).2 i hi0 (fun hb => by have := hout hb; omega)]

theorem small_of_changes {lo hi : Nat} {mw r : MessageWriter} (h : Changes lo hi mw r)
    (hs : Small r) : Small mw :=
  fun b => Nat.lt_of_le_of_lt (h b).1 (hs b)

theorem ready_fst {b1 b2 : List UInt8} {w1 w2 : Nat} {src : DataReader} {dst : DataWriter}
    {mw : MessageWriter} (h : Ready (b1 ++ b2) (w1 + w2) src dst mw) : Ready b1 w1 src dst mw :=
  ⟨⟨h.1.1, List.IsPrefix.trans (List.prefix_append b1 b2) h.1.2⟩, h.2.1,
    by have := h.2.2.1; omega, h.2.2.2⟩

theorem ready_snd {b1 b2 : List UInt8} {w1 w2 : Nat} {src : DataReader} {dst : DataWriter}
    {mw : MessageWriter} {R : MessageWriter → Prop} {r : Run}
    (h : Ready (b1 ++ b2) (w1 + w2) src dst mw) (h1 : Outcome b1.length w1 R src dst mw r) :
    Ready b2 w2 r.src r.dst r.mw := by
  obtain ⟨_, hsrc, hdst, hch, _⟩ := h1
  obtain ⟨⟨hle, hp⟩, hb, hroom, hend⟩ := h
  rw [hsrc, hdst]
  refine ⟨?_, hb, by simp only; omega, ?_⟩
  · obtain ⟨t, ht⟩ := hp
    have hl := congrArg List.length ht
    simp only [List.length_append, List.length_drop] at hl
    refine ⟨by simp only; omega, t, ?_⟩
    simp only
    rw [← List.drop_drop, ← ht, List.append_assoc, List.drop_left]
  · exact Nat.le_trans hend (by simpa using (hch .data).1)

theorem outcome_seq {b1 b2 : List UInt8} {w1 w2 : Nat} {src : DataReader} {dst : DataWriter}
    {mw : MessageWriter} {R1 R2 : MessageWriter → Prop} {r1 r2 : Run}
    (h : Ready (b1 ++ b2) (w1 + w2) src dst mw) (h1 : Outcome b1.length w1 R1 src dst mw r1)
    (h2 : Outcome b2.length w2 R2 r1.src r1.dst r1.mw r2) :
    Outcome (b1 ++ b2).length (w1 + w2) (fun m => R1 m ∧ R2 m) src dst mw r2 := by
  obtain ⟨_, hsrc1, hdst1, hch1, hR1⟩ := h1
  obtain ⟨hok2, hsrc2, hdst2, hch2, hR2⟩ := h2
  obtain ⟨_, _, hroom, hend⟩ := h
  rw [hdst1] at hch2 hR2 hdst2
  simp only at hch2 hR2 hdst2
  refine ⟨hok2, ?_, ?_, ?_, ?_⟩
  · rw [hsrc2, hsrc1]
    simp only [List.length_append, Nat.add_assoc]
  · rw [hdst2]
    simp only [Nat.add_assoc]
  · exact changes_trans hch1 hch2 (Nat.le_refl _) (by omega) (by omega) (by omega)
  · intro hs mw1 hown
    refine ⟨hR1 (small_of_changes hch2 hs) mw1 ?_, hR2 hs mw1 ?_⟩
    · intro b i hi hin
      have hi2 : i < (r2.mw.get b).length := Nat.lt_of_lt_of_le hi (hch2 b).1
      rw [hown b i hi2 (by rcases hin with ⟨hb, h1, h2⟩ | h3
                           · exact Or.inl ⟨hb, h1, by omega⟩
                           · exact Or.inr h3)]
      apply (hch2 b).2 i hi
      intro hb
      subst hb
      rcases hin with ⟨_, _, h2⟩ | h3
      · exact Or.inl h2
      · right
        simp only [MessageWriter.get_data] at h3
        omega
    · intro b i hi hin
      apply hown b i hi
      rcases hin with ⟨hb, h1, h2⟩ | h3
      · exact Or.inl ⟨hb, by omega, by omega⟩
      · exact Or.inr (Nat.le_trans (hch1 b).1 h3)

theorem runs_nil : Runs [] [] 0 fun _ _ => True := by
  intro src dst mw _
  rw [MessageWriter.dispatchCommands_nil]
  exact ⟨rfl, rfl, rfl, changes_refl _ _ _, fun _ _ _ => trivial⟩

theorem runs_append {c1 c2 : CommandBuffer} {b1 b2 : List UInt8} {w1 w2 : Nat}
    {R1 R2 : Nat → MessageWriter → Prop} (h1 : Runs c1 b1 w1 R1) (h2 : Runs c2 b2 w2 R2) :
    Runs (c1 ++ c2) (b1 ++ b2) (w1 + w2) fun pos m => R1 pos m ∧ R2 (pos + w1) m := by
  intro src dst mw hr
  have o1 := h1 src dst mw (ready_fst hr)
  have o2 := h2 _ _ _ (ready_snd hr o1)
  rw [MessageWriter.dispatchCommands_append, o1.1]
  simp only [if_true]
  have hn : (MessageWriter.dispatchCommands c1 src dst mw).dst.next = dst.next + w1 := by
    rw [o1.2.2.1]
  rw [hn] at o2
  exact outcome_seq hr o1 o2

theorem runs_mono {c : CommandBuffer} {b : List UInt8} {w : Nat}
    {R R1 : Nat → MessageWriter → Prop} (h : Runs c b w R)
    (hR : ∀ pos m, R pos m → R1 pos m) : Runs c b w R1 := by
  intro src dst mw hr
  obtain ⟨h1, h2, h3, h4, h5⟩ := h src dst mw hr
  exact ⟨h1, h2, h3, h4, fun hs mw1 ho => hR _ _ (h5 hs mw1 ho)⟩

/-! ## Slots -/

theorem writeOffsets_of_room (dst : DataWriter) (mw : MessageWriter) (count off : Nat)
    (h : dst.next + 8 ≤ dst.end_) :
    dst.writeOffsets mw count off =
      (true, { dst with next := dst.next + 8 },
        mw.set dst.buffer
          (memcpy (mw.get dst.buffer) dst.next (uint32Bytes count ++ uint32Bytes off))) := by
  unfold DataWriter.writeOffsets
  rw [DataWriter.write_def]
  simp only [List.length_append, uint32Bytes_length]
  rw [if_pos h]

theorem slot_of_slice (mw : MessageWriter) (pos count off : Nat) (hoff : off < 2 ^ 32)
    (hlen : pos + 8 ≤ mw._dataBuffer.length)
    (h : slice mw._dataBuffer pos 8 = uint32Bytes count ++ uint32Bytes off) :
    slotHolds mw pos count = true ∧ slotOffset mw pos = off := by
  have h8 : (8 : Nat) = 4 + 4 := rfl
  rw [h8, slice_append] at h
  have hl : (slice mw._dataBuffer pos 4).length = (uint32Bytes count).length := by
    rw [slice_length _ _ _ (by omega), uint32Bytes_length]
  obtain ⟨h1, h2⟩ := List.append_inj h hl
  unfold slotHolds slotOffset
  rw [h1, h2, uint32OfBytes_uint32Bytes _ hoff]
  simp [uint32Bytes_length]

/-- A slot and what it points to: the view `a.1` is allocated in `buffer`, the slot
`(count, a.1.next)` is written at the cursor of `dst`, and a run into the allocated view
leaves the buffers `m3`. -/
theorem outcome_slot (buffer : BufferId) (total count : Nat) (dst : DataWriter)
    (mw m3 : MessageWriter) (Rc : MessageWriter → Prop)
    (hb : dst.buffer = .data) (hroom : dst.next + 8 ≤ dst.end_)
    (hend : dst.end_ ≤ mw._dataBuffer.length)
    (hgrow : ∀ c, ((dst.writeOffsets (mw.allocate buffer total).2 count
        ((mw.allocate buffer total).1.next % 2 ^ 32)).2.2.get c).length ≤ (m3.get c).length)
    (hkeep : ∀ c i, i < (mw.get c).length → (m3.get c)[i]? =
      ((dst.writeOffsets (mw.allocate buffer total).2 count
        ((mw.allocate buffer total).1.next % 2 ^ 32)).2.2.get c)[i]?)
    (hR : Small m3 → ∀ mw1, (∀ c i, i < (m3.get c).length → (mw.get c).length ≤ i →
      (mw1.get c)[i]? = (m3.get c)[i]?) → Rc mw1) :
    (dst.writeOffsets (mw.allocate buffer total).2 count
        ((mw.allocate buffer total).1.next % 2 ^ 32)).2.1 = { dst with next := dst.next + 8 } ∧
      Changes dst.next (dst.next + 8) mw m3 ∧
      (Small m3 → ∀ mw1, Owned dst.next (dst.next + 8) mw m3 mw1 →
        (slotHolds mw1 dst.next count = true ∧ slotOffset mw1 dst.next = (mw.get buffer).length)
          ∧ Rc mw1) := by
  rw [writeOffsets_of_room _ _ _ _ hroom] at hgrow hkeep ⊢
  simp only [MessageWriter.allocate_fst, hb] at hgrow hkeep ⊢
  have hlenA : ∀ c, (mw.get c).length ≤ ((mw.allocate buffer total).2.get c).length :=
    fun c => MessageWriter.allocate_length_le mw buffer c total
  have hA : ∀ c i, i < (mw.get c).length →
      ((mw.allocate buffer total).2.get c)[i]? = (mw.get c)[i]? := by
    intro c i hi
    rw [MessageWriter.allocate_get]
    split
    · rename_i h; subst h
      rw [List.getElem?_append_left hi]
    · rfl
  have hW : ∀ c, (((mw.allocate buffer total).2.set .data
      (memcpy ((mw.allocate buffer total).2.get .data) dst.next (uint32Bytes count ++
        uint32Bytes ((mw.get buffer).length % 2 ^ 32)))).get c).length
        = ((mw.allocate buffer total).2.get c).length := by
    intro c
    cases c
    · rw [MessageWriter.get_set_same, memcpy_length]
    · rw [MessageWriter.get_set_ne _ _ _ _ (by decide)]
  refine ⟨trivial, ?_, ?_⟩
  · intro c
    refine ⟨Nat.le_trans (hlenA c) (by rw [← hW c]; exact hgrow c), fun i hi hout => ?_⟩
    rw [hkeep c i hi, ← hA c i hi]
    cases c
    · rw [MessageWriter.get_set_same]
      apply getElem?_memcpy_out
      have := hout rfl
      simp only [List.length_append, uint32Bytes_length]
      omega
    · rw [MessageWriter.get_set_ne _ _ _ _ (by decide)]
  · intro hs mw1 hown
    have hlen3 : mw._dataBuffer.length ≤ m3._dataBuffer.length := by
      have h1 := hlenA .data
      have h2 := hgrow .data
      rw [hW] at h2
      simp only [MessageWriter.get_data] at h1 h2
      omega
    have hL : (mw.get buffer).length < 2 ^ 32 := by
      have h1 := hlenA buffer
      have h2 := hgrow buffer
      rw [hW] at h2
      have h3 := hs buffer
      omega
    refine ⟨?_, hR hs mw1 fun c i hi hge => hown c i hi (Or.inr hge)⟩
    apply slot_of_slice mw1 dst.next count _ hL
    · have h0 := hown .data (dst.next + 7) (by simp only [MessageWriter.get_data]; omega)
        (Or.inl ⟨rfl, by omega, by omega⟩)
      have h1 : (m3.get .data)[dst.next + 7]?.isSome = true := by
        rw [List.getElem?_eq_getElem (by simp only [MessageWriter.get_data]; omega)]; rfl
      rw [← h0] at h1
      have h2 := (List.getElem?_eq_some_iff.mp (Option.eq_some_of_isSome h1)).1
      simp only [MessageWriter.get_data] at h2
      omega
    · have e1 : slice mw1._dataBuffer dst.next 8 = slice m3._dataBuffer dst.next 8 :=
        slice_congr fun i h1 h2 =>
          hown .data i (by simp only [MessageWriter.get_data]; omega)
            (Or.inl ⟨rfl, h1, h2⟩)
      have e2 : slice m3._dataBuffer dst.next 8 = slice (((mw.allocate buffer total).2.set .data
          (memcpy ((mw.allocate buffer total).2.get .data) dst.next (uint32Bytes count ++
            uint32Bytes ((mw.get buffer).length % 2 ^ 32)))).get .data) dst.next 8 :=
        slice_congr fun i h1 h2 =>
          hkeep .data i (by simp only [MessageWriter.get_data]; omega)
      rw [e1, e2, MessageWriter.get_set_same, Nat.mod_eq_of_lt hL]
      have h8 : (uint32Bytes count ++ uint32Bytes (mw.get buffer).length).length = 8 := rfl
      have := slice_memcpy ((mw.allocate buffer total).2.get .data) dst.next
        (uint32Bytes count ++ uint32Bytes (mw.get buffer).length)
        (by rw [h8]; have := hlenA .data; simp only [MessageWriter.get_data] at this ⊢; omega)
      rw [h8] at this
      exact this

/-! ## The commands on well-formed input -/

theorem ready_read {bytes : List UInt8} {w : Nat} {src : DataReader} {dst : DataWriter}
    {mw : MessageWriter} (h : Ready bytes w src dst mw) :
    src._read + bytes.length ≤ src._size ∧
      (src._data.drop src._read).take bytes.length = bytes := by
  obtain ⟨t, ht⟩ := h.1.2
  have hle := h.1.1
  have hl := congrArg List.length ht
  simp only [List.length_append, List.length_drop] at hl
  refine ⟨by unfold DataReader._size; omega, ?_⟩
  rw [← ht, List.take_left']
  rfl

/-- A fixed read copies its bytes to the cursor of the view. -/
theorem runs_fixed (l : String) (n : Nat) (subs : CommandBuffer) (bytes : List UInt8) :
    Runs [.mk .READ_FIXED_SIZE_DATA l bytes.length n subs] bytes bytes.length
      fun pos m => slice m._dataBuffer pos bytes.length = bytes := by
  intro src dst mw hr
  obtain ⟨h1, h2⟩ := ready_read hr
  obtain ⟨_, hb, hroom, hend⟩ := hr
  obtain ⟨db, dn, de⟩ := dst
  simp only at hb hroom hend
  subst hb
  rw [MessageWriter.dispatchCommands_singleton, MessageWriter.dispatchCommand_fixed,
    DataReader.read_of_room _ _ _ _ h1 hroom, h2]
  simp only
  refine ⟨rfl, rfl, rfl, ?_, ?_⟩
  · intro c
    cases c
    · rw [MessageWriter.get_set_same, memcpy_length]
      exact ⟨Nat.le_refl _, fun i _ hout => getElem?_memcpy_out _ _ _ _ (hout rfl)⟩
    · rw [MessageWriter.get_set_ne _ _ _ _ (by decide)]
      exact ⟨Nat.le_refl _, fun _ _ _ => rfl⟩
  · intro _ mw1 hown
    simp only at hown
    have e : slice mw1._dataBuffer dn bytes.length
        = slice (memcpy mw._dataBuffer dn bytes) dn bytes.length :=
      slice_congr fun i hi1 hi2 => by
        have := hown .data i (by
          rw [MessageWriter.get_set_same, memcpy_length]
          simp only [MessageWriter.get_data]; omega) (Or.inl ⟨rfl, hi1, hi2⟩)
        rw [MessageWriter.get_set_same] at this
        exact this
    rw [e]
    exact slice_memcpy _ _ _ (by omega)

theorem get_set (mw : MessageWriter) (b c : BufferId) (buf : Buffer) :
    (mw.set b buf).get c = if c = b then buf else mw.get c := by
  by_cases h : c = b
  · subst h; simp
  · simp [h, MessageWriter.get_set_ne _ _ _ _ h]

/-- The bytes `payload` follow a count of four bytes at the cursor of the input. -/
theorem ready_count {count : Nat} {payload : List UInt8} {w : Nat} {src : DataReader}
    {dst : DataWriter} {mw : MessageWriter} (hc : count < 2 ^ 32)
    (h : Ready (uint32Bytes count ++ payload) w src dst mw) :
    src._read + 4 ≤ src._size ∧ uint32OfBytes ((src._data.drop src._read).take 4) = count ∧
      Ready payload 0 { src with _read := src._read + 4 } dst mw := by
  obtain ⟨⟨hle, t, ht⟩, hb, hroom, hend⟩ := h
  have hl := congrArg List.length ht
  simp only [List.length_append, List.length_drop, uint32Bytes_length] at hl
  refine ⟨by unfold DataReader._size; omega, ?_, ⟨by simp only; omega, t, ?_⟩, hb,
    by omega, hend⟩
  · rw [← ht, List.append_assoc, List.take_left' (uint32Bytes_length count),
      uint32OfBytes_uint32Bytes _ hc]
  · simp only
    rw [← List.drop_drop, ← ht, List.append_assoc, List.drop_left' (uint32Bytes_length count)]

/-- The function `readDynamicData` on a count followed by the bytes it announces: the
slot is written at the cursor of the view and points to the copy of the bytes. -/
theorem outcome_readDynamicData (buffer : BufferId) (esize count : Nat) (payload : List UInt8)
    (hc : count < 2 ^ 32) (hp : payload.length = count * esize) (src : DataReader)
    (dst : DataWriter) (mw : MessageWriter)
    (hr : Ready (uint32Bytes count ++ payload) 8 src dst mw) :
    Outcome (uint32Bytes count ++ payload).length 8
      (fun m => slotHolds m dst.next count = true ∧
        slice (m.get buffer) (slotOffset m dst.next) payload.length = payload)
      src dst mw (mw.readDynamicData src dst buffer esize) := by
  obtain ⟨h4, hcount, hr1⟩ := ready_count hc hr
  obtain ⟨hp1, hp2⟩ := ready_read hr1
  obtain ⟨_, hb, hroom, hend⟩ := hr
  rw [MessageWriter.readDynamicData_eq]
  simp only [h4, if_true, hcount]
  obtain ⟨w, hw⟩ : ∃ w, w = dst.writeOffsets (mw.allocate buffer (count * esize)).2 count
    ((mw.allocate buffer (count * esize)).1.next % 2 ^ 32) := ⟨_, rfl⟩
  rw [← hw]
  have hwl : ∀ c, (w.2.2.get c).length = ((mw.allocate buffer (count * esize)).2.get c).length := by
    intro c; rw [hw]; exact DataWriter.writeOffsets_length _ _ _ _ _
  have hwb : (w.2.2.get buffer).length = (mw.get buffer).length + payload.length := by
    rw [hwl, MessageWriter.allocate_get]
    simp [hp]
  have hread : ({ src with _read := src._read + 4 } : DataReader).read (count * esize)
      (mw.allocate buffer (count * esize)).1 w.2.2 =
      (true, { src with _read := src._read + 4 + payload.length },
        { buffer := buffer, next := (mw.get buffer).length + payload.length,
          end_ := (mw.get buffer).length + count * esize },
        w.2.2.set buffer (memcpy (w.2.2.get buffer) (mw.get buffer).length payload)) := by
    rw [← hp]
    rw [DataReader.read_of_room _ _ _ _ hp1 (by rw [MessageWriter.allocate_fst]), hp2]
    simp only [MessageWriter.allocate_fst]
  -- the buffers after the copy
  obtain ⟨m3, hm3⟩ : ∃ m3, m3 = w.2.2.set buffer
      (memcpy (w.2.2.get buffer) (mw.get buffer).length payload) := ⟨_, rfl⟩
  have hres : (if count > 0 then
        ({ ok := (({ src with _read := src._read + 4 } : DataReader).read (count * esize)
              (mw.allocate buffer (count * esize)).1 w.2.2).1,
           src := (({ src with _read := src._read + 4 } : DataReader).read (count * esize)
              (mw.allocate buffer (count * esize)).1 w.2.2).2.1,
           dst := w.2.1,
           mw := (({ src with _read := src._read + 4 } : DataReader).read (count * esize)
              (mw.allocate buffer (count * esize)).1 w.2.2).2.2.2 } : Run)
      else { ok := true, src := { src with _read := src._read + 4 }, dst := w.2.1,
             mw := w.2.2 }) =
      { ok := true, src := { src with _read := src._read + 4 + payload.length }, dst := w.2.1,
        mw := m3 } := by
    by_cases h0 : count > 0
    · rw [if_pos h0, hread, hm3]
    · have hz : count = 0 := by omega
      have hpz : payload = [] := by
        apply List.eq_nil_of_length_eq_zero
        rw [hp, hz, Nat.zero_mul]
      rw [if_neg h0, hm3, hpz]
      have : memcpy (w.2.2.get buffer) (mw.get buffer).length [] = w.2.2.get buffer := by
        simp [memcpy]
      rw [this, MessageWriter.set_get]
      rfl
  rw [hres]
  have hget : ∀ c, (m3.get c).length = (w.2.2.get c).length := by
    intro c
    rw [hm3, get_set]
    split
    · rename_i h; subst h; rw [memcpy_length]
    · rfl
  obtain ⟨hd, hch, hR⟩ := outcome_slot buffer (count * esize) count dst mw m3
    (fun m => slice (m.get buffer) (mw.get buffer).length payload.length = payload)
    hb hroom hend
    (by intro c; rw [← hw, hget])
    (by
      intro c i hi
      rw [← hw, hm3, get_set]
      split
      · rename_i h; subst h
        exact getElem?_memcpy_out _ _ _ _ (Or.inl hi)
      · rfl)
    (by
      intro _ mw1 hag
      have e : slice (mw1.get buffer) (mw.get buffer).length payload.length
          = slice (m3.get buffer) (mw.get buffer).length payload.length :=
        slice_congr fun i h1 h2 => hag buffer i (by rw [hget, hwb]; exact h2) h1
      rw [e, hm3, MessageWriter.get_set_same]
      exact slice_memcpy _ _ _ (by rw [hwb]))
  rw [← hw] at hd
  refine ⟨rfl, ?_, hd, hch, ?_⟩
  · simp only [List.length_append, uint32Bytes_length]
    congr 1
    omega
  · intro hs mw1 hown
    obtain ⟨⟨h1, h2⟩, h3⟩ := hR hs mw1 hown
    exact ⟨h1, by rw [h2]; exact h3⟩

/-- The view allocated for the elements of an array is ready for them. -/
theorem ready_child {bytes : List UInt8} {w : Nat} {src : DataReader} {dst : DataWriter}
    {mw : MessageWriter} (h : Ready bytes w src dst mw) (total count : Nat) :
    Ready bytes total src (mw.allocate .data total).1
      (dst.writeOffsets (mw.allocate .data total).2 count
        ((mw.allocate .data total).1.next % 2 ^ 32)).2.2 := by
  have hl := DataWriter.writeOffsets_length dst (mw.allocate .data total).2 count
    ((mw.allocate .data total).1.next % 2 ^ 32) .data
  obtain ⟨x, hx⟩ : ∃ x, x = dst.writeOffsets (mw.allocate .data total).2 count
    ((mw.allocate .data total).1.next % 2 ^ 32) := ⟨_, rfl⟩
  rw [← hx] at hl ⊢
  rw [MessageWriter.allocate_get] at hl
  simp only [MessageWriter.get_data, if_true, List.length_append, List.length_replicate] at hl
  refine ⟨h.1, by rw [MessageWriter.allocate_fst], by rw [MessageWriter.allocate_fst], ?_⟩
  rw [MessageWriter.allocate_fst, hl]
  simp

/-- A slot and the run into the view it points to: the commands of an array. -/
theorem outcome_nested (total count n n1 : Nat) (Rc : Nat → MessageWriter → Prop)
    (src srcC : DataReader) (dst : DataWriter) (mw : MessageWriter) (rc : Run)
    (hb : dst.buffer = .data) (hroom : dst.next + 8 ≤ dst.end_)
    (hend : dst.end_ ≤ mw._dataBuffer.length)
    (hsrc : ({ srcC with _read := srcC._read + n } : DataReader)
      = { src with _read := src._read + n1 })
    (hc : Outcome n total (Rc mw._dataBuffer.length) srcC (mw.allocate .data total).1
      (dst.writeOffsets (mw.allocate .data total).2 count
        ((mw.allocate .data total).1.next % 2 ^ 32)).2.2 rc) :
    Outcome n1 8 (fun m => slotHolds m dst.next count = true ∧ Rc (slotOffset m dst.next) m)
      src dst mw
      { ok := rc.ok, src := rc.src,
        dst := (dst.writeOffsets (mw.allocate .data total).2 count
          ((mw.allocate .data total).1.next % 2 ^ 32)).2.1, mw := rc.mw } := by
  have hwl := DataWriter.writeOffsets_length dst (mw.allocate .data total).2 count
    ((mw.allocate .data total).1.next % 2 ^ 32)
  have hslot := outcome_slot .data total count dst mw rc.mw
    (Rc mw._dataBuffer.length) hb hroom hend
  obtain ⟨x, hx⟩ : ∃ x, x = dst.writeOffsets (mw.allocate .data total).2 count
    ((mw.allocate .data total).1.next % 2 ^ 32) := ⟨_, rfl⟩
  rw [← hx] at hc hwl hslot ⊢
  obtain ⟨hok, hs, _, hch, hR⟩ := hc
  simp only [MessageWriter.allocate_fst, MessageWriter.get_data] at hch hR
  have hwd : (x.2.2.get .data).length = mw._dataBuffer.length + total := by
    rw [hwl, MessageWriter.allocate_get]
    simp
  have hws : (x.2.2.get .strings).length = mw._stringBuffer.length := by
    rw [hwl, MessageWriter.allocate_get]
    simp
  obtain ⟨hd, hch1, hR1⟩ := hslot (fun c => (hch c).1)
    (by
      intro c i hi
      apply (hch c).2 i
      · cases c
        · rw [hwd]; simp only [MessageWriter.get_data] at hi; omega
        · rw [hws]; exact hi
      · intro hcd
        subst hcd
        exact Or.inl hi)
    (by
      intro hsm mw1 hag
      apply hR hsm mw1
      intro c i hi hin
      apply hag c i hi
      rcases hin with ⟨hcd, h1, _⟩ | h2
      · subst hcd; exact h1
      · cases c
        · rw [hwd] at h2; simp only [MessageWriter.get_data]; omega
        · rw [hws] at h2; exact h2)
  refine ⟨hok, by rw [hs, hsrc], hd, hch1, ?_⟩
  intro hsm mw1 hown
  obtain ⟨⟨h1, h2⟩, h3⟩ := hR1 hsm mw1 hown
  refine ⟨h1, ?_⟩
  rw [h2]
  exact h3

/-- A string: the slot points to the body in the string buffer. -/
theorem runs_string (l : String) (s n : Nat) (subs : CommandBuffer) (body : List UInt8)
    (hc : body.length < 2 ^ 32) :
    Runs [.mk .READ_STRING l s n subs] (uint32Bytes body.length ++ body) (2 * 4)
      fun pos m => slotHolds m pos body.length = true ∧
        slice m._stringBuffer (slotOffset m pos) body.length = body := by
  intro src dst mw hr
  rw [MessageWriter.dispatchCommands_singleton, MessageWriter.dispatchCommand_string]
  exact outcome_readDynamicData .strings 1 body.length body hc (by simp) src dst mw hr

/-- An array of elements of constant size: the slot points to the copy of the elements
in the data buffer. -/
theorem runs_dynamicSize (l : String) (size n : Nat) (subs : CommandBuffer) (count : Nat)
    (payload : List UInt8) (hc : count < 2 ^ 32) (hp : payload.length = count * size) :
    Runs [.mk .READ_DYNAMIC_SIZE_DATA l size n subs] (uint32Bytes count ++ payload) (2 * 4)
      fun pos m => slotHolds m pos count = true ∧
        slice m._dataBuffer (slotOffset m pos) payload.length = payload := by
  intro src dst mw hr
  rw [MessageWriter.dispatchCommands_singleton, MessageWriter.dispatchCommand_dynamicSize]
  exact outcome_readDynamicData .data size count payload hc hp src dst mw hr

theorem outcome_skip (R : MessageWriter → Prop) (hR : ∀ m, R m) (src : DataReader)
    (dst : DataWriter) (mw : MessageWriter) :
    Outcome 0 0 R src dst mw { ok := true, src := src, dst := dst, mw := mw } :=
  ⟨rfl, rfl, rfl, changes_refl _ _ _, fun _ _ _ => hR _⟩

/-- A constant-length array: the slot points to the view the subcommands fill. -/
theorem runs_constantArray (l : String) (size length : Nat) (subs : CommandBuffer)
    (bytes : List UInt8) (Rc : Nat → MessageWriter → Prop)
    (hsub : length > 0 → Runs subs bytes (length * size) Rc)
    (h0 : length = 0 → bytes = [] ∧ ∀ pos m, Rc pos m) :
    Runs [.mk .CONSTANT_ARRAY l size length subs] bytes (2 * 4)
      fun pos m => slotHolds m pos length = true ∧ Rc (slotOffset m pos) m := by
  intro src dst mw hr
  rw [MessageWriter.dispatchCommands_singleton, MessageWriter.dispatchCommand_constantArray]
  dsimp only
  have hrc := ready_child hr (length * size) length
  by_cases hl : length > 0
  · rw [if_pos hl]
    exact outcome_nested (length * size) length bytes.length bytes.length Rc src src dst mw _
      hr.2.1 hr.2.2.1 hr.2.2.2 rfl (hsub hl _ _ _ hrc)
  · rw [if_neg hl]
    have hz : length = 0 := by omega
    obtain ⟨hb, hR⟩ := h0 hz
    subst hb
    have hz2 : length * size = 0 := by rw [hz, Nat.zero_mul]
    have o : Outcome 0 (length * size) (Rc mw._dataBuffer.length) src
        (mw.allocate .data (length * size)).1
        (dst.writeOffsets (mw.allocate .data (length * size)).2 length
          ((mw.allocate .data (length * size)).1.next % 2 ^ 32)).2.2
        { ok := true, src := src, dst := (mw.allocate .data (length * size)).1,
          mw := (dst.writeOffsets (mw.allocate .data (length * size)).2 length
            ((mw.allocate .data (length * size)).1.next % 2 ^ 32)).2.2 } := by
      rw [hz2]
      exact outcome_skip _ (hR _) _ _ _
    exact outcome_nested (length * size) length 0 0 Rc src src dst mw _
      hr.2.1 hr.2.2.1 hr.2.2.2 rfl o

/-- A dynamic-length array: the slot holds the length read from the input and points to
the view the subcommands fill, once for every element. -/
theorem runs_dynamicArray (l : String) (size n : Nat) (subs : CommandBuffer) (count : Nat)
    (body : List UInt8) (Rc : Nat → MessageWriter → Prop) (hc : count < 2 ^ 32)
    (hsub : ∀ src dst mw, Ready body (count * size) src dst mw →
      Outcome body.length (count * size) (Rc dst.next) src dst mw
        (MessageWriter.dispatchTimes (fun s w m => MessageWriter.dispatchCommands subs s w m)
          count src dst mw)) :
    Runs [.mk .DYNAMIC_ARRAY l size n subs] (uint32Bytes count ++ body) (2 * 4)
      fun pos m => slotHolds m pos count = true ∧ Rc (slotOffset m pos) m := by
  intro src dst mw hr
  obtain ⟨h4, hcount, hr1⟩ := ready_count hc hr
  rw [MessageWriter.dispatchCommands_singleton, MessageWriter.dispatchCommand_dynamicArray]
  simp only [h4, if_true, hcount]
  have hr2 : Ready body 8 { src with _read := src._read + 4 } dst mw :=
    ⟨hr1.1, hr.2.1, hr.2.2.1, hr.2.2.2⟩
  have hrc := ready_child hr2 (count * size) count
  have o := hsub _ _ _ hrc
  have hsrc : ({ ({ src with _read := src._read + 4 } : DataReader) with
      _read := ({ src with _read := src._read + 4 } : DataReader)._read + body.length }
        : DataReader) = { src with _read := src._read + (uint32Bytes count ++ body).length } := by
    simp only [List.length_append, uint32Bytes_length, Nat.add_assoc]
  have o2 := outcome_nested (count * size) count body.length
    (uint32Bytes count ++ body).length Rc src _ dst mw _ hr.2.1 hr.2.2.1 hr.2.2.2 hsrc o
  by_cases hl : count > 0
  · rw [if_pos hl]
    exact o2
  · rw [if_neg hl]
    have hz : count = 0 := by omega
    subst hz
    simp only [MessageWriter.dispatchTimes] at o2
    exact o2

/-! ## Recorded commands on encoded values -/

theorem dispatchCommand_wrapLabel (name : String) (c : Command) (src : DataReader)
    (dst : DataWriter) (mw : MessageWriter) :
    MessageWriter.dispatchCommand (wrapLabel name c) src dst mw
      = MessageWriter.dispatchCommand c src dst mw := by
  obtain ⟨t, l, s, n, subs⟩ := c
  cases t <;> simp only [wrapLabel, MessageWriter.dispatchCommand]

theorem dispatchCommands_wrapLabel (name : String) (cs : CommandBuffer) (src : DataReader)
    (dst : DataWriter) (mw : MessageWriter) :
    MessageWriter.dispatchCommands (cs.map (wrapLabel name)) src dst mw
      = MessageWriter.dispatchCommands cs src dst mw := by
  induction cs generalizing src dst mw with
  | nil => rfl
  | cons c cs ih =>
    rw [List.map_cons, MessageWriter.dispatchCommands_cons, MessageWriter.dispatchCommands_cons,
      dispatchCommand_wrapLabel]
    split
    · exact ih _ _ _
    · rfl

theorem runs_wrapLabel {cs : CommandBuffer} {b : List UInt8} {w : Nat}
    {R : Nat → MessageWriter → Prop} (name : String) (h : Runs cs b w R) :
    Runs (cs.map (wrapLabel name)) b w R := by
  intro src dst mw hr
  rw [dispatchCommands_wrapLabel]
  exact h src dst mw hr

theorem layoutSize_eq_fieldsSize {reg : DefinitionRegistry} {fs : List Field}
    (h : Resolved (fun _ => False) reg fs) : layoutSize reg fs = fieldsSize reg fs := by
  induction fs with
  | nil => rfl
  | cons f fs ih =>
    obtain ⟨h1, h2⟩ := resolved_cons.mp h
    obtain ⟨hp, fd, hfd, _, _⟩ := h1 f (by simp)
    rw [fieldsSize_cons, ← ih h2]
    simp only [layoutSize, hfd, Field.getSize, hp, Option.some_bind, Definition.getSize]

theorem slice_split {buf : Buffer} {pos n m : Nat} {x y : List UInt8}
    (h : slice buf pos (n + m) = x ++ y) (hx : x.length = n) (hy : y.length = m) :
    slice buf pos n = x ∧ slice buf (pos + n) m = y := by
  rw [slice_append] at h
  have h1 : (slice buf pos n).length ≤ n := by
    simp only [slice, List.length_take]; omega
  have h2 : (slice buf (pos + n) m).length ≤ m := by
    simp only [slice, List.length_take]; omega
  have hl := congrArg List.length h
  simp only [List.length_append] at hl
  exact List.append_inj h (by omega)

theorem settled_of_good {reg : DefinitionRegistry} (hfin : Finalized reg) {d : Definition}
    (hg : Good reg d) (hne : d._fields ≠ []) : Settled (fun _ => False) reg d := by
  obtain ⟨k, hk, hv⟩ := hg
  exact hfin.good k d hk hv hne (fun h => h)

theorem isEmpty_eq_false_of_ne {α : Type} {l : List α} (h : l ≠ []) : l.isEmpty = false := by
  cases l with
  | nil => exact absurd rfl h
  | cons _ _ => rfl

mutual
/-- A value of a definition of constant size takes as many bytes as the definition, and
bytes that are a copy of its encoding represent it. -/
theorem represents_raw {reg : DefinitionRegistry} (hfin : Finalized reg) :
    ∀ (v : Value) (d : Definition) (bytes : List UInt8), Good reg d →
      d._hasConstantSize = true → encode reg d v = some bytes →
      bytes.length = d._size ∧ ∀ (mw : MessageWriter) (pos : Nat),
        slice mw._dataBuffer pos d._size = bytes → represents reg mw d pos v = true
  | .prim bs, d, bytes, _, _, he => by
    simp only [encode] at he
    split at he
    · rename_i hcond
      simp only [Bool.and_eq_true, beq_iff_eq] at hcond
      have e := Option.some.inj he
      subst e
      refine ⟨hcond.2, fun mw pos hs => ?_⟩
      simp only [represents, hs, beq_self_eq_true]
    · simp at he
  | .str bs, d, bytes, hg, hc, he => by
    simp only [encode] at he
    split at he
    · rename_i hcond
      simp only [Bool.and_eq_true] at hcond
      obtain ⟨k, hk, _⟩ := hg
      have := (hfin.strings k d hk hcond.1.2).2.2
      rw [hc] at this
      simp at this
    · simp at he
  | .record vs, d, bytes, hg, hc, he => by
    simp only [encode] at he
    split at he
    · simp at he
    · rename_i hne
      have hne1 : d._fields ≠ [] := by
        intro e; rw [e] at hne; simp at hne
      have hS := settled_of_good hfin hg hne1
      obtain ⟨h1, h2⟩ := representsFields_raw hfin vs d._fields bytes hS.resolved
        (hS.constant hc) he
      rw [hS.size, ← layoutSize_eq_fieldsSize hS.resolved]
      exact ⟨h1, fun mw pos hs => by simp only [represents]; exact h2 mw pos hs⟩
  | .array es, d, bytes, _, _, he => by
    simp only [encode] at he
    simp at he
/-- The fields of a record of constant size: see `represents_raw`. -/
theorem representsFields_raw {reg : DefinitionRegistry} (hfin : Finalized reg) :
    ∀ (vs : List Value) (fs : List Field) (bytes : List UInt8),
      Resolved (fun _ => False) reg fs → ConstantFields reg fs →
      encodeFields reg fs vs = some bytes →
      bytes.length = layoutSize reg fs ∧ ∀ (mw : MessageWriter) (pos : Nat),
        slice mw._dataBuffer pos (layoutSize reg fs) = bytes →
          representsFields reg mw fs pos vs = true
  | [], [], bytes, _, _, he => by
    simp only [encodeFields, Option.some.injEq] at he
    subst he
    exact ⟨rfl, fun _ _ _ => by simp only [representsFields]⟩
  | [], f :: fs, bytes, _, _, he => by
    simp [encodeFields] at he
  | v :: vs, [], bytes, _, _, he => by
    simp [encodeFields] at he
  | v :: vs, f :: fs, bytes, hres, hcon, he => by
    obtain ⟨hr1, hr2⟩ := resolved_cons.mp hres
    obtain ⟨_, fd, hfd, hv, _⟩ := hr1 f (by simp)
    obtain ⟨harr, hc1⟩ := hcon f (by simp)
    obtain ⟨_, hcs⟩ := hc1 fd hfd
    have hcon2 : ConstantFields reg fs := fun g hg => hcon g (by simp [hg])
    simp only [encodeFields, hfd, harr, Bool.false_eq_true, if_false] at he
    cases hb : encode reg fd v with
    | none => rw [hb] at he; simp at he
    | some b =>
      cases hbs : encodeFields reg fs vs with
      | none => rw [hb, hbs] at he; simp at he
      | some bs =>
        rw [hb, hbs] at he
        simp only [Option.some.injEq] at he
        subst he
        obtain ⟨h1, h2⟩ := represents_raw hfin v fd b ⟨f.type, hfd, hv⟩ hcs hb
        obtain ⟨h3, h4⟩ := representsFields_raw hfin vs fs bs hr2 hcon2 hbs
        refine ⟨?_, fun mw pos hs => ?_⟩
        · simp only [layoutSize, hfd, harr, Bool.false_eq_true, if_false, List.length_append,
            h1, h3]
        · simp only [layoutSize, hfd, harr, Bool.false_eq_true, if_false] at hs
          obtain ⟨e1, e2⟩ := slice_split hs h1 h3
          simp only [representsFields, hfd, harr, Bool.false_eq_true, if_false,
            Bool.and_eq_true]
          exact ⟨h2 mw pos e1, h4 mw _ e2⟩
end

/-- The elements of an array of constant-size elements: see `represents_raw`. -/
theorem representsElements_raw {reg : DefinitionRegistry} (hfin : Finalized reg)
    (d : Definition) (hg : Good reg d) (hc : d._hasConstantSize = true) :
    ∀ (es : List Value) (bytes : List UInt8), encodeElements reg d es = some bytes →
      bytes.length = es.length * d._size ∧ ∀ (mw : MessageWriter) (pos : Nat),
        slice mw._dataBuffer pos (es.length * d._size) = bytes →
          representsElements reg mw d pos es = true
  | [], bytes, he => by
    simp only [encodeElements, Option.some.injEq] at he
    subst he
    exact ⟨by simp, fun _ _ _ => by simp only [representsElements]⟩
  | e :: es, bytes, he => by
    simp only [encodeElements] at he
    cases hb : encode reg d e with
    | none => rw [hb] at he; simp at he
    | some b =>
      cases hbs : encodeElements reg d es with
      | none => rw [hb, hbs] at he; simp at he
      | some bs =>
        rw [hb, hbs] at he
        simp only [Option.some.injEq] at he
        subst he
        obtain ⟨h1, h2⟩ := represents_raw hfin e d b hg hc hb
        obtain ⟨h3, h4⟩ := representsElements_raw hfin d hg hc es bs hbs
        have hmul : (e :: es).length * d._size = d._size + es.length * d._size := by
          rw [List.length_cons, Nat.succ_mul, Nat.add_comm]
        refine ⟨by rw [List.length_append, h1, h3, hmul], fun mw pos hs => ?_⟩
        rw [hmul] at hs
        obtain ⟨e1, e2⟩ := slice_split hs h1 h3
        simp only [representsElements, Bool.and_eq_true]
        exact ⟨h2 mw pos e1, h4 mw _ e2⟩

/-- The commands recorded for a string on the encoding of a string. -/
theorem runs_stringDefinition {reg : DefinitionRegistry} (hfin : Finalized reg)
    (d : Definition) (hg : Good reg d) (hs : d._isString = true) (v : Value)
    (bytes : List UInt8) (he : encode reg d v = some bytes) :
    Runs (recordStringDefinitionCommands d) bytes d._size
      fun pos m => represents reg m d pos v = true := by
  obtain ⟨k, hk, _⟩ := hg
  obtain ⟨hf, hsz, _⟩ := hfin.strings k d hk hs
  cases v with
  | prim bs => simp [encode, hs] at he
  | record vs => simp [encode, hf] at he
  | array es => simp [encode] at he
  | str bs =>
    simp only [encode] at he
    split at he
    · rename_i hcond
      simp only [Bool.and_eq_true, decide_eq_true_eq] at hcond
      have e := Option.some.inj he
      subst e
      rw [hsz]
      refine runs_mono (runs_string d.getName 0 0 [] bs hcond.2) fun pos m h => ?_
      simp only [represents, Bool.and_eq_true, beq_iff_eq]
      exact h
    · simp at he

/-- The commands recorded for a primitive on the encoding of a primitive. -/
theorem runs_primitive {reg : DefinitionRegistry} (d : Definition) (hf : d._fields = [])
    (hs : d._isString = false) (v : Value) (bytes : List UInt8)
    (he : encode reg d v = some bytes) :
    Runs (if d.getSize > 0 then recordNonStringDefinitionCommands d 1 else []) bytes d._size
      fun pos m => represents reg m d pos v = true := by
  cases v with
  | str bs => simp [encode, hs] at he
  | record vs => simp [encode, hf] at he
  | array es => simp [encode] at he
  | prim bs =>
    simp only [encode] at he
    split at he
    · rename_i hcond
      simp only [Bool.and_eq_true, beq_iff_eq] at hcond
      have e := Option.some.inj he
      subst e
      have hR : ∀ pos m, slice m._dataBuffer pos bs.length = bs →
          represents reg m d pos (.prim bs) = true := by
        intro pos m h
        simp only [represents, ← hcond.2, h, beq_self_eq_true]
      by_cases h0 : d.getSize > 0
      · rw [if_pos h0]
        have hcmd : recordNonStringDefinitionCommands d 1
            = [.mk .READ_FIXED_SIZE_DATA d.getName bs.length 0 []] := by
          simp only [recordNonStringDefinitionCommands, Definition.getSize, Nat.one_mul,
            hcond.2]
        rw [hcmd, ← hcond.2]
        exact runs_mono (runs_fixed d.getName 0 [] bs) hR
      · rw [if_neg h0]
        have hz : d._size = 0 := by
          simp only [Definition.getSize] at h0; omega
        have hb : bs = [] := List.eq_nil_of_length_eq_zero (by rw [hcond.2, hz])
        subst hb
        rw [hz]
        refine runs_mono runs_nil fun pos m _ => hR pos m ?_
        simp [slice]
    · simp at he

theorem ready_cast {b b1 : List UInt8} {w w1 : Nat} {src : DataReader} {dst : DataWriter}
    {mw : MessageWriter} (h : Ready b w src dst mw) (hb : b = b1) (hw : w = w1) :
    Ready b1 w1 src dst mw := by
  subst hb hw; exact h

theorem outcome_cast {n n1 w w1 : Nat} {R R1 : MessageWriter → Prop} {src : DataReader}
    {dst : DataWriter} {mw : MessageWriter} {r : Run} (h : Outcome n w R src dst mw r)
    (hn : n = n1) (hw : w = w1) (hR : ∀ m, R m → R1 m) : Outcome n1 w1 R1 src dst mw r := by
  subst hn hw
  obtain ⟨h1, h2, h3, h4, h5⟩ := h
  exact ⟨h1, h2, h3, h4, fun hs mw1 ho => hR _ (h5 hs mw1 ho)⟩

/-- The elements of an array, when the commands `subs` of one element run once for every
element (the loop of the `DYNAMIC_ARRAY` case). -/
theorem outcome_dispatchTimes {reg : DefinitionRegistry} (d : Definition)
    (subs : CommandBuffer)
    (hE : ∀ e b, encode reg d e = some b →
      Runs subs b d._size fun pos m => represents reg m d pos e = true) :
    ∀ (es : List Value) (bytes : List UInt8), encodeElements reg d es = some bytes →
      ∀ src dst mw, Ready bytes (es.length * d._size) src dst mw →
        Outcome bytes.length (es.length * d._size)
          (fun m => representsElements reg m d dst.next es = true) src dst mw
          (MessageWriter.dispatchTimes
            (fun s w m => MessageWriter.dispatchCommands subs s w m) es.length src dst mw)
  | [], bytes, he, src, dst, mw, _ => by
    simp only [encodeElements, Option.some.injEq] at he
    subst he
    simp only [List.length_nil, MessageWriter.dispatchTimes]
    exact outcome_cast (outcome_skip (fun _ => True) (fun _ => trivial) src dst mw) rfl
      (Nat.zero_mul _).symm (fun _ _ => by simp only [representsElements])
  | e :: es, bytes, he, src, dst, mw, hr => by
    simp only [encodeElements] at he
    cases hb : encode reg d e with
    | none => rw [hb] at he; simp at he
    | some b =>
      cases hbs : encodeElements reg d es with
      | none => rw [hb, hbs] at he; simp at he
      | some bs =>
        rw [hb, hbs] at he
        simp only [Option.some.injEq] at he
        subst he
        have hmul : (e :: es).length * d._size = d._size + es.length * d._size := by
          rw [List.length_cons, Nat.succ_mul, Nat.add_comm]
        have hr1 := ready_cast hr rfl hmul
        have o1 := hE e b hb src dst mw (ready_fst hr1)
        have o2 := outcome_dispatchTimes d subs hE es bs hbs _ _ _ (ready_snd hr1 o1)
        have hn : (MessageWriter.dispatchCommands subs src dst mw).dst.next
            = dst.next + d._size := by rw [o1.2.2.1]
        rw [hn] at o2
        simp only [List.length_cons, MessageWriter.dispatchTimes, o1.1, if_true]
        exact outcome_cast (outcome_seq hr1 o1 o2) rfl hmul.symm
          (fun m h => by simp only [representsElements, Bool.and_eq_true]; exact h)

theorem recordTimes_zero (c : Option CommandBuffer) : recordTimes c 0 = some [] := rfl

theorem recordTimes_succ (a : CommandBuffer) (n : Nat) :
    recordTimes (some a) (n + 1) = (recordTimes (some a) n).map fun b => a ++ b := by
  show (match some a, recordTimes (some a) n with
    | some a, some b => some (a ++ b)
    | _, _ => none) = _
  cases recordTimes (some a) n <;> rfl

/-- The elements of a constant-length array, when the commands `subs` of one element are
recorded once for every element. -/
theorem runs_recordTimes {reg : DefinitionRegistry} (d : Definition) (subs : CommandBuffer)
    (hE : ∀ e b, encode reg d e = some b →
      Runs subs b d._size fun pos m => represents reg m d pos e = true) :
    ∀ (es : List Value) (bytes : List UInt8) (cs : CommandBuffer),
      encodeElements reg d es = some bytes → recordTimes (some subs) es.length = some cs →
        Runs cs bytes (es.length * d._size)
          fun pos m => representsElements reg m d pos es = true
  | [], bytes, cs, he, hc => by
    simp only [encodeElements, Option.some.injEq] at he
    simp only [List.length_nil, recordTimes_zero, Option.some.injEq] at hc
    subst he hc
    rw [List.length_nil, Nat.zero_mul]
    exact runs_mono runs_nil fun _ _ _ => by simp only [representsElements]
  | e :: es, bytes, cs, he, hc => by
    simp only [encodeElements] at he
    cases hb : encode reg d e with
    | none => rw [hb] at he; simp at he
    | some b =>
      cases hbs : encodeElements reg d es with
      | none => rw [hb, hbs] at he; simp at he
      | some bs =>
        rw [hb, hbs] at he
        simp only [Option.some.injEq] at he
        subst he
        simp only [List.length_cons, recordTimes_succ] at hc
        cases hcs : recordTimes (some subs) es.length with
        | none => rw [hcs] at hc; simp at hc
        | some cs1 =>
          rw [hcs] at hc
          simp only [Option.map_some', Option.some.injEq] at hc
          subst hc
          have hmul : (e :: es).length * d._size = d._size + es.length * d._size := by
            rw [List.length_cons, Nat.succ_mul, Nat.add_comm]
          rw [hmul]
          exact runs_mono (runs_append (hE e b hb) (runs_recordTimes d subs hE es bs cs1 hbs hcs))
            fun pos m h => by simp only [representsElements, Bool.and_eq_true]; exact h

theorem recordTimes_none_succ (n : Nat) : recordTimes none (n + 1) = none := rfl

/-- The commands recorded for an array field on the encoding of an array. -/
theorem runs_array {reg : DefinitionRegistry} (hfin : Finalized reg)
    (record : Definition → Option CommandBuffer) (fd : Definition) (hg : Good reg fd)
    (hrec : ∀ c, record fd = some c → ∀ e b, encode reg fd e = some b →
      Runs c b fd._size fun pos m => represents reg m fd pos e = true)
    (arraySize : Int) (hsz : arraySize < 2 ^ 31) (v : Value) (bytes : List UInt8)
    (cmds : CommandBuffer)
    (hc : recordArrayDefinitionCommandsWith record fd arraySize = some cmds)
    (he : encodeArray reg fd arraySize v = some bytes) :
    Runs cmds bytes (2 * 4) fun pos m => representsArray reg m fd pos v = true := by
  cases v with
  | prim bs => simp [encodeArray] at he
  | str bs => simp [encodeArray] at he
  | record vs => simp [encodeArray] at he
  | array es =>
    have hRA : ∀ pos m, (slotHolds m pos es.length = true ∧
        representsElements reg m fd (slotOffset m pos) es = true) →
        representsArray reg m fd pos (.array es) = true := by
      intro pos m h
      simp only [representsArray, Bool.and_eq_true]
      exact h
    have hString : fd._isString = true → ∀ e b, encode reg fd e = some b →
        Runs (recordStringDefinitionCommands fd) b fd._size
          fun pos m => represents reg m fd pos e = true :=
      fun hs e b heb => runs_stringDefinition hfin fd hg hs e b heb
    simp only [encodeArray] at he
    unfold recordArrayDefinitionCommandsWith at hc
    by_cases hpos : arraySize ≥ 0
    · simp only [hpos, if_true] at he hc
      split at he
      · rename_i hlen
        have hn : arraySize.toNat % 2 ^ 32 = es.length := by
          rw [hlen]
          apply Nat.mod_eq_of_lt
          omega
        rw [hn, ← hlen] at hc
        simp only [Definition.isString, Definition.hasConstantSize, Definition.getSize,
          Definition.getName] at hc
        have h0 : es.length = 0 → bytes = [] ∧
            ∀ pos m, representsElements reg m fd pos es = true := by
          intro hz
          have : es = [] := List.eq_nil_of_length_eq_zero hz
          subst this
          simp only [encodeElements, Option.some.injEq] at he
          exact ⟨he.symm, fun _ _ => by simp only [representsElements]⟩
        by_cases hs : fd._isString = true
        · simp only [hs, if_true] at hc
          cases hrt : recordTimes (some (recordStringDefinitionCommands fd)) es.length with
          | none => rw [hrt] at hc; simp at hc
          | some s =>
            rw [hrt] at hc
            simp only [Option.map_some', Option.some.injEq] at hc
            subst hc
            exact runs_mono (runs_constantArray _ _ _ _ bytes
              (fun pos m => representsElements reg m fd pos es = true)
              (fun _ => runs_recordTimes fd _ (hString hs) es bytes s he hrt) h0) hRA
        · simp only [hs, Bool.false_eq_true, if_false] at hc
          by_cases hcs : fd._hasConstantSize = true
          · simp only [hcs, if_true, Option.map_some', Option.some.injEq] at hc
            subst hc
            obtain ⟨hl, hraw⟩ := representsElements_raw hfin fd hg hcs es bytes he
            refine runs_mono (runs_constantArray _ _ _ _ bytes
              (fun pos m => representsElements reg m fd pos es = true) (fun _ => ?_) h0) hRA
            simp only [recordNonStringDefinitionCommands, Definition.getSize,
              Definition.getName]
            rw [← hl]
            refine runs_mono (runs_fixed fd._name 0 [] bytes) fun pos m h => ?_
            apply hraw m pos
            rw [← hl]
            exact h
          · simp only [hcs, Bool.false_eq_true, if_false] at hc
            cases hrt : recordTimes (record fd) es.length with
            | none => rw [hrt] at hc; simp at hc
            | some s =>
              rw [hrt] at hc
              simp only [Option.map_some', Option.some.injEq] at hc
              subst hc
              refine runs_mono (runs_constantArray _ _ _ _ bytes
                (fun pos m => representsElements reg m fd pos es = true) (fun hgt => ?_) h0) hRA
              cases hr : record fd with
              | none =>
                rw [hr] at hrt
                obtain ⟨n, hn1⟩ : ∃ n, es.length = n + 1 := ⟨es.length - 1, by omega⟩
                rw [hn1, recordTimes_none_succ] at hrt
                simp at hrt
              | some c =>
                rw [hr] at hrt
                exact runs_recordTimes fd c (hrec c hr) es bytes s he hrt
      · simp at he
    · simp only [hpos, if_false] at he hc
      split at he
      · rename_i hlen
        cases hbody : encodeElements reg fd es with
        | none => rw [hbody] at he; simp at he
        | some body =>
          rw [hbody] at he
          simp only [Option.map_some', Option.some.injEq] at he
          subst he
          simp only [Definition.isString, Definition.hasConstantSize, Definition.getSize,
            Definition.getName] at hc
          by_cases hcs : fd._hasConstantSize = true
          · simp only [hcs, if_true, Option.some.injEq] at hc
            subst hc
            obtain ⟨hl, hraw⟩ := representsElements_raw hfin fd hg hcs es body hbody
            refine runs_mono (runs_dynamicSize fd._name fd._size 0 [] es.length body hlen hl)
              fun pos m h => hRA pos m ⟨h.1, ?_⟩
            apply hraw m _
            rw [← hl]
            exact h.2
          · simp only [hcs, Bool.false_eq_true, if_false] at hc
            by_cases hs : fd._isString = true
            · simp only [hs, if_true, Option.map_some', Option.some.injEq] at hc
              subst hc
              exact runs_mono (runs_dynamicArray _ _ _ _ es.length body
                (fun pos m => representsElements reg m fd pos es = true) hlen
                (outcome_dispatchTimes fd _ (hString hs) es body hbody)) hRA
            · simp only [hs, Bool.false_eq_true, if_false] at hc
              cases hr : record fd with
              | none => rw [hr] at hc; simp at hc
              | some c =>
                rw [hr] at hc
                simp only [Option.map_some', Option.some.injEq] at hc
                subst hc
                exact runs_mono (runs_dynamicArray _ _ _ _ es.length body
                  (fun pos m => representsElements reg m fd pos es = true) hlen
                  (outcome_dispatchTimes fd c (hrec c hr) es body hbody)) hRA
      · simp at he

theorem recordFields_cons (record : Definition → Option CommandBuffer)
    (reg : DefinitionRegistry) (f : Field) (rest : List Field) (fd : Definition)
    (hfd : f.definition.bind reg.getDefinition = some fd) :
    recordFields record reg (f :: rest) =
      match (if f.isArray then recordArrayDefinitionCommandsWith record fd f.arraySize
          else record fd), recordFields record reg rest with
      | some c, some r => some (c.map (wrapLabel f.name) ++ r)
      | _, _ => none := by
  conv_lhs => unfold recordFields
  rw [hfd]

/-- The commands recorded for the fields of a record on the encodings of the values of
the fields. -/
theorem runs_fields {reg : DefinitionRegistry} (hfin : Finalized reg)
    (record : Definition → Option CommandBuffer)
    (hrec : ∀ fd c, Good reg fd → record fd = some c → ∀ e b, encode reg fd e = some b →
      Runs c b fd._size fun pos m => represents reg m fd pos e = true) :
    ∀ (fs : List Field) (vs : List Value) (bytes : List UInt8) (cmds : CommandBuffer),
      Resolved (fun _ => False) reg fs → (∀ f ∈ fs, f.arraySize < 2 ^ 31) →
      recordFields record reg fs = some cmds → encodeFields reg fs vs = some bytes →
        Runs cmds bytes (layoutSize reg fs) fun pos m => representsFields reg m fs pos vs = true
  | [], [], bytes, cmds, _, _, hc, he => by
    simp only [encodeFields, Option.some.injEq] at he
    simp only [recordFields, Option.some.injEq] at hc
    subst he hc
    exact runs_mono runs_nil fun _ _ _ => by simp only [representsFields]
  | [], v :: vs, bytes, cmds, _, _, _, he => by
    simp [encodeFields] at he
  | f :: fs, [], bytes, cmds, _, _, _, he => by
    simp [encodeFields] at he
  | f :: fs, v :: vs, bytes, cmds, hres, hsz, hc, he => by
    obtain ⟨hr1, hr2⟩ := resolved_cons.mp hres
    obtain ⟨hp, fd, hfd, hv, _⟩ := hr1 f (by simp)
    have hg : Good reg fd := ⟨f.type, hfd, hv⟩
    rw [recordFields_cons record reg f fs fd (by rw [hp]; exact hfd)] at hc
    simp only [encodeFields, hfd] at he
    cases hb : (if f.isArray = true then encodeArray reg fd f.arraySize v
        else encode reg fd v) with
    | none => rw [hb] at he; simp at he
    | some b =>
      cases hbs : encodeFields reg fs vs with
      | none => rw [hb, hbs] at he; simp at he
      | some bs =>
        rw [hb, hbs] at he
        simp only [Option.some.injEq] at he
        subst he
        cases hc1 : (if f.isArray = true then
            recordArrayDefinitionCommandsWith record fd f.arraySize else record fd) with
        | none => rw [hc1] at hc; simp at hc
        | some c =>
          cases hcs : recordFields record reg fs with
          | none => rw [hc1, hcs] at hc; simp at hc
          | some cs =>
            rw [hc1, hcs] at hc
            simp only [Option.some.injEq] at hc
            subst hc
            have ih := runs_fields hfin record hrec fs vs bs cs hr2
              (fun g hg => hsz g (by simp [hg])) hcs hbs
            by_cases harr : f.isArray = true
            · simp only [harr, if_true] at hb hc1
              have h1 := runs_array hfin record fd hg (fun c hc0 => hrec fd c hg hc0)
                f.arraySize (hsz f (by simp)) v b c hc1 hb
              simp only [layoutSize, hfd, harr, if_true]
              refine runs_mono (runs_append (runs_wrapLabel f.name h1) ih) fun pos m h => ?_
              simp only [representsFields, hfd, harr, if_true, Bool.and_eq_true]
              exact h
            · simp only [harr, Bool.false_eq_true, if_false] at hb hc1
              have h1 := hrec fd c hg hc1 v b hb
              simp only [layoutSize, hfd, harr, Bool.false_eq_true, if_false]
              refine runs_mono (runs_append (runs_wrapLabel f.name h1) ih) fun pos m h => ?_
              simp only [representsFields, hfd, harr, Bool.false_eq_true, if_false,
                Bool.and_eq_true]
              exact h

/-- The commands recorded for a definition, run on the encoding of a value of the
definition, succeed, consume exactly the encoding, fill exactly the bytes of the
definition and leave buffers that represent the value. -/
theorem runs_recorded {reg : DefinitionRegistry} (hfin : Finalized reg) :
    ∀ (fuel : Nat) (d : Definition) (cmds : CommandBuffer), Good reg d →
      recordDefinitionCommands fuel reg d = some cmds →
      ∀ (v : Value) (bytes : List UInt8), encode reg d v = some bytes →
        Runs cmds bytes d._size fun pos m => represents reg m d pos v = true
  | 0, d, cmds, _, hc => by simp [recordDefinitionCommands] at hc
  | fuel + 1, d, cmds, hg, hc => by
    intro v bytes he
    simp only [recordDefinitionCommands, Definition.hasFields, Definition.isString,
      recordComplexDefinitionCommandsWith, Definition.getFields] at hc
    by_cases hf : d._fields = []
    · simp only [hf, List.isEmpty_nil, Bool.not_true, Bool.false_eq_true, if_false] at hc
      by_cases hs : d._isString = true
      · simp only [hs, if_true, Option.some.injEq] at hc
        subst hc
        exact runs_stringDefinition hfin d hg hs v bytes he
      · simp only [hs, Bool.false_eq_true, if_false] at hc
        have hs1 : d._isString = false := by simpa using hs
        have := runs_primitive d hf hs1 v bytes he
        by_cases h0 : d.getSize > 0
        · simp only [h0, if_true, Option.some.injEq] at hc this
          subst hc
          exact this
        · simp only [h0, if_false, Option.some.injEq] at hc this
          subst hc
          exact this
    · have hne := isEmpty_eq_false_of_ne hf
      simp only [hne, Bool.not_false, if_true] at hc
      have hS := settled_of_good hfin hg hf
      obtain ⟨k, hk, _⟩ := hg
      cases v with
      | prim bs => simp [encode, hne] at he
      | str bs => simp [encode, hne] at he
      | array es => simp [encode] at he
      | record vs =>
        simp only [encode, hne, Bool.false_eq_true, if_false] at he
        have h := runs_fields hfin (recordDefinitionCommands fuel reg)
          (fun fd c hgf hcf e b heb => runs_recorded hfin fuel fd c hgf hcf e b heb)
          d._fields vs bytes cmds hS.resolved (hfin.arraySizes k d hk) hc he
        rw [hS.size, ← layoutSize_eq_fieldsSize hS.resolved]
        exact runs_mono h fun pos m hr => by simp only [represents]; exact hr

/-! ## From the schema to the writer -/

theorem forall₂_sameSlot_mem {fs fs1 : List Field} (h : List.Forall₂ Field.SameSlot fs fs1)
    {f1 : Field} (hf1 : f1 ∈ fs1) : ∃ f, f ∈ fs ∧ f.SameSlot f1 := by
  induction h with
  | nil => simp at hf1
  | cons hab _ ih =>
    rcases List.mem_cons.mp hf1 with e | e
    · subst e
      exact ⟨_, List.mem_cons_self _ _, hab⟩
    · obtain ⟨f, hf, hff⟩ := ih e
      exact ⟨f, List.mem_cons_of_mem _ hf, hff⟩

/-- After `finalizeAll` on a schema the registry is as the writer needs it. -/
theorem finalized_of_schema {rank : String → Nat} {reg0 reg : DefinitionRegistry}
    (hS : Schema rank reg0) {fuel : Nat} {b : Bool}
    (h : reg0.finalizeAll fuel = some (b, reg)) : Finalized reg := by
  obtain ⟨hP, _⟩ := DefinitionRegistry.finalizeEntries_spec rank fuel _ reg0 b reg
    (DefinitionRegistry.ranked_of_fresh hS.acyclic hS.fresh)
    (DefinitionRegistry.goodExcept_of_fresh hS.fresh) h
  obtain ⟨_, hG, _, hK⟩ := hP
  refine ⟨hG, ?_, ?_⟩
  · intro k d1 hd1 hs
    obtain ⟨d, hd, _, h2, h3, h4, h5⟩ := hK k d1 hd1
    obtain ⟨e1, e2, e3⟩ := hS.strings (k, d) (DefinitionRegistry.mem_of_getDefinition hd) (by rw [← h2]; exact hs)
    simp only at e1 e2 e3
    refine ⟨?_, by rw [h4 e1]; exact e2, ?_⟩
    · rw [e1] at h3
      exact List.forall₂_nil_left_iff.mp h3
    · cases hc : d1._hasConstantSize with
      | false => rfl
      | true => rw [h5 hc] at e3; simp at e3
  · intro k d1 hd1 f1 hf1
    obtain ⟨d, hd, _, _, h3, _, _⟩ := hK k d1 hd1
    obtain ⟨f, hf, hff⟩ := forall₂_sameSlot_mem h3 hf1
    rw [hff.2.2.2]
    exact hS.arraySizes (k, d) (DefinitionRegistry.mem_of_getDefinition hd) f hf

theorem runs_optimizeCommands {c : CommandBuffer} {b : List UInt8} {w : Nat}
    {R : Nat → MessageWriter → Prop} (h : Runs c b w R) : Runs (optimizeCommands c) b w R := by
  intro src dst mw hr
  have o := h src dst mw hr
  obtain ⟨h1, h2, _⟩ := optimizeCommands_equiv c src dst mw
  rw [h2 (by rw [h1]; exact o.1)]
  exact o

/-- The compiled commands of a valid record of a finalized registry, on the encoding of a
value of the record. -/
theorem runs_commands {reg : DefinitionRegistry} (hfin : Finalized reg) (k : String)
    (d : Definition) (hd : reg.getDefinition k = some d) (hv : d._isValid = true)
    (hne : d._fields ≠ []) (v : Value) (bytes : List UInt8)
    (he : encode reg d v = some bytes) :
    Runs d.getCommands bytes d._size fun pos m => represents reg m d pos v = true := by
  obtain ⟨fuel, cmds, hrec, hcmd⟩ := (hfin.good k d hd hv hne (fun h => h)).commands
  rw [Definition.getCommands, hcmd]
  exact runs_optimizeCommands (runs_recorded hfin fuel d cmds ⟨k, hd, hv⟩ hrec v bytes he)

/-- The state `write` sets up is ready for the encoding of a value. -/
theorem ready_write (mw : MessageWriter) (size : Nat) (input : List UInt8) :
    Ready input size (DataReader.new input) (mw.allocate .data size).1
      (mw.allocate .data size).2 := by
  refine ⟨⟨Nat.zero_le _, ?_⟩, by rw [MessageWriter.allocate_fst],
    by rw [MessageWriter.allocate_fst], ?_⟩
  · simp [DataReader.new]
  · rw [MessageWriter.allocate_fst]
    have := MessageWriter.allocate_get mw .data .data size
    simp only [MessageWriter.get_data, if_true] at this
    rw [this]
    simp

/-! ## Schemas on which finalization does not return -/

/-- The recorder does not return on a record that is not of constant size and has, as its
only field, a dynamic array of the record itself: `recordArrayDefinitionCommands` calls
`recordDefinitionCommands` on the record again. -/
theorem recordDefinitionCommands_selfArray (reg : DefinitionRegistry) (t : String)
    (d : Definition) (f : Field) (hd : reg.getDefinition t = some d) (hf : d._fields = [f])
    (hp : f.definition = some t) (ha : f.isArray = true) (hn : f.arraySize < 0)
    (hc : d._hasConstantSize = false) (hs : d._isString = false) :
    ∀ fuel, recordDefinitionCommands fuel reg d = none
  | 0 => rfl
  | fuel + 1 => by
    have ih := recordDefinitionCommands_selfArray reg t d f hd hf hp ha hn hc hs fuel
    have hn1 : ¬ f.arraySize ≥ 0 := by omega
    simp only [recordDefinitionCommands, Definition.hasFields, hf, List.isEmpty_cons,
      Bool.not_false, if_true, recordComplexDefinitionCommandsWith, Definition.getFields]
    rw [recordFields_cons _ reg f [] d (by rw [hp]; exact hd)]
    simp only [ha, if_true, recordArrayDefinitionCommandsWith, hn1, if_false,
      Definition.hasConstantSize, hc, Bool.false_eq_true, Definition.isString, hs, ih,
      Option.map_none']

/-- The function `Definition::finalize` does not return on an invalid record whose only
field is a dynamic array of the record itself (`T { children: T[] }`). -/
theorem finalize_selfArray (reg : DefinitionRegistry) (t : String) (d : Definition)
    (f : Field) (hd : reg.getDefinition t = some d) (hv : d._isValid = false)
    (hf : d._fields = [f]) (ht : f.type = t) (hp : f.definition = none)
    (ha : f.isArray = true) (hn : f.arraySize < 0) (hs : d._isString = false) :
    ∀ fuel, Definition.finalize fuel reg t = none
  | 0 => rfl
  | 1 => by
    subst ht
    simp only [Definition.finalize, hd, hv, Bool.false_eq_true, if_false, hf,
      List.length_singleton, Nat.lt_one_iff, gt_iff_lt, Nat.zero_lt_one, if_true,
      finalizeFields, Field.finalize, Field.resolve, hp,
      DefinitionRegistry.getDefinition_modify_same, Option.map_some']
  | fuel + 2 => by
    obtain ⟨ft, fn, fp, fa, fs⟩ := f
    simp only at ht hp ha hn
    subst ht hp ha
    obtain ⟨f1, hf1⟩ : ∃ f1 : Field, f1 = ⟨ft, fn, some ft, true, fs⟩ := ⟨_, rfl⟩
    have hd1 : ((reg.modify ft fun d => { d with _isValid := true }).modify ft
        fun d => { d with _size := 0 }).getDefinition ft
        = some { d with _isValid := true, _size := 0 } := by
      rw [DefinitionRegistry.getDefinition_modify_same,
        DefinitionRegistry.getDefinition_modify_same, hd]
      rfl
    obtain ⟨r1, hr1⟩ : ∃ r1, r1 = (reg.modify ft fun d => { d with _isValid := true }).modify ft
        fun d => { d with _size := 0 } := ⟨_, rfl⟩
    rw [← hr1] at hd1
    have hd2 : (r1.modify ft (setFieldDefinition 0 (some ft))).getDefinition ft
        = some { d with _isValid := true, _size := 0, _fields := [f1] } := by
      rw [DefinitionRegistry.getDefinition_modify_same, hd1, hf1]
      simp [setFieldDefinition, hf]
    obtain ⟨r2, hr2⟩ : ∃ r2, r2 = r1.modify ft (setFieldDefinition 0 (some ft)) := ⟨_, rfl⟩
    rw [← hr2] at hd2
    obtain ⟨d3, hd3e⟩ : ∃ d3, d3 = iterated r2 ft (some ft) true (Field.getSize r2 f1)
        { d with _isValid := true, _size := 0, _fields := [f1] } := ⟨_, rfl⟩
    have hd3 : (r2.modify ft fun _ => d3).getDefinition ft = some d3 :=
      getDefinition_put r2 ft _ d3 hd2
    have hrec := recordDefinitionCommands_selfArray (r2.modify ft fun _ => d3) ft d3
      f1 hd3 (by rw [hd3e]; rfl) (by rw [hf1]) (by rw [hf1]) (by rw [hf1]; exact hn)
      (by
        have hm : ∀ o : Option Definition, (match o with
            | some fd => true || fd.isString || !fd.hasConstantSize
            | none => true) = true := fun o => by cases o <;> simp
        rw [hd3e]
        unfold iterated
        simp only [hm, if_true])
      (by rw [hd3e]; exact hs) (fuel + 1)
    simp only [Definition.finalize, hd, hv, Bool.false_eq_true, if_false, hf,
      List.length_singleton, gt_iff_lt, Nat.zero_lt_one, if_true]
    rw [← hr1]
    simp only [finalizeFields, Field.finalize, Field.resolve, hd1, Option.map_some']
    rw [← hr2, ← hf1]
    simp only [Definition.finalize, hd2, if_true]
    have hf1d : f1.definition = some ft := by rw [hf1]
    have hf1a : f1.isArray = true := by rw [hf1]
    rw [hf1d, hf1a, iteration_eq_put r2 ft (some ft) true _ _ hd2, ← hd3e, hd3]
    have hv3 : d3._isValid = true := by rw [hd3e]; rfl
    simp only [hv3, if_true, hrec]

/-- The loop of `finalizeAll` does not return when it reaches, after valid definitions
only, a definition on which `finalize` does not return. -/
theorem finalizeEntries_none (fuel : Nat) (reg : DefinitionRegistry) (t : String)
    (post : List String) (ht : Definition.finalize fuel reg t = none) :
    ∀ pre : List String,
      (∀ k ∈ pre, (reg.getDefinition k).map (fun d => d._isValid) = some true) →
      DefinitionRegistry.finalizeEntries fuel (pre ++ t :: post) reg = none
  | [], _ => by
    simp only [List.nil_append, DefinitionRegistry.finalizeEntries, ht]
  | k :: pre, h => by
    have ih := finalizeEntries_none fuel reg t post ht pre
      (fun k1 hk1 => h k1 (List.mem_cons_of_mem _ hk1))
    have hk := h k (List.mem_cons_self _ _)
    cases hd : reg.getDefinition k with
    | none => rw [hd] at hk; simp at hk
    | some d =>
      rw [hd] at hk
      simp only [Option.map_some', Option.some.injEq] at hk
      cases fuel with
      | zero => simp only [List.cons_append, DefinitionRegistry.finalizeEntries,
          Definition.finalize]
      | succ fuel =>
        simp only [List.cons_append, DefinitionRegistry.finalizeEntries, Definition.finalize,
          hd, hk, if_true]
        exact ih

namespace DefinitionRegistry

/-- C11 (failing input): a registry in which the record `X { t: T, y: NoSuchType }` has a
field whose type is not registered, and on which `finalizeAll` does not return at all,
with any amount of fuel: the schema also holds `T { children: T[] }`, and `finalize`
does not return on `T`, whether it is reached from the loop of `finalizeAll` or from the
first field of `X`. -/
theorem finalizeAll_unresolved_never_returns :
    (exampleDiverging.getDefinition "X").map (fun X => X._fields.map fun f => f.type)
        = some ["T", "NoSuchType"] ∧
      (exampleDiverging.getDefinition "NoSuchType").isNone = true ∧
      ∀ fuel, exampleDiverging.finalizeAll fuel = none := by
  refine ⟨by decide, by decide, fun fuel => ?_⟩
  have ht := finalize_selfArray exampleDiverging "T"
    ((Definition.new "T" 0 false).addField "T" "children" true (-1)).2
    ⟨"T", "children", none, true, -1⟩ (by rfl) (by rfl) (by rfl) (by rfl) (by rfl) (by rfl)
    (by decide) (by rfl) fuel
  exact finalizeEntries_none fuel exampleDiverging "T" ["X"] ht
    ["bool", "uint8", "int8", "uint16", "int16", "uint32", "int32", "uint64", "int64",
      "float32", "float64", "string", "json", "time", "duration"] (by decide)

end DefinitionRegistry

/-! ## Finalization returns on an acyclic schema -/

theorem recordTimes_isSome (c : CommandBuffer) :
    ∀ n, (recordTimes (some c) n).isSome = true
  | 0 => rfl
  | n + 1 => by
    rw [recordTimes_succ]
    have := recordTimes_isSome c n
    cases h : recordTimes (some c) n with
    | none => rw [h] at this; simp at this
    | some b => rfl

theorem recordArrayDefinitionCommandsWith_isSome (record : Definition → Option CommandBuffer)
    (fd : Definition) (n : Int) (h : (record fd).isSome = true) :
    (recordArrayDefinitionCommandsWith record fd n).isSome = true := by
  obtain ⟨c, hc⟩ := Option.isSome_iff_exists.mp h
  unfold recordArrayDefinitionCommandsWith
  split
  · split
    · simp only [Option.isSome_map']
      exact recordTimes_isSome _ _
    · split
      · rfl
      · rw [hc]
        simp only [Option.isSome_map']
        exact recordTimes_isSome _ _
  · split
    · rfl
    · split
      · rfl
      · rw [hc]; rfl

/-- The recorder returns on a definition of an acyclic schema whose fields are resolved,
with more fuel than the rank of the definition. -/
theorem recordDefinitionCommands_total {rank : String → Nat} {S : String → Prop}
    {reg : DefinitionRegistry} (hR : Ranked rank reg) (hG : GoodExcept S reg) :
    ∀ (fuel : Nat) (t : String) (d : Definition), reg.getDefinition t = some d →
      (d._fields ≠ [] → Resolved S reg d._fields) → rank t < fuel →
      (recordDefinitionCommands fuel reg d).isSome = true
  | 0, _, _, _, _, h => absurd h (Nat.not_lt_zero _)
  | fuel + 1, t, d, hd, hres, hr => by
    simp only [recordDefinitionCommands, recordComplexDefinitionCommandsWith,
      Definition.getFields, Definition.hasFields]
    by_cases hf : d._fields = []
    · simp only [hf, List.isEmpty_nil, Bool.not_true, Bool.false_eq_true, if_false]
      split
      · rfl
      · split <;> rfl
    · simp only [isEmpty_eq_false_of_ne hf, Bool.not_false, if_true]
      have hres1 := hres hf
      have hall : ∀ fs : List Field, (∀ f ∈ fs, f ∈ d._fields) →
          (recordFields (recordDefinitionCommands fuel reg) reg fs).isSome = true := by
        intro fs
        induction fs with
        | nil => intro _; rfl
        | cons f fs ih =>
          intro hsub
          have hfm := hsub f (List.mem_cons_self _ _)
          obtain ⟨hp, fd, hfd, hv, hnS⟩ := hres1 f hfm
          have hrk := (hR t d hd f hfm).1
          have hrec : (recordDefinitionCommands fuel reg fd).isSome = true :=
            recordDefinitionCommands_total hR hG fuel f.type fd hfd
              (fun hne => (hG f.type fd hfd hv hne hnS).resolved) (by omega)
          rw [recordFields_cons _ reg f fs fd (by rw [hp]; exact hfd)]
          have h1 : (if f.isArray = true then
              recordArrayDefinitionCommandsWith (recordDefinitionCommands fuel reg) fd
                f.arraySize else recordDefinitionCommands fuel reg fd).isSome = true := by
            split
            · exact recordArrayDefinitionCommandsWith_isSome _ _ _ hrec
            · exact hrec
          have h2 := ih (fun g hg => hsub g (List.mem_cons_of_mem _ hg))
          obtain ⟨c, hc⟩ := Option.isSome_iff_exists.mp h1
          obtain ⟨r, hr⟩ := Option.isSome_iff_exists.mp h2
          rw [hc, hr]
          rfl
      exact hall d._fields (fun _ h => h)

/-- The loop of `finalize` over the fields returns on an acyclic schema when the calls it
makes return. -/
theorem finalizeFields_total {rank : String → Nat}
    {fin : DefinitionRegistry → String → Option (Bool × DefinitionRegistry)}
    (hfin : FinalizeSpec rank fin) (S : String → Prop) (self : String)
    (hS : ∀ k, S k → rank self < rank k)
    (htot : ∀ (S1 : String → Prop) (reg : DefinitionRegistry) (t : String), Ranked rank reg →
      GoodExcept S1 reg → (∀ k, S1 k → rank t < rank k) →
      (reg.getDefinition t).isSome = true → rank t < rank self → (fin reg t).isSome = true) :
    ∀ (rest done : List Field) (reg : DefinitionRegistry),
      Ranked rank reg → GoodExcept (fun k => S k ∨ k = self) reg →
      InProgress (fun k => S k ∨ k = self) reg self done rest →
        (finalizeFields fin self rest done.length reg).isSome = true
  | [], done, reg, _, _, _ => rfl
  | f :: rest, done, reg, hR, hG, hI => by
    obtain ⟨d, hd, hv, hf, hres, hsz, hc⟩ := hI
    have hX : (fun k => S k ∨ k = self) self := Or.inr rfl
    have hfmem : f ∈ d._fields := by rw [hf]; simp
    obtain ⟨hP1, hd1⟩ := post_setFieldDefinition hR hG self hX d hd done rest f hf
    simp only [finalizeFields, Field.finalize]
    cases hp : f.resolve reg with
    | none => rfl
    | some t =>
      rw [hp] at hP1 hd1
      simp only
      obtain ⟨ht, hsome⟩ := resolve_some hR hd hfmem hp
      have hrank : rank t < rank self := by rw [ht]; exact (hR self d hd f hfmem).1
      have hSt : ∀ k, (S k ∨ k = self) → rank t < rank k := by
        rintro k (hk | hk)
        · exact Nat.lt_trans hrank (hS k hk)
        · rw [hk]; exact hrank
      have hcallSome := htot (fun k => S k ∨ k = self) _ t hP1.1 hP1.2.1 hSt
        (by rw [hP1.2.2.1.2 t]; exact hsome) hrank
      cases hcall : fin (reg.modify self (setFieldDefinition done.length (some t))) t with
      | none => rw [hcall] at hcallSome; simp at hcallSome
      | some r =>
        obtain ⟨b, reg2⟩ := r
        simp only
        obtain ⟨hPc, hb⟩ := hfin (fun k => S k ∨ k = self) _ t b reg2 hP1.1 hP1.2.1 hSt hcall
        have hP2 : Post rank (fun k => S k ∨ k = self) (fun k => k = self) reg reg2 :=
          post_trans hP1 (post_mono (fun _ hk => hk.elim) hPc)
        have hd2 := hPc.2.2.1.1 self _ hd1 hv (fun hk => hk)
        have hK : Kept (fun k => S k ∨ k = self) reg reg2 :=
          kept_mono (fun k hk => Or.inr hk) hP2.2.2.1
        cases b with
        | false => rfl
        | true =>
          simp only
          obtain ⟨fd, hfd, hfv⟩ := hb rfl
          have hres2 : Resolved (fun k => S k ∨ k = self) reg2
              (done ++ [{ f with definition := some t }]) := by
            rw [resolved_append]
            refine ⟨resolved_kept hK hres, ?_⟩
            intro g hg
            simp only [List.mem_singleton] at hg
            subst hg
            refine ⟨by rw [ht], fd, by rw [← ht]; exact hfd, hfv, ?_⟩
            simp only
            rw [← ht]
            rintro (hk | hk)
            · exact absurd (hS t hk) (Nat.lt_asymm hrank)
            · rw [hk] at hrank; exact absurd hrank (Nat.lt_irrefl _)
          obtain ⟨hP4, hI4⟩ := inProgress_step hP2.1 hP2.2.1 self hX _ hd2 hv done rest
            { f with definition := some t } rfl hres2
            (by rw [fieldsSize_kept hK _ hres]; exact hsz)
            (fun hcs => constantFields_kept hK hres (hc hcs))
          have hlen : (done ++ [{ f with definition := some t }]).length = done.length + 1 := by
            simp
          rw [← hlen]
          exact finalizeFields_total hfin S self hS htot rest _ _ hP4.1 hP4.2.1 hI4

/-- The function `Definition::finalize` returns on a definition of an acyclic schema,
with at least two units of fuel more than the rank of the definition. -/
theorem finalize_total (rank : String → Nat) :
    ∀ (fuel : Nat) (S : String → Prop) (reg : DefinitionRegistry) (t : String),
      Ranked rank reg → GoodExcept S reg → (∀ k, S k → rank t < rank k) →
      (reg.getDefinition t).isSome = true → rank t + 2 ≤ fuel →
      (Definition.finalize fuel reg t).isSome = true
  | 0, _, _, _, _, _, _, _, h => absurd h (by omega)
  | fuel + 1, S, reg, t, hR, hG, hS, hsome, hfuel => by
    obtain ⟨d, hd⟩ := Option.isSome_iff_exists.mp hsome
    rw [Definition.finalize, hd]
    simp only
    by_cases hv : d._isValid = true
    · simp only [hv, if_true, Option.isSome_some]
    · simp only [hv, if_false]
      have hv' : d._isValid = false := by simpa using hv
      have hinv : ∀ d1, reg.getDefinition t = some d1 → d1._isValid = false := by
        intro d1 hd1
        rw [hd] at hd1
        have e := Option.some.inj hd1
        subst e
        exact hv'
      have hX : (fun k => S k ∨ k = t) t := Or.inr rfl
      have hG1 := goodExcept_insert hG t hinv
      have hPa := post_modify_members hR hG1 t hX (fun d => { d with _isValid := true })
        (fun _ => rfl) (fun _ => rfl) (fun _ => rfl) (fun _ _ _ => rfl) (fun _ h => h)
      have hda : (reg.modify t fun d => { d with _isValid := true }).getDefinition t =
          some { d with _isValid := true } := by
        rw [DefinitionRegistry.getDefinition_modify_same, hd]; rfl
      -- the recorder returns on the state after the loop
      have htail : ∀ (reg2 : DefinitionRegistry) (d2 : Definition),
          Ranked rank reg2 → GoodExcept (fun k => S k ∨ k = t) reg2 →
          reg2.getDefinition t = some d2 →
          (d2._isValid = true → d2._fields ≠ [] →
            Resolved (fun k => S k ∨ k = t) reg2 d2._fields) →
          (if d2._isValid = true then
            match recordDefinitionCommands fuel reg2 d2 with
            | none => none
            | some cmds =>
              some (true, reg2.modify t fun d => { d with _commands := optimizeCommands cmds })
          else some (false, reg2)).isSome = true := by
        intro reg2 d2 hR2 hG2 hd2 hres2
        by_cases hv2 : d2._isValid = true
        · simp only [hv2, if_true]
          have := recordDefinitionCommands_total hR2 hG2 fuel t d2 hd2 (hres2 hv2) (by omega)
          obtain ⟨c, hc⟩ := Option.isSome_iff_exists.mp this
          rw [hc]
          rfl
        · simp only [hv2, Bool.false_eq_true, if_false, Option.isSome_some]
      by_cases hlen : d._fields.length > 0
      · simp only [hlen, if_true]
        have hne : d._fields ≠ [] := by
          intro e; rw [e] at hlen; simp at hlen
        have hPb := post_modify_members hPa.1 hPa.2.1 t hX (fun d => { d with _size := 0 })
          (fun _ => rfl) (fun _ => rfl) (fun _ => rfl)
          (fun d1 hd1 he => by
            rw [hda] at hd1
            have e := Option.some.inj hd1
            subst e
            exact absurd he hne)
          (fun _ h => h)
        have hdb : ((reg.modify t fun d => { d with _isValid := true }).modify t
            fun d => { d with _size := 0 }).getDefinition t =
            some { d with _isValid := true, _size := 0 } := by
          rw [DefinitionRegistry.getDefinition_modify_same, hda]; rfl
        have hI0 : InProgress (fun k => S k ∨ k = t)
            ((reg.modify t fun d => { d with _isValid := true }).modify t
              fun d => { d with _size := 0 }) t [] d._fields :=
          ⟨_, hdb, rfl, rfl, resolved_nil _ _, rfl, fun _ => by
            intro f hf; simp at hf⟩
        have hloopSome := finalizeFields_total (finalize_spec rank fuel) S t hS
          (fun S1 r t1 hR1 hG1 hS1 hs1 hr1 =>
            finalize_total rank fuel S1 r t1 hR1 hG1 hS1 hs1 (by omega))
          d._fields [] _ hPb.1 hPb.2.1 hI0
        cases hloop : finalizeFields (Definition.finalize fuel) t d._fields 0
            ((reg.modify t fun d => { d with _isValid := true }).modify t
              fun d => { d with _size := 0 }) with
        | none =>
          simp only [List.length_nil] at hloopSome
          rw [hloop] at hloopSome
          simp at hloopSome
        | some reg2 =>
          simp only
          obtain ⟨hPl, d2, hd2, hI⟩ := finalizeFields_spec (finalize_spec rank fuel) S t hS
            d._fields [] _ reg2 hPb.1 hPb.2.1 hI0 hloop
          rw [hd2]
          simp only
          refine htail reg2 d2 hPl.1 hPl.2.1 hd2 (fun hv2 _ => ?_)
          obtain ⟨d3, hd3, _, hf3, hres3, _⟩ := hI hv2
          rw [hd2] at hd3
          have e := Option.some.inj hd3
          subst e
          simpa using hres3
      · simp only [hlen, if_false, hda]
        have he : d._fields = [] := by
          cases hf : d._fields with
          | nil => rfl
          | cons a l => rw [hf] at hlen; simp at hlen
        exact htail _ _ hPa.1 hPa.2.1 hda (fun _ hne => absurd he hne)

theorem forall₂_sameSlot_mem_left {fs fs1 : List Field}
    (h : List.Forall₂ Field.SameSlot fs fs1) {f : Field} (hf : f ∈ fs) :
    ∃ f1, f1 ∈ fs1 ∧ f.SameSlot f1 := by
  induction h with
  | nil => simp at hf
  | cons hab _ ih =>
    rcases List.mem_cons.mp hf with e | e
    · subst e
      exact ⟨_, List.mem_cons_self _ _, hab⟩
    · obtain ⟨f1, hf1, hff⟩ := ih e
      exact ⟨f1, List.mem_cons_of_mem _ hf1, hff⟩

namespace DefinitionRegistry

/-- The loop of `finalizeAll` returns on an acyclic schema, with at least two units of
fuel more than the rank of every definition. -/
theorem finalizeEntries_total (rank : String → Nat) (fuel : Nat) :
    ∀ (keys : List String) (reg : DefinitionRegistry),
      Ranked rank reg → GoodExcept (fun _ => False) reg →
      (∀ k ∈ keys, (reg.getDefinition k).isSome = true ∧ rank k + 2 ≤ fuel) →
      (finalizeEntries fuel keys reg).isSome = true
  | [], _, _, _, _ => rfl
  | k :: keys, reg, hR, hG, hk => by
    obtain ⟨hs, hf⟩ := hk k (List.mem_cons_self _ _)
    have htot := finalize_total rank fuel (fun _ => False) reg k hR hG (fun _ h => h.elim) hs hf
    rw [finalizeEntries]
    cases hcall : Definition.finalize fuel reg k with
    | none => rw [hcall] at htot; simp at htot
    | some r =>
      obtain ⟨b, reg1⟩ := r
      obtain ⟨hP, _⟩ := finalize_spec rank fuel (fun _ => False) reg k b reg1 hR hG
        (fun _ h => h.elim) hcall
      cases b with
      | false => rfl
      | true =>
        simp only
        refine finalizeEntries_total rank fuel keys reg1 hP.1 hP.2.1 fun k1 hk1 => ?_
        obtain ⟨hs1, hf1⟩ := hk k1 (List.mem_cons_of_mem _ hk1)
        exact ⟨by rw [hP.2.2.1.2 k1]; exact hs1, hf1⟩

/-- The function `finalizeAll` returns on an acyclic schema in its registration phase,
with at least two units of fuel more than the rank of every definition. -/
theorem finalizeAll_total (rank : String → Nat) (fuel : Nat) (reg : DefinitionRegistry)
    (hA : reg.Acyclic rank) (hF : reg.Fresh) (hfuel : ∀ p ∈ reg, rank p.1 + 2 ≤ fuel) :
    (reg.finalizeAll fuel).isSome = true := by
  refine finalizeEntries_total rank fuel _ reg (ranked_of_fresh hA hF) (goodExcept_of_fresh hF)
    fun k hk => ?_
  obtain ⟨p, hp, hpk⟩ := List.mem_map.mp hk
  subst hpk
  exact ⟨getDefinition_isSome_of_mem reg p.1 hk, hfuel p hp⟩

end DefinitionRegistry

namespace DefinitionRegistry

/-- On an acyclic schema whose records were all registered before the first
finalization and in which the record `X` has a field whose type name is not
registered, `finalizeAll` returns (with two units of fuel more than the rank of every
definition), it returns failure, and `X` is not valid afterwards. -/
theorem finalizeAll_unresolved (rank : String → Nat) (fuel : Nat) (reg : DefinitionRegistry)
    (hA : reg.Acyclic rank) (hF : reg.Fresh) (hfuel : ∀ p ∈ reg, rank p.1 + 2 ≤ fuel)
    (x : String) (X : Definition) (hX : reg.getDefinition x = some X) (y : Field)
    (hy : y ∈ X._fields) (hun : (reg.getDefinition y.type).isSome = false) :
    ∃ reg1, reg.finalizeAll fuel = some (false, reg1) ∧
      ∃ X1, reg1.getDefinition x = some X1 ∧ X1._isValid = false := by
  obtain ⟨r, hr⟩ := Option.isSome_iff_exists.mp (finalizeAll_total rank fuel reg hA hF hfuel)
  obtain ⟨b, reg1⟩ := r
  obtain ⟨hP, hb⟩ := finalizeEntries_spec rank fuel _ reg b reg1 (ranked_of_fresh hA hF)
    (goodExcept_of_fresh hF) hr
  obtain ⟨_, hG, hK, hShape⟩ := hP
  have hsome : (reg1.getDefinition x).isSome = true := by rw [hK.2 x, hX]; rfl
  obtain ⟨X1, hX1⟩ := Option.isSome_iff_exists.mp hsome
  have hinv : X1._isValid = false := by
    cases hv : X1._isValid with
    | false => rfl
    | true =>
      exfalso
      obtain ⟨d, hd, _, _, hfs, _, _⟩ := hShape x X1 hX1
      rw [hX] at hd
      have e := Option.some.inj hd
      subst e
      obtain ⟨y1, hy1, hyy⟩ := forall₂_sameSlot_mem_left hfs hy
      have hne : X1._fields ≠ [] := by
        intro e; rw [e] at hy1; simp at hy1
      obtain ⟨_, fd, hfd, _, _⟩ := (hG x X1 hX1 hv hne (fun h => h)).resolved y1 hy1
      have h1 : (reg1.getDefinition y1.type).isSome = true := by rw [hfd]; rfl
      rw [hK.2, hyy.1, hun] at h1
      simp at h1
  have hbf : b = false := by
    cases b with
    | false => rfl
    | true =>
      exfalso
      obtain ⟨d, hd, hv⟩ := hb rfl x (by
        have := mem_of_getDefinition hX
        exact List.mem_map.mpr ⟨(x, X), this, rfl⟩)
      rw [hX1] at hd
      have e := Option.some.inj hd
      subst e
      rw [hinv] at hv
      simp at hv
  subst hbf
  exact ⟨reg1, hr, X1, hX1, hinv⟩

theorem finalizeAll_unresolved_witness :
    (exampleUnresolved.Acyclic exampleXRank ∧ exampleUnresolved.Fresh ∧
      (∀ p ∈ exampleUnresolved, exampleXRank p.1 + 2 ≤ 3) ∧
      exampleUnresolved.getDefinition "X"
        = some ((Definition.new "X" 0 false).addField "NoSuchType" "y" false (-1)).2 ∧
      (⟨"NoSuchType", "y", none, false, -1⟩ : Field) ∈
        ((Definition.new "X" 0 false).addField "NoSuchType" "y" false (-1)).2._fields ∧
      (exampleUnresolved.getDefinition
        (⟨"NoSuchType", "y", none, false, -1⟩ : Field).type).isSome = false) ∧
    ∃ reg1, exampleUnresolved.finalizeAll 3 = some (false, reg1) ∧
      ∃ X1, reg1.getDefinition "X" = some X1 ∧ X1._isValid = false :=
  ⟨⟨by unfold Acyclic; decide, by unfold Fresh; decide, by decide, by rfl, by decide,
      by decide⟩,
    finalizeAll_unresolved exampleXRank 3 exampleUnresolved (by unfold Acyclic; decide)
      (by unfold Fresh; decide) (by decide) "X"
      ((Definition.new "X" 0 false).addField "NoSuchType" "y" false (-1)).2 (by rfl)
      ⟨"NoSuchType", "y", none, false, -1⟩ (by decide) (by decide)⟩

end DefinitionRegistry

namespace DefinitionRegistry

/-- C12 (failing input): on the record `T { children: T[] }`, whose only cycle passes
through an array field, `Definition::finalize` does not return, with any amount of fuel:
after the loop over the fields has cleared the constant-size flag, the recorder calls
itself on `T` for the elements of `children`, without end.  Neither does `finalizeAll`
return on that registry. -/
theorem finalize_recursive_never_returns :
    (exampleRecursive.getDefinition "T").map
        (fun d => (d._isValid, d._fields.map fun f => (f.name, f.type, f.isArray, f.arraySize)))
        = some (false, [("children", "T", true, -1)]) ∧
      ∀ fuel, Definition.finalize fuel exampleRecursive "T" = none ∧
        exampleRecursive.finalizeAll fuel = none := by
  refine ⟨by decide, fun fuel => ?_⟩
  have ht := finalize_selfArray exampleRecursive "T"
    ((Definition.new "T" 0 false).addField "T" "children" true (-1)).2
    ⟨"T", "children", none, true, -1⟩ (by rfl) (by rfl) (by rfl) (by rfl) (by rfl) (by rfl)
    (by decide) (by rfl) fuel
  exact ⟨ht, finalizeEntries_none fuel exampleRecursive "T" [] ht
    ["bool", "uint8", "int8", "uint16", "int16", "uint32", "int32", "uint64", "int64",
      "float32", "float64", "string", "json", "time", "duration"] (by decide)⟩

end DefinitionRegistry

/-! ## Records of constant size compile to one fixed read -/

theorem allFixed_nil : AllFixed [] := fun _ h => by simp at h

theorem allFixed_append {xs ys : CommandBuffer} (hx : AllFixed xs) (hy : AllFixed ys) :
    AllFixed (xs ++ ys) := by
  intro c hc
  rcases List.mem_append.mp hc with h | h
  · exact hx c h
  · exact hy c h

theorem allFixed_wrapLabel {xs : CommandBuffer} (name : String) (hx : AllFixed xs) :
    AllFixed (xs.map (wrapLabel name)) := by
  intro c hc
  obtain ⟨c0, hc0, e⟩ := List.mem_map.mp hc
  subst e
  obtain ⟨t, l, s, n, subs⟩ := c0
  exact hx (.mk t l s n subs) hc0

theorem totalSize_append (xs ys : CommandBuffer) :
    totalSize (xs ++ ys) = totalSize xs + totalSize ys := by
  simp [totalSize]

theorem totalSize_wrapLabel (name : String) (xs : CommandBuffer) :
    totalSize (xs.map (wrapLabel name)) = totalSize xs := by
  induction xs with
  | nil => rfl
  | cons c xs ih =>
    obtain ⟨t, l, s, n, subs⟩ := c
    simp only [totalSize, List.map_cons, List.sum_cons] at ih ⊢
    rw [ih]
    rfl

/-- The loop of the optimizer merges fixed reads into the fixed read at the end of its
output. -/
theorem optimizeLoop_allFixed :
    ∀ (cmds : CommandBuffer) (label : String) (size : Nat), AllFixed cmds →
      ∃ label1, optimizeLoop cmds [.mk .READ_FIXED_SIZE_DATA label size 0 []]
        = [.mk .READ_FIXED_SIZE_DATA label1 (size + totalSize cmds) 0 []]
  | [], label, size, _ => ⟨label, by simp [optimizeLoop, totalSize]⟩
  | c :: cmds, label, size, h => by
    obtain ⟨t, l, s, n, subs⟩ := c
    obtain ⟨ht, hn, hs⟩ := h _ (List.mem_cons_self _ _)
    simp only [Command.type_mk, Command.length_mk, Command.subcommands_mk] at ht hn hs
    subst ht hn hs
    obtain ⟨label1, h1⟩ := optimizeLoop_allFixed cmds (label ++ ("+" ++ l)) (size + s)
      (fun c hc => h c (List.mem_cons_of_mem _ hc))
    refine ⟨label1, ?_⟩
    simp only [optimizeLoop, optimizeStep, pushFixed, List.getLast?_singleton,
      Command.type_mk, ne_eq, not_true_eq_false, if_false, List.dropLast_single,
      List.nil_append, Command.label_mk, Command.size_mk, Command.length_mk,
      Command.subcommands_mk]
    rw [h1]
    simp only [totalSize, List.map_cons, List.sum_cons, Command.size_mk, Nat.add_assoc]

/-- The optimizer turns fixed reads into one fixed read of the sum of their sizes. -/
theorem optimizeCommands_allFixed (cmds : CommandBuffer) (h : AllFixed cmds)
    (hne : cmds ≠ []) :
    ∃ label, optimizeCommands cmds = [.mk .READ_FIXED_SIZE_DATA label (totalSize cmds) 0 []] := by
  cases cmds with
  | nil => exact absurd rfl hne
  | cons c cmds =>
    obtain ⟨t, l, s, n, subs⟩ := c
    obtain ⟨ht, hn, hs⟩ := h _ (List.mem_cons_self _ _)
    simp only [Command.type_mk, Command.length_mk, Command.subcommands_mk] at ht hn hs
    subst ht hn hs
    obtain ⟨label1, h1⟩ := optimizeLoop_allFixed cmds l s
      (fun c hc => h c (List.mem_cons_of_mem _ hc))
    refine ⟨label1, ?_⟩
    simp only [optimizeCommands, optimizeLoop, optimizeStep, pushFixed, List.getLast?_nil,
      List.nil_append]
    rw [h1]
    simp only [totalSize, List.map_cons, List.sum_cons, Command.size_mk]

/-- The commands recorded for a definition of constant size are fixed reads of the bytes
of the definition. -/
theorem recordDefinitionCommands_allFixed {reg : DefinitionRegistry} (hfin : Finalized reg) :
    ∀ (fuel : Nat) (d : Definition) (cmds : CommandBuffer), Good reg d →
      d._hasConstantSize = true → recordDefinitionCommands fuel reg d = some cmds →
      AllFixed cmds ∧ totalSize cmds = d._size
  | 0, d, cmds, _, _, hc => by simp [recordDefinitionCommands] at hc
  | fuel + 1, d, cmds, hg, hcs, hc => by
    simp only [recordDefinitionCommands, Definition.hasFields, Definition.isString,
      recordComplexDefinitionCommandsWith, Definition.getFields] at hc
    by_cases hf : d._fields = []
    · simp only [hf, List.isEmpty_nil, Bool.not_true, Bool.false_eq_true, if_false] at hc
      have hs : d._isString = false := by
        cases h : d._isString with
        | false => rfl
        | true =>
          obtain ⟨k, hk, _⟩ := hg
          have := (hfin.strings k d hk h).2.2
          rw [hcs] at this
          simp at this
      simp only [hs, Bool.false_eq_true, if_false] at hc
      by_cases h0 : d.getSize > 0
      · simp only [h0, if_true, Option.some.injEq] at hc
        subst hc
        refine ⟨fun c hc => ?_, ?_⟩
        · simp only [recordNonStringDefinitionCommands, List.mem_singleton] at hc
          subst hc
          exact ⟨rfl, rfl, rfl⟩
        · simp [totalSize, recordNonStringDefinitionCommands, Definition.getSize]
      · simp only [h0, if_false, Option.some.injEq] at hc
        subst hc
        refine ⟨allFixed_nil, ?_⟩
        simp only [Definition.getSize] at h0
        simp only [totalSize, List.map_nil, List.sum_nil]
        omega
    · have hne := isEmpty_eq_false_of_ne hf
      simp only [hne, Bool.not_false, if_true] at hc
      have hS := settled_of_good hfin hg hf
      have hall : ∀ (fs : List Field) (cs : CommandBuffer),
          Resolved (fun _ => False) reg fs → ConstantFields reg fs →
          recordFields (recordDefinitionCommands fuel reg) reg fs = some cs →
          AllFixed cs ∧ totalSize cs = layoutSize reg fs := by
        intro fs
        induction fs with
        | nil =>
          intro cs _ _ h
          simp only [recordFields, Option.some.injEq] at h
          subst h
          exact ⟨allFixed_nil, rfl⟩
        | cons f fs ih =>
          intro cs hres hcon h
          obtain ⟨hr1, hr2⟩ := resolved_cons.mp hres
          obtain ⟨hp, fd, hfd, hv, _⟩ := hr1 f (by simp)
          obtain ⟨harr, hc1⟩ := hcon f (by simp)
          obtain ⟨_, hfcs⟩ := hc1 fd hfd
          rw [recordFields_cons _ reg f fs fd (by rw [hp]; exact hfd)] at h
          simp only [harr, Bool.false_eq_true, if_false] at h
          cases h1 : recordDefinitionCommands fuel reg fd with
          | none => rw [h1] at h; simp at h
          | some c =>
            cases h2 : recordFields (recordDefinitionCommands fuel reg) reg fs with
            | none => rw [h1, h2] at h; simp at h
            | some r =>
              rw [h1, h2] at h
              simp only [Option.some.injEq] at h
              subst h
              obtain ⟨a1, a2⟩ := recordDefinitionCommands_allFixed hfin fuel fd c
                ⟨f.type, hfd, hv⟩ hfcs h1
              obtain ⟨b1, b2⟩ := ih r hr2 (fun g hg => hcon g (by simp [hg])) h2
              refine ⟨allFixed_append (allFixed_wrapLabel _ a1) b1, ?_⟩
              rw [totalSize_append, totalSize_wrapLabel, a2, b2]
              simp only [layoutSize, hfd, harr, Bool.false_eq_true, if_false]
      obtain ⟨h1, h2⟩ := hall d._fields cmds hS.resolved (hS.constant hcs) hc
      exact ⟨h1, by rw [h2, hS.size, layoutSize_eq_fieldsSize hS.resolved]⟩

namespace DefinitionRegistry

/-- C13 (counterexample): a valid record of constant size whose one fixed read does not
have the size of the record.  After `C { a: int32 }` and `P { c: C }` are finalized, the
field `b: int32` is added to `C` and `Q { p: P }` is registered and finalized: `Q` takes
the size 4 of the stale `P`, but its commands are recorded through the fields of `C` and
read 8 bytes. -/
theorem finalizeAll_constantSize_counterexample :
    (exampleStaleParent.getDefinition "Q").map
        (fun D => (D._isValid, D._hasConstantSize, D._size,
          D._commands.map fun c => (c.type.toInt, c.size)))
      = some (true, true, 4, [(CommandType.READ_FIXED_SIZE_DATA.toInt, 8)]) := by
  decide!

/-- C13 (amended): after `finalizeAll` on an acyclic schema whose records were all
registered before the first finalization, a valid record with fields that has constant
size and a size greater than 0 has as compiled commands exactly one fixed read, of the
size of the record, so that `flattenCommands` returns `[FIXED]`. -/
theorem finalizeAll_constantSize_commands (rank : String → Nat) (fuel : Nat)
    (reg0 reg : DefinitionRegistry) (b : Bool) (hS : Schema rank reg0)
    (h : reg0.finalizeAll fuel = some (b, reg)) (k : String) (D : Definition)
    (hD : reg.getDefinition k = some D) (hv : D._isValid = true) (hne : D._fields ≠ [])
    (hcs : D._hasConstantSize = true) (hsize : D._size > 0) :
    (∃ label, D.getCommands = [.mk .READ_FIXED_SIZE_DATA label D._size 0 []]) ∧
      D.flattenCommands = [CommandType.READ_FIXED_SIZE_DATA.toInt] := by
  have hfin := finalized_of_schema hS h
  obtain ⟨fuel1, cmds, hrec, hcmd⟩ := (hfin.good k D hD hv hne (fun h => h)).commands
  obtain ⟨h1, h2⟩ := recordDefinitionCommands_allFixed hfin fuel1 D cmds ⟨k, hD, hv⟩ hcs hrec
  have hne1 : cmds ≠ [] := by
    intro e
    rw [e] at h2
    simp only [totalSize, List.map_nil, List.sum_nil] at h2
    omega
  obtain ⟨label, hl⟩ := optimizeCommands_allFixed cmds h1 hne1
  rw [h2] at hl
  refine ⟨⟨label, by rw [Definition.getCommands, hcmd, hl]⟩, ?_⟩
  rw [Definition.flattenCommands, hcmd, hl]
  rfl

theorem finalizeAll_constantSize_commands_witness :
    (Schema exampleRank exampleP ∧ exampleP.finalizeAll 3 = some (true, examplePFinal) ∧
      examplePFinal.getDefinition "P" = some examplePFinalized ∧
      examplePFinalized._isValid = true ∧ examplePFinalized._fields ≠ [] ∧
      examplePFinalized._hasConstantSize = true ∧ examplePFinalized._size > 0) ∧
    ((∃ label, examplePFinalized.getCommands
        = [.mk .READ_FIXED_SIZE_DATA label examplePFinalized._size 0 []]) ∧
      examplePFinalized.flattenCommands = [CommandType.READ_FIXED_SIZE_DATA.toInt]) :=
  ⟨⟨⟨by unfold Acyclic; decide, by unfold Fresh; decide, by decide, by decide⟩, by rfl,
      by rfl, by rfl, by decide, by rfl, by decide⟩,
    finalizeAll_constantSize_commands exampleRank 3 exampleP examplePFinal true
      ⟨by unfold Acyclic; decide, by unfold Fresh; decide, by decide, by decide⟩ (by rfl) "P"
      examplePFinalized (by rfl) (by rfl) (by decide) (by rfl) (by decide)⟩

end DefinitionRegistry

/-! ## The constant-size flag is only cleared by a field -/

theorem forall₂_follows_refl (fields : List Field) :
    List.Forall₂ Field.Follows fields fields := by
  induction fields with
  | nil => exact List.Forall₂.nil
  | cons f rest ih => exact List.Forall₂.cons ⟨rfl, fun _ h => h⟩ ih

theorem forall₂_follows_trans {a b c : List Field} (h1 : List.Forall₂ Field.Follows a b)
    (h2 : List.Forall₂ Field.Follows b c) : List.Forall₂ Field.Follows a c := by
  induction h1 generalizing c with
  | nil => cases h2; exact List.Forall₂.nil
  | cons hab _ ih =>
    cases h2 with
    | cons hbc h2 =>
      exact List.Forall₂.cons ⟨hbc.1.trans hab.1, fun t ht => hbc.2 t (hab.2 t ht)⟩ (ih h2)

theorem forall₂_follows_mem {a b : List Field} (h : List.Forall₂ Field.Follows a b)
    {f : Field} (hf : f ∈ a) : ∃ f1 ∈ b, f.Follows f1 := by
  induction h with
  | nil => simp at hf
  | cons hab _ ih =>
    rcases List.mem_cons.mp hf with e | hm
    · subst e
      exact ⟨_, List.mem_cons_self _ _, hab⟩
    · obtain ⟨f1, h1, h2⟩ := ih hm
      exact ⟨f1, List.mem_cons_of_mem _ h1, h2⟩

theorem forall₂_follows_update (done rest : List Field) (f : Field) (p : Option String)
    (hp : ∀ t, f.definition = some t → p = some t) :
    List.Forall₂ Field.Follows (done ++ f :: rest)
      (done ++ { f with definition := p } :: rest) := by
  induction done with
  | nil => exact List.Forall₂.cons ⟨rfl, hp⟩ (forall₂_follows_refl rest)
  | cons a done ih => exact List.Forall₂.cons ⟨rfl, fun _ h => h⟩ ih

theorem follows_refl (reg : DefinitionRegistry) (d : Definition) : d.Follows reg d :=
  ⟨rfl, forall₂_follows_refl _, fun h => h, fun h1 h2 => by rw [h1] at h2; simp at h2⟩

theorem justifies_refl (reg : DefinitionRegistry) : Justifies reg reg :=
  ⟨fun _ d1 h => ⟨d1, h, follows_refl reg d1⟩, fun _ h => h⟩

/-- A field that clears the flag still clears it at a later point of finalization. -/
theorem clears_follows {reg reg1 : DefinitionRegistry} (h : Justifies reg reg1)
    {f f1 : Field} (hf : f.Follows f1) (hc : Clears reg f) : Clears reg1 f1 := by
  rcases hc with ha | ⟨fd, hfd, hflag⟩
  · exact Or.inl (hf.1.trans ha)
  · cases hp : f.definition with
    | none => rw [hp] at hfd; simp at hfd
    | some t =>
      rw [hp] at hfd
      simp only [Option.some_bind] at hfd
      have hs := h.2 t (by rw [hfd]; rfl)
      obtain ⟨fd1, hfd1⟩ := Option.isSome_iff_exists.mp hs
      obtain ⟨d, hd, hstr, _, hmono, _⟩ := h.1 t fd1 hfd1
      rw [hfd] at hd
      have e := Option.some.inj hd
      subst e
      refine Or.inr ⟨fd1, by rw [hf.2 t hp]; simpa using hfd1, ?_⟩
      rcases hflag with hs1 | hc1
      · exact Or.inl (hstr.trans hs1)
      · right
        cases hc2 : fd1._hasConstantSize with
        | false => rfl
        | true => rw [hmono hc2] at hc1; simp at hc1

theorem justifies_trans {reg reg1 reg2 : DefinitionRegistry} (h1 : Justifies reg reg1)
    (h2 : Justifies reg1 reg2) : Justifies reg reg2 := by
  refine ⟨fun k d2 hd2 => ?_, fun k hk => h2.2 k (h1.2 k hk)⟩
  obtain ⟨d1, hd1, hs12, hf12, hm12, hn12⟩ := h2.1 k d2 hd2
  obtain ⟨d, hd, hs01, hf01, hm01, hn01⟩ := h1.1 k d1 hd1
  refine ⟨d, hd, hs12.trans hs01, forall₂_follows_trans hf01 hf12, fun h => hm01 (hm12 h),
    fun hc hc2 => ?_⟩
  cases hc1 : d1._hasConstantSize with
  | true => exact hn12 hc1 hc2
  | false =>
    obtain ⟨f, hf, hcl⟩ := hn01 hc hc1
    obtain ⟨f2, hf2, hfol⟩ := forall₂_follows_mem hf12 hf
    exact ⟨f2, hf2, clears_follows h2 hfol hcl⟩

/-- A mutation of the definition `self` that lets it follow its old state. -/
theorem justifies_modify (reg : DefinitionRegistry) (self : String)
    (g : Definition → Definition)
    (h : ∀ d, reg.getDefinition self = some d → d.Follows (reg.modify self g) (g d)) :
    Justifies reg (reg.modify self g) := by
  refine ⟨fun k d1 hd1 => ?_, fun k hk => ?_⟩
  · rw [DefinitionRegistry.getDefinition_modify] at hd1
    by_cases hk : k = self
    · subst hk
      simp only [if_true] at hd1
      cases hd : reg.getDefinition k with
      | none => rw [hd] at hd1; simp at hd1
      | some d =>
        rw [hd] at hd1
        simp only [Option.map_some', Option.some.injEq] at hd1
        subst hd1
        exact ⟨d, rfl, h d hd⟩
    · simp only [hk, if_false] at hd1
      exact ⟨d1, hd1, follows_refl _ d1⟩
  · rw [DefinitionRegistry.getDefinition_isSome_modify]
    exact hk

/-- A mutation that leaves the string flag, the fields and the constant-size flag. -/
theorem justifies_modify_same (reg : DefinitionRegistry) (self : String)
    (g : Definition → Definition)
    (h : ∀ d, (g d)._isString = d._isString ∧ (g d)._fields = d._fields ∧
      (g d)._hasConstantSize = d._hasConstantSize) :
    Justifies reg (reg.modify self g) := by
  refine justifies_modify reg self g fun d _ => ?_
  obtain ⟨h1, h2, h3⟩ := h d
  refine ⟨h1, by rw [h2]; exact forall₂_follows_refl _, fun hc => by rw [← h3]; exact hc,
    fun hc hc1 => ?_⟩
  rw [h3, hc] at hc1
  exact absurd hc1 (by simp)

theorem resolve_of_set {reg : DefinitionRegistry} {f : Field} {t : String}
    (h : f.definition = some t) : f.resolve reg = some t := by
  unfold Field.resolve
  rw [h]

/-- The loop of `finalize` clears the constant-size flag only with a field that
clears it. -/
theorem finalizeFields_justifies
    {fin : DefinitionRegistry → String → Option (Bool × DefinitionRegistry)}
    (hframe : FrameSpec fin)
    (hfin : ∀ reg t b reg1, fin reg t = some (b, reg1) → Justifies reg reg1) (self : String) :
    ∀ (rest done : List Field) (reg out : DefinitionRegistry) (d : Definition),
      reg.getDefinition self = some d → d._isValid = true → d._fields = done ++ rest →
      finalizeFields fin self rest done.length reg = some out → Justifies reg out
  | [], done, reg, out, d, hd, _, hf, h => by
    simp only [finalizeFields, Option.some.injEq] at h
    subst h
    exact justifies_refl _
  | f :: rest, done, reg, out, d, hd, hv, hf, h => by
    have hd1 : (reg.modify self (setFieldDefinition done.length (f.resolve reg))).getDefinition
        self = some { d with _fields := done ++ { f with definition := f.resolve reg } :: rest }
        := by
      rw [DefinitionRegistry.getDefinition_modify_same, hd]
      simp only [Option.map_some', setFieldDefinition, hf, list_modify_append]
    have hJ1 : Justifies reg (reg.modify self (setFieldDefinition done.length (f.resolve reg)))
        := by
      refine justifies_modify _ _ _ fun d0 hd0 => ?_
      rw [hd] at hd0
      have e := Option.some.inj hd0
      subst e
      refine ⟨rfl, ?_, fun hc => hc, fun hc hc1 => ?_⟩
      · simp only [setFieldDefinition, hf, list_modify_append]
        exact forall₂_follows_update done rest f _ fun t ht => resolve_of_set ht
      · simp only [setFieldDefinition] at hc1
        rw [hc] at hc1
        exact absurd hc1 (by simp)
    have hfail : ∀ r : DefinitionRegistry, Justifies reg r →
        Justifies reg (r.modify self fun d => { d with _isValid := false }) := fun r hr =>
      justifies_trans hr (justifies_modify_same _ _ _ fun _ => ⟨rfl, rfl, rfl⟩)
    simp only [finalizeFields, Field.finalize] at h
    cases hp : f.resolve reg with
    | none =>
      rw [hp] at h hd1 hJ1
      simp only [Option.some.injEq] at h
      subst h
      exact hfail _ hJ1
    | some t =>
      rw [hp] at h hd1 hJ1
      simp only at h
      cases hcall : fin (reg.modify self (setFieldDefinition done.length (some t))) t with
      | none => rw [hcall] at h; simp at h
      | some r =>
        obtain ⟨b, reg2⟩ := r
        rw [hcall] at h
        simp only at h
        obtain ⟨hKc, _, _⟩ := hframe _ t b reg2 hcall
        have hd2 := hKc.1 self _ hd1 hv (fun hk => hk)
        have hJ2 : Justifies reg reg2 := justifies_trans hJ1 (hfin _ t b reg2 hcall)
        cases b with
        | false =>
          simp only [Option.some.injEq] at h
          subst h
          exact hfail _ hJ2
        | true =>
          simp only at h
          obtain ⟨g, hg⟩ : ∃ g, g = Field.getSize reg2 { f with definition := some t } :=
            ⟨_, rfl⟩
          rw [← hg] at h
          have hd3 : (reg2.modify self fun d1 => { d1 with _size := d1._size + g }).getDefinition
              self = some { d with _fields := done ++ { f with definition := some t } :: rest,
                                   _size := d._size + g } := by
            rw [DefinitionRegistry.getDefinition_modify_same, hd2]; rfl
          have hJ3 : Justifies reg (reg2.modify self fun d1 => { d1 with _size := d1._size + g })
              := justifies_trans hJ2 (justifies_modify_same _ _ _ fun _ => ⟨rfl, rfl, rfl⟩)
          have hlen : (done ++ [{ f with definition := some t }]).length = done.length + 1 := by
            simp
          rw [← hlen] at h
          split at h
          · rename_i hclear
            have hd4 : ((reg2.modify self fun d1 => { d1 with _size := d1._size + g }).modify
                self fun d1 => { d1 with _hasConstantSize := false }).getDefinition self
                = some { d with _fields := done ++ { f with definition := some t } :: rest,
                                _size := d._size + g, _hasConstantSize := false } := by
              rw [DefinitionRegistry.getDefinition_modify_same, hd3]; rfl
            have hJ4 : Justifies (reg2.modify self fun d1 => { d1 with _size := d1._size + g })
                ((reg2.modify self fun d1 => { d1 with _size := d1._size + g }).modify
                  self fun d1 => { d1 with _hasConstantSize := false }) := by
              refine justifies_modify _ _ _ fun d0 hd0 => ?_
              rw [hd3] at hd0
              have e := Option.some.inj hd0
              subst e
              refine ⟨rfl, forall₂_follows_refl _, fun hc => absurd hc (by simp),
                fun _ _ => ⟨{ f with definition := some t }, by simp, ?_⟩⟩
              by_cases ha : f.isArray = true
              · exact Or.inl ha
              · right
                simp only [Option.some_bind] at hclear ⊢
                by_cases hts : t = self
                · subst hts
                  rw [hd4]
                  exact ⟨_, rfl, Or.inr rfl⟩
                · rw [DefinitionRegistry.getDefinition_modify_ne _ _ _ _ hts]
                  cases hfd : (reg2.modify self
                      fun d1 => { d1 with _size := d1._size + g }).getDefinition t with
                  | none =>
                    rw [hfd] at hclear
                    exact absurd hclear ha
                  | some fd =>
                    rw [hfd] at hclear
                    refine ⟨fd, rfl, ?_⟩
                    simp only [Bool.or_eq_true, ha, Bool.false_eq_true, false_or,
                      Definition.isString, Definition.hasConstantSize, Bool.not_eq_true']
                      at hclear
                    exact hclear
            exact justifies_trans hJ3 (justifies_trans hJ4 (finalizeFields_justifies hframe hfin
              self rest _ _ out _ hd4 hv (by simp) h))
          · exact justifies_trans hJ3 (finalizeFields_justifies hframe hfin
              self rest _ _ out _ hd3 hv (by simp) h)

/-- `Definition::finalize` clears the constant-size flag of a definition only with a
field of it that is an array, points to a string or points to a definition without
constant size; it never sets the flag. -/
theorem finalize_justifies : ∀ (fuel : Nat) (reg : DefinitionRegistry) (t : String) (b : Bool)
    (reg1 : DefinitionRegistry), Definition.finalize fuel reg t = some (b, reg1) →
      Justifies reg reg1
  | 0, reg, t, b, reg1, h => by simp [Definition.finalize] at h
  | fuel + 1, reg, t, b, reg1, h => by
    rw [Definition.finalize] at h
    cases hd : reg.getDefinition t with
    | none => rw [hd] at h; simp at h
    | some d =>
      rw [hd] at h
      simp only at h
      by_cases hv : d._isValid = true
      · simp only [hv, if_true, Option.some.injEq, Prod.mk.injEq] at h
        obtain ⟨_, hreg⟩ := h
        subst hreg
        exact justifies_refl _
      · simp only [hv, Bool.false_eq_true, if_false] at h
        have hda : (reg.modify t fun d => { d with _isValid := true }).getDefinition t =
            some { d with _isValid := true } := by
          rw [DefinitionRegistry.getDefinition_modify_same, hd]; rfl
        have hJa : Justifies reg (reg.modify t fun d => { d with _isValid := true }) :=
          justifies_modify_same _ _ _ fun _ => ⟨rfl, rfl, rfl⟩
        have hloop : ∃ reg2, Justifies reg reg2 ∧
            (match reg2.getDefinition t with
              | none => none
              | some d2 =>
                if d2._isValid = true then
                  match recordDefinitionCommands fuel reg2 d2 with
                  | none => none
                  | some cmds =>
                    some (true,
                      reg2.modify t fun d => { d with _commands := optimizeCommands cmds })
                else some (false, reg2)) = some (b, reg1) := by
          by_cases hlen : d._fields.length > 0
          · simp only [hlen, if_true] at h
            cases hl : finalizeFields (Definition.finalize fuel) t d._fields 0
                ((reg.modify t fun d => { d with _isValid := true }).modify t
                  fun d => { d with _size := 0 }) with
            | none => rw [hl] at h; simp at h
            | some reg2 =>
              rw [hl] at h
              simp only at h
              have hJ := finalizeFields_justifies (finalize_frame fuel)
                (finalize_justifies fuel) t
                d._fields [] _ reg2 { d with _isValid := true, _size := 0 }
                (by rw [DefinitionRegistry.getDefinition_modify_same, hda]; rfl) rfl rfl hl
              exact ⟨reg2, justifies_trans hJa (justifies_trans
                (justifies_modify_same _ t (fun d => { d with _size := 0 })
                  fun _ => ⟨rfl, rfl, rfl⟩) hJ), h⟩
          · simp only [hlen, if_false] at h
            exact ⟨_, hJa, h⟩
        obtain ⟨reg2, hJ, h2⟩ := hloop
        cases hd2 : reg2.getDefinition t with
        | none => rw [hd2] at h2; simp at h2
        | some d2 =>
          rw [hd2] at h2
          simp only at h2
          by_cases hv2 : d2._isValid = true
          · simp only [hv2, if_true] at h2
            cases hrec : recordDefinitionCommands fuel reg2 d2 with
            | none => rw [hrec] at h2; simp at h2
            | some cmds =>
              rw [hrec] at h2
              simp only [Option.some.injEq, Prod.mk.injEq] at h2
              obtain ⟨_, hreg⟩ := h2
              subst hreg
              exact justifies_trans hJ (justifies_modify_same _ _ _ fun _ => ⟨rfl, rfl, rfl⟩)
          · simp only [hv2, Bool.false_eq_true, if_false, Option.some.injEq,
              Prod.mk.injEq] at h2
            obtain ⟨_, hreg⟩ := h2
            subst hreg
            exact hJ

theorem DefinitionRegistry.finalizeEntries_justifies (fuel : Nat) :
    ∀ (keys : List String) (reg : DefinitionRegistry) (b : Bool) (reg1 : DefinitionRegistry),
      DefinitionRegistry.finalizeEntries fuel keys reg = some (b, reg1) → Justifies reg reg1
  | [], reg, b, reg1, h => by
    simp only [DefinitionRegistry.finalizeEntries, Option.some.injEq, Prod.mk.injEq] at h
    obtain ⟨_, hreg⟩ := h
    subst hreg
    exact justifies_refl _
  | k :: keys, reg, b, reg1, h => by
    rw [DefinitionRegistry.finalizeEntries] at h
    cases hc : Definition.finalize fuel reg k with
    | none => rw [hc] at h; simp at h
    | some r =>
      obtain ⟨b1, reg2⟩ := r
      rw [hc] at h
      have hJ := finalize_justifies fuel reg k b1 reg2 hc
      cases b1 with
      | false =>
        simp only [Option.some.injEq, Prod.mk.injEq] at h
        obtain ⟨_, hreg⟩ := h
        subst hreg
        exact hJ
      | true =>
        simp only at h
        exact justifies_trans hJ
          (DefinitionRegistry.finalizeEntries_justifies fuel keys reg2 b reg1 h)

namespace DefinitionRegistry

/-- C14 (counterexample): a valid record of an acyclic schema whose constant-size flag is
set although its field resolves to a definition whose flag is cleared.  After
`C { a: int32 }` and `P { c: C }` are finalized, the field `xs: int32[]` is added to `C`
and `finalizeAll` is called again: `C` loses the flag, `P` is valid and keeps it. -/
theorem finalizeAll_hasConstantSize_counterexample :
    (exampleStaleArray.getDefinition "P").map
        (fun D => (D._isValid, D._isString, D._hasConstantSize)) = some (true, false, true) ∧
      (exampleStaleArray.getDefinition "P").map
        (fun D => D._fields.map fun f => (f.isArray, f.definition))
          = some [(false, some "C")] ∧
      (exampleStaleArray.getDefinition "C").map
        (fun fd => (fd._isValid, fd._isString, fd._hasConstantSize))
          = some (true, false, false) := by
  decide!

/-- C14 (amended): after `finalizeAll` on an acyclic schema whose records were all
registered before the first finalization and whose definitions that are not strings have
the constant-size flag set, as the constructor leaves it, a valid definition has constant
size if and only if it is not a string and none of its fields is an array, points to a
string or points to a definition without constant size. -/
theorem finalizeAll_hasConstantSize (rank : String → Nat) (fuel : Nat)
    (reg0 reg : DefinitionRegistry) (b : Bool) (hS : Schema rank reg0)
    (hnew : ∀ p ∈ reg0, p.2._isString = false → p.2._hasConstantSize = true)
    (h : reg0.finalizeAll fuel = some (b, reg)) (k : String) (D : Definition)
    (hD : reg.getDefinition k = some D) (hv : D._isValid = true) :
    D.hasConstantSize = true ↔
      (D.isString = false ∧ ∀ f ∈ D.getFields, f.isArray = false ∧
        ∀ fd, f.definition.bind reg.getDefinition = some fd →
          fd.isString = false ∧ fd.hasConstantSize = true) := by
  have hfin := finalized_of_schema hS h
  have hJ := finalizeEntries_justifies fuel _ reg0 b reg h
  obtain ⟨d, hd, hstr, _, hmono, hclear⟩ := hJ.1 k D hD
  simp only [Definition.hasConstantSize, Definition.isString, Definition.getFields]
  constructor
  · intro hc
    refine ⟨?_, fun f hf => ?_⟩
    · cases hs : D._isString with
      | false => rfl
      | true =>
        rw [hstr] at hs
        rw [(hS.strings _ (mem_of_getDefinition hd) hs).2.2] at hmono
        exact absurd (hmono hc) (by simp)
    · have hne : D._fields ≠ [] := by intro e; rw [e] at hf; simp at hf
      have hset := hfin.good k D hD hv hne (fun hx => hx)
      obtain ⟨ha, hfd⟩ := hset.constant hc f hf
      refine ⟨ha, fun fd hfd1 => ?_⟩
      rw [(hset.resolved f hf).1] at hfd1
      exact hfd fd hfd1
  · rintro ⟨hs, hfields⟩
    cases hc : D._hasConstantSize with
    | true => rfl
    | false =>
      have hd0 : d._hasConstantSize = true :=
        hnew _ (mem_of_getDefinition hd) (by rw [← hstr]; exact hs)
      obtain ⟨f, hf, hcl⟩ := hclear hd0 hc
      obtain ⟨ha, hfd⟩ := hfields f hf
      rcases hcl with ha1 | ⟨fd, hfd1, hflag⟩
      · rw [ha] at ha1; simp at ha1
      · obtain ⟨h1, h2⟩ := hfd fd hfd1
        rcases hflag with h3 | h3
        · rw [h1] at h3; simp at h3
        · rw [h2] at h3; simp at h3

theorem finalizeAll_hasConstantSize_witness :
    (Schema exampleRank exampleP ∧
      (∀ p ∈ exampleP, p.2._isString = false → p.2._hasConstantSize = true) ∧
      exampleP.finalizeAll 3 = some (true, examplePFinal) ∧
      examplePFinal.getDefinition "P" = some examplePFinalized ∧
      examplePFinalized._isValid = true) ∧
    (examplePFinalized.hasConstantSize = true ↔
      (examplePFinalized.isString = false ∧ ∀ f ∈ examplePFinalized.getFields,
        f.isArray = false ∧
          ∀ fd, f.definition.bind examplePFinal.getDefinition = some fd →
            fd.isString = false ∧ fd.hasConstantSize = true)) :=
  ⟨⟨⟨by unfold Acyclic; decide, by unfold Fresh; decide, by decide, by decide⟩, by decide,
      by rfl, by rfl, by rfl⟩,
    finalizeAll_hasConstantSize exampleRank 3 exampleP examplePFinal true
      ⟨by unfold Acyclic; decide, by unfold Fresh; decide, by decide, by decide⟩ (by decide)
      (by rfl) "P" examplePFinalized (by rfl) (by rfl)⟩

end DefinitionRegistry

/-! ## The exact output of the writer on the example records -/

theorem memcpy_middle (pre mid post src : List UInt8) (h : src.length = mid.length) :
    memcpy (pre ++ mid ++ post) pre.length src = pre ++ src ++ post := by
  unfold memcpy
  have h1 : (pre ++ mid ++ post).take pre.length = pre := by
    rw [List.append_assoc, List.take_left']
    rfl
  have h2 : src.take ((pre ++ mid ++ post).length - pre.length) = src := by
    apply List.take_of_length_le
    simp only [List.length_append]
    omega
  have h3 : (pre ++ mid ++ post).drop (pre.length + src.length) = post := by
    rw [h, ← List.length_append, List.drop_left']
    rfl
  rw [h1, h2, h3]

theorem memcpy_end (pre src : List UInt8) :
    memcpy (pre ++ List.replicate src.length 0) pre.length src = pre ++ src := by
  have h := memcpy_middle pre (List.replicate src.length 0) [] src (by simp)
  simpa using h

theorem drop_of_drop_append {α : Type} (l a b : List α) (n : Nat) (h : l.drop n = a ++ b) :
    l.drop (n + a.length) = b := by
  rw [← List.drop_drop, h, List.drop_left']
  rfl

theorem length_of_drop_eq {α : Type} (l a : List α) (n : Nat) (h : l.drop n = a)
    (ha : a ≠ []) : n + a.length = l.length := by
  have h1 := congrArg List.length h
  rw [List.length_drop] at h1
  have h2 : 0 < a.length := List.length_pos.mpr ha
  omega

namespace MessageWriter

/-- The run of `readDynamicData` into the string buffer on a well-formed string: the slot
at the cursor of the view takes the count and the offset, the body is appended to the
string buffer. -/
theorem readDynamicData_string (mw : MessageWriter) (src : DataReader) (dst : DataWriter)
    (pre mid post body rest : List UInt8)
    (hin : src._data.drop src._read = uint32Bytes body.length ++ (body ++ rest))
    (hk : body.length < 2 ^ 32) (hb : dst.buffer = .data) (hroom : dst.next + 8 ≤ dst.end_)
    (hdata : mw._dataBuffer = pre ++ mid ++ post) (hpre : pre.length = dst.next)
    (hmid : mid.length = 8) :
    mw.readDynamicData src dst .strings 1 =
      { ok := true, src := { src with _read := src._read + (4 + body.length) },
        dst := { dst with next := dst.next + 8 },
        mw := { _dataBuffer := pre ++ (uint32Bytes body.length
                  ++ uint32Bytes (mw._stringBuffer.length % 2 ^ 32)) ++ post,
                _stringBuffer := mw._stringBuffer ++ body } } := by
  have hlen := length_of_drop_eq _ _ _ hin (by simp [uint32Bytes])
  simp only [List.length_append, uint32Bytes_length] at hlen
  have htake : (src._data.drop src._read).take 4 = uint32Bytes body.length := by
    rw [hin, ← uint32Bytes_length body.length, List.take_left']
    rfl
  have hrest : src._data.drop (src._read + 4) = body ++ rest := by
    have := drop_of_drop_append _ _ _ _ hin
    rwa [uint32Bytes_length] at this
  rw [readDynamicData_eq, if_pos (by simp only [DataReader._size]; omega)]
  simp only [htake, uint32OfBytes_uint32Bytes _ hk, Nat.mul_one, allocate_eq]
  rw [writeOffsets_of_room _ _ _ _ hroom]
  obtain ⟨dbuf, dnext, dend⟩ := dst
  simp only at hb hpre hroom
  subst hb hpre
  obtain ⟨data, strings⟩ := mw
  simp only at hdata
  subst hdata
  have hm := memcpy_middle pre mid post
    (uint32Bytes body.length ++ uint32Bytes (strings.length % 2 ^ 32))
    (by rw [List.length_append, uint32Bytes_length, uint32Bytes_length, hmid])
  by_cases hpos : body.length > 0
  · rw [if_pos hpos]
    rw [DataReader.read_of_room _ _ _ _ (by simp only [DataReader._size]; omega) (by simp)]
    simp only [hrest, List.take_left', MessageWriter.get, MessageWriter.set, hm, memcpy_end,
      Nat.add_assoc]
  · have hnil : body = [] := List.length_eq_zero.mp (by omega)
    rw [if_neg hpos]
    subst hnil
    simp only [List.length_nil] at hm
    simp only [MessageWriter.get, MessageWriter.set, hm, List.append_nil, List.length_nil,
      Nat.add_zero, List.replicate_zero]

end MessageWriter

namespace MessageWriter

/-- The function `write` on a valid definition of size 8 whose commands are one string
read, and on the encoding of a string. -/
theorem write_string_command (mw : MessageWriter) (D : Definition) (l : String) (s n : Nat)
    (subs : CommandBuffer) (body : List UInt8) (hv : D.isValid = true)
    (hsize : D.getSize = 8) (hcmd : D.getCommands = [.mk .READ_STRING l s n subs])
    (hk : body.length < 2 ^ 32) :
    mw.write (some D) (uint32Bytes body.length ++ body) =
      (toInt32 mw._dataBuffer.length,
        { _dataBuffer := mw._dataBuffer ++ (uint32Bytes body.length
            ++ uint32Bytes (mw._stringBuffer.length % 2 ^ 32)),
          _stringBuffer := mw._stringBuffer ++ body }) := by
  rw [write_valid mw D _ hv, hcmd, hsize, dispatchCommands_singleton, dispatchCommand_string,
    allocate_eq]
  have h := readDynamicData_string
    (mw.set .data (mw.get .data ++ List.replicate 8 0))
    (DataReader.new (uint32Bytes body.length ++ body))
    { buffer := .data, next := (mw.get .data).length, end_ := (mw.get .data).length + 8 }
    mw._dataBuffer (List.replicate 8 0) [] body []
    (by simp [DataReader.new]) hk rfl (Nat.le_refl _) (by simp [MessageWriter.set, MessageWriter.get])
    rfl (by simp)
  rw [h]
  simp [MessageWriter.set]

/-- C15: the finalized record `S { name: string }` has size 8 and the one command
`READ_STRING`, and on every input that is a `uint32` count followed by as many bytes,
with a string buffer shorter than `2 ^ 32` bytes, `write` returns the offset of the
record, appends to the data buffer exactly the 8 bytes of the slot with the count and
the length the string buffer had before the call, and appends exactly the bytes of the
string to the string buffer. -/
theorem write_string_record (mw : MessageWriter) (body : List UInt8)
    (hk : body.length < 2 ^ 32) (hoff : mw._stringBuffer.length < 2 ^ 32) :
    (exampleSFinalized.isValid = true ∧ exampleSFinalized.getSize = 8 ∧
      exampleSFinalized.flattenCommands = [CommandType.READ_STRING.toInt]) ∧
    mw.write (some exampleSFinalized) (uint32Bytes body.length ++ body) =
      (toInt32 mw._dataBuffer.length,
        { _dataBuffer := mw._dataBuffer ++ (uint32Bytes body.length
            ++ uint32Bytes mw._stringBuffer.length),
          _stringBuffer := mw._stringBuffer ++ body }) := by
  refine ⟨⟨rfl, rfl, rfl⟩, ?_⟩
  rw [write_string_command mw exampleSFinalized "name(string)" 0 0 [] body rfl rfl rfl hk,
    Nat.mod_eq_of_lt hoff]

theorem write_string_record_witness :
    ([97, 98, 99] : List UInt8).length < 2 ^ 32 ∧
    (MessageWriter.mk [9, 9] [7])._stringBuffer.length < 2 ^ 32 ∧
    (MessageWriter.mk [9, 9] [7]).write (some exampleSFinalized) [3, 0, 0, 0, 97, 98, 99] =
      (2, { _dataBuffer := [9, 9, 3, 0, 0, 0, 1, 0, 0, 0], _stringBuffer := [7, 97, 98, 99] }) :=
  ⟨by decide, by decide,
    (write_string_record (MessageWriter.mk [9, 9] [7]) [97, 98, 99] (by decide)
      (by decide)).2⟩

end MessageWriter

theorem recordArrayDefinitionCommandsWith_constant (record : Definition → Option CommandBuffer)
    (E : Definition) (n : Int) (hn : 0 ≤ n) (hs : E.isString = false)
    (hc : E.hasConstantSize = true) :
    recordArrayDefinitionCommandsWith record E n =
      some [.mk .CONSTANT_ARRAY E.getName E.getSize (n.toNat % 2 ^ 32)
        [.mk .READ_FIXED_SIZE_DATA E.getName (n.toNat * E.getSize) 0 []]] := by
  unfold recordArrayDefinitionCommandsWith
  rw [if_pos hn]
  simp only [hs, hc, Bool.false_eq_true, if_false, if_true, Option.map_some',
    recordNonStringDefinitionCommands]

namespace MessageWriter

/-- The function `write` on a valid definition of size 8 whose commands are one constant
array with one fixed read of the whole payload, on an input of the size of the payload. -/
theorem write_constantArray_command (mw : MessageWriter) (D : Definition) (l l1 : String)
    (s n m : Nat) (subs : CommandBuffer) (input : List UInt8) (hv : D.isValid = true)
    (hsize : D.getSize = 8)
    (hcmd : D.getCommands
      = [.mk .CONSTANT_ARRAY l s n [.mk .READ_FIXED_SIZE_DATA l1 (n * s) m subs]])
    (hlen : input.length = n * s) :
    mw.write (some D) input =
      (toInt32 mw._dataBuffer.length,
        { _dataBuffer := mw._dataBuffer ++ (uint32Bytes n
            ++ uint32Bytes ((mw._dataBuffer.length + 8) % 2 ^ 32)) ++ input,
          _stringBuffer := mw._stringBuffer }) := by
  rw [write_valid mw D _ hv, hcmd, hsize, dispatchCommands_singleton,
    dispatchCommand_constantArray]
  obtain ⟨data, strings⟩ := mw
  simp only [allocate_eq, MessageWriter.get, MessageWriter.set]
  rw [writeOffsets_of_room _ _ _ _ (Nat.le_refl _)]
  have hm := memcpy_middle data (List.replicate 8 0) (List.replicate (n * s) 0)
    (uint32Bytes n ++ uint32Bytes ((data.length + 8) % 2 ^ 32)) (by simp [uint32Bytes_length])
  simp only [MessageWriter.get, MessageWriter.set, List.length_append, List.length_replicate, hm]
  by_cases hpos : n > 0
  · rw [if_pos hpos, dispatchCommands_singleton, dispatchCommand_fixed]
    rw [DataReader.read_of_room _ _ _ _ (by simp [DataReader._size, DataReader.new, hlen])
      (Nat.le_refl _)]
    have hm2 := memcpy_end (data ++ (uint32Bytes n ++ uint32Bytes ((data.length + 8) % 2 ^ 32)))
      input
    simp only [List.length_append, uint32Bytes_length, hlen] at hm2
    have htk : input.take (n * s) = input := List.take_of_length_le (by omega)
    simp only [MessageWriter.get, MessageWriter.set, DataReader.new, List.drop_zero, htk]
    simpa using hm2
  · have h0 : n = 0 := by omega
    subst h0
    have hnil : input = [] := List.length_eq_zero.mp (by simpa using hlen)
    subst hnil
    simp

end MessageWriter

theorem stringSlots_length (off : Nat) (bodies : List (List UInt8)) :
    (stringSlots off bodies).length = 8 * bodies.length := by
  induction bodies generalizing off with
  | nil => rfl
  | cons body bodies ih =>
    simp only [stringSlots, List.length_append, uint32Bytes_length, ih, List.length_cons]
    omega

namespace MessageWriter

end MessageWriter

namespace MessageWriter

end MessageWriter

namespace MessageWriter

end MessageWriter

/-! ## The seed registry and `addField` -/

/-- C18: a freshly constructed registry contains exactly the fifteen built-in
definitions, each under its own name and with the size of the table: `bool`, `uint8` and
`int8` 1 byte, `uint16` and `int16` 2, `uint32`, `int32` and `float32` 4, `uint64`,
`int64`, `float64`, `time`, `duration`, `string` and `json` 8; each is valid and has no
fields and no commands; `string` and `json` are exactly the definitions that are
strings, and exactly the definitions without constant size. -/
theorem DefinitionRegistry.new_contents :
    (DefinitionRegistry.new.map fun p => (p.1, p.2.getName, p.2.getSize)) =
        [("bool", "bool", 1), ("uint8", "uint8", 1), ("int8", "int8", 1),
          ("uint16", "uint16", 2), ("int16", "int16", 2), ("uint32", "uint32", 4),
          ("int32", "int32", 4), ("uint64", "uint64", 8), ("int64", "int64", 8),
          ("float32", "float32", 4), ("float64", "float64", 8), ("string", "string", 8),
          ("json", "json", 8), ("time", "time", 8), ("duration", "duration", 8)] ∧
      (DefinitionRegistry.new.map Prod.fst).Nodup ∧
      (∀ p ∈ DefinitionRegistry.new,
        DefinitionRegistry.new.getDefinition p.1 = some p.2 ∧
        p.2.isValid = true ∧ p.2.hasFields = false ∧ p.2.getFields = [] ∧
        p.2.getCommands = [] ∧
        (p.2.isString = true ↔ (p.1 = "string" ∨ p.1 = "json")) ∧
        (p.2.hasConstantSize = false ↔ (p.1 = "string" ∨ p.1 = "json"))) ∧
      ∀ name : String, (DefinitionRegistry.new.getDefinition name).isSome = true ↔
        name ∈ ["bool", "uint8", "int8", "uint16", "int16", "uint32", "int32", "uint64",
          "int64", "float32", "float64", "time", "duration", "string", "json"] := by
  refine ⟨rfl, by decide, ?_, ?_⟩
  · intro p hp
    simp only [DefinitionRegistry.new, List.mem_cons, List.mem_singleton, List.not_mem_nil,
      or_false] at hp
    rcases hp with h | h | h | h | h | h | h | h | h | h | h | h | h | h | h <;> subst h <;>
      refine ⟨rfl, rfl, rfl, rfl, rfl, ?_, ?_⟩ <;> decide
  · intro name
    simp only [DefinitionRegistry.new, DefinitionRegistry.getDefinition, List.mem_cons,
      List.mem_singleton, List.not_mem_nil, or_false]
    constructor
    · intro h
      by_contra hn
      simp only [not_or] at hn
      obtain ⟨h1, h2, h3, h4, h5, h6, h7, h8, h9, h10, h11, h12, h13, h14, h15⟩ := hn
      simp [Ne.symm h1, Ne.symm h2, Ne.symm h3, Ne.symm h4, Ne.symm h5, Ne.symm h6, Ne.symm h7,
        Ne.symm h8, Ne.symm h9, Ne.symm h10, Ne.symm h11, Ne.symm h12, Ne.symm h13,
        Ne.symm h14, Ne.symm h15] at h
    · intro h
      rcases h with h | h | h | h | h | h | h | h | h | h | h | h | h | h | h <;> subst h <;>
        rfl

/-- C19: for every definition and all arguments, `addField` returns `true`, clears
`_isValid`, appends the new field, with the type name, the name, the array flag and the
array size of the call and a null pointer, behind the fields the definition has, and
leaves the name, the size, the string flag, the constant-size flag and the commands as
they are. -/
theorem Definition.addField_frame (d : Definition) (type name : String) (isArray : Bool)
    (arraySize : Int) :
    (d.addField type name isArray arraySize).1 = true ∧
      (d.addField type name isArray arraySize).2.isValid = false ∧
      (d.addField type name isArray arraySize).2.getFields =
        d.getFields ++ [{ type := type, name := name, definition := none, isArray := isArray,
                          arraySize := arraySize }] ∧
      (d.addField type name isArray arraySize).2.getName = d.getName ∧
      (d.addField type name isArray arraySize).2.getSize = d.getSize ∧
      (d.addField type name isArray arraySize).2.isString = d.isString ∧
      (d.addField type name isArray arraySize).2.hasConstantSize = d.hasConstantSize ∧
      (d.addField type name isArray arraySize).2.getCommands = d.getCommands :=
  ⟨rfl, rfl, rfl, rfl, rfl, rfl, rfl, rfl⟩

/-! ## The commands of an array field -/

theorem recordTimes_some (r : CommandBuffer) :
    ∀ n : Nat, recordTimes (some r) n = some (List.replicate n r).flatten
  | 0 => rfl
  | n + 1 => by
    rw [recordTimes_succ, recordTimes_some r n]
    simp [List.replicate_succ]

theorem dropFixedAll_cons_fixed (l : String) (s n : Nat) (subs rest : CommandBuffer) :
    dropFixedAll (.mk .READ_FIXED_SIZE_DATA l s n subs :: rest) = dropFixedAll rest := by
  rw [dropFixedAll]
  simp

theorem dropFixedAll_cons_other (c : Command) (rest : CommandBuffer)
    (h : c.type ≠ CommandType.READ_FIXED_SIZE_DATA) :
    dropFixedAll (c :: rest) = c.dropFixed :: dropFixedAll rest := by
  rw [dropFixedAll, if_neg h]

theorem dropFixedAll_append (xs ys : CommandBuffer) :
    dropFixedAll (xs ++ ys) = dropFixedAll xs ++ dropFixedAll ys := by
  induction xs with
  | nil => simp [dropFixedAll]
  | cons c xs ih =>
    by_cases h : c.type = CommandType.READ_FIXED_SIZE_DATA
    · cases c with
      | mk t l s n subs =>
        simp only [Command.type_mk] at h
        subst h
        rw [List.cons_append, dropFixedAll_cons_fixed, dropFixedAll_cons_fixed, ih]
    · rw [List.cons_append, dropFixedAll_cons_other _ _ h, dropFixedAll_cons_other _ _ h, ih,
        List.cons_append]

theorem dropFixedAll_pushFixed (ret : CommandBuffer) (c : Command)
    (hc : c.type = CommandType.READ_FIXED_SIZE_DATA) :
    dropFixedAll (pushFixed ret c) = dropFixedAll ret := by
  have hc1 : dropFixedAll [c] = [] := by
    cases c with
    | mk t l s n subs =>
      simp only [Command.type_mk] at hc
      subst hc
      rw [dropFixedAll_cons_fixed]
      rfl
  rcases List.eq_nil_or_concat' ret with rfl | ⟨pre, top, rfl⟩
  · rw [pushFixed_nil, hc1]
    rfl
  · rw [pushFixed_snoc]
    split
    · rw [dropFixedAll_append, hc1, List.append_nil]
    · rename_i htop
      have htop1 : top.type = CommandType.READ_FIXED_SIZE_DATA := by simpa using htop
      rw [dropFixedAll_append, dropFixedAll_append]
      congr 1
      cases top with
      | mk t l s n subs =>
        simp only [Command.type_mk] at htop1
        subst htop1
        simp only [Command.type_mk, dropFixedAll_cons_fixed]

theorem dropFixedAll_singleton (c : Command)
    (h : c.type ≠ CommandType.READ_FIXED_SIZE_DATA) : dropFixedAll [c] = [c.dropFixed] := by
  rw [dropFixedAll_cons_other _ _ h]
  rfl

mutual
/-- One step of the optimizer keeps the commands that are not fixed reads. -/
theorem optimizeStep_dropFixed : ∀ (c : Command) (ret : CommandBuffer),
    dropFixedAll (optimizeStep ret c) = dropFixedAll ret ++ dropFixedAll [c]
  | .mk .READ_FIXED_SIZE_DATA label size length subs, ret => by
    rw [optimizeStep,
      dropFixedAll_pushFixed ret (.mk .READ_FIXED_SIZE_DATA label size length subs) rfl,
      dropFixedAll_cons_fixed]
    simp [dropFixedAll]
  | .mk .CONSTANT_ARRAY label size length subs, ret => by
    rw [optimizeStep, dropFixedAll_append, dropFixedAll_singleton _ (by simp),
      dropFixedAll_singleton _ (by simp), Command.dropFixed, Command.dropFixed,
      optimizeLoop_dropFixed subs []]
    simp [dropFixedAll]
  | .mk .DYNAMIC_ARRAY label size length subs, ret => by
    rw [optimizeStep, dropFixedAll_append, dropFixedAll_singleton _ (by simp),
      dropFixedAll_singleton _ (by simp), Command.dropFixed, Command.dropFixed,
      optimizeLoop_dropFixed subs []]
    simp [dropFixedAll]
  | .mk .READ_STRING label size length subs, ret => by
    rw [optimizeStep, dropFixedAll_append]
  | .mk .READ_DYNAMIC_SIZE_DATA label size length subs, ret => by
    rw [optimizeStep, dropFixedAll_append]
/-- The optimizer loop keeps the commands that are not fixed reads. -/
theorem optimizeLoop_dropFixed : ∀ (input ret : CommandBuffer),
    dropFixedAll (optimizeLoop input ret) = dropFixedAll ret ++ dropFixedAll input
  | [], ret => by rw [optimizeLoop]; simp [dropFixedAll]
  | c :: rest, ret => by
    rw [optimizeLoop, optimizeLoop_dropFixed rest (optimizeStep ret c),
      optimizeStep_dropFixed c ret, List.append_assoc, ← dropFixedAll_append]
    rfl
end

/-- C25: for every command buffer `c`, the buffer `optimizeCommands c` has no two
neighbouring fixed reads, neither at top level nor among the subcommands of an array at
any depth, and its commands that are not fixed reads are those of `c`, in the same
order and with the same type, label, size and length, at top level and among the
subcommands of the arrays at every depth. -/
theorem optimizeCommands_keeps (c : CommandBuffer) :
    Optimized (optimizeCommands c) ∧ dropFixedAll (optimizeCommands c) = dropFixedAll c := by
  refine ⟨optimizeLoop_optimized c [] optimized_nil, ?_⟩
  rw [optimizeCommands, optimizeLoop_dropFixed]
  simp [dropFixedAll]

namespace MessageWriter

/-- C26: for every command buffer `c` and every state of the reader, of the view and of
the buffers, the run of `c` succeeds exactly when the run of `optimizeCommands c` from
the same state succeeds, and after the two runs, successful or not, the data buffers
have the same length and the string buffers have the same length. -/
theorem dispatch_optimizeCommands_lengths (c : CommandBuffer) (src : DataReader)
    (dst : DataWriter) (mw : MessageWriter) :
    ((dispatchCommands c src dst mw).ok = true ↔
        (dispatchCommands (optimizeCommands c) src dst mw).ok = true) ∧
      (dispatchCommands c src dst mw).mw._dataBuffer.length
        = (dispatchCommands (optimizeCommands c) src dst mw).mw._dataBuffer.length ∧
      (dispatchCommands c src dst mw).mw._stringBuffer.length
        = (dispatchCommands (optimizeCommands c) src dst mw).mw._stringBuffer.length := by
  obtain ⟨h1, _, h3⟩ := optimizeCommands_equiv c src dst mw
  exact ⟨by rw [h1], (h3 .data).symm, (h3 .strings).symm⟩

end MessageWriter

/-! ## The reader -/

namespace DataReader

/-- In exact arithmetic, for every reader, size `n` and view, `read(n, dst)` succeeds if
and only if at least `n` input bytes are unread and the view has room for `n` bytes
(`next + n ≤ end`); on success both cursors advance by `n`, and, the view lying inside
its buffer, the `n` bytes of the buffer at the old cursor of the view are the next `n`
input bytes while the length of the buffer, its other bytes and the other buffer are as
before; on failure the reader, the view and the buffers are unchanged.  `readLength`
fails and leaves the reader unchanged when fewer than 4 input bytes are unread. -/
theorem read_spec (src : DataReader) (n : Nat) (dst : DataWriter) (mw : MessageWriter) :
    ((src.read n dst mw).1 = true ↔ (src._read + n ≤ src._size ∧ dst.next + n ≤ dst.end_)) ∧
    ((src.read n dst mw).1 = true →
      (src.read n dst mw).2.1 = { src with _read := src._read + n } ∧
      (src.read n dst mw).2.2.1 = { dst with next := dst.next + n } ∧
      (∀ b, b ≠ dst.buffer → (src.read n dst mw).2.2.2.get b = mw.get b) ∧
      (dst.end_ ≤ (mw.get dst.buffer).length →
        slice ((src.read n dst mw).2.2.2.get dst.buffer) dst.next n
            = slice src._data src._read n ∧
          ((src.read n dst mw).2.2.2.get dst.buffer).length = (mw.get dst.buffer).length ∧
          ∀ i, i < dst.next ∨ dst.next + n ≤ i →
            ((src.read n dst mw).2.2.2.get dst.buffer)[i]? = (mw.get dst.buffer)[i]?)) ∧
    ((src.read n dst mw).1 = false → src.read n dst mw = (false, src, dst, mw)) ∧
    (src._read + 4 > src._size → src.readLength = (false, 0, src)) := by
  have hlast : src._read + 4 > src._size → src.readLength = (false, 0, src) := by
    intro h
    rw [readLength_eq, if_neg (by omega)]
  by_cases h : src._read + n ≤ src._size ∧ dst.next + n ≤ dst.end_
  · have hr := read_of_room src n dst mw h.1 h.2
    have hlen : ((src._data.drop src._read).take n).length = n := by
      have := h.1
      simp only [List.length_take, List.length_drop, _size] at this ⊢
      omega
    rw [hr]
    refine ⟨⟨fun _ => h, fun _ => rfl⟩, fun _ => ⟨rfl, rfl, fun b hb => ?_, fun hin => ?_⟩,
      fun hf => by simp at hf, hlast⟩
    · exact MessageWriter.get_set_ne _ _ _ _ hb
    · simp only [MessageWriter.get_set_same]
      refine ⟨?_, memcpy_length _ _ _, fun i hi => ?_⟩
      · have := slice_memcpy (mw.get dst.buffer) dst.next ((src._data.drop src._read).take n)
          (by rw [hlen]; omega)
        rw [hlen] at this
        exact this
      · exact getElem?_memcpy_out _ _ _ _ (by rw [hlen]; exact hi)
  · have hr := read_of_no_room src n dst mw h
    rw [hr]
    exact ⟨⟨fun hf => by simp at hf, fun hc => absurd hc h⟩, fun hf => by simp at hf,
      fun _ => rfl, hlast⟩

theorem read_spec_witness :
    (DataReader.mk [1, 2, 3, 4, 5] 1).read 2 ⟨.data, 1, 4⟩ (MessageWriter.mk [9, 9, 9, 9] [7])
        = (true, DataReader.mk [1, 2, 3, 4, 5] 3, ⟨.data, 3, 4⟩,
            MessageWriter.mk [9, 2, 3, 9] [7]) ∧
      slice ((DataReader.mk [1, 2, 3, 4, 5] 1).read 2 ⟨.data, 1, 4⟩
          (MessageWriter.mk [9, 9, 9, 9] [7])).2.2.2._dataBuffer 1 2 = [2, 3] :=
  ⟨by decide,
    ((read_spec (DataReader.mk [1, 2, 3, 4, 5] 1) 2 ⟨.data, 1, 4⟩
      (MessageWriter.mk [9, 9, 9, 9] [7])).2.1 (by decide)).2.2.2 (by decide) |>.1⟩

end DataReader

/-! ## The slot of a command -/

theorem take_of_leading {α : Type} {p l : List α} (h : p <+: l) : l.take p.length = p := by
  obtain ⟨t, rfl⟩ := h
  simp

theorem take_take_of_leading {α : Type} {p l : List α} (h : p <+: l) (n : Nat)
    (hn : n ≤ p.length) : l.take n = p.take n := by
  obtain ⟨t, rfl⟩ := h
  rw [List.take_append_of_le_length hn]

theorem slice_of_leading {p l : Buffer} (h : p <+: l) (off len : Nat)
    (hn : off + len ≤ p.length) : slice l off len = slice p off len := by
  obtain ⟨t, rfl⟩ := h
  unfold slice
  rw [List.drop_append_of_le_length (by omega), List.take_append_of_le_length]
  rw [List.length_drop]
  omega

namespace MessageWriter

/-- The slot of a command after the run `child` into the view the command allocates:
with room for 8 bytes at the cursor of the view `dst`, these 8 bytes are the count and
the offset of the allocation; without room, the view and the bytes of its buffer up to
its end are as before. -/
theorem slot_after_child (mw : MessageWriter) (dst : DataWriter) (host : BufferId)
    (n count : Nat) (src1 : DataReader) (child : Run)
    (hframe : Frame src1 (mw.allocate host n).1
      (dst.writeOffsets (mw.allocate host n).2 count ((mw.allocate host n).1.next % 2 ^ 32)).2.2
      child)
    (hin : dst.end_ ≤ (mw.get dst.buffer).length) :
    (dst.next + 8 ≤ dst.end_ →
      (dst.writeOffsets (mw.allocate host n).2 count
          ((mw.allocate host n).1.next % 2 ^ 32)).2.1 = { dst with next := dst.next + 8 } ∧
      slice (child.mw.get dst.buffer) dst.next 8
        = uint32Bytes count ++ uint32Bytes ((mw.get host).length % 2 ^ 32) ∧
      (child.mw.get dst.buffer).take dst.next = (mw.get dst.buffer).take dst.next) ∧
    (¬ dst.next + 8 ≤ dst.end_ →
      (dst.writeOffsets (mw.allocate host n).2 count
          ((mw.allocate host n).1.next % 2 ^ 32)).2.1 = dst ∧
      (child.mw.get dst.buffer).take dst.end_ = (mw.get dst.buffer).take dst.end_) := by
  have hkeep := hframe.2.2.2.2.2.2 dst.buffer
  have hpre : mw.get dst.buffer <+: (mw.allocate host n).2.get dst.buffer :=
    allocate_keeps _ _ _ _ _ (List.prefix_refl _)
  have hnext : (mw.allocate host n).1.next = (mw.get host).length := by simp
  have hbuf : (mw.allocate host n).1.buffer = host := by simp
  constructor
  · intro hroom
    rw [writeOffsets_of_room _ _ _ _ hroom] at hkeep ⊢
    simp only [get_set_same, hnext, hbuf] at hkeep ⊢
    obtain ⟨B, hB⟩ : ∃ B, B = (mw.allocate host n).2.get dst.buffer := ⟨_, rfl⟩
    rw [← hB] at hkeep hpre
    have hBlen : dst.end_ ≤ B.length := hin.trans hpre.length_le
    obtain ⟨slot, hslot⟩ : ∃ slot, slot
        = uint32Bytes count ++ uint32Bytes ((mw.get host).length % 2 ^ 32) := ⟨_, rfl⟩
    rw [← hslot] at hkeep ⊢
    have hslen : slot.length = 8 := by
      rw [hslot, List.length_append, uint32Bytes_length, uint32Bytes_length]
    have hp := hkeep ((memcpy B dst.next slot).take (dst.next + 8)) (List.take_prefix _ _)
      (fun hb => by
        subst hb
        rw [List.length_take]
        omega)
    have hplen : ((memcpy B dst.next slot).take (dst.next + 8)).length = dst.next + 8 := by
      rw [List.length_take, memcpy_length]
      omega
    refine ⟨trivial, ?_, ?_⟩
    · rw [slice_of_leading hp dst.next 8 (by omega),
        ← slice_of_leading (List.take_prefix (dst.next + 8) (memcpy B dst.next slot)) dst.next 8
          (by omega)]
      have := slice_memcpy B dst.next slot (by omega)
      rwa [hslen] at this
    · rw [take_take_of_leading hp dst.next (by omega), List.take_take,
        Nat.min_eq_left (by omega)]
      have hB1 : (memcpy B dst.next slot).take dst.next = B.take dst.next := by
        have h1 := memcpy_keeps (B.take dst.next) B dst.next slot (List.take_prefix _ _)
          (by rw [List.length_take]; omega)
        have h2 := take_of_leading h1
        rw [List.length_take, Nat.min_eq_left (by omega)] at h2
        exact h2
      rw [hB1, take_take_of_leading hpre dst.next (by omega)]
  · intro hroom
    have hw : dst.writeOffsets (mw.allocate host n).2 count
        ((mw.allocate host n).1.next % 2 ^ 32) = (false, dst, (mw.allocate host n).2) := by
      unfold DataWriter.writeOffsets
      rw [DataWriter.write_def]
      simp only [List.length_append, uint32Bytes_length]
      rw [if_neg hroom]
    rw [hw] at hkeep ⊢
    simp only [hnext, hbuf] at hkeep
    have hp := hkeep ((mw.get dst.buffer).take dst.end_)
      ((List.take_prefix _ _).trans hpre)
      (fun hb => by
        subst hb
        rw [List.length_take]
        omega)
    have h2 := take_of_leading hp
    rw [List.length_take, Nat.min_eq_left hin] at h2
    exact ⟨rfl, h2⟩

end MessageWriter

namespace MessageWriter

theorem readDynamicData_slot (mw : MessageWriter) (src : DataReader) (dst : DataWriter)
    (host : BufferId) (size : Nat) (hin : dst.end_ ≤ (mw.get dst.buffer).length)
    (hok : (mw.readDynamicData src dst host size).ok = true) :
    (dst.next + 8 ≤ dst.end_ →
      (mw.readDynamicData src dst host size).dst = { dst with next := dst.next + 8 } ∧
      slice ((mw.readDynamicData src dst host size).mw.get dst.buffer) dst.next 8
        = uint32Bytes (uint32OfBytes ((src._data.drop src._read).take 4))
          ++ uint32Bytes ((mw.get host).length % 2 ^ 32) ∧
      ((mw.readDynamicData src dst host size).mw.get dst.buffer).take dst.next
        = (mw.get dst.buffer).take dst.next) ∧
    (¬ dst.next + 8 ≤ dst.end_ →
      (mw.readDynamicData src dst host size).dst = dst ∧
      ((mw.readDynamicData src dst host size).mw.get dst.buffer).take dst.end_
        = (mw.get dst.buffer).take dst.end_) := by
  rw [readDynamicData_eq] at hok ⊢
  split at hok
  · rename_i hlen
    rw [if_pos hlen]
    dsimp only at hok ⊢
    split
    · dsimp only
      exact slot_after_child mw dst host _ _ { src with _read := src._read + 4 }
        ⟨true, _, _, _⟩ (frame_read true _ _ _ _) hin
    · dsimp only
      exact slot_after_child mw dst host _ _ { src with _read := src._read + 4 }
        ⟨true, _, _, _⟩ (frame_refl _ _ _ _) hin
  · simp at hok

/-- C21: a successful run of one `READ_STRING`, `READ_DYNAMIC_SIZE_DATA`,
`CONSTANT_ARRAY` or `DYNAMIC_ARRAY` command against a view that lies inside its buffer.
When the view has room for 8 bytes, the cursor of the view advances by 8 and the 8 bytes
at the old cursor are the count and the length the hosting buffer had when the payload
was allocated, and the bytes before the cursor are as before.  When the view has less
room, the result of `writeOffsets` is dropped and the run still succeeds: the cursor
does not advance and the bytes of the buffer up to the end of the view are as before,
so that no slot is written. -/
theorem dispatchCommand_slot (cmd : Command) (src : DataReader) (dst : DataWriter)
    (mw : MessageWriter) (ht : cmd.type ≠ CommandType.READ_FIXED_SIZE_DATA)
    (hin : dst.end_ ≤ (mw.get dst.buffer).length)
    (hok : (dispatchCommand cmd src dst mw).ok = true) :
    (dst.next + 8 ≤ dst.end_ →
      (dispatchCommand cmd src dst mw).dst = { dst with next := dst.next + 8 } ∧
      slice ((dispatchCommand cmd src dst mw).mw.get dst.buffer) dst.next 8
        = uint32Bytes (slotCount cmd src)
          ++ uint32Bytes ((mw.get (slotHost cmd.type)).length % 2 ^ 32) ∧
      ((dispatchCommand cmd src dst mw).mw.get dst.buffer).take dst.next
        = (mw.get dst.buffer).take dst.next) ∧
    (¬ dst.next + 8 ≤ dst.end_ →
      (dispatchCommand cmd src dst mw).dst = dst ∧
      ((dispatchCommand cmd src dst mw).mw.get dst.buffer).take dst.end_
        = (mw.get dst.buffer).take dst.end_) := by
  cases cmd with
  | mk t l size length subs =>
    cases t with
    | READ_FIXED_SIZE_DATA => exact absurd rfl ht
    | READ_STRING =>
      rw [dispatchCommand_string] at hok ⊢
      exact readDynamicData_slot mw src dst .strings 1 hin hok
    | READ_DYNAMIC_SIZE_DATA =>
      rw [dispatchCommand_dynamicSize] at hok ⊢
      exact readDynamicData_slot mw src dst .data size hin hok
    | CONSTANT_ARRAY =>
      rw [dispatchCommand_constantArray] at hok ⊢
      dsimp only at hok ⊢
      simp only [slotCount, slotHost, Command.type_mk, Command.length_mk, if_true]
      split
      · dsimp only
        exact slot_after_child mw dst .data _ _ src
          (dispatchCommands subs src (mw.allocate .data (length * size)).1
            (dst.writeOffsets (mw.allocate .data (length * size)).2 length
              ((mw.allocate .data (length * size)).1.next % 2 ^ 32)).2.2)
          (frame_dispatchCommands subs _ _ _) hin
      · dsimp only
        exact slot_after_child mw dst .data _ _ src ⟨true, _, _, _⟩ (frame_refl _ _ _ _) hin
    | DYNAMIC_ARRAY =>
      rw [dispatchCommand_dynamicArray] at hok ⊢
      split at hok
      · rename_i hlen
        rw [if_pos hlen]
        dsimp only at hok ⊢
        simp only [slotCount, slotHost, Command.type_mk, reduceCtorEq, if_false]
        split
        · dsimp only
          exact slot_after_child mw dst .data _ _ { src with _read := src._read + 4 }
            (dispatchTimes (fun s w m => dispatchCommands subs s w m)
              (uint32OfBytes ((src._data.drop src._read).take 4))
              { src with _read := src._read + 4 }
              (mw.allocate .data (uint32OfBytes ((src._data.drop src._read).take 4) * size)).1
              (dst.writeOffsets
                (mw.allocate .data (uint32OfBytes ((src._data.drop src._read).take 4) * size)).2
                (uint32OfBytes ((src._data.drop src._read).take 4))
                ((mw.allocate .data
                  (uint32OfBytes ((src._data.drop src._read).take 4) * size)).1.next
                    % 2 ^ 32)).2.2)
            (frame_dispatchTimes _ (fun s w m => frame_dispatchCommands subs s w m) _ _ _ _) hin
        · dsimp only
          exact slot_after_child mw dst .data _ _ { src with _read := src._read + 4 }
            ⟨true, _, _, _⟩ (frame_refl _ _ _ _) hin
      · simp at hok

end MessageWriter

/-- The record `Q { p: P }`, finalized after the field `s: string` was added to the
record `C` inside the finalized `P { c: C }`, has the size 4 of the stale `P` and the
commands of the current `C`; `write` on it succeeds, and the data buffer gains the four
bytes of `a` and no slot for `s`. -/
theorem exampleStaleSlotQ_write :
    (exampleStaleSlotQ.isValid = true ∧ exampleStaleSlotQ.getSize = 4 ∧
        exampleStaleSlotQ.flattenCommands
          = [CommandType.READ_FIXED_SIZE_DATA.toInt, CommandType.READ_STRING.toInt]) ∧
      (MessageWriter.mk [9, 9] [7]).write (some exampleStaleSlotQ)
          [1, 0, 0, 0, 2, 0, 0, 0, 104, 105]
        = (2, MessageWriter.mk [9, 9, 1, 0, 0, 0] [7, 104, 105]) := by
  decide!

theorem MessageWriter.dispatchCommand_slot_witness :
    (MessageWriter.dispatchCommand (.mk .READ_STRING "p(c(s(string)))" 0 0 [])
        (DataReader.mk [1, 0, 0, 0, 2, 0, 0, 0, 104, 105] 4) ⟨.data, 6, 6⟩
        (MessageWriter.mk [9, 9, 1, 0, 0, 0] [7])).ok = true ∧
      (MessageWriter.dispatchCommand (.mk .READ_STRING "p(c(s(string)))" 0 0 [])
          (DataReader.mk [1, 0, 0, 0, 2, 0, 0, 0, 104, 105] 4) ⟨.data, 6, 6⟩
          (MessageWriter.mk [9, 9, 1, 0, 0, 0] [7])).dst = ⟨.data, 6, 6⟩ ∧
      ((MessageWriter.dispatchCommand (.mk .READ_STRING "p(c(s(string)))" 0 0 [])
          (DataReader.mk [1, 0, 0, 0, 2, 0, 0, 0, 104, 105] 4) ⟨.data, 6, 6⟩
          (MessageWriter.mk [9, 9, 1, 0, 0, 0] [7])).mw._dataBuffer).take 6
        = [9, 9, 1, 0, 0, 0] :=
  ⟨by rfl,
    (MessageWriter.dispatchCommand_slot (.mk .READ_STRING "p(c(s(string)))" 0 0 [])
      (DataReader.mk [1, 0, 0, 0, 2, 0, 0, 0, 104, 105] 4) ⟨.data, 6, 6⟩
      (MessageWriter.mk [9, 9, 1, 0, 0, 0] [7]) (by decide) (by decide) (by rfl)).2
      (by decide)⟩

/-! ## The layout of compiled commands -/

theorem dstTotal_nil : dstTotal [] = 0 := rfl

theorem dstTotal_cons (c : Command) (cs : CommandBuffer) :
    dstTotal (c :: cs) = c.dstSize + dstTotal cs := by
  simp [dstTotal]

theorem dstTotal_append (xs ys : CommandBuffer) :
    dstTotal (xs ++ ys) = dstTotal xs + dstTotal ys := by
  simp [dstTotal]

theorem dstSize_wrapLabel (name : String) (c : Command) :
    (wrapLabel name c).dstSize = c.dstSize := by
  obtain ⟨t, l, s, n, subs⟩ := c
  rfl

theorem dstTotal_wrapLabel (name : String) (xs : CommandBuffer) :
    dstTotal (xs.map (wrapLabel name)) = dstTotal xs := by
  induction xs with
  | nil => rfl
  | cons c xs ih => rw [List.map_cons, dstTotal_cons, dstTotal_cons, ih, dstSize_wrapLabel]

theorem layoutAll_nil : LayoutAll [] := by
  simp [LayoutAll]

theorem layoutAll_cons (c : Command) (cs : CommandBuffer) :
    LayoutAll (c :: cs) ↔ c.Layout ∧ LayoutAll cs := by
  rw [LayoutAll]

theorem layoutAll_append (xs ys : CommandBuffer) :
    LayoutAll (xs ++ ys) ↔ LayoutAll xs ∧ LayoutAll ys := by
  induction xs with
  | nil => simp [layoutAll_nil]
  | cons c xs ih => rw [List.cons_append, layoutAll_cons, layoutAll_cons, ih, and_assoc]

theorem layout_mk (t : CommandType) (l : String) (size length : Nat) (subs : CommandBuffer) :
    (Command.mk t l size length subs).Layout ↔
      (t = CommandType.CONSTANT_ARRAY → dstTotal subs = length * size) ∧
        (t = CommandType.DYNAMIC_ARRAY → dstTotal subs = size) ∧ LayoutAll subs := by
  rw [Command.Layout]

theorem layout_wrapLabel (name : String) (c : Command) :
    (wrapLabel name c).Layout ↔ c.Layout := by
  obtain ⟨t, l, s, n, subs⟩ := c
  rw [wrapLabel, layout_mk, layout_mk]

theorem layoutAll_wrapLabel (name : String) (xs : CommandBuffer) :
    LayoutAll (xs.map (wrapLabel name)) ↔ LayoutAll xs := by
  induction xs with
  | nil => rfl
  | cons c xs ih => rw [List.map_cons, layoutAll_cons, layoutAll_cons, ih, layout_wrapLabel]

theorem dstTotal_replicate_flatten (a : CommandBuffer) (n : Nat) :
    dstTotal (List.replicate n a).flatten = n * dstTotal a := by
  induction n with
  | zero => simp [dstTotal]
  | succ n ih =>
    rw [List.replicate_succ, List.flatten_cons, dstTotal_append, ih]
    rw [Nat.add_mul, Nat.one_mul, Nat.add_comm]

theorem layoutAll_replicate_flatten (a : CommandBuffer) (n : Nat) (h : LayoutAll a) :
    LayoutAll (List.replicate n a).flatten := by
  induction n with
  | zero => simp [layoutAll_nil]
  | succ n ih =>
    rw [List.replicate_succ, List.flatten_cons, layoutAll_append]
    exact ⟨h, ih⟩

/-- The one command recorded for an array field takes the 8 bytes of a slot and
satisfies the layout invariant, when the commands recorded for the element do. -/
theorem recordArrayDefinitionCommandsWith_layout (record : Definition → Option CommandBuffer)
    (E : Definition) (n : Int) (hn : n < 2 ^ 31)
    (hrec : ∀ r, record E = some r → dstTotal r = E._size ∧ LayoutAll r)
    (hstr : E._isString = true → E._size = 8) (cs : CommandBuffer)
    (h : recordArrayDefinitionCommandsWith record E n = some cs) :
    dstTotal cs = 8 ∧ LayoutAll cs := by
  unfold recordArrayDefinitionCommandsWith at h
  simp only [Definition.isString, Definition.hasConstantSize, Definition.getSize,
    Definition.getName] at h
  by_cases h0 : n ≥ 0
  · have hmod : n.toNat % 2 ^ 32 = n.toNat := Nat.mod_eq_of_lt (by omega)
    rw [if_pos h0, hmod] at h
    cases hs : E._isString with
    | true =>
      simp only [hs, if_true, recordStringDefinitionCommands, recordTimes_some,
        Option.map_some', Option.some.injEq] at h
      subst h
      refine ⟨rfl, ?_⟩
      rw [layoutAll_cons, layout_mk, dstTotal_replicate_flatten]
      refine ⟨⟨fun _ => ?_, fun hx => by simp at hx, ?_⟩, layoutAll_nil⟩
      · rw [hstr hs]
        rfl
      · refine layoutAll_replicate_flatten _ _ ?_
        rw [layoutAll_cons, layout_mk]
        exact ⟨⟨fun hx => by simp at hx, fun hx => by simp at hx, layoutAll_nil⟩, layoutAll_nil⟩
    | false =>
      simp only [hs, Bool.false_eq_true, if_false] at h
      cases hc : E._hasConstantSize with
      | true =>
        simp only [hc, if_true, recordNonStringDefinitionCommands, Option.map_some',
          Option.some.injEq, Definition.getSize, Definition.getName] at h
        subst h
        refine ⟨rfl, ?_⟩
        rw [layoutAll_cons, layout_mk]
        refine ⟨⟨fun _ => ?_, fun hx => by simp at hx, ?_⟩, layoutAll_nil⟩
        · rfl
        · rw [layoutAll_cons, layout_mk]
          exact ⟨⟨fun hx => by simp at hx, fun hx => by simp at hx, layoutAll_nil⟩,
            layoutAll_nil⟩
      | false =>
        simp only [hc, Bool.false_eq_true, if_false] at h
        cases hr : record E with
        | none =>
          rw [hr] at h
          cases hz : n.toNat with
          | zero =>
            rw [hz, recordTimes_zero] at h
            simp only [Option.map_some', Option.some.injEq] at h
            subst h
            refine ⟨rfl, ?_⟩
            rw [layoutAll_cons, layout_mk]
            exact ⟨⟨fun _ => by simp [dstTotal], fun hx => by simp at hx, layoutAll_nil⟩,
              layoutAll_nil⟩
          | succ m =>
            rw [hz, recordTimes_none_succ] at h
            simp at h
        | some r =>
          obtain ⟨hr1, hr2⟩ := hrec r hr
          rw [hr, recordTimes_some] at h
          simp only [Option.map_some', Option.some.injEq] at h
          subst h
          refine ⟨rfl, ?_⟩
          rw [layoutAll_cons, layout_mk, dstTotal_replicate_flatten, hr1]
          exact ⟨⟨fun _ => rfl, fun hx => by simp at hx,
            layoutAll_replicate_flatten _ _ hr2⟩, layoutAll_nil⟩
  · rw [if_neg h0] at h
    cases hc : E._hasConstantSize with
    | true =>
      simp only [hc, if_true, Option.some.injEq] at h
      subst h
      refine ⟨rfl, ?_⟩
      rw [layoutAll_cons, layout_mk]
      exact ⟨⟨fun hx => by simp at hx, fun hx => by simp at hx, layoutAll_nil⟩, layoutAll_nil⟩
    | false =>
      simp only [hc, Bool.false_eq_true, if_false] at h
      cases hs : E._isString with
      | true =>
        simp only [hs, if_true, recordStringDefinitionCommands, Option.map_some',
          Option.some.injEq] at h
        subst h
        refine ⟨rfl, ?_⟩
        rw [layoutAll_cons, layout_mk]
        refine ⟨⟨fun hx => by simp at hx, fun _ => ?_, ?_⟩, layoutAll_nil⟩
        · rw [hstr hs]
          rfl
        · rw [layoutAll_cons, layout_mk]
          exact ⟨⟨fun hx => by simp at hx, fun hx => by simp at hx, layoutAll_nil⟩,
            layoutAll_nil⟩
      | false =>
        simp only [hs, Bool.false_eq_true, if_false] at h
        cases hr : record E with
        | none => rw [hr] at h; simp at h
        | some r =>
          obtain ⟨hr1, hr2⟩ := hrec r hr
          rw [hr] at h
          simp only [Option.map_some', Option.some.injEq] at h
          subst h
          refine ⟨rfl, ?_⟩
          rw [layoutAll_cons, layout_mk]
          exact ⟨⟨fun hx => by simp at hx, fun _ => hr1, hr2⟩, layoutAll_nil⟩

/-- The commands recorded for a valid definition take as many bytes as the size of the
definition and satisfy the layout invariant. -/
theorem recordDefinitionCommands_layout {reg : DefinitionRegistry} (hfin : Finalized reg) :
    ∀ (fuel : Nat) (d : Definition) (cmds : CommandBuffer), Good reg d →
      recordDefinitionCommands fuel reg d = some cmds →
      dstTotal cmds = d._size ∧ LayoutAll cmds
  | 0, d, cmds, _, hc => by simp [recordDefinitionCommands] at hc
  | fuel + 1, d, cmds, hg, hc => by
    simp only [recordDefinitionCommands, Definition.hasFields, Definition.isString,
      recordComplexDefinitionCommandsWith, Definition.getFields] at hc
    have hleaf : ∀ (t : CommandType) (l : String) (s : Nat),
        LayoutAll [.mk t l s 0 []] ↔ (t = CommandType.CONSTANT_ARRAY → 0 = 0 * s) ∧
          (t = CommandType.DYNAMIC_ARRAY → 0 = s) := by
      intro t l s
      rw [layoutAll_cons, layout_mk]
      simp [layoutAll_nil, dstTotal_nil]
    by_cases hf : d._fields = []
    · simp only [hf, List.isEmpty_nil, Bool.not_true, Bool.false_eq_true, if_false] at hc
      cases hs : d._isString with
      | true =>
        simp only [hs, if_true, Option.some.injEq] at hc
        subst hc
        obtain ⟨k, hk, _⟩ := hg
        refine ⟨?_, ?_⟩
        · rw [(hfin.strings k d hk hs).2.1]
          rfl
        · rw [recordStringDefinitionCommands, hleaf]
          exact ⟨fun hx => by simp at hx, fun hx => by simp at hx⟩
      | false =>
        simp only [hs, Bool.false_eq_true, if_false] at hc
        by_cases h0 : d.getSize > 0
        · simp only [h0, if_true, Option.some.injEq] at hc
          subst hc
          refine ⟨?_, ?_⟩
          · simp [dstTotal, recordNonStringDefinitionCommands, Command.dstSize,
              Definition.getSize]
          · rw [recordNonStringDefinitionCommands, hleaf]
            exact ⟨fun hx => by simp at hx, fun hx => by simp at hx⟩
        · simp only [h0, if_false, Option.some.injEq] at hc
          subst hc
          simp only [Definition.getSize] at h0
          exact ⟨by rw [dstTotal_nil]; omega, layoutAll_nil⟩
    · have hne := isEmpty_eq_false_of_ne hf
      simp only [hne, Bool.not_false, if_true] at hc
      have hS := settled_of_good hfin hg hf
      obtain ⟨k, hk, _⟩ := hg
      have hall : ∀ (fs : List Field) (cs : CommandBuffer),
          Resolved (fun _ => False) reg fs → (∀ f ∈ fs, f.arraySize < 2 ^ 31) →
          recordFields (recordDefinitionCommands fuel reg) reg fs = some cs →
          dstTotal cs = layoutSize reg fs ∧ LayoutAll cs := by
        intro fs
        induction fs with
        | nil =>
          intro cs _ _ h
          simp only [recordFields, Option.some.injEq] at h
          subst h
          exact ⟨rfl, layoutAll_nil⟩
        | cons f fs ih =>
          intro cs hres hsz h
          obtain ⟨hr1, hr2⟩ := resolved_cons.mp hres
          obtain ⟨hp, fd, hfd, hv, _⟩ := hr1 f (by simp)
          rw [recordFields_cons _ reg f fs fd (by rw [hp]; exact hfd)] at h
          have hfdrec : ∀ r, recordDefinitionCommands fuel reg fd = some r →
              dstTotal r = fd._size ∧ LayoutAll r := fun r hr =>
            recordDefinitionCommands_layout hfin fuel fd r ⟨f.type, hfd, hv⟩ hr
          cases h1 : (if f.isArray = true then
              recordArrayDefinitionCommandsWith (recordDefinitionCommands fuel reg) fd f.arraySize
            else recordDefinitionCommands fuel reg fd) with
          | none => rw [h1] at h; simp at h
          | some c =>
            cases h2 : recordFields (recordDefinitionCommands fuel reg) reg fs with
            | none => rw [h1, h2] at h; simp at h
            | some r =>
              rw [h1, h2] at h
              simp only [Option.some.injEq] at h
              subst h
              obtain ⟨b1, b2⟩ := ih r hr2 (fun g hg => hsz g (by simp [hg])) h2
              have hc1 : dstTotal c = (if f.isArray = true then 2 * 4 else fd._size) ∧
                  LayoutAll c := by
                by_cases harr : f.isArray = true
                · rw [if_pos harr] at h1 ⊢
                  exact recordArrayDefinitionCommandsWith_layout _ fd f.arraySize
                    (hsz f (by simp)) hfdrec
                    (fun hs => (hfin.strings f.type fd hfd hs).2.1) c h1
                · rw [if_neg harr] at h1 ⊢
                  exact hfdrec c h1
              refine ⟨?_, (layoutAll_append _ _).mpr
                ⟨(layoutAll_wrapLabel _ _).mpr hc1.2, b2⟩⟩
              rw [dstTotal_append, dstTotal_wrapLabel, hc1.1, b1]
              simp only [layoutSize, hfd]
      obtain ⟨h1, h2⟩ := hall d._fields cmds hS.resolved (hfin.arraySizes k d hk) hc
      exact ⟨by rw [h1, hS.size, layoutSize_eq_fieldsSize hS.resolved], h2⟩

theorem dstTotal_pushFixed (ret : CommandBuffer) (c : Command)
    (hc : c.type = CommandType.READ_FIXED_SIZE_DATA) :
    dstTotal (pushFixed ret c) = dstTotal ret + c.dstSize := by
  rcases List.eq_nil_or_concat' ret with rfl | ⟨pre, top, rfl⟩
  · rw [pushFixed_nil, dstTotal_cons, dstTotal_nil, Nat.zero_add, Nat.add_zero]
  · rw [pushFixed_snoc]
    split
    · rw [dstTotal_append, dstTotal_cons, dstTotal_nil, Nat.add_zero]
    · rename_i htop
      have htop1 : top.type = CommandType.READ_FIXED_SIZE_DATA := by simpa using htop
      simp only [dstTotal_append, dstTotal_cons, dstTotal_nil, Nat.add_zero, Command.dstSize,
        Command.type_mk, Command.size_mk, htop1, hc, if_true]
      omega

theorem layoutAll_pushFixed (ret : CommandBuffer) (c : Command)
    (hc : c.type = CommandType.READ_FIXED_SIZE_DATA) (hret : LayoutAll ret) (hl : c.Layout) :
    LayoutAll (pushFixed ret c) := by
  have hsingle : LayoutAll [c] := (layoutAll_cons _ _).mpr ⟨hl, layoutAll_nil⟩
  rcases List.eq_nil_or_concat' ret with rfl | ⟨pre, top, rfl⟩
  · rw [pushFixed_nil]
    exact hsingle
  · rw [pushFixed_snoc]
    split
    · exact (layoutAll_append _ _).mpr ⟨hret, hsingle⟩
    · rename_i htop
      have htop1 : top.type = CommandType.READ_FIXED_SIZE_DATA := by simpa using htop
      obtain ⟨hpre, htopL⟩ := (layoutAll_append _ _).mp hret
      obtain ⟨t, l, s, n, subs⟩ := top
      simp only [Command.type_mk] at htop1
      subst htop1
      rw [layoutAll_cons, layout_mk] at htopL
      refine (layoutAll_append _ _).mpr ⟨hpre, ?_⟩
      rw [layoutAll_cons, layout_mk]
      exact ⟨⟨fun hx => by simp at hx, fun hx => by simp at hx, htopL.1.2.2⟩, layoutAll_nil⟩

mutual
/-- One step of the optimizer keeps the bytes taken in the view and the layout
invariant. -/
theorem optimizeStep_layout : ∀ (c : Command) (ret : CommandBuffer),
    LayoutAll ret → c.Layout →
      dstTotal (optimizeStep ret c) = dstTotal ret + c.dstSize ∧ LayoutAll (optimizeStep ret c)
  | .mk .READ_FIXED_SIZE_DATA label size length subs, ret, hret, hc => by
    rw [optimizeStep]
    exact ⟨dstTotal_pushFixed ret _ rfl, layoutAll_pushFixed ret _ rfl hret hc⟩
  | .mk .CONSTANT_ARRAY label size length subs, ret, hret, hc => by
    rw [layout_mk] at hc
    obtain ⟨h1, h2⟩ := optimizeLoop_layout subs [] layoutAll_nil hc.2.2
    rw [dstTotal_nil, Nat.zero_add] at h1
    rw [optimizeStep, dstTotal_append, dstTotal_cons, dstTotal_nil, layoutAll_append,
      layoutAll_cons, layout_mk, h1]
    exact ⟨rfl, hret, ⟨hc.1, hc.2.1, h2⟩, layoutAll_nil⟩
  | .mk .DYNAMIC_ARRAY label size length subs, ret, hret, hc => by
    rw [layout_mk] at hc
    obtain ⟨h1, h2⟩ := optimizeLoop_layout subs [] layoutAll_nil hc.2.2
    rw [dstTotal_nil, Nat.zero_add] at h1
    rw [optimizeStep, dstTotal_append, dstTotal_cons, dstTotal_nil, layoutAll_append,
      layoutAll_cons, layout_mk, h1]
    exact ⟨rfl, hret, ⟨hc.1, hc.2.1, h2⟩, layoutAll_nil⟩
  | .mk .READ_STRING label size length subs, ret, hret, hc => by
    rw [optimizeStep, dstTotal_append, dstTotal_cons, dstTotal_nil, layoutAll_append,
      layoutAll_cons]
    exact ⟨rfl, hret, hc, layoutAll_nil⟩
  | .mk .READ_DYNAMIC_SIZE_DATA label size length subs, ret, hret, hc => by
    rw [optimizeStep, dstTotal_append, dstTotal_cons, dstTotal_nil, layoutAll_append,
      layoutAll_cons]
    exact ⟨rfl, hret, hc, layoutAll_nil⟩
/-- The optimizer loop keeps the bytes taken in the view and the layout invariant. -/
theorem optimizeLoop_layout : ∀ (input ret : CommandBuffer),
    LayoutAll ret → LayoutAll input →
      dstTotal (optimizeLoop input ret) = dstTotal ret + dstTotal input ∧
        LayoutAll (optimizeLoop input ret)
  | [], ret, hret, _ => by
    rw [optimizeLoop, dstTotal_nil]
    exact ⟨rfl, hret⟩
  | c :: rest, ret, hret, hin => by
    rw [layoutAll_cons] at hin
    obtain ⟨h1, h2⟩ := optimizeStep_layout c ret hret hin.1
    obtain ⟨h3, h4⟩ := optimizeLoop_layout rest (optimizeStep ret c) h2 hin.2
    rw [optimizeLoop, h3, h1, dstTotal_cons]
    exact ⟨by omega, h4⟩
end

/-! ## Every view stays inside its buffer -/

theorem inBounds_iff (dst : DataWriter) (mw : MessageWriter) :
    dst.inBounds mw = true ↔ dst.next ≤ dst.end_ ∧ dst.end_ ≤ (mw.get dst.buffer).length := by
  simp [DataWriter.inBounds]

/-- A view inside its buffer stays inside it when the buffers grow. -/
theorem inBounds_mono {dst : DataWriter} {mw mw1 : MessageWriter}
    (h : dst.inBounds mw = true) (hlen : ∀ b, (mw.get b).length ≤ (mw1.get b).length) :
    dst.inBounds mw1 = true := by
  rw [inBounds_iff] at h ⊢
  exact ⟨h.1, h.2.trans (hlen _)⟩

namespace DataWriter

theorem write_inBounds (dst : DataWriter) (mw : MessageWriter) (src : List UInt8)
    (h : dst.inBounds mw = true) :
    (dst.write mw src).2.1.inBounds (dst.write mw src).2.2 = true := by
  rw [inBounds_iff] at h ⊢
  simp only [write_buffer, write_end, write_length]
  refine ⟨?_, h.2⟩
  rw [write_def]
  split
  · assumption
  · exact h.1

/-- The checks of `writeChecked` pass on a view that lies inside its buffer. -/
theorem writeChecked_eq (dst : DataWriter) (mw : MessageWriter) (src : List UInt8)
    (h : dst.inBounds mw = true) : dst.writeChecked mw src = some (dst.write mw src) := by
  have hpost := write_inBounds dst mw src h
  have hb := (inBounds_iff dst mw).mp h
  rw [write_def] at hpost ⊢
  unfold writeChecked
  rw [if_neg (by rw [h]; simp)]
  by_cases hroom : dst.next + src.length ≤ dst.end_
  · rw [if_pos hroom] at hpost ⊢
    rw [if_neg (by omega), if_neg (by omega)]
    simp only at hpost ⊢
    rw [if_neg (by rw [hpost]; simp)]
  · rw [if_neg hroom, if_pos (by omega)]

theorem writeOffsets_inBounds (dst : DataWriter) (mw : MessageWriter) (c o : Nat)
    (h : dst.inBounds mw = true) :
    (dst.writeOffsets mw c o).2.1.inBounds (dst.writeOffsets mw c o).2.2 = true :=
  write_inBounds dst mw _ h

theorem writeOffsetsChecked_eq (dst : DataWriter) (mw : MessageWriter) (c o : Nat)
    (h : dst.inBounds mw = true) :
    dst.writeOffsetsChecked mw c o = some (dst.writeOffsets mw c o) :=
  writeChecked_eq dst mw _ h

end DataWriter

namespace DataReader

theorem read_inBounds (src : DataReader) (size : Nat) (dst : DataWriter) (mw : MessageWriter)
    (h : dst.inBounds mw = true) :
    (src.read size dst mw).2.2.1.inBounds (src.read size dst mw).2.2.2 = true := by
  rw [read_eq]
  split
  · exact DataWriter.write_inBounds dst mw _ h
  · exact h

theorem readChecked_eq (src : DataReader) (size : Nat) (dst : DataWriter) (mw : MessageWriter)
    (h : dst.inBounds mw = true) :
    src.readChecked size dst mw = some (src.read size dst mw) := by
  rw [read_eq]
  unfold readChecked
  by_cases hroom : src._read + size ≤ src._size
  · rw [if_neg (by omega), if_pos hroom, DataWriter.writeChecked_eq _ _ _ h]
    simp only [Option.map_some']
    cases (dst.write mw (List.take size (List.drop src._read src._data))).1 <;> rfl
  · rw [if_pos (by omega), if_neg hroom]

end DataReader

namespace MessageWriter

theorem allocate_inBounds (mw : MessageWriter) (b : BufferId) (n : Nat) :
    (mw.allocate b n).1.inBounds (mw.allocate b n).2 = true := by
  rw [inBounds_iff, allocate_eq]
  simp

theorem allocateChecked_eq (mw : MessageWriter) (b : BufferId) (n : Nat) :
    mw.allocateChecked b n = some (mw.allocate b n) := by
  unfold allocateChecked
  rw [if_neg (by rw [allocate_inBounds]; simp)]

/-- The slot of a command on a view inside its buffer: the checks of the allocation and
of `writeOffsets` pass, the view stays inside its buffer and the new view lies inside
its buffer. -/
theorem slot_inBounds (mw : MessageWriter) (dst : DataWriter) (host : BufferId)
    (n count off : Nat) (h : dst.inBounds mw = true) :
    dst.writeOffsetsChecked (mw.allocate host n).2 count off
        = some (dst.writeOffsets (mw.allocate host n).2 count off) ∧
      (dst.writeOffsets (mw.allocate host n).2 count off).2.1.inBounds
        (dst.writeOffsets (mw.allocate host n).2 count off).2.2 = true ∧
      (mw.allocate host n).1.inBounds
        (dst.writeOffsets (mw.allocate host n).2 count off).2.2 = true := by
  have h1 : dst.inBounds (mw.allocate host n).2 = true :=
    inBounds_mono h fun b => allocate_length_le mw host b n
  refine ⟨DataWriter.writeOffsetsChecked_eq _ _ _ _ h1,
    DataWriter.writeOffsets_inBounds _ _ _ _ h1, ?_⟩
  exact inBounds_mono (allocate_inBounds mw host n) fun b => by simp

end MessageWriter

namespace MessageWriter

theorem safe_readDynamicData (host : BufferId) (size : Nat) :
    Safe (fun s d m => m.readDynamicData s d host size)
      (fun s d m => m.readDynamicDataChecked s d host size) := by
  intro src dst mw h
  dsimp only
  rw [readDynamicData_eq]
  unfold readDynamicDataChecked
  rw [DataReader.readLength_eq]
  by_cases hlen : src._read + 4 ≤ src._size
  · simp only [hlen, if_true, Bool.true_eq_false, if_false, allocateChecked_eq,
      Option.some_bind]
    obtain ⟨h1, h2, h3⟩ := slot_inBounds mw dst host
      (uint32OfBytes ((src._data.drop src._read).take 4) * size)
      (uint32OfBytes ((src._data.drop src._read).take 4))
      ((mw.allocate host (uint32OfBytes ((src._data.drop src._read).take 4) * size)).1.next
        % 2 ^ 32) h
    rw [h1]
    simp only [Option.some_bind]
    split
    · rw [DataReader.readChecked_eq _ _ _ _ h3]
      refine ⟨rfl, ?_⟩
      exact inBounds_mono h2 fun b => by simp
    · exact ⟨rfl, h2⟩
  · simp only [hlen, if_false, if_true]
    exact ⟨trivial, h⟩

theorem safe_dispatchTimes {body : DataReader → DataWriter → MessageWriter → Run}
    {bodyC : DataReader → DataWriter → MessageWriter → Option Run} (hb : Safe body bodyC) :
    ∀ n : Nat, Safe (dispatchTimes body n) (dispatchTimesChecked bodyC n)
  | 0 => by
    intro src dst mw h
    rw [dispatchTimes, dispatchTimesChecked]
    exact ⟨rfl, h⟩
  | n + 1 => by
    intro src dst mw h
    obtain ⟨h1, h2⟩ := hb src dst mw h
    rw [dispatchTimes, dispatchTimesChecked, h1]
    simp only [Option.some_bind]
    split
    · exact safe_dispatchTimes hb n _ _ _ h2
    · exact ⟨rfl, h2⟩

end MessageWriter

namespace MessageWriter

mutual
/-- Every command passes the checks of its views and copies on a view inside its
buffer, and leaves the view inside its buffer. -/
theorem safe_dispatchCommand : ∀ cmd : Command,
    Safe (dispatchCommand cmd) (dispatchCommandChecked cmd)
  | .mk .READ_FIXED_SIZE_DATA l size n subs => by
    intro src dst mw h
    rw [dispatchCommand_fixed, dispatchCommandChecked, DataReader.readChecked_eq _ _ _ _ h]
    exact ⟨rfl, DataReader.read_inBounds src size dst mw h⟩
  | .mk .READ_STRING l size n subs => by
    intro src dst mw h
    rw [dispatchCommand_string, dispatchCommandChecked]
    exact safe_readDynamicData .strings 1 src dst mw h
  | .mk .READ_DYNAMIC_SIZE_DATA l size n subs => by
    intro src dst mw h
    rw [dispatchCommand_dynamicSize, dispatchCommandChecked]
    exact safe_readDynamicData .data size src dst mw h
  | .mk .CONSTANT_ARRAY l size length subs => by
    intro src dst mw h
    rw [dispatchCommand_constantArray, dispatchCommandChecked]
    obtain ⟨h1, h2, h3⟩ := slot_inBounds mw dst .data (length * size) length
      ((mw.allocate .data (length * size)).1.next % 2 ^ 32) h
    simp only [allocateChecked_eq, Option.some_bind, h1]
    split
    · obtain ⟨h4, _⟩ := safe_dispatchCommands subs src _ _ h3
      rw [h4]
      refine ⟨rfl, ?_⟩
      exact inBounds_mono h2 (frame_dispatchCommands subs _ _ _).2.2.2.2.2.1
    · exact ⟨rfl, h2⟩
  | .mk .DYNAMIC_ARRAY l size n subs => by
    intro src dst mw h
    rw [dispatchCommand_dynamicArray, dispatchCommandChecked, DataReader.readLength_eq]
    by_cases hlen : src._read + 4 ≤ src._size
    · simp only [hlen, if_true, Bool.true_eq_false, if_false, allocateChecked_eq,
        Option.some_bind]
      obtain ⟨h1, h2, h3⟩ := slot_inBounds mw dst .data
        (uint32OfBytes ((src._data.drop src._read).take 4) * size)
        (uint32OfBytes ((src._data.drop src._read).take 4))
        ((mw.allocate .data (uint32OfBytes ((src._data.drop src._read).take 4) * size)).1.next
          % 2 ^ 32) h
      rw [h1]
      simp only [Option.some_bind]
      split
      · obtain ⟨h4, _⟩ := safe_dispatchTimes (fun s w m hw => safe_dispatchCommands subs s w m hw)
          (uint32OfBytes ((src._data.drop src._read).take 4))
          { src with _read := src._read + 4 } _ _ h3
        rw [h4]
        refine ⟨rfl, ?_⟩
        exact inBounds_mono h2 (frame_dispatchTimes _
          (fun s w m => frame_dispatchCommands subs s w m) _ _ _ _).2.2.2.2.2.1
      · exact ⟨rfl, h2⟩
    · simp only [hlen, if_false, if_true]
      exact ⟨trivial, h⟩
/-- Every command buffer passes the checks of its views and copies on a view inside its
buffer, and leaves the view inside its buffer. -/
theorem safe_dispatchCommands : ∀ cmds : CommandBuffer,
    Safe (dispatchCommands cmds) (dispatchCommandsChecked cmds)
  | [] => by
    intro src dst mw h
    rw [dispatchCommands_nil, dispatchCommandsChecked]
    exact ⟨rfl, h⟩
  | cmd :: rest => by
    intro src dst mw h
    obtain ⟨h1, h2⟩ := safe_dispatchCommand cmd src dst mw h
    rw [dispatchCommands_cons, dispatchCommandsChecked, h1]
    simp only [Option.some_bind]
    split
    · exact safe_dispatchCommands rest _ _ _ h2
    · exact ⟨rfl, h2⟩
end

/-- In exact arithmetic, in every call of `write`, every view is inside its buffer when
`allocate` returns it and at and after every call of `DataWriter::write` on it
(`next ≤ end ≤ size of the buffer`; a view stores no begin, and its cursor only
advances), and no copy writes behind the end of a buffer: the function `write` with
these checks added finds none of them violated and returns what `write` returns. -/
theorem write_in_bounds (mw : MessageWriter) (definition : Option Definition)
    (data : List UInt8) : mw.writeChecked definition data = some (mw.write definition data) := by
  cases definition with
  | none => rfl
  | some d =>
    by_cases hv : d.isValid = true
    · rw [write_valid mw d data hv]
      unfold writeChecked
      simp only [hv, Bool.not_true, Bool.false_eq_true, if_false, allocateChecked_eq,
        Option.some_bind]
      obtain ⟨h1, _⟩ := safe_dispatchCommands d.getCommands (DataReader.new data) _ _
        (allocate_inBounds mw .data d.getSize)
      rw [h1]
      simp only [Option.map_some', Option.some.injEq]
      split <;> simp_all
    · have hv1 : d.isValid = false := by simpa using hv
      simp [writeChecked, write, hv1]

end MessageWriter

/-! ## The 32-bit target agrees with exact arithmetic where nothing wraps -/

theorem resize_append (buf : Buffer) (n : Nat) :
    resize buf (buf.length + n) = buf ++ List.replicate n 0 := by
  unfold resize
  rw [List.take_of_length_le (Nat.le_add_right _ _), Nat.add_sub_cancel_left]

namespace MessageWriter

theorem allocate32_eq (mw : MessageWriter) (b : BufferId) (n : Nat)
    (h : (mw.get b).length + n < 2 ^ 32) : mw.allocate32 b n = mw.allocate b n := by
  unfold allocate32 allocate
  simp only [Nat.mod_eq_of_lt h, resize_append]

end MessageWriter

namespace DataWriter

/-- The function `write` on the 32-bit target, on a view inside a buffer that the copy
cannot take beyond `2 ^ 32` bytes. -/
theorem write32_eq (dst : DataWriter) (mw : MessageWriter) (avail : List UInt8) (size : Nat)
    (hb : dst.inBounds mw = true) (hlen : (mw.get dst.buffer).length + size < 2 ^ 32)
    (hsrc : size ≤ avail.length) :
    dst.write32 mw avail size = some (dst.write mw (avail.take size)) := by
  have hb1 := (inBounds_iff dst mw).mp hb
  have htake : (avail.take size).length = size := by
    rw [List.length_take]; omega
  have hmod : (dst.next + size) % 2 ^ 32 = dst.next + size :=
    Nat.mod_eq_of_lt (by omega)
  unfold write32
  rw [write_def, htake, hmod]
  by_cases hroom : dst.next + size ≤ dst.end_
  · rw [if_neg (by omega), if_neg (by omega), if_pos hroom]
  · rw [if_pos (by omega), if_neg hroom]

theorem writeOffsets32_eq (dst : DataWriter) (mw : MessageWriter) (c o : Nat)
    (hb : dst.inBounds mw = true) (hlen : (mw.get dst.buffer).length + 8 < 2 ^ 32) :
    dst.writeOffsets32 mw c o = some (dst.writeOffsets mw c o) := by
  unfold writeOffsets32 writeOffsets
  rw [write32_eq dst mw _ (2 * 4) hb hlen (by simp [uint32Bytes_length])]
  rw [List.take_of_length_le (by simp [uint32Bytes_length])]

end DataWriter

namespace DataReader

theorem readLength32_eq (src : DataReader) (hr : src._read ≤ src._size)
    (hs : src._size < 2 ^ 31) : src.readLength32 = some src.readLength := by
  have hmod : (src._read + 4) % 2 ^ 32 = src._read + 4 := Nat.mod_eq_of_lt (by omega)
  unfold readLength32
  rw [readLength_eq, hmod]
  by_cases h : src._read + 4 ≤ src._size
  · rw [if_neg (by omega), if_neg (by omega), if_pos h]
  · rw [if_pos (by omega), if_neg h]

/-- A read that succeeds in exact arithmetic, on an input and a buffer shorter than
`2 ^ 31` bytes: the 32-bit target does the same, and no view is found full. -/
theorem read32_eq (src : DataReader) (size : Nat) (dst : DataWriter) (mw : MessageWriter)
    (hok : (src.read size dst mw).1 = true) (hb : dst.inBounds mw = true)
    (hs : src._size < 2 ^ 31) (hlen : (mw.get dst.buffer).length < 2 ^ 31) :
    src.read32 size dst mw =
      some ⟨⟨true, (src.read size dst mw).2.1, (src.read size dst mw).2.2.1,
        (src.read size dst mw).2.2.2⟩, false⟩ := by
  have hb1 := (inBounds_iff dst mw).mp hb
  rw [read_eq] at hok ⊢
  by_cases h : src._read + size ≤ src._size
  · rw [if_pos h] at hok ⊢
    simp only at hok ⊢
    have hroom : dst.next + size ≤ dst.end_ := by
      rw [DataWriter.write_def] at hok
      by_contra hc
      have hl : (List.take size (List.drop src._read src._data)).length = size := by
        rw [List.length_take, List.length_drop]
        unfold _size at h
        omega
      rw [hl, if_neg hc] at hok
      simp at hok
    have hmod : (src._read + size) % 2 ^ 32 = src._read + size :=
      Nat.mod_eq_of_lt (by omega)
    unfold read32
    rw [hmod, if_neg (by omega),
      DataWriter.write32_eq dst mw _ size hb (by omega)
        (by rw [List.length_drop]; unfold _size at h; omega)]
    simp only [Option.map_some', hok, if_true]
  · rw [if_neg h] at hok
    simp at hok

end DataReader
namespace DataReader

theorem read_cursor_le (src : DataReader) (size : Nat) (dst : DataWriter) (mw : MessageWriter)
    (hr : src._read ≤ src._size) :
    (src.read size dst mw).2.1._read ≤ (src.read size dst mw).2.1._size := by
  rw [read_eq]
  by_cases h : src._read + size ≤ src._size
  · rw [if_pos h]
    simp only
    split
    · exact h
    · exact hr
  · rw [if_neg h]
    exact hr

end DataReader

namespace MessageWriter

theorem sim_readDynamicData (host : BufferId) (size : Nat) :
    Simulates True 8 (fun s d m => m.readDynamicData s d host size)
      (fun s d m => m.readDynamicData32 s d host size) := by
  intro src dst mw hfit
  obtain ⟨hok, hb, hr, hs, hfin⟩ := hfit
  dsimp only at hok hfin ⊢
  rw [readDynamicData_eq] at hok hfin ⊢
  by_cases hlen : src._read + 4 ≤ src._size
  · rw [if_pos hlen] at hok hfin ⊢
    dsimp only at hok hfin ⊢
    generalize hL : uint32OfBytes ((src._data.drop src._read).take 4) = L at hok hfin ⊢
    have hgrow : ∀ b, ((mw.allocate host (L * size)).2.get b).length < 2 ^ 31 := by
      intro b
      have := hfin b
      split at this
      · simpa using this
      · simpa using this
    have hn : (mw.get host).length + L * size < 2 ^ 31 := by
      have := hgrow host
      rw [allocate_get, if_pos rfl, List.length_append, List.length_replicate] at this
      exact this
    obtain ⟨h1, h2, h3⟩ := slot_inBounds mw dst host (L * size) L
      ((mw.allocate host (L * size)).1.next % 2 ^ 32) hb
    have hb1 : dst.inBounds (mw.allocate host (L * size)).2 = true :=
      inBounds_mono hb fun b => allocate_length_le mw host b _
    have hmod : (L * size) % 2 ^ 32 = L * size := Nat.mod_eq_of_lt (by omega)
    unfold readDynamicData32
    rw [DataReader.readLength32_eq src hr hs, DataReader.readLength_eq, if_pos hlen]
    simp only [Option.some_bind, Bool.true_eq_false, if_false, hL, hmod]
    rw [allocate32_eq mw host _ (by omega),
      DataWriter.writeOffsets32_eq _ _ _ _ hb1 (by have := hgrow dst.buffer; omega)]
    simp only [Option.some_bind]
    have hflag : dst.next + 8 ≤ dst.end_ →
        (dst.writeOffsets (mw.allocate host (L * size)).2 L
          ((mw.allocate host (L * size)).1.next % 2 ^ 32)).1 = true ∧
        (dst.writeOffsets (mw.allocate host (L * size)).2 L
          ((mw.allocate host (L * size)).1.next % 2 ^ 32)).2.1.next = dst.next + 8 := by
      intro hroom
      rw [writeOffsets_of_room _ _ _ _ hroom]
      exact ⟨rfl, rfl⟩
    by_cases hpos : L > 0
    · simp only [if_pos hpos] at hok hfin ⊢
      rw [DataReader.read32_eq _ _ _ _ hok h3 hs
        (by rw [allocate_fst]; simpa using hgrow host)]
      simp only [Option.map_some', hok, Bool.or_false]
      refine ⟨_, rfl, ?_, ?_, ?_⟩
      · exact DataReader.read_cursor_le _ _ _ _ (by simp only [DataReader._size] at hlen ⊢; omega)
      · exact inBounds_mono h2 fun b => by simp
      · intro _ hroom
        obtain ⟨hw1, hw2⟩ := hflag hroom
        exact ⟨by rw [hw1]; rfl, hw2⟩
    · simp only [if_neg hpos] at hok hfin ⊢
      refine ⟨_, rfl, ?_, h2, ?_⟩
      · simp only [DataReader._size] at hlen ⊢; omega
      · intro _ hroom
        obtain ⟨hw1, hw2⟩ := hflag hroom
        exact ⟨by rw [hw1]; rfl, hw2⟩
  · rw [if_neg hlen] at hok
    simp at hok

end MessageWriter
namespace MessageWriter

theorem sim_dispatchTimes {layout : Prop} {t : Nat}
    {body : DataReader → DataWriter → MessageWriter → Run}
    {body32 : DataReader → DataWriter → MessageWriter → Option Run32}
    (hframe : ∀ s w m, Frame s w m (body s w m)) (hb : Simulates layout t body body32) :
    ∀ n : Nat, Simulates layout (n * t) (dispatchTimes body n) (dispatchTimes32 body32 n)
  | 0 => by
    intro src dst mw hfit
    obtain ⟨_, hin, hr, _, _⟩ := hfit
    rw [dispatchTimes, dispatchTimes32]
    exact ⟨false, rfl, hr, hin, fun _ _ => ⟨rfl, by simp⟩⟩
  | n + 1 => by
    intro src dst mw hfit
    obtain ⟨hok, hin, hr, hs, hfin⟩ := hfit
    rw [dispatchTimes] at hok hfin ⊢
    by_cases hbok : (body src dst mw).ok = true
    · simp only [hbok, if_true] at hok hfin ⊢
      have hfr := frame_dispatchTimes body hframe n (body src dst mw).src (body src dst mw).dst
        (body src dst mw).mw
      obtain ⟨flag, hg, hr1, hin1, hl⟩ := hb src dst mw
        ⟨hbok, hin, hr, hs, fun b => Nat.lt_of_le_of_lt (hfr.2.2.2.2.2.1 b) (hfin b)⟩
      have hfb := hframe src dst mw
      have hsize : (body src dst mw).src._size = src._size := by
        unfold DataReader._size
        rw [hfb.1]
      obtain ⟨flag2, hg2, hr2, hin2, hl2⟩ := sim_dispatchTimes hframe hb n _ _ _
        ⟨hok, hin1, hr1, by rw [hsize]; exact hs, hfin⟩
      rw [dispatchTimes32, hg]
      simp only [Option.some_bind, hbok, if_true, hg2, Option.map_some']
      refine ⟨flag || flag2, rfl, hr2, hin2, fun hlay hroom => ?_⟩
      rw [Nat.succ_mul] at hroom
      obtain ⟨hf1, hn1⟩ := hl hlay (by omega)
      obtain ⟨hf2, hn2⟩ := hl2 hlay (by rw [hn1, hfb.2.2.2.1]; omega)
      refine ⟨by simp [hf1, hf2], ?_⟩
      rw [hn2, hn1, Nat.succ_mul]
      omega
    · simp only [hbok, Bool.false_eq_true, if_false] at hok

/-- The slot of a command on the 32-bit target, in a run that fits: the allocation and
`writeOffsets` do what they do in exact arithmetic. -/
theorem slot32_eq (mw : MessageWriter) (dst : DataWriter) (host : BufferId) (n count off : Nat)
    (hb : dst.inBounds mw = true)
    (hfin : ∀ b, ((mw.allocate host n).2.get b).length < 2 ^ 31) :
    n % 2 ^ 32 = n ∧ mw.allocate32 host n = mw.allocate host n ∧
      dst.writeOffsets32 (mw.allocate host n).2 count off
        = some (dst.writeOffsets (mw.allocate host n).2 count off) := by
  have hn : (mw.get host).length + n < 2 ^ 31 := by
    have := hfin host
    rw [allocate_get, if_pos rfl, List.length_append, List.length_replicate] at this
    exact this
  have hb1 : dst.inBounds (mw.allocate host n).2 = true :=
    inBounds_mono hb fun b => allocate_length_le mw host b _
  exact ⟨Nat.mod_eq_of_lt (by omega), allocate32_eq mw host _ (by omega),
    DataWriter.writeOffsets32_eq _ _ _ _ hb1 (by have := hfin dst.buffer; omega)⟩

theorem slot_of_room (dst : DataWriter) (mw : MessageWriter) (count off : Nat)
    (hroom : dst.next + 8 ≤ dst.end_) :
    (!(dst.writeOffsets mw count off).1) = false ∧
      (dst.writeOffsets mw count off).2.1.next = dst.next + 8 := by
  rw [writeOffsets_of_room _ _ _ _ hroom]
  exact ⟨rfl, rfl⟩

mutual
/-- Every command does on the 32-bit target what it does in exact arithmetic, in a run
that fits. -/
theorem sim_dispatchCommand : ∀ cmd : Command,
    Simulates cmd.Layout cmd.dstSize (dispatchCommand cmd) (dispatchCommand32 cmd)
  | .mk .READ_FIXED_SIZE_DATA l size n subs => by
    intro src dst mw hfit
    obtain ⟨hok, hb, hr, hs, hfin⟩ := hfit
    rw [dispatchCommand_fixed] at hok hfin ⊢
    simp only at hok hfin
    rw [dispatchCommand32, DataReader.read32_eq _ _ _ _ hok hb hs
      (by have := hfin dst.buffer; simpa using this)]
    refine ⟨false, by rw [hok], DataReader.read_cursor_le _ _ _ _ hr,
      DataReader.read_inBounds src size dst mw hb, fun _ hroom => ⟨rfl, ?_⟩⟩
    simp only [Command.dstSize, Command.type, if_true, Command.size] at hroom ⊢
    rw [DataReader.read_eq] at hok ⊢
    by_cases h : src._read + size ≤ src._size
    · rw [if_pos h]
      simp only
      rw [DataWriter.write_def]
      have hl : (List.take size (List.drop src._read src._data)).length = size := by
        rw [List.length_take, List.length_drop]
        unfold DataReader._size at h
        omega
      rw [hl, if_pos hroom]
    · rw [if_neg h] at hok
      simp at hok
  | .mk .READ_STRING l size n subs => by
    intro src dst mw hfit
    rw [dispatchCommand_string] at hfit ⊢
    rw [dispatchCommand32]
    obtain ⟨flag, hg, h1, h2, h3⟩ := sim_readDynamicData .strings 1 src dst mw hfit
    have hd : (Command.mk .READ_STRING l size n subs).dstSize = 8 := by
      simp [Command.dstSize, Command.type]
    rw [hd]
    exact ⟨flag, hg, h1, h2, fun _ hroom => h3 trivial hroom⟩
  | .mk .READ_DYNAMIC_SIZE_DATA l size n subs => by
    intro src dst mw hfit
    rw [dispatchCommand_dynamicSize] at hfit ⊢
    rw [dispatchCommand32]
    obtain ⟨flag, hg, h1, h2, h3⟩ := sim_readDynamicData .data size src dst mw hfit
    have hd : (Command.mk .READ_DYNAMIC_SIZE_DATA l size n subs).dstSize = 8 := by
      simp [Command.dstSize, Command.type]
    rw [hd]
    exact ⟨flag, hg, h1, h2, fun _ hroom => h3 trivial hroom⟩
  | .mk .CONSTANT_ARRAY l size length subs => by
    intro src dst mw hfit
    obtain ⟨hok, hb, hr, hs, hfin⟩ := hfit
    rw [dispatchCommand_constantArray] at hok hfin ⊢
    dsimp only at hok hfin ⊢
    obtain ⟨_, h2, h3⟩ := slot_inBounds mw dst .data (length * size) length
      ((mw.allocate .data (length * size)).1.next % 2 ^ 32) hb
    have hfr := frame_dispatchCommands subs src (mw.allocate .data (length * size)).1
      (dst.writeOffsets (mw.allocate .data (length * size)).2 length
        ((mw.allocate .data (length * size)).1.next % 2 ^ 32)).2.2
    have hgrow : ∀ b, ((mw.allocate .data (length * size)).2.get b).length < 2 ^ 31 := by
      intro b
      have := hfin b
      split at this
      · have h4 := hfr.2.2.2.2.2.1 b
        simp only [DataWriter.writeOffsets_length] at h4
        dsimp only at this
        omega
      · simpa using this
    obtain ⟨hmod, ha, hw⟩ := slot32_eq mw dst .data (length * size) length
      ((mw.allocate .data (length * size)).1.next % 2 ^ 32) hb hgrow
    rw [dispatchCommand32]
    simp only [hmod, ha, hw, Option.some_bind]
    by_cases hpos : length > 0
    · simp only [if_pos hpos] at hok hfin ⊢
      obtain ⟨flag, hg, hr1, _, hl⟩ := sim_dispatchCommands subs src _ _ ⟨hok, h3, hr, hs, hfin⟩
      rw [hg]
      simp only [Option.map_some']
      refine ⟨_, rfl, hr1, inBounds_mono h2 hfr.2.2.2.2.2.1, fun hlay hroom => ?_⟩
      rw [layout_mk] at hlay
      simp only [Command.dstSize, Command.type] at hroom ⊢
      obtain ⟨hw1, hw2⟩ := slot_of_room dst (mw.allocate .data (length * size)).2 length
        ((mw.allocate .data (length * size)).1.next % 2 ^ 32) (by simpa using hroom)
      obtain ⟨hf, _⟩ := hl hlay.2.2 (by rw [hlay.1 rfl]; simp [allocate_fst])
      exact ⟨by rw [hw1, hf]; rfl, by simpa using hw2⟩
    · simp only [if_neg hpos] at hok hfin ⊢
      refine ⟨_, rfl, hr, h2, fun _ hroom => ?_⟩
      simp only [Command.dstSize, Command.type] at hroom ⊢
      obtain ⟨hw1, hw2⟩ := slot_of_room dst (mw.allocate .data (length * size)).2 length
        ((mw.allocate .data (length * size)).1.next % 2 ^ 32) (by simpa using hroom)
      exact ⟨hw1, by simpa using hw2⟩
  | .mk .DYNAMIC_ARRAY l size n subs => by
    intro src dst mw hfit
    obtain ⟨hok, hb, hr, hs, hfin⟩ := hfit
    rw [dispatchCommand_dynamicArray] at hok hfin ⊢
    by_cases hlen : src._read + 4 ≤ src._size
    · rw [if_pos hlen] at hok hfin ⊢
      dsimp only at hok hfin ⊢
      generalize hL : uint32OfBytes ((src._data.drop src._read).take 4) = L at hok hfin ⊢
      obtain ⟨_, h2, h3⟩ := slot_inBounds mw dst .data (L * size) L
        ((mw.allocate .data (L * size)).1.next % 2 ^ 32) hb
      have hfr := frame_dispatchTimes (fun s w m => dispatchCommands subs s w m)
        (fun s w m => frame_dispatchCommands subs s w m) L
        { src with _read := src._read + 4 } (mw.allocate .data (L * size)).1
        (dst.writeOffsets (mw.allocate .data (L * size)).2 L
          ((mw.allocate .data (L * size)).1.next % 2 ^ 32)).2.2
      have hgrow : ∀ b, ((mw.allocate .data (L * size)).2.get b).length < 2 ^ 31 := by
        intro b
        have := hfin b
        split at this
        · have h4 := hfr.2.2.2.2.2.1 b
          simp only [DataWriter.writeOffsets_length] at h4
          dsimp only at this
          omega
        · simpa using this
      obtain ⟨hmod, ha, hw⟩ := slot32_eq mw dst .data (L * size) L
        ((mw.allocate .data (L * size)).1.next % 2 ^ 32) hb hgrow
      rw [dispatchCommand32, DataReader.readLength32_eq src hr hs, DataReader.readLength_eq,
        if_pos hlen]
      simp only [Option.some_bind, Bool.true_eq_false, if_false, hL, hmod, ha, hw]
      by_cases hpos : L > 0
      · simp only [if_pos hpos] at hok hfin ⊢
        obtain ⟨flag, hg, hr1, _, hl⟩ := sim_dispatchTimes
          (fun s w m => frame_dispatchCommands subs s w m)
          (fun s w m hw => sim_dispatchCommands subs s w m hw) L
          { src with _read := src._read + 4 } _ _
          ⟨hok, h3, by simp only [DataReader._size] at hlen ⊢; omega, hs, hfin⟩
        rw [hg]
        simp only [Option.map_some']
        refine ⟨_, rfl, hr1, inBounds_mono h2 hfr.2.2.2.2.2.1, fun hlay hroom => ?_⟩
        rw [layout_mk] at hlay
        simp only [Command.dstSize, Command.type] at hroom ⊢
        obtain ⟨hw1, hw2⟩ := slot_of_room dst (mw.allocate .data (L * size)).2 L
          ((mw.allocate .data (L * size)).1.next % 2 ^ 32) (by simpa using hroom)
        obtain ⟨hf, _⟩ := hl hlay.2.2 (by rw [hlay.2.1 rfl]; simp [allocate_fst])
        exact ⟨by rw [hw1, hf]; rfl, by simpa using hw2⟩
      · simp only [if_neg hpos] at hok hfin ⊢
        refine ⟨_, rfl, by simp only [DataReader._size] at hlen ⊢; omega, h2,
          fun _ hroom => ?_⟩
        simp only [Command.dstSize, Command.type] at hroom ⊢
        obtain ⟨hw1, hw2⟩ := slot_of_room dst (mw.allocate .data (L * size)).2 L
          ((mw.allocate .data (L * size)).1.next % 2 ^ 32) (by simpa using hroom)
        exact ⟨hw1, by simpa using hw2⟩
    · rw [if_neg hlen] at hok
      simp at hok
/-- Every command buffer does on the 32-bit target what it does in exact arithmetic, in
a run that fits. -/
theorem sim_dispatchCommands : ∀ cmds : CommandBuffer,
    Simulates (LayoutAll cmds) (dstTotal cmds) (dispatchCommands cmds) (dispatchCommands32 cmds)
  | [] => by
    intro src dst mw hfit
    obtain ⟨_, hin, hr, _, _⟩ := hfit
    rw [dispatchCommands_nil, dispatchCommands32]
    exact ⟨false, rfl, hr, hin, fun _ _ => ⟨rfl, by simp [dstTotal_nil]⟩⟩
  | cmd :: rest => by
    intro src dst mw hfit
    obtain ⟨hok, hin, hr, hs, hfin⟩ := hfit
    rw [dispatchCommands_cons] at hok hfin ⊢
    by_cases hbok : (dispatchCommand cmd src dst mw).ok = true
    · simp only [hbok, if_true] at hok hfin ⊢
      have hfr := frame_dispatchCommands rest (dispatchCommand cmd src dst mw).src
        (dispatchCommand cmd src dst mw).dst (dispatchCommand cmd src dst mw).mw
      obtain ⟨flag, hg, hr1, hin1, hl⟩ := sim_dispatchCommand cmd src dst mw
        ⟨hbok, hin, hr, hs, fun b => Nat.lt_of_le_of_lt (hfr.2.2.2.2.2.1 b) (hfin b)⟩
      have hfb := frame_dispatchCommand cmd src dst mw
      have hsize : (dispatchCommand cmd src dst mw).src._size = src._size := by
        unfold DataReader._size
        rw [hfb.1]
      obtain ⟨flag2, hg2, hr2, hin2, hl2⟩ := sim_dispatchCommands rest _ _ _
        ⟨hok, hin1, hr1, by rw [hsize]; exact hs, hfin⟩
      rw [dispatchCommands32, hg]
      simp only [Option.some_bind, hbok, if_true, hg2, Option.map_some']
      refine ⟨flag || flag2, rfl, hr2, hin2, fun hlay hroom => ?_⟩
      rw [layoutAll_cons] at hlay
      rw [dstTotal_cons] at hroom
      obtain ⟨hf1, hn1⟩ := hl hlay.1 (by omega)
      obtain ⟨hf2, hn2⟩ := hl2 hlay.2 (by rw [hn1, hfb.2.2.2.1]; omega)
      refine ⟨by simp [hf1, hf2], ?_⟩
      rw [hn2, hn1, dstTotal_cons]
      omega
    · simp only [hbok, Bool.false_eq_true, if_false] at hok
end

end MessageWriter
/-- The commands of a valid record of a finalized registry take as many bytes in the view
of the record as the size of the record, and satisfy the layout invariant. -/
theorem commands_layout {reg : DefinitionRegistry} (hfin : Finalized reg) (k : String)
    (D : Definition) (hD : reg.getDefinition k = some D) (hv : D._isValid = true)
    (hne : D._fields ≠ []) : dstTotal D.getCommands = D.getSize ∧ LayoutAll D.getCommands := by
  obtain ⟨fuel1, cmds, hrec, hcmd⟩ := (hfin.good k D hD hv hne (fun hx => hx)).commands
  obtain ⟨h1, h2⟩ := recordDefinitionCommands_layout hfin fuel1 D cmds ⟨k, hD, hv⟩ hrec
  obtain ⟨h3, h4⟩ := optimizeLoop_layout cmds [] layoutAll_nil h2
  rw [Definition.getCommands, hcmd, optimizeCommands, Definition.getSize]
  exact ⟨by rw [h3, dstTotal_nil, Nat.zero_add, h1], h4⟩

namespace MessageWriter

/-- The dispatch that `write` makes, on the 32-bit target: when the dispatch succeeds in
exact arithmetic on an input shorter than `2 ^ 31` bytes and leaves both buffers shorter
than `2 ^ 31` bytes, the 32-bit target allocates the same view and makes the same run. -/
theorem dispatch32_of_fits (mw : MessageWriter) (d : Definition) (input : List UInt8)
    (hok : (dispatchCommands d.getCommands (DataReader.new input) (mw.allocate .data d.getSize).1
      (mw.allocate .data d.getSize).2).ok = true)
    (hin : input.length < 2 ^ 31)
    (hfin : ∀ b, ((dispatchCommands d.getCommands (DataReader.new input)
      (mw.allocate .data d.getSize).1 (mw.allocate .data d.getSize).2).mw.get b).length
        < 2 ^ 31) :
    mw.allocate32 .data d.getSize = mw.allocate .data d.getSize ∧
    ∃ flag, dispatchCommands32 d.getCommands (DataReader.new input)
        (mw.allocate .data d.getSize).1 (mw.allocate .data d.getSize).2
      = some ⟨dispatchCommands d.getCommands (DataReader.new input)
          (mw.allocate .data d.getSize).1 (mw.allocate .data d.getSize).2, flag⟩ ∧
      (LayoutAll d.getCommands → dstTotal d.getCommands = d.getSize → flag = false) := by
  have hfr := frame_dispatchCommands d.getCommands (DataReader.new input)
    (mw.allocate .data d.getSize).1 (mw.allocate .data d.getSize).2
  have hlen : (mw.get .data).length + d.getSize < 2 ^ 31 := by
    have h1 := hfr.2.2.2.2.2.1 .data
    have h2 := hfin .data
    rw [allocate_get, if_pos rfl, List.length_append, List.length_replicate] at h1
    omega
  refine ⟨allocate32_eq mw .data _ (by omega), ?_⟩
  obtain ⟨flag, hg, _, _, hl⟩ := sim_dispatchCommands d.getCommands (DataReader.new input)
    (mw.allocate .data d.getSize).1 (mw.allocate .data d.getSize).2
    ⟨hok, allocate_inBounds mw .data _, Nat.zero_le _, hin, hfin⟩
  refine ⟨flag, hg, fun hlay htot => (hl hlay ?_).1⟩
  rw [allocate_fst, htot]

/-- The function `write` on the 32-bit target returns what it returns in exact
arithmetic when the dispatch succeeds there on an input shorter than `2 ^ 31` bytes and
leaves both buffers shorter than `2 ^ 31` bytes. -/
theorem write32_of_fits (mw : MessageWriter) (d : Definition) (input : List UInt8)
    (hv : d.isValid = true)
    (hok : (dispatchCommands d.getCommands (DataReader.new input) (mw.allocate .data d.getSize).1
      (mw.allocate .data d.getSize).2).ok = true)
    (hin : input.length < 2 ^ 31)
    (hfin : ∀ b, (((mw.write (some d) input).2).get b).length < 2 ^ 31) :
    mw.write32 (some d) input = some (mw.write (some d) input) := by
  rw [write_valid mw d input hv, if_pos hok] at hfin ⊢
  obtain ⟨ha, flag, hg, _⟩ := dispatch32_of_fits mw d input hok hin hfin
  unfold write32
  simp only [hv, Bool.not_true, Bool.false_eq_true, if_false, ha, hg, Option.map_some', hok]

end MessageWriter

/-! ## A child view whose size wraps to zero -/

namespace MessageWriter

/-- A loop body that returns `true` and leaves the state as it is does so any number of
times. -/
theorem dispatchTimes32_fixed
    (body : DataReader → DataWriter → MessageWriter → Option Run32) (src : DataReader)
    (w : DataWriter) (mw : MessageWriter) (flag : Bool)
    (h : body src w mw = some ⟨⟨true, src, w, mw⟩, flag⟩) :
    ∀ n, dispatchTimes32 body (n + 1) src w mw = some ⟨⟨true, src, w, mw⟩, flag⟩
  | 0 => by simp [dispatchTimes32, h]
  | n + 1 => by
    rw [dispatchTimes32, h]
    simp [dispatchTimes32_fixed body src w mw flag h n]

/-- A `DYNAMIC_ARRAY` command on the 32-bit target whose child view takes
`length * size = 0` bytes modulo `2 ^ 32` and whose subcommands return `true` and leave
the state as it is: the loop runs `length` times without any effect. -/
theorem dispatch32_dynamicArray_fixed (l : String) (size m : Nat) (subs : CommandBuffer)
    (src src1 : DataReader) (dst dst1 : DataWriter) (mw mw1 : MessageWriter) (n : Nat)
    (flag : Bool) (hrl : src.readLength32 = some (true, n + 1, src1))
    (hmod : (n + 1) * size % 2 ^ 32 = 0)
    (hwo : dst.writeOffsets32 mw (n + 1) (mw._dataBuffer.length % 2 ^ 32)
      = some (true, dst1, mw1))
    (hbody : dispatchCommands32 subs src1
        ⟨.data, mw._dataBuffer.length, mw._dataBuffer.length % 2 ^ 32⟩ mw1
      = some ⟨⟨true, src1, ⟨.data, mw._dataBuffer.length, mw._dataBuffer.length % 2 ^ 32⟩,
          mw1⟩, flag⟩) :
    dispatchCommands32 [.mk .DYNAMIC_ARRAY l size m subs] src dst mw
      = some ⟨⟨true, src1, dst1, mw1⟩, flag⟩ := by
  have hloop := dispatchTimes32_fixed (fun s w1 m => dispatchCommands32 subs s w1 m) _ _ _ _
    hbody n
  have halloc : mw.allocate32 .data 0
      = (⟨.data, mw._dataBuffer.length, mw._dataBuffer.length % 2 ^ 32⟩, mw) := by
    simp [allocate32, MessageWriter.get]
  rw [dispatchCommands32, dispatchCommand32, hrl]
  simp only [Option.some_bind, Bool.true_eq_false, if_false, hmod, halloc, hwo,
    if_pos (Nat.succ_pos n), hloop, Option.map_some', Bool.not_true, Bool.false_or,
    dispatchCommands32, if_true, Bool.or_false]

/-- The dispatch that `write` makes on the 32-bit target for `D { es: E[] }` with
`E { w: int8[0] }`, on the 4 bytes of the count `2 ^ 30`: the child view takes
`2 ^ 30 * 8 = 0` bytes modulo `2 ^ 32`, and the slot of every element finds it full. -/
theorem dispatch32_zero_elements :
    dispatchCommands32 exampleZeroD.getCommands (DataReader.new [0, 0, 0, 64])
        ((MessageWriter.mk [9, 9] []).allocate32 .data exampleZeroD.getSize).1
        ((MessageWriter.mk [9, 9] []).allocate32 .data exampleZeroD.getSize).2 =
      some ⟨⟨true, ⟨[0, 0, 0, 64], 4⟩, ⟨.data, 10, 10⟩,
        MessageWriter.mk [9, 9, 0, 0, 0, 64, 10, 0, 0, 0] []⟩, true⟩ := by
  have hs : exampleZeroD.getSize = 8 := by decide
  have hc : exampleZeroD.getCommands =
      [.mk .DYNAMIC_ARRAY "es(E)" 8 0
        [.mk .CONSTANT_ARRAY "w(int8)" 1 0 [.mk .READ_FIXED_SIZE_DATA "int8" 0 0 []]]] := by
    rfl
  have ha : (MessageWriter.mk [9, 9] []).allocate32 .data 8
      = (⟨.data, 2, 10⟩, MessageWriter.mk [9, 9, 0, 0, 0, 0, 0, 0, 0, 0] []) := by decide
  rw [hs, hc, ha]
  exact dispatch32_dynamicArray_fixed "es(E)" 8 0 _ _ _ _ _ _ _ 1073741823 true (by decide)
    (by decide) (by decide) (by decide)

end MessageWriter

theorem encodeElements_replicate (reg : DefinitionRegistry) (d : Definition) (v : Value)
    (h : encode reg d v = some []) :
    ∀ n, encodeElements reg d (List.replicate n v) = some []
  | 0 => by rw [List.replicate_zero, encodeElements]
  | n + 1 => by
    rw [List.replicate_succ, encodeElements, h, encodeElements_replicate reg d v h n]
    rfl

theorem representsElements_replicate (reg : DefinitionRegistry) (mw : MessageWriter)
    (d : Definition) (pos : Nat) (v : Value) (n : Nat)
    (h : represents reg mw d pos v = false) :
    representsElements reg mw d pos (List.replicate (n + 1) v) = false := by
  rw [List.replicate_succ, representsElements, h, Bool.false_and]

/-- The encoding of a record whose one field is a dynamic-length array, for a value with
`n` equal elements that take no bytes: the 4 bytes of the count. -/
theorem encode_dynamic_replicate (reg : DefinitionRegistry) (D E : Definition) (f : Field)
    (v : Value) (n : Nat) (hf : D._fields = [f]) (hE : reg.getDefinition f.type = some E)
    (harr : f.isArray = true) (hneg : f.arraySize < 0) (hv : encode reg E v = some [])
    (hn : n < 2 ^ 32) :
    encode reg D (.record [.array (List.replicate n v)]) = some (uint32Bytes n) := by
  have hge : ¬ f.arraySize ≥ 0 := by omega
  rw [encode, hf]
  simp only [List.isEmpty_cons, Bool.false_eq_true, if_false, encodeFields, hE, harr, if_true,
    encodeArray, hge, encodeElements_replicate reg E v hv n, List.length_replicate, hn,
    Option.map_some', List.append_nil]

/-- The output does not represent a record whose one field is an array of `n + 1` equal
elements when the slot of the array points to bytes that do not represent the element. -/
theorem represents_replicate (reg : DefinitionRegistry) (mw : MessageWriter)
    (D E : Definition) (f : Field) (v : Value) (n pos : Nat) (hf : D._fields = [f])
    (hE : reg.getDefinition f.type = some E) (harr : f.isArray = true)
    (hv : represents reg mw E (slotOffset mw pos) v = false) :
    represents reg mw D pos (.record [.array (List.replicate (n + 1) v)]) = false := by
  rw [represents, hf]
  simp only [representsFields, hE, harr, if_true, representsArray,
    representsElements_replicate reg mw E _ v n hv, Bool.and_false, Bool.false_and]

namespace MessageWriter

/-- The function `write` on the 32-bit target, for `D { es: E[] }` with
`E { w: int8[0] }`, on the 4 bytes of the count `2 ^ 30`: the child view takes
`2 ^ 30 * 8 = 0` bytes modulo `2 ^ 32`. -/
theorem write32_zero_elements :
    (MessageWriter.mk [9, 9] []).write32 (some exampleZeroD) [0, 0, 0, 64]
      = some (2, MessageWriter.mk [9, 9, 0, 0, 0, 64, 10, 0, 0, 0] []) := by
  have hv : exampleZeroD.isValid = true := by decide
  rw [write32]
  simp only [hv, Bool.not_true, Bool.false_eq_true, if_false, dispatch32_zero_elements,
    Option.map_some']
  rfl

end MessageWriter

/-- The 4 bytes of the count `2 ^ 30` are the encoding of the value of `D { es: E[] }`
with `2 ^ 30` elements of `E { w: int8[0] }`, which take no bytes. -/
theorem encode_zero_elements :
    encode DefinitionRegistry.exampleZeroFinal exampleZeroD exampleZeroValue
      = some [0, 0, 0, 64] :=
  encode_dynamic_replicate DefinitionRegistry.exampleZeroFinal exampleZeroD exampleZeroE
    ⟨"E", "es", some "E", true, -1⟩ (.record [.array []]) 1073741824 (by decide) (by rfl) rfl
    (by decide) (by decide) (by decide)

/-- The output of `write` on the 4 bytes of the count `2 ^ 30` does not represent the
value with `2 ^ 30` elements: the slot points to the end of the data buffer, where no
element is. -/
theorem represents_zero_elements :
    represents DefinitionRegistry.exampleZeroFinal
        (MessageWriter.mk [9, 9, 0, 0, 0, 64, 10, 0, 0, 0] []) exampleZeroD 2 exampleZeroValue
      = false :=
  represents_replicate DefinitionRegistry.exampleZeroFinal
    (MessageWriter.mk [9, 9, 0, 0, 0, 64, 10, 0, 0, 0] []) exampleZeroD exampleZeroE
    ⟨"E", "es", some "E", true, -1⟩ (.record [.array []]) 1073741823 2 (by decide) (by rfl) rfl
    (by decide)

/-- The schema `DefinitionRegistry.exampleZeroElements` is acyclic and fresh, its sizes
are in the range of the `size_t` of the 32-bit target, and its finalization gives the
same registry in exact arithmetic and on the 32-bit target: no size of it wraps. -/
theorem schema_zero_elements :
    Schema exampleZeroRank DefinitionRegistry.exampleZeroElements ∧
      DefinitionRegistry.exampleZeroElements.wrap32 = DefinitionRegistry.exampleZeroElements ∧
      DefinitionRegistry.exampleZeroElements.finalizeAll 4
        = some (true, DefinitionRegistry.exampleZeroFinal) ∧
      DefinitionRegistry.exampleZeroElements.finalizeAll32 4
        = some (true, DefinitionRegistry.exampleZeroFinal) ∧
      DefinitionRegistry.exampleZeroFinal.getDefinition "D" = some exampleZeroD ∧
      exampleZeroD.wrap32 = exampleZeroD ∧
      exampleZeroD._isValid = true ∧ exampleZeroD._fields ≠ [] :=
  ⟨⟨by unfold DefinitionRegistry.Acyclic; decide, by unfold DefinitionRegistry.Fresh; decide,
      by decide, by decide⟩, by rfl, by rfl, by rfl, by rfl, by rfl, by decide, by decide⟩

namespace MessageWriter

/-- C2 (counterexample): dispatches of the compiled commands of a finalized definition on
a well-formed encoding, on the 32-bit target, that do not end with the cursor at the end
of the input or that fail.  The built-in `int32` is valid and has no commands: on the
four bytes of an `int32` the dispatch succeeds with the cursor at 0.  After
`C { a: int32 }` and `P { c: C }` are finalized, a field `b: int32` is added to `C` and
`finalizeAll` runs again: `P` keeps the commands of its first finalization, which read
four of the eight bytes of a `P`.  After the field `x: int32` is added to the built-in
`string`, the record `L { xs: string[] }` reads the four bytes of `x` as the count of a
string, and the dispatch fails with an under-run on the encoding of an `L` with one
element.  For `D { es: E[] }` with `E { w: int8[0] }`, an acyclic fresh schema that
finalization compiles on the 32-bit target as in exact arithmetic, the 4 bytes of the
count `2 ^ 30` are the encoding of a value with `2 ^ 30` elements; the child view takes
`2 ^ 30 * 8 = 0` bytes modulo `2 ^ 32`, the slot of every element finds the view full,
and the dispatch returns `true`. -/
theorem dispatch32_counterexample :
    ((DefinitionRegistry.new.deref "int32").isValid,
        encode DefinitionRegistry.new (DefinitionRegistry.new.deref "int32") (.prim [1, 2, 3, 4]),
        (dispatchCommands32 (DefinitionRegistry.new.deref "int32").getCommands
          (DataReader.new [1, 2, 3, 4])
          (MessageWriter.new.allocate32 .data (DefinitionRegistry.new.deref "int32").getSize).1
          (MessageWriter.new.allocate32 .data
            (DefinitionRegistry.new.deref "int32").getSize).2).map
          fun r => (r.run.ok, r.run.src._read))
      = (true, some [1, 2, 3, 4], some (true, 0)) ∧
    ((DefinitionRegistry.exampleStale32.deref "P").isValid,
        encode DefinitionRegistry.exampleStale32 (DefinitionRegistry.exampleStale32.deref "P")
          (.record [.record [.prim [1, 2, 3, 4], .prim [5, 6, 7, 8]]]),
        (dispatchCommands32 (DefinitionRegistry.exampleStale32.deref "P").getCommands
          (DataReader.new [1, 2, 3, 4, 5, 6, 7, 8])
          (MessageWriter.new.allocate32 .data
            (DefinitionRegistry.exampleStale32.deref "P").getSize).1
          (MessageWriter.new.allocate32 .data
            (DefinitionRegistry.exampleStale32.deref "P").getSize).2).map
          fun r => (r.run.ok, r.run.src._read))
      = (true, some [1, 2, 3, 4, 5, 6, 7, 8], some (true, 4)) ∧
    (((DefinitionRegistry.finalized32 3 DefinitionRegistry.exampleStringElement).deref
          "L").isValid,
        encode (DefinitionRegistry.finalized32 3 DefinitionRegistry.exampleStringElement)
          ((DefinitionRegistry.finalized32 3 DefinitionRegistry.exampleStringElement).deref "L")
          (.record [.array [.record [.prim [1, 0, 0, 0]]]]),
        (dispatchCommands32
          ((DefinitionRegistry.finalized32 3 DefinitionRegistry.exampleStringElement).deref
            "L").getCommands
          (DataReader.new [1, 0, 0, 0, 1, 0, 0, 0])
          (MessageWriter.new.allocate32 .data
            ((DefinitionRegistry.finalized32 3 DefinitionRegistry.exampleStringElement).deref
              "L").getSize).1
          (MessageWriter.new.allocate32 .data
            ((DefinitionRegistry.finalized32 3 DefinitionRegistry.exampleStringElement).deref
              "L").getSize).2).map
          fun r => (r.run.ok, r.overflow))
      = (true, some [1, 0, 0, 0, 1, 0, 0, 0], some (false, true)) ∧
    ((Schema exampleZeroRank DefinitionRegistry.exampleZeroElements ∧
        DefinitionRegistry.exampleZeroElements.wrap32 = DefinitionRegistry.exampleZeroElements ∧
        DefinitionRegistry.exampleZeroElements.finalizeAll 4
          = some (true, DefinitionRegistry.exampleZeroFinal) ∧
        DefinitionRegistry.exampleZeroElements.finalizeAll32 4
          = some (true, DefinitionRegistry.exampleZeroFinal) ∧
        DefinitionRegistry.exampleZeroFinal.getDefinition "D" = some exampleZeroD ∧
        exampleZeroD.wrap32 = exampleZeroD ∧
        exampleZeroD._isValid = true ∧ exampleZeroD._fields ≠ []) ∧
      encode DefinitionRegistry.exampleZeroFinal exampleZeroD exampleZeroValue
        = some [0, 0, 0, 64] ∧
      (dispatchCommands32 exampleZeroD.getCommands (DataReader.new [0, 0, 0, 64])
          ((MessageWriter.mk [9, 9] []).allocate32 .data exampleZeroD.getSize).1
          ((MessageWriter.mk [9, 9] []).allocate32 .data exampleZeroD.getSize).2).map
          (fun r => (r.run.ok, r.overflow, r.run.src._read)) = some (true, true, 4)) :=
  ⟨by decide, by decide, by decide,
    ⟨schema_zero_elements, encode_zero_elements, by rw [dispatch32_zero_elements]; rfl⟩⟩

/-- C1 (counterexample): successful calls of `write` on a well-formed encoding, on the
32-bit target, whose output does not represent the value.  For the built-in `int32`,
which has no commands, the four bytes at the returned offset 2 stay zero.  For the
record `P { c: C }` that was finalized before the field `b: int32` was added to `C`,
only four of the eight bytes of the value are copied, into a record of four bytes.  After
the field `x: int32` is added to the built-in `string`, the record `L { xs: string[] }`
reads the four bytes of each `x` as the count of a string and writes the slot of an
empty string over the two elements.  For `D { es: E[] }` with `E { w: int8[0] }`, an
acyclic fresh schema that finalization compiles on the 32-bit target as in exact
arithmetic, the 4 bytes of the count `2 ^ 30` are the encoding of a value with `2 ^ 30`
elements; the child view takes `2 ^ 30 * 8 = 0` bytes modulo `2 ^ 32`, and `write`
returns the offset of a record whose slot points to the end of the data buffer, where
no element is. -/
theorem write32_represents_counterexample :
    ((DefinitionRegistry.new.deref "int32").isValid = true ∧
      encode DefinitionRegistry.new (DefinitionRegistry.new.deref "int32") (.prim [1, 2, 3, 4])
        = some [1, 2, 3, 4] ∧
      (MessageWriter.mk [9, 9] []).write32 (some (DefinitionRegistry.new.deref "int32"))
          [1, 2, 3, 4]
        = some (2, MessageWriter.mk [9, 9, 0, 0, 0, 0] []) ∧
      represents DefinitionRegistry.new (MessageWriter.mk [9, 9, 0, 0, 0, 0] [])
          (DefinitionRegistry.new.deref "int32") 2 (.prim [1, 2, 3, 4]) = false) ∧
    ((DefinitionRegistry.exampleStale32.deref "P").isValid = true ∧
      encode DefinitionRegistry.exampleStale32 (DefinitionRegistry.exampleStale32.deref "P")
          (.record [.record [.prim [1, 2, 3, 4], .prim [5, 6, 7, 8]]])
        = some [1, 2, 3, 4, 5, 6, 7, 8] ∧
      (MessageWriter.mk [9, 9] []).write32
          (some (DefinitionRegistry.exampleStale32.deref "P")) [1, 2, 3, 4, 5, 6, 7, 8]
        = some (2, MessageWriter.mk [9, 9, 1, 2, 3, 4] []) ∧
      represents DefinitionRegistry.exampleStale32 (MessageWriter.mk [9, 9, 1, 2, 3, 4] [])
          (DefinitionRegistry.exampleStale32.deref "P") 2
          (.record [.record [.prim [1, 2, 3, 4], .prim [5, 6, 7, 8]]]) = false) ∧
    (((DefinitionRegistry.finalized32 3 DefinitionRegistry.exampleStringElement).deref
          "L").isValid = true ∧
      encode (DefinitionRegistry.finalized32 3 DefinitionRegistry.exampleStringElement)
          ((DefinitionRegistry.finalized32 3 DefinitionRegistry.exampleStringElement).deref "L")
          (.record [.array [.record [.prim [0, 0, 0, 0]], .record [.prim [0, 0, 0, 0]]]])
        = some [2, 0, 0, 0, 0, 0, 0, 0, 0, 0, 0, 0] ∧
      (MessageWriter.mk [9, 9] [7]).write32
          (some ((DefinitionRegistry.finalized32 3
            DefinitionRegistry.exampleStringElement).deref "L"))
          [2, 0, 0, 0, 0, 0, 0, 0, 0, 0, 0, 0]
        = some (2,
            MessageWriter.mk [9, 9, 2, 0, 0, 0, 10, 0, 0, 0, 0, 0, 0, 0, 1, 0, 0, 0] [7]) ∧
      represents (DefinitionRegistry.finalized32 3 DefinitionRegistry.exampleStringElement)
          (MessageWriter.mk [9, 9, 2, 0, 0, 0, 10, 0, 0, 0, 0, 0, 0, 0, 1, 0, 0, 0] [7])
          ((DefinitionRegistry.finalized32 3 DefinitionRegistry.exampleStringElement).deref
            "L") 2
          (.record [.array [.record [.prim [0, 0, 0, 0]], .record [.prim [0, 0, 0, 0]]]])
        = false) ∧
    ((Schema exampleZeroRank DefinitionRegistry.exampleZeroElements ∧
        DefinitionRegistry.exampleZeroElements.wrap32 = DefinitionRegistry.exampleZeroElements ∧
        DefinitionRegistry.exampleZeroElements.finalizeAll 4
          = some (true, DefinitionRegistry.exampleZeroFinal) ∧
        DefinitionRegistry.exampleZeroElements.finalizeAll32 4
          = some (true, DefinitionRegistry.exampleZeroFinal) ∧
        DefinitionRegistry.exampleZeroFinal.getDefinition "D" = some exampleZeroD ∧
        exampleZeroD.wrap32 = exampleZeroD ∧
        exampleZeroD._isValid = true ∧ exampleZeroD._fields ≠ []) ∧
      encode DefinitionRegistry.exampleZeroFinal exampleZeroD exampleZeroValue
        = some [0, 0, 0, 64] ∧
      (MessageWriter.mk [9, 9] []).write32 (some exampleZeroD) [0, 0, 0, 64]
        = some (2, MessageWriter.mk [9, 9, 0, 0, 0, 64, 10, 0, 0, 0] []) ∧
      represents DefinitionRegistry.exampleZeroFinal
          (MessageWriter.mk [9, 9, 0, 0, 0, 64, 10, 0, 0, 0] []) exampleZeroD 2
          exampleZeroValue
        = false) :=
  ⟨⟨by decide, by decide, by decide, by decide⟩, ⟨by decide, by decide, by decide, by decide⟩,
    ⟨by decide, by decide, by decide, by decide⟩,
    ⟨schema_zero_elements, encode_zero_elements, write32_zero_elements,
      represents_zero_elements⟩⟩

end MessageWriter

/-! ## Sizes that wrap on the 32-bit target -/

namespace MessageWriter

/-- C8: two calls of `write` on the 32-bit target for the record `S { name: string }`.
The first writes a string of 16 bytes.  The second is given the four bytes
`F0 FF FF FF`, a count of `2 ^ 32 - 16`: `allocate` computes `16 + (2 ^ 32 - 16)`, which
wraps to 0, and `resize(0)` empties the string buffer; the read then fails and `write`
returns 0.  The string buffer before the second call is not an initial part of the string
buffer after it. -/
theorem write32_truncates :
    ((DefinitionRegistry.finalized32 3 DefinitionRegistry.exampleS).deref "S").isValid = true ∧
    MessageWriter.new.write32
        (some ((DefinitionRegistry.finalized32 3 DefinitionRegistry.exampleS).deref "S"))
        ([16, 0, 0, 0] ++ List.replicate 16 97)
      = some (0, MessageWriter.mk [16, 0, 0, 0, 0, 0, 0, 0] (List.replicate 16 97)) ∧
    (MessageWriter.mk [16, 0, 0, 0, 0, 0, 0, 0] (List.replicate 16 97)).write32
        (some ((DefinitionRegistry.finalized32 3 DefinitionRegistry.exampleS).deref "S"))
        [0xF0, 0xFF, 0xFF, 0xFF]
      = some (0, MessageWriter.mk [16, 0, 0, 0, 0, 0, 0, 0, 0xF0, 0xFF, 0xFF, 0xFF, 16, 0, 0, 0]
          []) ∧
    ¬ (List.replicate 16 (97 : UInt8) <+: ([] : List UInt8)) :=
  ⟨by decide, by decide, by decide, by decide⟩

/-- C24: a call of `write` on the 32-bit target that copies outside a buffer.  The record
is `R { a: int64, b: int64, s: string }`, the string buffer holds 16 bytes and the input
is 16 bytes for `a` and `b` followed by `F0 FF FF FF`, a count of `2 ^ 32 - 16`.
`allocate` computes `16 + (2 ^ 32 - 16)`, which wraps to 0: the string buffer is emptied
and the view is `next = 16`, `end = 0`.  In `read` the sum `20 + (2 ^ 32 - 16)` wraps to
4, which is not above the input size 20, and in `DataWriter::write` the sum
`16 + (2 ^ 32 - 16)` wraps to 0, which is not above `end`: both tests pass and `memcpy`
copies `2 ^ 32 - 16` bytes to the index 16 of an empty buffer, so the call has no
result. -/
theorem write32_out_of_bounds :
    ((DefinitionRegistry.finalized32 3 DefinitionRegistry.exampleR).deref "R").isValid = true ∧
    (MessageWriter.mk [] (List.replicate 16 97)).write32
        (some ((DefinitionRegistry.finalized32 3 DefinitionRegistry.exampleR).deref "R"))
        (List.replicate 16 1 ++ [0xF0, 0xFF, 0xFF, 0xFF])
      = none :=
  ⟨by decide, by decide⟩

end MessageWriter

namespace DataReader

/-- C22: calls of `read` on the 32-bit target with the size `2 ^ 32 - 16` on a reader of
20 bytes whose cursor is at 20, so that no unread byte remains.  The sum
`20 + (2 ^ 32 - 16)` wraps to 4 and passes the test against the input size; in
`DataWriter::write` the sum `16 + (2 ^ 32 - 16)` wraps to 0 and passes the test against
the end of the view; `memcpy` then copies `2 ^ 32 - 16` bytes from behind the input, so
the call has no result.  The first call is on the view `next = 16`, `end = 24` of a
buffer of 24 bytes; the second is the call that `MessageWriter::write` makes for the
record `R { a: int64, b: int64, s: string }` on an input that ends with the count
`F0 FF FF FF`, on the view `next = 16`, `end = 0` of the emptied string buffer. -/
theorem read32_wraps :
    (DataReader.mk (List.replicate 20 1) 20).read32 0xFFFFFFF0 ⟨.data, 16, 24⟩
        (MessageWriter.mk (List.replicate 24 0) []) = none ∧
    (DataReader.mk (List.replicate 16 1 ++ [0xF0, 0xFF, 0xFF, 0xFF]) 20).read32 0xFFFFFFF0
        ⟨.strings, 16, 0⟩
        (MessageWriter.mk (List.replicate 16 1 ++ [0xF0, 0xFF, 0xFF, 0xFF, 16, 0, 0, 0]) [])
      = none :=
  ⟨by decide, by decide⟩

end DataReader

namespace DefinitionRegistry

/-- C23 (counterexample): valid definitions, on the 32-bit target, whose commands do
not satisfy the layout invariant.  The built-in `int32` has size 4 and no commands.  The
record `Q { p: P }`, finalized after the field `b: int32` was added to the record `C`
inside the finalized `P { c: C }`, has the size 4 of the stale `P` and one fixed read of
8 bytes.  After the field `x: int32` is added to the built-in `string`, the record
`L { xs: string[] }` has a dynamic array of size 4 whose one subcommand `READ_STRING`
takes 8 bytes.  The record `W { v: int64[536870912] }` has a constant array of length
`2 ^ 29` and size 8 whose one subcommand is a fixed read of `2 ^ 32 mod 2 ^ 32 = 0`
bytes. -/
theorem finalizeAll32_layout_counterexample :
    ((DefinitionRegistry.new.deref "int32").isValid,
        (DefinitionRegistry.new.deref "int32").getSize,
        dstTotal (DefinitionRegistry.new.deref "int32").getCommands) = (true, 4, 0) ∧
    ((exampleStaleParent32.deref "Q").isValid, (exampleStaleParent32.deref "Q").getSize,
        dstTotal (exampleStaleParent32.deref "Q").getCommands) = (true, 4, 8) ∧
    (((finalized32 3 exampleStringElement).deref "L").isValid,
        ((finalized32 3 exampleStringElement).deref "L").getCommands.map fun c =>
          (c.type, c.size, dstTotal c.subcommands))
      = (true, [(CommandType.DYNAMIC_ARRAY, 4, 8)]) ∧
    (((finalized32 3 exampleWide).deref "W").isValid,
        ((finalized32 3 exampleWide).deref "W").getCommands.map fun c =>
          (c.type, c.length * c.size, dstTotal c.subcommands))
      = (true, [(CommandType.CONSTANT_ARRAY, 2 ^ 32, 0)]) :=
  ⟨by decide, by decide, by decide, by decide⟩

end DefinitionRegistry

theorem recordArrayDefinitionCommandsWith32_constant
    (record : Definition → Option CommandBuffer) (E : Definition) (n : Int) (hn : 0 ≤ n)
    (hs : E.isString = false) (hc : E.hasConstantSize = true) :
    recordArrayDefinitionCommandsWith32 record E n =
      some [.mk .CONSTANT_ARRAY E.getName E.getSize (n.toNat % 2 ^ 32)
        [.mk .READ_FIXED_SIZE_DATA E.getName ((n.toNat * E.getSize) % 2 ^ 32) 0 []]] := by
  unfold recordArrayDefinitionCommandsWith32
  rw [if_pos hn]
  simp only [hs, hc, Bool.false_eq_true, if_false, if_true, Option.map_some',
    recordNonStringDefinitionCommands32]

/-- The loop of `finalize` only changes the definition it runs on: the fields already
visited stay, and the constant-size flag is at most cleared. -/
theorem finalizeFields32_frame
    {fin : DefinitionRegistry → String → Option (Bool × DefinitionRegistry)}
    (hfin : FrameSpec fin) (self : String) :
    ∀ (rest done : List Field) (reg out : DefinitionRegistry) (d : Definition),
      reg.getDefinition self = some d → d._isValid = true → d._fields = done ++ rest →
      finalizeFields32 fin self rest done.length reg = some out →
        Kept (fun k => k = self) reg out ∧ out.map Prod.fst = reg.map Prod.fst ∧
          ∃ d1, out.getDefinition self = some d1 ∧ d1._fields.take done.length = done ∧
            d1._fields.length = d._fields.length ∧ d1._isString = d._isString ∧
            (d1._hasConstantSize = true → d._hasConstantSize = true)
  | [], done, reg, out, d, hd, _, hf, h => by
    simp only [finalizeFields32, Option.some.injEq] at h
    subst h
    refine ⟨kept_refl _ _, rfl, d, hd, ?_, rfl, rfl, fun h => h⟩
    rw [hf]; simp
  | f :: rest, done, reg, out, d, hd, hv, hf, h => by
    have hd1 : (reg.modify self (setFieldDefinition done.length (f.resolve reg))).getDefinition
        self = some { d with _fields := done ++ { f with definition := f.resolve reg } :: rest }
        := by
      rw [DefinitionRegistry.getDefinition_modify_same, hd]
      simp only [Option.map_some', setFieldDefinition, hf, list_modify_append]
    have hK1 := kept_modify reg self (setFieldDefinition done.length (f.resolve reg))
    have hm1 := DefinitionRegistry.map_fst_modify reg self
      (setFieldDefinition done.length (f.resolve reg))
    have hfail : ∀ (r : DefinitionRegistry) (dr : Definition),
        Kept (fun k => k = self) reg r → r.map Prod.fst = reg.map Prod.fst →
        r.getDefinition self = some dr → dr._fields.take done.length = done →
        dr._fields.length = d._fields.length → dr._isString = d._isString →
        (dr._hasConstantSize = true → d._hasConstantSize = true) →
        Kept (fun k => k = self) reg (r.modify self fun d => { d with _isValid := false }) ∧
          (r.modify self fun d => { d with _isValid := false }).map Prod.fst
            = reg.map Prod.fst ∧
          ∃ d1, (r.modify self fun d => { d with _isValid := false }).getDefinition self
              = some d1 ∧ d1._fields.take done.length = done ∧
            d1._fields.length = d._fields.length ∧ d1._isString = d._isString ∧
            (d1._hasConstantSize = true → d._hasConstantSize = true) := by
      intro r dr hK hm hdr htake hlen hstr hcs
      refine ⟨kept_trans hK (kept_modify _ _ _), ?_, { dr with _isValid := false }, ?_, htake,
        hlen, hstr, hcs⟩
      · rw [DefinitionRegistry.map_fst_modify, hm]
      · rw [DefinitionRegistry.getDefinition_modify_same, hdr]; rfl
    simp only [finalizeFields32, Field.finalize] at h
    cases hp : f.resolve reg with
    | none =>
      rw [hp] at h hd1 hK1 hm1
      simp only [Option.some.injEq] at h
      subst h
      exact hfail _ _ hK1 hm1 hd1 (by simp) (by simp [hf]) rfl (fun h => h)
    | some t =>
      rw [hp] at h hd1 hK1 hm1
      simp only at h
      cases hcall : fin (reg.modify self (setFieldDefinition done.length (some t))) t with
      | none => rw [hcall] at h; simp at h
      | some r =>
        obtain ⟨b, reg2⟩ := r
        rw [hcall] at h
        simp only at h
        obtain ⟨hKc, hmc, _⟩ := hfin _ t b reg2 hcall
        have hd2 := hKc.1 self _ hd1 hv (fun hk => hk)
        have hK2 : Kept (fun k => k = self) reg reg2 :=
          kept_trans hK1 (kept_mono (fun _ hk => hk.elim) hKc)
        have hm2 : reg2.map Prod.fst = reg.map Prod.fst := hmc.trans hm1
        cases b with
        | false =>
          simp only [Option.some.injEq] at h
          subst h
          exact hfail _ _ hK2 hm2 hd2 (by simp) (by simp [hf]) rfl (fun h => h)
        | true =>
          simp only at h
          obtain ⟨g, hg⟩ : ∃ g, g = Field.getSize reg2 { f with definition := some t } :=
            ⟨_, rfl⟩
          rw [← hg] at h
          have hd3 : (reg2.modify self fun d1 =>
              { d1 with _size := (d1._size + g) % 2 ^ 32 }).getDefinition
              self = some { d with _fields := done ++ { f with definition := some t } :: rest,
                                   _size := (d._size + g) % 2 ^ 32 } := by
            rw [DefinitionRegistry.getDefinition_modify_same, hd2]; rfl
          have hlen : (done ++ [{ f with definition := some t }]).length = done.length + 1 := by
            simp
          rw [← hlen] at h
          split at h
          · obtain ⟨hK5, hm5, d5, hd5, htake, hlen5, hstr5, hcs5⟩ := finalizeFields32_frame hfin
              self rest _ _ out
              { d with _fields := done ++ { f with definition := some t } :: rest,
                       _size := (d._size + g) % 2 ^ 32, _hasConstantSize := false }
              (by rw [DefinitionRegistry.getDefinition_modify_same, hd3]; rfl) hv (by simp) h
            refine ⟨kept_trans hK2 (kept_trans (kept_modify _ _ _)
              (kept_trans (kept_modify _ _ _) hK5)), ?_, d5, hd5, ?_, ?_, hstr5, ?_⟩
            · rw [hm5, DefinitionRegistry.map_fst_modify, DefinitionRegistry.map_fst_modify, hm2]
            · have := congrArg (List.take done.length) htake
              simpa [List.take_take] using this
            · rw [hlen5]; simp [hf]
            · intro hc; have := hcs5 hc; simp at this
          · obtain ⟨hK5, hm5, d5, hd5, htake, hlen5, hstr5, hcs5⟩ := finalizeFields32_frame hfin
              self rest _ _ out _ hd3 hv (by simp) h
            refine ⟨kept_trans hK2 (kept_trans (kept_modify _ _ _) hK5), ?_, d5, hd5, ?_, ?_,
              hstr5, hcs5⟩
            · rw [hm5, DefinitionRegistry.map_fst_modify, hm2]
            · have := congrArg (List.take done.length) htake
              simpa [List.take_take] using this
            · rw [hlen5]; simp [hf]

/-- `Definition::finalize` keeps the valid definitions and the keys, on every registry. -/
theorem finalize32_frame : ∀ fuel : Nat, FrameSpec (Definition.finalize32 fuel)
  | 0 => by
    intro reg t b reg1 h
    simp [Definition.finalize32] at h
  | fuel + 1 => by
    intro reg t b reg1 h
    rw [Definition.finalize32] at h
    cases hd : reg.getDefinition t with
    | none => rw [hd] at h; simp at h
    | some d =>
      rw [hd] at h
      simp only at h
      by_cases hv : d._isValid = true
      · simp only [hv, if_true, Option.some.injEq, Prod.mk.injEq] at h
        obtain ⟨hb, hreg⟩ := h
        subst hb hreg
        exact ⟨kept_refl _ _, rfl, d, hd, hv⟩
      · simp only [hv, Bool.false_eq_true, if_false] at h
        have hv' : d._isValid = false := by simpa using hv
        have hinv : ∀ d1, reg.getDefinition t = some d1 → d1._isValid = false := by
          intro d1 hd1
          rw [hd] at hd1
          have e := Option.some.inj hd1
          subst e
          exact hv'
        have hda : (reg.modify t fun d => { d with _isValid := true }).getDefinition t =
            some { d with _isValid := true } := by
          rw [DefinitionRegistry.getDefinition_modify_same, hd]; rfl
        -- the state after the loop
        have hloop : ∃ reg2 d2, reg2.getDefinition t = some d2 ∧
            Kept (fun k => k = t) reg reg2 ∧ reg2.map Prod.fst = reg.map Prod.fst ∧
            (if d2._isValid = true then
              match recordDefinitionCommands32 fuel reg2 d2 with
              | none => none
              | some cmds =>
                some (true, reg2.modify t fun d => { d with _commands := optimizeCommands32 cmds })
            else some (false, reg2)) = some (b, reg1) := by
          by_cases hlen : d._fields.length > 0
          · simp only [hlen, if_true] at h
            cases hl : finalizeFields32 (Definition.finalize32 fuel) t d._fields 0
                ((reg.modify t fun d => { d with _isValid := true }).modify t
                  fun d => { d with _size := 0 }) with
            | none => rw [hl] at h; simp at h
            | some reg2 =>
              rw [hl] at h
              simp only at h
              obtain ⟨hK, hm, d2, hd2, _⟩ := finalizeFields32_frame (finalize32_frame fuel) t
                d._fields [] _ reg2 { d with _isValid := true, _size := 0 }
                (by rw [DefinitionRegistry.getDefinition_modify_same, hda]; rfl) rfl rfl hl
              rw [hd2] at h
              refine ⟨reg2, d2, hd2, kept_trans (kept_modify _ _ _)
                (kept_trans (kept_modify _ _ _) hK), ?_, h⟩
              rw [hm, DefinitionRegistry.map_fst_modify, DefinitionRegistry.map_fst_modify]
          · simp only [hlen, if_false] at h
            rw [hda] at h
            exact ⟨_, _, hda, kept_modify _ _ _, DefinitionRegistry.map_fst_modify _ _ _, h⟩
        obtain ⟨reg2, d2, hd2, hK, hm, h2⟩ := hloop
        by_cases hv2 : d2._isValid = true
        · simp only [hv2, if_true] at h2
          cases hrec : recordDefinitionCommands32 fuel reg2 d2 with
          | none => rw [hrec] at h2; simp at h2
          | some cmds =>
            rw [hrec] at h2
            simp only [Option.some.injEq, Prod.mk.injEq] at h2
            obtain ⟨hb, hreg⟩ := h2
            subst hb hreg
            refine ⟨kept_of_invalid (kept_trans hK (kept_modify _ _ _)) hinv, ?_,
              { d2 with _commands := optimizeCommands32 cmds }, ?_, hv2⟩
            · rw [DefinitionRegistry.map_fst_modify, hm]
            · rw [DefinitionRegistry.getDefinition_modify_same, hd2]; rfl
        · simp only [hv2, Bool.false_eq_true, if_false, Option.some.injEq,
            Prod.mk.injEq] at h2
          obtain ⟨hb, hreg⟩ := h2
          subst hreg
          exact ⟨kept_of_invalid hK hinv, hm, d2, hd2, by rw [← hb]; simpa using hv2⟩

theorem finalizeFields32_nil
    (fin : DefinitionRegistry → String → Option (Bool × DefinitionRegistry)) (self : String)
    (i : Nat) (reg : DefinitionRegistry) : finalizeFields32 fin self [] i reg = some reg := by
  rw [finalizeFields32]

theorem recordFields32_cons (record : Definition → Option CommandBuffer)
    (reg : DefinitionRegistry) (f : Field) (rest : List Field) (fd : Definition)
    (hfd : f.definition.bind reg.getDefinition = some fd) :
    recordFields32 record reg (f :: rest) =
      match (if f.isArray then recordArrayDefinitionCommandsWith32 record fd f.arraySize
          else record fd), recordFields32 record reg rest with
      | some c, some r => some (c.map (wrapLabel f.name) ++ r)
      | _, _ => none := by
  conv_lhs => unfold recordFields32
  rw [hfd]

namespace MessageWriter

/-- The dispatch of a `CONSTANT_ARRAY` command with the one subcommand
`READ_FIXED_SIZE_DATA` of the size of the whole array succeeds on an input of that
size. -/
theorem dispatch_constantArray_ok (mw : MessageWriter) (l l1 : String) (s n m : Nat)
    (subs : CommandBuffer) (input : List UInt8) (hlen : input.length = n * s) :
    (dispatchCommands [.mk .CONSTANT_ARRAY l s n [.mk .READ_FIXED_SIZE_DATA l1 (n * s) m subs]]
      (DataReader.new input) (mw.allocate .data 8).1 (mw.allocate .data 8).2).ok = true := by
  rw [dispatchCommands_singleton, dispatchCommand_constantArray]
  by_cases hpos : n > 0
  · simp only [if_pos hpos]
    rw [dispatchCommands_singleton, dispatchCommand_fixed,
      DataReader.read_of_room _ _ _ _ (by simp [DataReader._size, DataReader.new, hlen])
        (by rw [allocate_eq])]
  · simp only [if_neg hpos]

end MessageWriter

namespace MessageWriter

theorem dispatchCommands32_singleton (c : Command) (src : DataReader) (dst : DataWriter)
    (mw : MessageWriter) : dispatchCommands32 [c] src dst mw = dispatchCommand32 c src dst mw := by
  rw [dispatchCommands32]
  cases h : dispatchCommand32 c src dst mw with
  | none => rfl
  | some r =>
    obtain ⟨⟨ok, s, d, m⟩, o⟩ := r
    simp only [Option.some_bind, dispatchCommands32, Option.map_some', Bool.or_false]
    cases ok <;> simp

/-- The function `write` on the 32-bit target for a record whose commands are one
`CONSTANT_ARRAY` with the one subcommand `READ_FIXED_SIZE_DATA` of the size of the whole
array, on an input of that size that leaves the data buffer shorter than `2 ^ 31`
bytes. -/
theorem write32_constantArray_command (mw : MessageWriter) (D : Definition) (l l1 : String)
    (s n m : Nat) (subs : CommandBuffer) (input : List UInt8) (hv : D.isValid = true)
    (hsize : D.getSize = 8)
    (hcmd : D.getCommands
      = [.mk .CONSTANT_ARRAY l s n [.mk .READ_FIXED_SIZE_DATA l1 (n * s) m subs]])
    (hlen : input.length = n * s)
    (hd : mw._dataBuffer.length + 8 + input.length < 2 ^ 31) :
    mw.write32 (some D) input =
      some ((mw._dataBuffer.length : Int),
        { _dataBuffer := mw._dataBuffer ++ (uint32Bytes n
            ++ uint32Bytes (mw._dataBuffer.length + 8)) ++ input,
          _stringBuffer := mw._stringBuffer }) := by
  have hw := write_constantArray_command mw D l l1 s n m subs input hv hsize hcmd hlen
  have hmod : (mw._dataBuffer.length + 8) % 2 ^ 32 = mw._dataBuffer.length + 8 :=
    Nat.mod_eq_of_lt (by omega)
  rw [hmod, toInt32_of_lt _ (by omega)] at hw
  rw [← hw]
  have hok := dispatch_constantArray_ok mw l l1 s n m subs input hlen
  rw [write_valid mw D input hv, hcmd, hsize, if_pos hok]
  unfold write32
  simp only [hv, Bool.not_true, Bool.false_eq_true, if_false, hcmd, hsize]
  have hL : (mw.get .data).length = mw._dataBuffer.length := rfl
  rw [allocate32_eq mw .data 8 (by rw [hL]; omega)]
  rw [dispatchCommands32_singleton, dispatchCommands_singleton] at *
  rw [dispatchCommand_constantArray] at hok ⊢
  rw [dispatchCommand32]
  have hns : (n * s) % 2 ^ 32 = n * s := Nat.mod_eq_of_lt (by omega)
  rw [hns]
  have hL2 : ((mw.allocate .data 8).2.get .data).length = mw._dataBuffer.length + 8 := by
    rw [allocate_get, if_pos rfl, List.length_append, List.length_replicate, hL]
  rw [allocate32_eq _ .data (n * s) (by rw [hL2]; omega)]
  have hb : (mw.allocate .data 8).1.inBounds
      ((mw.allocate .data 8).2.allocate .data (n * s)).2 = true :=
    inBounds_mono (allocate_inBounds mw .data 8) (fun b => by
      rw [allocate_get ((mw.allocate .data 8).2)]
      split
      · rename_i h; subst h; simp
      · exact Nat.le_refl _)
  rw [DataWriter.writeOffsets32_eq _ _ _ _ hb (by
    rw [allocate_fst, allocate_get, if_pos rfl, List.length_append, List.length_replicate, hL2]
    omega)]
  simp only [Option.some_bind]
  by_cases hpos : n > 0
  · rw [if_pos hpos] at hok ⊢
    rw [if_pos hpos]
    simp only [dispatchCommands_singleton, dispatchCommand_fixed] at hok ⊢
    rw [dispatchCommands32_singleton, dispatchCommand32]
    have hb2 : ((mw.allocate .data 8).2.allocate .data (n * s)).1.inBounds
        ((mw.allocate .data 8).1.writeOffsets
          ((mw.allocate .data 8).2.allocate .data (n * s)).2 n
          (((mw.allocate .data 8).2.allocate .data (n * s)).1.next % 2 ^ 32)).2.2 = true :=
      inBounds_mono (allocate_inBounds _ .data (n * s)) (fun b => by
        rw [DataWriter.writeOffsets_length])
    rw [DataReader.read32_eq _ _ _ _ hok hb2
      (by simp only [DataReader._size, DataReader.new]; omega)
      (by
        rw [DataWriter.writeOffsets_length, allocate_fst, allocate_get, if_pos rfl,
          List.length_append, List.length_replicate, hL2]
        omega)]
    simp only [Option.map_some', Bool.not_true, Bool.false_eq_true, if_false]
  · rw [if_neg hpos, if_neg hpos]
    simp only [Option.map_some', Bool.not_true, Bool.false_eq_true, if_false]

end MessageWriter

/-- The pointer a field resolves to does not depend on the content of the definitions
of the registry. -/
theorem Field.resolve_modify (f : Field) (reg : DefinitionRegistry) (k : String)
    (g : Definition → Definition) : f.resolve (reg.modify k g) = f.resolve reg := by
  unfold Field.resolve
  cases f.definition with
  | some x => rfl
  | none =>
    simp only
    have h := DefinitionRegistry.getDefinition_isSome_modify reg k f.type g
    cases h1 : (reg.modify k g).getDefinition f.type <;>
      cases h2 : reg.getDefinition f.type <;> simp_all

namespace DefinitionRegistry

/-- C16 (amended): for a record `A` with the one field `v: E[n]`, `0 ≤ n`, where `E`
(the definition the field refers to) is another definition than `A`, on which
`Definition::finalize` is called on the 32-bit target while `A` is not valid: when the
call of `finalize` on `E` that this call makes returns `true` and leaves `E` a
definition that is not a string and has constant size, with `n * E.size < 2 ^ 32`, then
the call on `A` returns `true`, `A` is valid with size 8 and its commands are the one
command `CONSTANT_ARRAY` with size `E.size`, length `n` and the one subcommand
`READ_FIXED_SIZE_DATA` of size `n * E.size`; and `write` on an input of `n * E.size`
bytes that leaves the data buffer shorter than `2 ^ 31` bytes returns the offset of the
record and appends to the data buffer the 8 bytes of the slot with `n` and the index of
the first payload byte (the length of the data buffer before the call plus 8), followed
by exactly the input bytes; the string buffer is unchanged. -/
theorem finalize32_constantArray (fuel : Nat) (reg : DefinitionRegistry) (k : String)
    (A : Definition) (hA : reg.getDefinition k = some A) (hinv : A.isValid = false)
    (f : Field) (hf : A.getFields = [f]) (harr : f.isArray = true) (hn : 0 ≤ f.arraySize)
    (hn31 : f.arraySize < 2 ^ 31) (t : String) (hres : f.resolve reg = some t)
    (hkne : t ≠ k) (reg2 : DefinitionRegistry)
    (hcall : Definition.finalize32 (fuel + 1) (reg.entered k f) t = some (true, reg2))
    (E : Definition) (hE : reg2.getDefinition t = some E)
    (hEs : E.isString = false) (hEc : E.hasConstantSize = true)
    (hfit : f.arraySize.toNat * E.getSize < 2 ^ 32) :
    ∃ reg1 A1, Definition.finalize32 (fuel + 2) reg k = some (true, reg1) ∧
      reg1.getDefinition k = some A1 ∧ reg1.getDefinition t = some E ∧
      A1.isValid = true ∧ A1.getSize = 8 ∧
      A1.getCommands =
        [.mk .CONSTANT_ARRAY (f.name ++ "(" ++ E.getName ++ ")") E.getSize f.arraySize.toNat
          [.mk .READ_FIXED_SIZE_DATA E.getName (f.arraySize.toNat * E.getSize) 0 []]] ∧
      ∀ (mw : MessageWriter) (input : List UInt8),
        input.length = f.arraySize.toNat * E.getSize →
        mw._dataBuffer.length + 8 + input.length < 2 ^ 31 →
        mw.write32 (some A1) input =
          some ((mw._dataBuffer.length : Int),
            { _dataBuffer := mw._dataBuffer ++ (uint32Bytes f.arraySize.toNat
                ++ uint32Bytes (mw._dataBuffer.length + 8)) ++ input,
              _stringBuffer := mw._stringBuffer }) := by
  simp only [Definition.getFields, Definition.isValid] at hf hinv
  have hne := fun (r : DefinitionRegistry) (g : Definition → Definition) =>
    getDefinition_modify_ne r k t g hkne
  have hlt : f.arraySize.toNat % 2 ^ 32 = f.arraySize.toNat := Nat.mod_eq_of_lt (by omega)
  have hr1 : f.resolve ((reg.modify k fun d => { d with _isValid := true }).modify k
      fun d => { d with _size := 0 }) = some t := by
    rw [Field.resolve_modify, Field.resolve_modify, hres]
  simp only [entered, hr1] at hcall
  -- the definition in progress is kept by the call
  obtain ⟨hK, _, _⟩ := finalize32_frame (fuel + 1) _ _ _ _ hcall
  have hA2 := hK.1 k
    { A with _isValid := true, _size := 0, _fields := [{ f with definition := some t }] }
    (by
      simp only [getDefinition_modify_same, hA, Option.map_some', setFieldDefinition, hf]
      rfl) rfl (fun h => h)
  show ∃ reg1 A1, Definition.finalize32 ((fuel + 1) + 1) reg k = some (true, reg1) ∧ _
  rw [Definition.finalize32]
  simp only [hA, hinv, Bool.false_eq_true, if_false, hf, List.length_singleton, Nat.lt_one_iff,
    gt_iff_lt, Nat.zero_lt_one, if_true]
  rw [finalizeFields32]
  unfold Field.finalize
  simp only [hr1, hcall]
  simp only [finalizeFields32_nil, Option.some_bind, hne, hE, harr, Bool.true_or, if_true,
    getDefinition_modify_same, hA2, Option.map_some', Field.getSize]
  have hrec : ∀ (R : DefinitionRegistry) (D : Definition),
      R.getDefinition t = some E →
      D._fields = [{ f with definition := some t }] →
      recordDefinitionCommands32 (fuel + 1) R D =
        some [.mk .CONSTANT_ARRAY (f.name ++ "(" ++ E.getName ++ ")") E.getSize
          f.arraySize.toNat
          [.mk .READ_FIXED_SIZE_DATA E.getName (f.arraySize.toNat * E.getSize) 0 []]] := by
    intro R D hR hD
    rw [recordDefinitionCommands32]
    simp only [Definition.hasFields, Definition.getFields, hD, List.isEmpty_cons, Bool.not_false,
      if_true]
    rw [recordFields32_cons _ _ _ [] E (by simpa using hR)]
    simp only [harr, if_true, recordArrayDefinitionCommandsWith32_constant _ E _ hn hEs hEc,
      recordFields32, List.map_cons, List.map_nil, List.append_nil, hlt, wrapLabel,
      Nat.mod_eq_of_lt hfit]
  rw [hrec _ _ (by simp only [hne, hE]) (by rw [harr])]
  have hpush : ∀ c : Command, pushFixed32 [] c = [c] := fun c => by simp [pushFixed32]
  simp only [optimizeCommands32, optimizeLoop32, optimizeStep32, List.nil_append, hpush]
  refine ⟨_,
    { _name := A._name, _size := 8, _fields := [{ f with definition := some t }],
      _isString := A._isString, _isValid := true, _hasConstantSize := false,
      _commands :=
        [.mk .CONSTANT_ARRAY (f.name ++ "(" ++ E.getName ++ ")") E.getSize f.arraySize.toNat
          [.mk .READ_FIXED_SIZE_DATA E.getName (f.arraySize.toNat * E.getSize) 0 []]] },
    rfl, ?_, ?_, rfl, rfl, rfl, ?_⟩
  · simp only [getDefinition_modify_same, hA2, Option.map_some']
    rfl
  · simp only [hne, hE]
  · intro mw input hlen hd
    exact MessageWriter.write32_constantArray_command mw _ _ _ _ _ 0 [] input rfl rfl rfl hlen
      hd

theorem finalize32_constantArray_witness :
    (exampleElement.getDefinition "A" = some (exampleElement.deref "A") ∧
      (exampleElement.deref "A").isValid = false ∧
      (exampleElement.deref "A").getFields = [exampleElementField] ∧
      exampleElementField.resolve exampleElement = some "E" ∧
      Definition.finalize32 (2 + 1) (exampleElement.entered "A" exampleElementField) "E"
        = some (true, exampleElementEntered) ∧
      exampleElementEntered.getDefinition "E" = some (exampleElementEntered.deref "E") ∧
      (exampleElementEntered.deref "E").isString = false ∧
      (exampleElementEntered.deref "E").hasConstantSize = true ∧
      (exampleElementEntered.deref "E").getSize = 4) ∧
    ∃ reg1 A1, Definition.finalize32 (2 + 2) exampleElement "A" = some (true, reg1) ∧
      reg1.getDefinition "A" = some A1 ∧
      reg1.getDefinition "E" = some (exampleElementEntered.deref "E") ∧
      A1.isValid = true ∧ A1.getSize = 8 ∧
      A1.getCommands =
        [.mk .CONSTANT_ARRAY
          (exampleElementField.name ++ "(" ++ (exampleElementEntered.deref "E").getName ++ ")")
          (exampleElementEntered.deref "E").getSize exampleElementField.arraySize.toNat
          [.mk .READ_FIXED_SIZE_DATA (exampleElementEntered.deref "E").getName
            (exampleElementField.arraySize.toNat * (exampleElementEntered.deref "E").getSize) 0
            []]] ∧
      ∀ (mw : MessageWriter) (input : List UInt8),
        input.length
          = exampleElementField.arraySize.toNat * (exampleElementEntered.deref "E").getSize →
        mw._dataBuffer.length + 8 + input.length < 2 ^ 31 →
        mw.write32 (some A1) input =
          some ((mw._dataBuffer.length : Int),
            { _dataBuffer := mw._dataBuffer ++ (uint32Bytes exampleElementField.arraySize.toNat
                ++ uint32Bytes (mw._dataBuffer.length + 8)) ++ input,
              _stringBuffer := mw._stringBuffer }) :=
  ⟨⟨by rfl, by rfl, by rfl, by rfl, by rfl, by rfl, by rfl, by rfl, by rfl⟩,
    finalize32_constantArray 2 exampleElement "A" (exampleElement.deref "A") (by rfl) (by rfl)
      exampleElementField (by rfl) (by rfl) (by decide) (by decide)
      "E" (by rfl) (by decide) exampleElementEntered (by rfl)
      (exampleElementEntered.deref "E") (by rfl) (by rfl) (by rfl) (by decide)⟩

/-- C16 (counterexample): on the 32-bit target, after `E { a: int32 }` and
`A { v: E[2] }` are finalized, the field `b: int32` is added to `E` and `finalizeAll`
runs again, `E` is valid, not a string and of constant size 8, and `A` is valid with the
one field `v: E[2]` and size 8, but the commands of `A` are `CONSTANT_ARRAY` with size 4
and the subcommand `READ_FIXED_SIZE_DATA` of size 8, and `write` on an input of
`2 * 8 = 16` bytes appends the slot and only the first 8 bytes of the input.  For
`W { v: int64[536870912] }` the subcommand `READ_FIXED_SIZE_DATA` has the size 0, not
`536870912 * 8 = 2 ^ 32`. -/
theorem finalize32_constantArray_counterexample :
    (((exampleStaleElement.deref "E").isValid, (exampleStaleElement.deref "E").isString,
        (exampleStaleElement.deref "E").hasConstantSize,
        (exampleStaleElement.deref "E").getSize) = (true, false, true, 8) ∧
      ((exampleStaleElement.deref "A").isValid, (exampleStaleElement.deref "A").getSize,
        (exampleStaleElement.deref "A").getFields) =
        (true, 8,
          [{ type := "E", name := "v", definition := some "E", isArray := true,
             arraySize := 2 }]) ∧
      (exampleStaleElement.deref "A").getCommands =
        [.mk .CONSTANT_ARRAY "v(E)" 4 2 [.mk .READ_FIXED_SIZE_DATA "E" 8 0 []]] ∧
      (MessageWriter.mk [9, 9] [7]).write32 (some (exampleStaleElement.deref "A"))
          [1, 2, 3, 4, 5, 6, 7, 8, 9, 10, 11, 12, 13, 14, 15, 16] =
        some (2, MessageWriter.mk [9, 9, 2, 0, 0, 0, 10, 0, 0, 0, 1, 2, 3, 4, 5, 6, 7, 8] [7])) ∧
      ((((finalized32 3 exampleWide).deref "int64").isValid,
          ((finalized32 3 exampleWide).deref "int64").isString,
          ((finalized32 3 exampleWide).deref "int64").hasConstantSize,
          ((finalized32 3 exampleWide).deref "int64").getSize) = (true, false, true, 8) ∧
        (((finalized32 3 exampleWide).deref "W").isValid,
          ((finalized32 3 exampleWide).deref "W").getSize,
          ((finalized32 3 exampleWide).deref "W").getFields) =
          (true, 8,
            [{ type := "int64", name := "v", definition := some "int64", isArray := true,
               arraySize := 536870912 }]) ∧
        ((finalized32 3 exampleWide).deref "W").getCommands =
          [.mk .CONSTANT_ARRAY "v(int64)" 8 536870912
            [.mk .READ_FIXED_SIZE_DATA "int64" 0 0 []]]) :=
  ⟨⟨by decide, by decide, by rfl, by decide⟩, by decide, by decide, by rfl⟩

end DefinitionRegistry

/-! ## The 32-bit target computes the sizes of exact arithmetic modulo `2 ^ 32` -/

theorem wrapAll32_eq_map (cs : CommandBuffer) : wrapAll32 cs = cs.map Command.wrap32 := by
  induction cs with
  | nil => rw [wrapAll32]; rfl
  | cons c cs ih => rw [wrapAll32, ih]; rfl

theorem wrapAll32_append (xs ys : CommandBuffer) :
    wrapAll32 (xs ++ ys) = wrapAll32 xs ++ wrapAll32 ys := by
  simp only [wrapAll32_eq_map, List.map_append]

theorem wrapAll32_singleton (c : Command) : wrapAll32 [c] = [c.wrap32] := by
  rw [wrapAll32, wrapAll32]

theorem wrap32_mk (t : CommandType) (l : String) (s n : Nat) (subs : CommandBuffer) :
    (Command.mk t l s n subs).wrap32 = .mk t l (s % 2 ^ 32) n (wrapAll32 subs) := by
  rw [Command.wrap32]

theorem pushFixed32_wrap (ret : CommandBuffer) (c : Command) :
    pushFixed32 (wrapAll32 ret) c.wrap32 = wrapAll32 (pushFixed ret c) := by
  unfold pushFixed32 pushFixed
  rw [wrapAll32_eq_map, List.getLast?_map]
  cases h : ret.getLast? with
  | none => simp [wrapAll32_eq_map]
  | some top =>
    obtain ⟨t, l, s, n, subs⟩ := top
    obtain ⟨t', l', s', n', subs'⟩ := c
    simp only [Option.map_some', wrap32_mk, Command.type_mk, Command.label_mk, Command.size_mk,
      Command.length_mk, Command.subcommands_mk]
    by_cases ht : t = CommandType.READ_FIXED_SIZE_DATA
    · simp [ht, wrapAll32_eq_map, wrap32_mk, ← List.map_dropLast, Nat.add_mod]
    · simp [ht, wrapAll32_eq_map, wrap32_mk]

mutual
theorem optimizeStep32_wrap : ∀ (c : Command) (ret : CommandBuffer),
    optimizeStep32 (wrapAll32 ret) c.wrap32 = wrapAll32 (optimizeStep ret c)
  | .mk .READ_FIXED_SIZE_DATA l s n subs, ret => by
    rw [optimizeStep, ← pushFixed32_wrap, wrap32_mk, optimizeStep32]
  | .mk .CONSTANT_ARRAY l s n subs, ret => by
    have ih := optimizeLoop32_wrap subs []
    rw [wrapAll32] at ih
    rw [optimizeStep, wrap32_mk, optimizeStep32, ih, wrapAll32_append, wrapAll32_singleton,
      wrap32_mk]
  | .mk .DYNAMIC_ARRAY l s n subs, ret => by
    have ih := optimizeLoop32_wrap subs []
    rw [wrapAll32] at ih
    rw [optimizeStep, wrap32_mk, optimizeStep32, ih, wrapAll32_append, wrapAll32_singleton,
      wrap32_mk]
  | .mk .READ_STRING l s n subs, ret => by
    rw [optimizeStep, wrap32_mk, optimizeStep32, wrapAll32_append, wrapAll32_singleton,
      wrap32_mk]
  | .mk .READ_DYNAMIC_SIZE_DATA l s n subs, ret => by
    rw [optimizeStep, wrap32_mk, optimizeStep32, wrapAll32_append, wrapAll32_singleton,
      wrap32_mk]
theorem optimizeLoop32_wrap : ∀ (input ret : CommandBuffer),
    optimizeLoop32 (wrapAll32 input) (wrapAll32 ret) = wrapAll32 (optimizeLoop input ret)
  | [], ret => by rw [wrapAll32, optimizeLoop32, optimizeLoop]
  | c :: rest, ret => by
    rw [wrapAll32, optimizeLoop32, optimizeLoop, optimizeStep32_wrap c ret,
      optimizeLoop32_wrap rest]
end

theorem optimizeCommands32_wrap (c : CommandBuffer) :
    optimizeCommands32 (wrapAll32 c) = wrapAll32 (optimizeCommands c) := by
  have := optimizeLoop32_wrap c []
  rw [wrapAll32] at this
  exact this


namespace DefinitionRegistry

theorem getDefinition_wrap32 (reg : DefinitionRegistry) (k : String) :
    reg.wrap32.getDefinition k = (reg.getDefinition k).map Definition.wrap32 := by
  induction reg with
  | nil => rfl
  | cons p rest ih =>
    obtain ⟨k1, d1⟩ := p
    by_cases h : k1 = k
    · simp [wrap32, getDefinition, h]
    · have ih1 : getDefinition (List.map (fun p => (p.1, p.2.wrap32)) rest) k
          = (getDefinition rest k).map Definition.wrap32 := ih
      simp [wrap32, getDefinition, h, ih1]

theorem modify_wrap32 (reg : DefinitionRegistry) (k : String)
    (g g1 : Definition → Definition)
    (h : ∀ d, reg.getDefinition k = some d → g1 d.wrap32 = (g d).wrap32) :
    reg.wrap32.modify k g1 = (reg.modify k g).wrap32 := by
  induction reg with
  | nil => rfl
  | cons p rest ih =>
    obtain ⟨k1, d1⟩ := p
    by_cases hk : k1 = k
    · have := h d1 (by simp [getDefinition, hk])
      simp [wrap32, modify, hk, this]
    · have ih1 : modify (List.map (fun p => (p.1, p.2.wrap32)) rest) k g1
          = List.map (fun p => (p.1, p.2.wrap32)) (modify rest k g) :=
        ih (fun d hd => h d (by simpa [getDefinition, hk] using hd))
      simp [wrap32, modify, hk, ih1]

theorem map_fst_wrap32 (reg : DefinitionRegistry) :
    reg.wrap32.map Prod.fst = reg.map Prod.fst := by
  simp [wrap32, List.map_map, Function.comp_def]

end DefinitionRegistry

theorem recordStringDefinitionCommands_wrap (d : Definition) :
    recordStringDefinitionCommands d.wrap32 = wrapAll32 (recordStringDefinitionCommands d) := by
  simp [recordStringDefinitionCommands, wrapAll32_singleton, wrap32_mk, wrapAll32,
    Definition.wrap32, Definition.getName]

theorem recordNonStringDefinitionCommands32_wrap (d : Definition) (n : Nat) :
    recordNonStringDefinitionCommands32 d.wrap32 n
      = wrapAll32 (recordNonStringDefinitionCommands d n) := by
  simp [recordNonStringDefinitionCommands32, recordNonStringDefinitionCommands,
    wrapAll32_singleton, wrap32_mk, wrapAll32, Definition.wrap32, Definition.getName,
    Definition.getSize, Nat.mul_mod]

theorem recordTimes_wrap (c : Option CommandBuffer) :
    ∀ n, recordTimes (c.map wrapAll32) n = (recordTimes c n).map wrapAll32
  | 0 => by rw [recordTimes_zero, recordTimes_zero]; rfl
  | n + 1 => by
    cases c with
    | none =>
      rw [Option.map_none', recordTimes_none_succ]
      rfl
    | some a =>
      have ih := recordTimes_wrap (some a) n
      rw [Option.map_some'] at ih ⊢
      rw [recordTimes_succ, recordTimes_succ, ih]
      cases recordTimes (some a) n with
      | none => rfl
      | some b => simp [wrapAll32_append]

theorem wrapLabel_wrap32 (name : String) (c : Command) :
    wrapLabel name c.wrap32 = (wrapLabel name c).wrap32 := by
  obtain ⟨t, l, s, n, subs⟩ := c
  simp [wrapLabel, wrap32_mk]

theorem map_wrapLabel_wrap (name : String) (c : CommandBuffer) :
    (wrapAll32 c).map (wrapLabel name) = wrapAll32 (c.map (wrapLabel name)) := by
  simp [wrapAll32_eq_map, List.map_map, Function.comp_def, wrapLabel_wrap32]

theorem recordArrayDefinitionCommandsWith32_wrap
    (record record32 : Definition → Option CommandBuffer) (d : Definition) (n : Int)
    (h : record32 d.wrap32 = (record d).map wrapAll32) :
    recordArrayDefinitionCommandsWith32 record32 d.wrap32 n
      = (recordArrayDefinitionCommandsWith record d n).map wrapAll32 := by
  have hs : d.wrap32.isString = d.isString := rfl
  have hc : d.wrap32.hasConstantSize = d.hasConstantSize := rfl
  have hn : d.wrap32.getName = d.getName := rfl
  have hz : d.wrap32.getSize = d.getSize % 2 ^ 32 := rfl
  unfold recordArrayDefinitionCommandsWith32 recordArrayDefinitionCommandsWith
  simp only [hs, hc, hn, hz, h, recordStringDefinitionCommands_wrap,
    recordNonStringDefinitionCommands32_wrap]
  by_cases hn0 : n ≥ 0
  · simp only [hn0, if_true]
    by_cases h1 : d.isString = true
    · simp only [h1, if_true]
      rw [← Option.map_some', recordTimes_wrap]
      cases recordTimes (some (recordStringDefinitionCommands d)) n.toNat <;>
        simp [wrapAll32_singleton, wrap32_mk]
    · simp only [h1, Bool.false_eq_true, if_false]
      by_cases h2 : d.hasConstantSize = true
      · simp [h2, wrapAll32_singleton, wrap32_mk]
      · simp only [h2, Bool.false_eq_true, if_false]
        rw [recordTimes_wrap]
        cases recordTimes (record d) n.toNat <;> simp [wrapAll32_singleton, wrap32_mk]
  · simp only [hn0, if_false]
    by_cases h2 : d.hasConstantSize = true
    · simp [h2, wrapAll32_singleton, wrap32_mk, wrapAll32]
    · simp only [h2, Bool.false_eq_true, if_false]
      by_cases h1 : d.isString = true
      · simp [h1, wrapAll32_singleton, wrap32_mk]
      · simp only [h1, Bool.false_eq_true, if_false]
        cases record d <;> simp [wrapAll32_singleton, wrap32_mk]


theorem recordFields32_wrap (record record32 : Definition → Option CommandBuffer)
    (reg : DefinitionRegistry)
    (h : ∀ t fd, reg.getDefinition t = some fd →
      record32 fd.wrap32 = (record fd).map wrapAll32) :
    ∀ fields, recordFields32 record32 reg.wrap32 fields
      = (recordFields record reg fields).map wrapAll32
  | [] => by rw [recordFields32, recordFields]; rfl
  | f :: rest => by
    have ih := recordFields32_wrap record record32 reg h rest
    cases hp : f.definition with
    | none =>
      rw [recordFields32, recordFields]
      simp [hp]
    | some t =>
      cases hd : reg.getDefinition t with
      | none =>
        rw [recordFields32, recordFields]
        simp [hp, hd, DefinitionRegistry.getDefinition_wrap32]
      | some fd =>
        rw [recordFields32_cons record32 reg.wrap32 f rest fd.wrap32
            (by simp [hp, hd, DefinitionRegistry.getDefinition_wrap32]),
          recordFields_cons record reg f rest fd (by simp [hp, hd]), ih]
        have h1 := h t fd hd
        have h2 := recordArrayDefinitionCommandsWith32_wrap record record32 fd f.arraySize h1
        by_cases ha : f.isArray = true
        · simp only [ha, if_true, h2]
          cases recordArrayDefinitionCommandsWith record fd f.arraySize with
          | none => rfl
          | some c =>
            cases recordFields record reg rest with
            | none => rfl
            | some r => simp [wrapAll32_append, map_wrapLabel_wrap]
        · simp only [ha, Bool.false_eq_true, if_false, h1]
          cases record fd with
          | none => rfl
          | some c =>
            cases recordFields record reg rest with
            | none => rfl
            | some r => simp [wrapAll32_append, map_wrapLabel_wrap]

theorem recordDefinitionCommands32_wrap : ∀ (fuel : Nat) (reg : DefinitionRegistry)
    (d : Definition), Leaves reg → (d._fields = [] → d._size < 2 ^ 32) →
    recordDefinitionCommands32 fuel reg.wrap32 d.wrap32
      = (recordDefinitionCommands fuel reg d).map wrapAll32
  | 0, _, _, _, _ => rfl
  | fuel + 1, reg, d, hL, hd => by
    have hf : d.wrap32.hasFields = d.hasFields := rfl
    have hg : d.wrap32.getFields = d.getFields := rfl
    have hs : d.wrap32.isString = d.isString := rfl
    rw [recordDefinitionCommands32, recordDefinitionCommands, hf, hg, hs]
    by_cases h1 : d.hasFields = true
    · simp only [h1, if_true, recordComplexDefinitionCommandsWith]
      exact recordFields32_wrap _ _ reg
        (fun t fd hfd => recordDefinitionCommands32_wrap fuel reg fd hL (hL t fd hfd)) _
    · simp only [h1, Bool.false_eq_true, if_false]
      have hnil : d._fields = [] := by
        simpa [Definition.hasFields] using h1
      have hlt := hd hnil
      by_cases h2 : d.isString = true
      · simp [h2, recordStringDefinitionCommands_wrap]
      · simp only [h2, Bool.false_eq_true, if_false]
        have hz : d.wrap32.getSize = d.getSize := by
          simp only [Definition.wrap32, Definition.getSize]
          exact Nat.mod_eq_of_lt hlt
        rw [hz]
        by_cases h3 : d.getSize > 0
        · simp [h3, recordNonStringDefinitionCommands32_wrap]
        · simp [h3, wrapAll32]


theorem leaves_modify {reg : DefinitionRegistry} (hL : Leaves reg) (k : String)
    (g : Definition → Definition)
    (h : ∀ d, reg.getDefinition k = some d → (g d)._fields = [] → (g d)._size < 2 ^ 32) :
    Leaves (reg.modify k g) := by
  intro k1 d1 hd1 hnil
  rw [DefinitionRegistry.getDefinition_modify] at hd1
  by_cases hk : k1 = k
  · simp only [hk, if_true] at hd1
    cases hd : reg.getDefinition k with
    | none => rw [hd] at hd1; simp at hd1
    | some d =>
      rw [hd] at hd1
      simp only [Option.map_some', Option.some.injEq] at hd1
      subst hd1
      exact h d hd hnil
  · simp only [hk, if_false] at hd1
    exact hL k1 d1 hd1 hnil

theorem getSize_wrap32 (reg : DefinitionRegistry) (f : Field) :
    f.getSize reg.wrap32 = f.getSize reg % 2 ^ 32 := by
  unfold Field.getSize
  by_cases ha : f.isArray = true
  · simp [ha]
  · simp only [ha, Bool.false_eq_true, if_false]
    cases hp : f.definition with
    | none => simp
    | some t =>
      simp only [Option.some_bind, DefinitionRegistry.getDefinition_wrap32]
      cases reg.getDefinition t with
      | none => simp
      | some fd => simp [Definition.wrap32, Definition.getSize]

theorem resolve_wrap32 (f : Field) (reg : DefinitionRegistry) :
    f.resolve reg.wrap32 = f.resolve reg := by
  unfold Field.resolve
  cases f.definition with
  | some t => rfl
  | none =>
    simp only [DefinitionRegistry.getDefinition_wrap32]
    cases reg.getDefinition f.type <;> rfl

theorem finalize_field_wrap32
    {fin fin32 : DefinitionRegistry → String → Option (Bool × DefinitionRegistry)}
    (hw : WrapSpec fin fin32) (reg : DefinitionRegistry) (hL : Leaves reg) (self : String)
    (i : Nat) (f : Field) :
    Field.finalize fin32 reg.wrap32 self i f
        = (Field.finalize fin reg self i f).map (fun p => (p.1, p.2.1, p.2.2.wrap32)) ∧
      ∀ b f1 r, Field.finalize fin reg self i f = some (b, f1, r) → Leaves r := by
  have hL1 : Leaves (reg.modify self (setFieldDefinition i (f.resolve reg))) :=
    leaves_modify hL self _ (fun d hd hnil => hL self d hd (by
      simp only [setFieldDefinition] at hnil
      have := congrArg List.length hnil
      simp only [List.length_modify, List.length_nil] at this
      exact List.length_eq_zero.mp this))
  have hm : reg.wrap32.modify self (setFieldDefinition i (f.resolve reg))
      = (reg.modify self (setFieldDefinition i (f.resolve reg))).wrap32 :=
    DefinitionRegistry.modify_wrap32 reg self _ _ (fun d _ => rfl)
  unfold Field.finalize
  rw [resolve_wrap32]
  simp only [hm]
  cases hp : f.resolve reg with
  | none =>
    rw [hp] at hL1
    refine ⟨rfl, fun b f1 r h => ?_⟩
    simp only [Option.some.injEq, Prod.mk.injEq] at h
    rw [← h.2.2]
    exact hL1
  | some t =>
    rw [hp] at hL1
    obtain ⟨he, hl⟩ := hw _ t hL1
    simp only [he]
    cases hc : fin (reg.modify self (setFieldDefinition i (some t))) t with
    | none => exact ⟨rfl, fun b f1 r h => by simp at h⟩
    | some q =>
      obtain ⟨b, r⟩ := q
      refine ⟨rfl, fun b1 f1 r1 h => ?_⟩
      simp only [Option.some.injEq, Prod.mk.injEq] at h
      rw [← h.2.2]
      exact hl b r hc


/-- What `Field::finalize` leaves of the definition it is called on, when it returns
`true`. -/
theorem finalize_field_self
    {fin : DefinitionRegistry → String → Option (Bool × DefinitionRegistry)}
    (hframe : FrameSpec fin) (reg : DefinitionRegistry) (self : String) (done rest : List Field)
    (f : Field) (d : Definition) (hd : reg.getDefinition self = some d)
    (hv : d._isValid = true) (hf : d._fields = done ++ f :: rest) (f1 : Field)
    (reg2 : DefinitionRegistry)
    (h : Field.finalize fin reg self done.length f = some (true, f1, reg2)) :
    reg2.getDefinition self = some { d with _fields := done ++ f1 :: rest } := by
  unfold Field.finalize at h
  have hd1 : ∀ p, (reg.modify self (setFieldDefinition done.length p)).getDefinition self
      = some { d with _fields := done ++ { f with definition := p } :: rest } := by
    intro p
    rw [DefinitionRegistry.getDefinition_modify_same, hd]
    simp only [Option.map_some', setFieldDefinition, hf, list_modify_append]
  cases hp : f.resolve reg with
  | none =>
    rw [hp] at h
    simp at h
  | some t =>
    rw [hp] at h
    simp only at h
    cases hc : fin (reg.modify self (setFieldDefinition done.length (some t))) t with
    | none => rw [hc] at h; simp at h
    | some q =>
      obtain ⟨b, r⟩ := q
      rw [hc] at h
      simp only [Option.some.injEq, Prod.mk.injEq] at h
      obtain ⟨hb, hf1, hr⟩ := h
      subst hb hf1 hr
      obtain ⟨hK, _, _⟩ := hframe _ t true r hc
      exact hK.1 self _ (hd1 (some t)) hv (fun hx => hx)


theorem finalizeFields32_wrap
    {fin fin32 : DefinitionRegistry → String → Option (Bool × DefinitionRegistry)}
    (hframe : FrameSpec fin) (hw : WrapSpec fin fin32) (self : String) :
    ∀ (rest done : List Field) (reg : DefinitionRegistry) (d : Definition),
      reg.getDefinition self = some d → d._isValid = true → d._fields = done ++ rest →
      Leaves reg →
      finalizeFields32 fin32 self rest done.length reg.wrap32
          = (finalizeFields fin self rest done.length reg).map DefinitionRegistry.wrap32 ∧
        ∀ out, finalizeFields fin self rest done.length reg = some out → Leaves out
  | [], done, reg, d, _, _, _, hL => by
    rw [finalizeFields32, finalizeFields]
    refine ⟨rfl, fun out h => ?_⟩
    simp only [Option.some.injEq] at h
    rw [← h]
    exact hL
  | f :: rest, done, reg, d, hd, hv, hf, hL => by
    obtain ⟨hfe, hfl⟩ := finalize_field_wrap32 hw reg hL self done.length f
    rw [finalizeFields32, finalizeFields, hfe]
    cases hF : Field.finalize fin reg self done.length f with
    | none => exact ⟨rfl, fun out h => by simp at h⟩
    | some q =>
      obtain ⟨b, f1, reg2⟩ := q
      have hL2 := hfl b f1 reg2 hF
      simp only [Option.map_some']
      cases b with
      | false =>
        simp only
        refine ⟨?_, fun out h => ?_⟩
        · rw [DefinitionRegistry.modify_wrap32 reg2 self
            (fun d => { d with _isValid := false }) _ (fun d _ => rfl)]
          rfl
        · simp only [Option.some.injEq] at h
          rw [← h]
          exact leaves_modify hL2 self _ (fun d1 hd1 hnil => hL2 self d1 hd1 hnil)
      | true =>
        simp only
        have hd2 := finalize_field_self hframe reg self done rest f d hd hv hf f1 reg2 hF
        generalize hG : Field.getSize reg2 f1 = G
        have hG32 : Field.getSize reg2.wrap32 f1 = G % 2 ^ 32 := by rw [getSize_wrap32, hG]
        have hm3 : (reg2.wrap32.modify self fun d =>
              { d with _size := (d._size + G % 2 ^ 32) % 2 ^ 32 })
            = (reg2.modify self fun d => { d with _size := d._size + G }).wrap32 :=
          DefinitionRegistry.modify_wrap32 reg2 self _ _ (fun d _ => by
            simp [Definition.wrap32, Nat.add_mod])
        rw [hG32, hm3]
        have hd3 : (reg2.modify self fun d => { d with _size := d._size + G }).getDefinition self
            = some { d with _fields := done ++ f1 :: rest, _size := d._size + G } := by
          rw [DefinitionRegistry.getDefinition_modify_same, hd2]
          rfl
        have hL3 : Leaves (reg2.modify self fun d => { d with _size := d._size + G }) :=
          leaves_modify hL2 self _ (fun d1 hd1 hnil => by
            rw [hd2] at hd1
            simp only [Option.some.injEq] at hd1
            subst hd1
            simp at hnil)
        generalize reg2.modify self (fun d => { d with _size := d._size + G }) = reg3
          at hd3 hL3 ⊢
        have hbind : f1.definition.bind reg3.wrap32.getDefinition
            = (f1.definition.bind reg3.getDefinition).map Definition.wrap32 := by
          cases f1.definition with
          | none => rfl
          | some t => simp only [Option.some_bind, DefinitionRegistry.getDefinition_wrap32]
        rw [hbind]
        have hcl : ∀ c : Bool,
            finalizeFields32 fin32 self rest (done.length + 1)
                (if c = true then
                  reg3.wrap32.modify self fun d => { d with _hasConstantSize := false }
                else reg3.wrap32) =
              Option.map DefinitionRegistry.wrap32
                (finalizeFields fin self rest (done.length + 1)
                  (if c = true then
                    reg3.modify self fun d => { d with _hasConstantSize := false }
                  else reg3)) ∧
            ∀ (out : DefinitionRegistry),
              finalizeFields fin self rest (done.length + 1)
                  (if c = true then
                    reg3.modify self fun d => { d with _hasConstantSize := false }
                  else reg3) = some out →
                Leaves out := by
          intro c
          have hlen : (done ++ [f1]).length = done.length + 1 := by simp
          rw [← hlen]
          split
          · rw [DefinitionRegistry.modify_wrap32 reg3 self
              (fun d => { d with _hasConstantSize := false }) _ (fun d _ => rfl)]
            exact finalizeFields32_wrap hframe hw self rest (done ++ [f1]) _
              { d with _fields := done ++ f1 :: rest, _size := d._size + G,
                       _hasConstantSize := false }
              (by rw [DefinitionRegistry.getDefinition_modify_same, hd3]; rfl) hv (by simp)
              (leaves_modify hL3 self _ (fun d1 hd1 hnil => by
                rw [hd3] at hd1
                simp only [Option.some.injEq] at hd1
                subst hd1
                simp at hnil))
          · exact finalizeFields32_wrap hframe hw self rest (done ++ [f1]) reg3 _ hd3 hv
              (by simp) hL3
        cases f1.definition.bind reg3.getDefinition with
        | none => exact hcl f1.isArray
        | some fd => exact hcl (f1.isArray || fd.isString || !fd.hasConstantSize)

/-- The function `Definition::finalize` on the 32-bit target computes, on the registry
with the sizes reduced modulo `2 ^ 32`, the result of exact arithmetic with the sizes
reduced modulo `2 ^ 32`. -/
theorem finalize32_wrap : ∀ fuel : Nat,
    WrapSpec (Definition.finalize fuel) (Definition.finalize32 fuel)
  | 0 => fun reg t _ => ⟨rfl, fun b r h => by simp [Definition.finalize] at h⟩
  | fuel + 1 => by
    intro reg t hL
    rw [Definition.finalize32, Definition.finalize, DefinitionRegistry.getDefinition_wrap32]
    cases hd : reg.getDefinition t with
    | none => exact ⟨rfl, fun b r h => by simp at h⟩
    | some d =>
      simp only [Option.map_some']
      have hvw : d.wrap32._isValid = d._isValid := rfl
      have hfw : d.wrap32._fields = d._fields := rfl
      rw [hvw, hfw]
      by_cases hv : d._isValid = true
      · simp only [hv, if_true, Option.map_some']
        refine ⟨trivial, fun b r h => ?_⟩
        simp only [Option.some.injEq, Prod.mk.injEq] at h
        rw [← h.2]
        exact hL
      · simp only [hv, Bool.false_eq_true, if_false]
        have hm1 : (reg.wrap32.modify t fun d => { d with _isValid := true })
            = (reg.modify t fun d => { d with _isValid := true }).wrap32 :=
          DefinitionRegistry.modify_wrap32 reg t _ _ (fun d _ => rfl)
        have hL1 : Leaves (reg.modify t fun d => { d with _isValid := true }) :=
          leaves_modify hL t _ (fun d1 hd1 hnil => hL t d1 hd1 hnil)
        have hda : (reg.modify t fun d => { d with _isValid := true }).getDefinition t =
            some { d with _isValid := true } := by
          rw [DefinitionRegistry.getDefinition_modify_same, hd]; rfl
        rw [hm1]
        have hloop :
            (if d._fields.length > 0 then
              finalizeFields32 (Definition.finalize32 fuel) t d._fields 0
                ((reg.modify t fun d => { d with _isValid := true }).wrap32.modify t
                  fun d => { d with _size := 0 })
            else some (reg.modify t fun d => { d with _isValid := true }).wrap32)
            = (if d._fields.length > 0 then
                finalizeFields (Definition.finalize fuel) t d._fields 0
                  ((reg.modify t fun d => { d with _isValid := true }).modify t
                    fun d => { d with _size := 0 })
              else some (reg.modify t fun d => { d with _isValid := true })).map
                DefinitionRegistry.wrap32 ∧
            ∀ out, (if d._fields.length > 0 then
                finalizeFields (Definition.finalize fuel) t d._fields 0
                  ((reg.modify t fun d => { d with _isValid := true }).modify t
                    fun d => { d with _size := 0 })
              else some (reg.modify t fun d => { d with _isValid := true })) = some out →
              Leaves out := by
          by_cases hlen : d._fields.length > 0
          · simp only [hlen, if_true]
            rw [DefinitionRegistry.modify_wrap32 _ t (fun d => { d with _size := 0 }) _
              (fun d _ => rfl)]
            exact finalizeFields32_wrap (finalize_frame fuel) (finalize32_wrap fuel) t
              d._fields [] _ { d with _isValid := true, _size := 0 }
              (by rw [DefinitionRegistry.getDefinition_modify_same, hda]; rfl) rfl rfl
              (leaves_modify hL1 t _ (fun d1 hd1 hnil => by
                show 0 < 2 ^ 32
                decide))
          · simp only [hlen, if_false, Option.map_some']
            refine ⟨trivial, fun out h => ?_⟩
            simp only [Option.some.injEq] at h
            rw [← h]
            exact hL1
        obtain ⟨hl1, hl2⟩ := hloop
        rw [hl1]
        generalize (if d._fields.length > 0 then
            finalizeFields (Definition.finalize fuel) t d._fields 0
              ((reg.modify t fun d => { d with _isValid := true }).modify t
                fun d => { d with _size := 0 })
          else some (reg.modify t fun d => { d with _isValid := true })) = looped at hl2 ⊢
        cases looped with
        | none => exact ⟨rfl, fun b r h => by simp at h⟩
        | some reg2 =>
          have hL2 := hl2 reg2 rfl
          simp only [Option.map_some', DefinitionRegistry.getDefinition_wrap32]
          cases hd2 : reg2.getDefinition t with
          | none => exact ⟨rfl, fun b r h => by simp at h⟩
          | some d2 =>
            simp only [Option.map_some']
            have hvw2 : d2.wrap32._isValid = d2._isValid := rfl
            rw [hvw2]
            by_cases hv2 : d2._isValid = true
            · simp only [hv2, if_true]
              rw [recordDefinitionCommands32_wrap fuel reg2 d2 hL2 (hL2 t d2 hd2)]
              cases recordDefinitionCommands fuel reg2 d2 with
              | none => exact ⟨rfl, fun b r h => by simp at h⟩
              | some cmds =>
                simp only [Option.map_some', optimizeCommands32_wrap]
                refine ⟨?_, fun b r h => ?_⟩
                · rw [DefinitionRegistry.modify_wrap32 reg2 t
                    (fun d => { d with _commands := optimizeCommands cmds }) _ (fun d _ => rfl)]
                · simp only [Option.some.injEq, Prod.mk.injEq] at h
                  rw [← h.2]
                  exact leaves_modify hL2 t _ (fun d1 hd1 hnil => hL2 t d1 hd1 hnil)
            · simp only [hv2, Bool.false_eq_true, if_false, Option.map_some']
              refine ⟨trivial, fun b r h => ?_⟩
              simp only [Option.some.injEq, Prod.mk.injEq] at h
              rw [← h.2]
              exact hL2


namespace DefinitionRegistry

theorem finalizeEntries32_wrap (fuel : Nat) : ∀ (keys : List String) (reg : DefinitionRegistry),
    Leaves reg →
    finalizeEntries32 fuel keys reg.wrap32
      = (finalizeEntries fuel keys reg).map (fun p => (p.1, p.2.wrap32))
  | [], reg, _ => by rw [finalizeEntries32, finalizeEntries]; rfl
  | k :: keys, reg, hL => by
    obtain ⟨he, hl⟩ := finalize32_wrap fuel reg k hL
    rw [finalizeEntries32, finalizeEntries, he]
    cases hf : Definition.finalize fuel reg k with
    | none => rfl
    | some q =>
      obtain ⟨b, r⟩ := q
      cases b with
      | false => rfl
      | true =>
        simp only [Option.map_some']
        exact finalizeEntries32_wrap fuel keys r (hl true r hf)

/-- The function `finalizeAll` on the 32-bit target computes the registry of exact
arithmetic with the sizes reduced modulo `2 ^ 32`. -/
theorem finalizeAll32_wrap (fuel : Nat) (reg : DefinitionRegistry) (hL : Leaves reg) :
    reg.wrap32.finalizeAll32 fuel = (reg.finalizeAll fuel).map (fun p => (p.1, p.2.wrap32)) := by
  unfold finalizeAll32 finalizeAll
  rw [map_fst_wrap32]
  exact finalizeEntries32_wrap fuel _ reg hL

theorem leaves_of_wrap32 (reg : DefinitionRegistry) (h : reg.wrap32 = reg) : Leaves reg := by
  intro k d hd _
  have := getDefinition_wrap32 reg k
  rw [h, hd] at this
  simp only [Option.map_some', Option.some.injEq] at this
  have hs : d._size = d._size % 2 ^ 32 := by
    conv_lhs => rw [this]
    rfl
  rw [hs]
  exact Nat.mod_lt _ (by decide)

end DefinitionRegistry


namespace MessageWriter

theorem readDynamicData32_mod (mw : MessageWriter) (src : DataReader) (dst : DataWriter)
    (b : BufferId) (size : Nat) :
    mw.readDynamicData32 src dst b (size % 2 ^ 32) = mw.readDynamicData32 src dst b size := by
  unfold readDynamicData32
  simp only [Nat.mul_mod_mod]

mutual
/-- Every command with its sizes reduced modulo `2 ^ 32` does on the 32-bit target what
the command does in exact arithmetic, in a run that fits. -/
theorem simw_dispatchCommand : ∀ cmd : Command,
    Simulates cmd.Layout cmd.dstSize (dispatchCommand cmd) (dispatchCommand32 cmd.wrap32)
  | .mk .READ_FIXED_SIZE_DATA l size n subs => by
    intro src dst mw hfit
    obtain ⟨hok, hb, hr, hs, hfin⟩ := hfit
    rw [dispatchCommand_fixed] at hok hfin ⊢
    simp only at hok hfin
    have hle : src._read + size ≤ src._size := by
      by_contra hc
      rw [DataReader.read_eq, if_neg hc] at hok
      simp at hok
    have hsz : size % 2 ^ 32 = size := Nat.mod_eq_of_lt (by omega)
    rw [wrap32_mk, dispatchCommand32, hsz, DataReader.read32_eq _ _ _ _ hok hb hs
      (by have := hfin dst.buffer; simpa using this)]
    refine ⟨false, by rw [hok], DataReader.read_cursor_le _ _ _ _ hr,
      DataReader.read_inBounds src size dst mw hb, fun _ hroom => ⟨rfl, ?_⟩⟩
    simp only [Command.dstSize, Command.type, if_true, Command.size] at hroom ⊢
    rw [DataReader.read_eq] at hok ⊢
    by_cases h : src._read + size ≤ src._size
    · rw [if_pos h]
      simp only
      rw [DataWriter.write_def]
      have hl : (List.take size (List.drop src._read src._data)).length = size := by
        rw [List.length_take, List.length_drop]
        unfold DataReader._size at h
        omega
      rw [hl, if_pos hroom]
    · rw [if_neg h] at hok
      simp at hok
  | .mk .READ_STRING l size n subs => by
    intro src dst mw hfit
    rw [dispatchCommand_string] at hfit ⊢
    rw [wrap32_mk, dispatchCommand32]
    obtain ⟨flag, hg, h1, h2, h3⟩ := sim_readDynamicData .strings 1 src dst mw hfit
    have hd : (Command.mk .READ_STRING l size n subs).dstSize = 8 := by
      simp [Command.dstSize, Command.type]
    rw [hd]
    exact ⟨flag, hg, h1, h2, fun _ hroom => h3 trivial hroom⟩
  | .mk .READ_DYNAMIC_SIZE_DATA l size n subs => by
    intro src dst mw hfit
    rw [dispatchCommand_dynamicSize] at hfit ⊢
    rw [wrap32_mk, dispatchCommand32, readDynamicData32_mod]
    obtain ⟨flag, hg, h1, h2, h3⟩ := sim_readDynamicData .data size src dst mw hfit
    have hd : (Command.mk .READ_DYNAMIC_SIZE_DATA l size n subs).dstSize = 8 := by
      simp [Command.dstSize, Command.type]
    rw [hd]
    exact ⟨flag, hg, h1, h2, fun _ hroom => h3 trivial hroom⟩
  | .mk .CONSTANT_ARRAY l size length subs => by
    intro src dst mw hfit
    obtain ⟨hok, hb, hr, hs, hfin⟩ := hfit
    rw [dispatchCommand_constantArray] at hok hfin ⊢
    dsimp only at hok hfin ⊢
    obtain ⟨_, h2, h3⟩ := slot_inBounds mw dst .data (length * size) length
      ((mw.allocate .data (length * size)).1.next % 2 ^ 32) hb
    have hfr := frame_dispatchCommands subs src (mw.allocate .data (length * size)).1
      (dst.writeOffsets (mw.allocate .data (length * size)).2 length
        ((mw.allocate .data (length * size)).1.next % 2 ^ 32)).2.2
    have hgrow : ∀ b, ((mw.allocate .data (length * size)).2.get b).length < 2 ^ 31 := by
      intro b
      have := hfin b
      split at this
      · have h4 := hfr.2.2.2.2.2.1 b
        simp only [DataWriter.writeOffsets_length] at h4
        dsimp only at this
        omega
      · simpa using this
    obtain ⟨hmod, ha, hw⟩ := slot32_eq mw dst .data (length * size) length
      ((mw.allocate .data (length * size)).1.next % 2 ^ 32) hb hgrow
    rw [wrap32_mk, dispatchCommand32]
    simp only [Nat.mul_mod_mod, hmod, ha, hw, Option.some_bind]
    by_cases hpos : length > 0
    · simp only [if_pos hpos] at hok hfin ⊢
      obtain ⟨flag, hg, hr1, _, hl⟩ := simw_dispatchCommands subs src _ _ ⟨hok, h3, hr, hs, hfin⟩
      rw [hg]
      simp only [Option.map_some']
      refine ⟨_, rfl, hr1, inBounds_mono h2 hfr.2.2.2.2.2.1, fun hlay hroom => ?_⟩
      rw [layout_mk] at hlay
      simp only [Command.dstSize, Command.type] at hroom ⊢
      obtain ⟨hw1, hw2⟩ := slot_of_room dst (mw.allocate .data (length * size)).2 length
        ((mw.allocate .data (length * size)).1.next % 2 ^ 32) (by simpa using hroom)
      obtain ⟨hf, _⟩ := hl hlay.2.2 (by rw [hlay.1 rfl]; simp [allocate_fst])
      exact ⟨by rw [hw1, hf]; rfl, by simpa using hw2⟩
    · simp only [if_neg hpos] at hok hfin ⊢
      refine ⟨_, rfl, hr, h2, fun _ hroom => ?_⟩
      simp only [Command.dstSize, Command.type] at hroom ⊢
      obtain ⟨hw1, hw2⟩ := slot_of_room dst (mw.allocate .data (length * size)).2 length
        ((mw.allocate .data (length * size)).1.next % 2 ^ 32) (by simpa using hroom)
      exact ⟨hw1, by simpa using hw2⟩
  | .mk .DYNAMIC_ARRAY l size n subs => by
    intro src dst mw hfit
    obtain ⟨hok, hb, hr, hs, hfin⟩ := hfit
    rw [dispatchCommand_dynamicArray] at hok hfin ⊢
    by_cases hlen : src._read + 4 ≤ src._size
    · rw [if_pos hlen] at hok hfin ⊢
      dsimp only at hok hfin ⊢
      generalize hL : uint32OfBytes ((src._data.drop src._read).take 4) = L at hok hfin ⊢
      obtain ⟨_, h2, h3⟩ := slot_inBounds mw dst .data (L * size) L
        ((mw.allocate .data (L * size)).1.next % 2 ^ 32) hb
      have hfr := frame_dispatchTimes (fun s w m => dispatchCommands subs s w m)
        (fun s w m => frame_dispatchCommands subs s w m) L
        { src with _read := src._read + 4 } (mw.allocate .data (L * size)).1
        (dst.writeOffsets (mw.allocate .data (L * size)).2 L
          ((mw.allocate .data (L * size)).1.next % 2 ^ 32)).2.2
      have hgrow : ∀ b, ((mw.allocate .data (L * size)).2.get b).length < 2 ^ 31 := by
        intro b
        have := hfin b
        split at this
        · have h4 := hfr.2.2.2.2.2.1 b
          simp only [DataWriter.writeOffsets_length] at h4
          dsimp only at this
          omega
        · simpa using this
      obtain ⟨hmod, ha, hw⟩ := slot32_eq mw dst .data (L * size) L
        ((mw.allocate .data (L * size)).1.next % 2 ^ 32) hb hgrow
      rw [wrap32_mk, dispatchCommand32, DataReader.readLength32_eq src hr hs,
        DataReader.readLength_eq, if_pos hlen]
      simp only [Option.some_bind, Bool.true_eq_false, if_false, hL, Nat.mul_mod_mod, hmod, ha,
        hw]
      by_cases hpos : L > 0
      · simp only [if_pos hpos] at hok hfin ⊢
        obtain ⟨flag, hg, hr1, _, hl⟩ := sim_dispatchTimes
          (fun s w m => frame_dispatchCommands subs s w m)
          (fun s w m hw => simw_dispatchCommands subs s w m hw) L
          { src with _read := src._read + 4 } _ _
          ⟨hok, h3, by simp only [DataReader._size] at hlen ⊢; omega, hs, hfin⟩
        rw [hg]
        simp only [Option.map_some']
        refine ⟨_, rfl, hr1, inBounds_mono h2 hfr.2.2.2.2.2.1, fun hlay hroom => ?_⟩
        rw [layout_mk] at hlay
        simp only [Command.dstSize, Command.type] at hroom ⊢
        obtain ⟨hw1, hw2⟩ := slot_of_room dst (mw.allocate .data (L * size)).2 L
          ((mw.allocate .data (L * size)).1.next % 2 ^ 32) (by simpa using hroom)
        obtain ⟨hf, _⟩ := hl hlay.2.2 (by rw [hlay.2.1 rfl]; simp [allocate_fst])
        exact ⟨by rw [hw1, hf]; rfl, by simpa using hw2⟩
      · simp only [if_neg hpos] at hok hfin ⊢
        refine ⟨_, rfl, by simp only [DataReader._size] at hlen ⊢; omega, h2,
          fun _ hroom => ?_⟩
        simp only [Command.dstSize, Command.type] at hroom ⊢
        obtain ⟨hw1, hw2⟩ := slot_of_room dst (mw.allocate .data (L * size)).2 L
          ((mw.allocate .data (L * size)).1.next % 2 ^ 32) (by simpa using hroom)
        exact ⟨hw1, by simpa using hw2⟩
    · rw [if_neg hlen] at hok
      simp at hok
/-- Every command buffer with its sizes reduced modulo `2 ^ 32` does on the 32-bit
target what the buffer does in exact arithmetic, in a run that fits. -/
theorem simw_dispatchCommands : ∀ cmds : CommandBuffer,
    Simulates (LayoutAll cmds) (dstTotal cmds) (dispatchCommands cmds)
      (dispatchCommands32 (wrapAll32 cmds))
  | [] => by
    intro src dst mw hfit
    obtain ⟨_, hin, hr, _, _⟩ := hfit
    rw [dispatchCommands_nil, wrapAll32, dispatchCommands32]
    exact ⟨false, rfl, hr, hin, fun _ _ => ⟨rfl, by simp [dstTotal_nil]⟩⟩
  | cmd :: rest => by
    intro src dst mw hfit
    obtain ⟨hok, hin, hr, hs, hfin⟩ := hfit
    rw [dispatchCommands_cons] at hok hfin ⊢
    by_cases hbok : (dispatchCommand cmd src dst mw).ok = true
    · simp only [hbok, if_true] at hok hfin ⊢
      have hfr := frame_dispatchCommands rest (dispatchCommand cmd src dst mw).src
        (dispatchCommand cmd src dst mw).dst (dispatchCommand cmd src dst mw).mw
      obtain ⟨flag, hg, hr1, hin1, hl⟩ := simw_dispatchCommand cmd src dst mw
        ⟨hbok, hin, hr, hs, fun b => Nat.lt_of_le_of_lt (hfr.2.2.2.2.2.1 b) (hfin b)⟩
      have hfb := frame_dispatchCommand cmd src dst mw
      have hsize : (dispatchCommand cmd src dst mw).src._size = src._size := by
        unfold DataReader._size
        rw [hfb.1]
      obtain ⟨flag2, hg2, hr2, hin2, hl2⟩ := simw_dispatchCommands rest _ _ _
        ⟨hok, hin1, hr1, by rw [hsize]; exact hs, hfin⟩
      rw [wrapAll32, dispatchCommands32, hg]
      simp only [Option.some_bind, hbok, if_true, hg2, Option.map_some']
      refine ⟨flag || flag2, rfl, hr2, hin2, fun hlay hroom => ?_⟩
      rw [layoutAll_cons] at hlay
      rw [dstTotal_cons] at hroom
      obtain ⟨hf1, hn1⟩ := hl hlay.1 (by omega)
      obtain ⟨hf2, hn2⟩ := hl2 hlay.2 (by rw [hn1, hfb.2.2.2.1]; omega)
      refine ⟨by simp [hf1, hf2], ?_⟩
      rw [hn2, hn1, dstTotal_cons]
      omega
    · simp only [hbok, Bool.false_eq_true, if_false] at hok
end

end MessageWriter


mutual
theorem wrap32_of_narrow : ∀ c : Command, c.narrow = true → c.wrap32 = c
  | .mk t l s n subs, h => by
    rw [Command.narrow, Bool.and_eq_true, decide_eq_true_eq] at h
    rw [wrap32_mk, Nat.mod_eq_of_lt h.1, wrapAll32_of_narrow subs h.2]
theorem wrapAll32_of_narrow : ∀ cs : CommandBuffer, narrowAll cs = true → wrapAll32 cs = cs
  | [], _ => by rw [wrapAll32]
  | c :: cs, h => by
    rw [narrowAll, Bool.and_eq_true] at h
    rw [wrapAll32, wrap32_of_narrow c h.1, wrapAll32_of_narrow cs h.2]
end

namespace MessageWriter

/-- The dispatch that `write` makes, on the 32-bit target, for a definition compiled
there: when the dispatch of the definition compiled in exact arithmetic succeeds on an
input shorter than `2 ^ 31` bytes and leaves both buffers shorter than `2 ^ 31` bytes, the
32-bit target allocates the same view and makes the same run. -/
theorem dispatch32_wrap_of_fits (mw : MessageWriter) (d : Definition) (input : List UInt8)
    (hok : (dispatchCommands d.getCommands (DataReader.new input) (mw.allocate .data d.getSize).1
      (mw.allocate .data d.getSize).2).ok = true)
    (hin : input.length < 2 ^ 31)
    (hfin : ∀ b, ((dispatchCommands d.getCommands (DataReader.new input)
      (mw.allocate .data d.getSize).1 (mw.allocate .data d.getSize).2).mw.get b).length
        < 2 ^ 31) :
    mw.allocate32 .data d.wrap32.getSize = mw.allocate .data d.getSize ∧
    ∃ flag, dispatchCommands32 d.wrap32.getCommands (DataReader.new input)
        (mw.allocate .data d.getSize).1 (mw.allocate .data d.getSize).2
      = some ⟨dispatchCommands d.getCommands (DataReader.new input)
          (mw.allocate .data d.getSize).1 (mw.allocate .data d.getSize).2, flag⟩ ∧
      (LayoutAll d.getCommands → dstTotal d.getCommands = d.getSize → flag = false) := by
  have hfr := frame_dispatchCommands d.getCommands (DataReader.new input)
    (mw.allocate .data d.getSize).1 (mw.allocate .data d.getSize).2
  have hlen : (mw.get .data).length + d.getSize < 2 ^ 31 := by
    have h1 := hfr.2.2.2.2.2.1 .data
    have h2 := hfin .data
    rw [allocate_get, if_pos rfl, List.length_append, List.length_replicate] at h1
    omega
  have hsz : d.wrap32.getSize = d.getSize := by
    show d._size % 2 ^ 32 = d._size
    have : d.getSize = d._size := rfl
    exact Nat.mod_eq_of_lt (by omega)
  refine ⟨by rw [hsz]; exact allocate32_eq mw .data _ (by omega), ?_⟩
  obtain ⟨flag, hg, _, _, hl⟩ := simw_dispatchCommands d.getCommands (DataReader.new input)
    (mw.allocate .data d.getSize).1 (mw.allocate .data d.getSize).2
    ⟨hok, allocate_inBounds mw .data _, Nat.zero_le _, hin, hfin⟩
  refine ⟨flag, hg, fun hlay htot => (hl hlay ?_).1⟩
  rw [allocate_fst, htot]

/-- The function `write` on the 32-bit target, for a definition compiled there, returns
what `write` returns in exact arithmetic for the definition compiled in exact arithmetic,
when the dispatch succeeds there on an input shorter than `2 ^ 31` bytes and leaves both
buffers shorter than `2 ^ 31` bytes. -/
theorem write32_wrap_of_fits (mw : MessageWriter) (d : Definition) (input : List UInt8)
    (hv : d.isValid = true)
    (hok : (dispatchCommands d.getCommands (DataReader.new input) (mw.allocate .data d.getSize).1
      (mw.allocate .data d.getSize).2).ok = true)
    (hin : input.length < 2 ^ 31)
    (hfin : ∀ b, (((mw.write (some d) input).2).get b).length < 2 ^ 31) :
    mw.write32 (some d.wrap32) input = some (mw.write (some d) input) := by
  rw [write_valid mw d input hv, if_pos hok] at hfin ⊢
  obtain ⟨ha, flag, hg, _⟩ := dispatch32_wrap_of_fits mw d input hok hin hfin
  have hvw : d.wrap32.isValid = true := hv
  unfold write32
  simp only [hvw, Bool.not_true, Bool.false_eq_true, if_false, ha, hg, Option.map_some', hok]

end MessageWriter

namespace DefinitionRegistry

/-- The function `finalizeAll` on the 32-bit target, on a registry whose sizes are in the
range of its `size_t`, returns when it returns in exact arithmetic, with the sizes
reduced modulo `2 ^ 32`. -/
theorem finalizeAll32_of_exact (fuel : Nat) (reg0 reg : DefinitionRegistry) (b : Bool)
    (hrange : reg0.wrap32 = reg0) (h : reg0.finalizeAll fuel = some (b, reg)) (k : String)
    (D : Definition) (hD : reg.getDefinition k = some D) :
    reg0.finalizeAll32 fuel = some (b, reg.wrap32) ∧
      reg.wrap32.getDefinition k = some D.wrap32 := by
  have := finalizeAll32_wrap fuel reg0 (leaves_of_wrap32 reg0 hrange)
  rw [hrange, h] at this
  exact ⟨this, by rw [getDefinition_wrap32, hD]; rfl⟩

end DefinitionRegistry

namespace MessageWriter

/-- C2 (amended): let `reg0` be an acyclic schema whose records were all registered before
the first finalization, whose string-typed definitions are the built-in ones and whose
sizes are in the range of the `size_t` of the 32-bit target, and let `reg` be the
registry that `finalizeAll` leaves in exact arithmetic.  Then `finalizeAll` on the
32-bit target returns the same result with the registry `reg.wrap32`, which holds the
sizes of `reg` modulo `2 ^ 32`; and for a valid record `D` of `reg` with at least one
field, compiled on the target as `D.wrap32`, and for every input shorter than `2 ^ 31`
bytes that is exactly the encoding of a value of `D` and whose output, laid out in exact
arithmetic, leaves both buffers shorter than `2 ^ 31` bytes: the dispatch of the
commands of `D.wrap32` that `write` makes on the 32-bit target returns `true`, no call
of `DataWriter::write` in it (the slots of the child views included) finds its view
full, the cursor of the reader ends at the end of the input and the view of the record
is filled exactly. -/
theorem dispatch32_succeeds (rank : String → Nat) (fuel : Nat)
    (reg0 reg : DefinitionRegistry) (b : Bool) (hS : Schema rank reg0)
    (hrange : reg0.wrap32 = reg0) (h : reg0.finalizeAll fuel = some (b, reg)) (k : String)
    (D : Definition) (hD : reg.getDefinition k = some D) (hv : D._isValid = true)
    (hne : D._fields ≠ []) (v : Value) (input : List UInt8)
    (he : encode reg D v = some input) (mw : MessageWriter) (hin : input.length < 2 ^ 31)
    (hfin : ∀ c, ((mw.write (some D) input).2.get c).length < 2 ^ 31) :
    reg0.finalizeAll32 fuel = some (b, reg.wrap32) ∧
      reg.wrap32.getDefinition k = some D.wrap32 ∧
      ∃ r, dispatchCommands32 D.wrap32.getCommands (DataReader.new input)
          (mw.allocate32 .data D.wrap32.getSize).1 (mw.allocate32 .data D.wrap32.getSize).2
          = some r ∧
        r.run.ok = true ∧ r.overflow = false ∧ r.run.src._read = input.length ∧
        r.run.dst.next = r.run.dst.end_ := by
  obtain ⟨h32, hD32⟩ := DefinitionRegistry.finalizeAll32_of_exact fuel reg0 reg b hrange h k D hD
  refine ⟨h32, hD32, ?_⟩
  have hF := finalized_of_schema hS h
  have o := runs_commands hF k D hD hv hne v input he _ _ _ (ready_write mw D.getSize input)
  obtain ⟨h1, h2, h3, _, _⟩ := o
  rw [write_valid mw D input hv, if_pos h1] at hfin
  obtain ⟨ha, flag, hg, hl⟩ := dispatch32_wrap_of_fits mw D input h1 hin hfin
  obtain ⟨hl1, hl2⟩ := commands_layout hF k D hD hv hne
  rw [ha, hg]
  refine ⟨_, rfl, h1, hl hl2 hl1, ?_, ?_⟩
  · rw [h2]
    simp [DataReader.new]
  · rw [h3]
    simp [Definition.getSize]

theorem dispatch32_succeeds_witness :
    (Schema exampleTRank DefinitionRegistry.exampleT ∧
      DefinitionRegistry.exampleT.wrap32 = DefinitionRegistry.exampleT ∧
      DefinitionRegistry.exampleT.finalizeAll 3 = some (true, DefinitionRegistry.exampleTFinal) ∧
      DefinitionRegistry.exampleTFinal.getDefinition "T" = some exampleTFinalized ∧
      exampleTFinalized._isValid = true ∧ exampleTFinalized._fields ≠ [] ∧
      encode DefinitionRegistry.exampleTFinal exampleTFinalized exampleTValue
        = some exampleTInput ∧
      exampleTInput.length < 2 ^ 31 ∧
      ∀ c, (((MessageWriter.mk [9, 9] []).write (some exampleTFinalized)
        exampleTInput).2.get c).length < 2 ^ 31) ∧
    (DefinitionRegistry.exampleT.finalizeAll32 3
        = some (true, DefinitionRegistry.exampleTFinal.wrap32) ∧
      DefinitionRegistry.exampleTFinal.wrap32.getDefinition "T"
        = some exampleTFinalized.wrap32 ∧
      ∃ r, dispatchCommands32 exampleTFinalized.wrap32.getCommands
          (DataReader.new exampleTInput)
          ((MessageWriter.mk [9, 9] []).allocate32 .data exampleTFinalized.wrap32.getSize).1
          ((MessageWriter.mk [9, 9] []).allocate32 .data exampleTFinalized.wrap32.getSize).2
          = some r ∧
        r.run.ok = true ∧ r.overflow = false ∧ r.run.src._read = exampleTInput.length ∧
        r.run.dst.next = r.run.dst.end_) :=
  ⟨⟨⟨by unfold DefinitionRegistry.Acyclic; decide, by unfold DefinitionRegistry.Fresh; decide,
      by decide, by decide⟩, by rfl, by rfl, by rfl, by decide, by decide, by decide,
      by decide, by intro c; cases c <;> decide⟩,
    dispatch32_succeeds exampleTRank 3 DefinitionRegistry.exampleT
      DefinitionRegistry.exampleTFinal true
      ⟨by unfold DefinitionRegistry.Acyclic; decide, by unfold DefinitionRegistry.Fresh; decide,
        by decide, by decide⟩
      (by rfl) (by rfl) "T" exampleTFinalized (by rfl) (by rfl) (by decide) exampleTValue
      exampleTInput (by decide) (MessageWriter.mk [9, 9] []) (by decide)
      (by intro c; cases c <;> decide)⟩

/-- C1 (amended): let `reg0` be an acyclic schema whose records were all registered before
the first finalization, whose string-typed definitions are the built-in ones and whose
sizes are in the range of the `size_t` of the 32-bit target, and let `reg` be the
registry that `finalizeAll` leaves in exact arithmetic.  Then `finalizeAll` on the
32-bit target returns the same result with the registry `reg.wrap32`, which holds the
sizes of `reg` modulo `2 ^ 32`; and for a valid record `D` of `reg` with at least one
field, compiled on the target as `D.wrap32`, and for every input shorter than `2 ^ 31`
bytes that is the encoding of a value `v` of `D` and whose output, laid out in exact
arithmetic, leaves both buffers shorter than `2 ^ 31` bytes: `write` on the 32-bit
target returns the length the data buffer had before, and the buffers represent `v` at
that offset: every primitive field holds its input bytes, every slot holds the count
from the input and the offset of the payload in the buffer that hosts it. -/
theorem write32_represents (rank : String → Nat) (fuel : Nat)
    (reg0 reg : DefinitionRegistry) (b : Bool) (hS : Schema rank reg0)
    (hrange : reg0.wrap32 = reg0) (h : reg0.finalizeAll fuel = some (b, reg)) (k : String)
    (D : Definition) (hD : reg.getDefinition k = some D) (hv : D._isValid = true)
    (hne : D._fields ≠ []) (v : Value) (input : List UInt8)
    (he : encode reg D v = some input) (mw : MessageWriter) (hin : input.length < 2 ^ 31)
    (hfin : ∀ c, ((mw.write (some D) input).2.get c).length < 2 ^ 31) :
    reg0.finalizeAll32 fuel = some (b, reg.wrap32) ∧
      reg.wrap32.getDefinition k = some D.wrap32 ∧
      ∃ out, mw.write32 (some D.wrap32) input = some ((mw._dataBuffer.length : Int), out) ∧
        represents reg out D mw._dataBuffer.length v = true := by
  obtain ⟨h32, hD32⟩ := DefinitionRegistry.finalizeAll32_of_exact fuel reg0 reg b hrange h k D hD
  refine ⟨h32, hD32, ?_⟩
  have o := runs_commands (finalized_of_schema hS h) k D hD hv hne v input he _ _ _
    (ready_write mw D.getSize input)
  obtain ⟨h1, _, _, hch, hR⟩ := o
  rw [write32_wrap_of_fits mw D input hv h1 hin hfin]
  rw [write_valid mw D input hv, if_pos h1] at hfin ⊢
  have hoff : toInt32 mw._dataBuffer.length = (mw._dataBuffer.length : Int) := by
    apply toInt32_of_lt
    have h2 := (hch .data).1
    have h3 := hfin .data
    have h4 := allocate_length_le mw .data .data D.getSize
    simp only [get_data] at h2 h3 h4
    omega
  rw [hoff]
  refine ⟨_, rfl, ?_⟩
  · have hs : Small (dispatchCommands D.getCommands (DataReader.new input)
        (mw.allocate .data D.getSize).1 (mw.allocate .data D.getSize).2).mw :=
      fun c => Nat.lt_trans (hfin c) (by decide)
    have := hR hs _ (fun _ _ _ _ => rfl)
    rw [allocate_fst] at this
    exact this

theorem write32_represents_witness :
    (Schema exampleTRank DefinitionRegistry.exampleT ∧
      DefinitionRegistry.exampleT.wrap32 = DefinitionRegistry.exampleT ∧
      DefinitionRegistry.exampleT.finalizeAll 3 = some (true, DefinitionRegistry.exampleTFinal) ∧
      DefinitionRegistry.exampleTFinal.getDefinition "T" = some exampleTFinalized ∧
      exampleTFinalized._isValid = true ∧ exampleTFinalized._fields ≠ [] ∧
      encode DefinitionRegistry.exampleTFinal exampleTFinalized exampleTValue
        = some exampleTInput ∧
      exampleTInput.length < 2 ^ 31 ∧
      ∀ c, (((MessageWriter.mk [9, 9] []).write (some exampleTFinalized)
        exampleTInput).2.get c).length < 2 ^ 31) ∧
    (DefinitionRegistry.exampleT.finalizeAll32 3
        = some (true, DefinitionRegistry.exampleTFinal.wrap32) ∧
      DefinitionRegistry.exampleTFinal.wrap32.getDefinition "T"
        = some exampleTFinalized.wrap32 ∧
      ∃ out, (MessageWriter.mk [9, 9] []).write32 (some exampleTFinalized.wrap32) exampleTInput
          = some (((MessageWriter.mk [9, 9] [])._dataBuffer.length : Int), out) ∧
        represents DefinitionRegistry.exampleTFinal out exampleTFinalized
          (MessageWriter.mk [9, 9] [])._dataBuffer.length exampleTValue = true) :=
  ⟨⟨⟨by unfold DefinitionRegistry.Acyclic; decide, by unfold DefinitionRegistry.Fresh; decide,
      by decide, by decide⟩, by rfl, by rfl, by rfl, by decide, by decide, by decide,
      by decide, by intro c; cases c <;> decide⟩,
    write32_represents exampleTRank 3 DefinitionRegistry.exampleT
      DefinitionRegistry.exampleTFinal true
      ⟨by unfold DefinitionRegistry.Acyclic; decide, by unfold DefinitionRegistry.Fresh; decide,
        by decide, by decide⟩
      (by rfl) (by rfl) "T" exampleTFinalized (by rfl) (by rfl) (by decide) exampleTValue
      exampleTInput (by decide) (MessageWriter.mk [9, 9] []) (by decide)
      (by intro c; cases c <;> decide)⟩

end MessageWriter

namespace DefinitionRegistry

/-- C23 (amended): let `reg0` be an acyclic schema whose records were all registered
before the first finalization, whose string-typed definitions are the built-in ones and
whose sizes are in the range of the `size_t` of the 32-bit target, and let `reg` be the
registry that `finalizeAll` leaves in exact arithmetic.  Then `finalizeAll` on the
32-bit target returns the same result with the registry `reg.wrap32`; and for a valid
record `D` of `reg` with at least one field whose size and whose command sizes, at every
depth, are below `2 ^ 32` in exact arithmetic (nothing wrapped when the target compiled
it), the commands of `D.wrap32` take as many bytes in the view of the record as the size
of the record (the size of a fixed read, 8 bytes for every other command); and at every
depth of subcommands, the subcommands of a constant array take `length * size` bytes and
the subcommands of a dynamic array take `size` bytes. -/
theorem finalizeAll32_layout (rank : String → Nat) (fuel : Nat)
    (reg0 reg : DefinitionRegistry) (b : Bool) (hS : Schema rank reg0)
    (hrange : reg0.wrap32 = reg0) (h : reg0.finalizeAll fuel = some (b, reg)) (k : String)
    (D : Definition) (hD : reg.getDefinition k = some D) (hv : D._isValid = true)
    (hne : D._fields ≠ []) (hsize : D.getSize < 2 ^ 32)
    (hnarrow : narrowAll D.getCommands = true) :
    reg0.finalizeAll32 fuel = some (b, reg.wrap32) ∧
      reg.wrap32.getDefinition k = some D.wrap32 ∧
      dstTotal D.wrap32.getCommands = D.wrap32.getSize ∧ LayoutAll D.wrap32.getCommands := by
  obtain ⟨h32, hD32⟩ := finalizeAll32_of_exact fuel reg0 reg b hrange h k D hD
  refine ⟨h32, hD32, ?_⟩
  have hc : D.wrap32.getCommands = D.getCommands := wrapAll32_of_narrow _ hnarrow
  have hs : D.wrap32.getSize = D.getSize := Nat.mod_eq_of_lt hsize
  rw [hc, hs]
  exact commands_layout (finalized_of_schema hS h) k D hD hv hne

theorem finalizeAll32_layout_witness :
    (Schema exampleTRank exampleT ∧ exampleT.wrap32 = exampleT ∧
      exampleT.finalizeAll 3 = some (true, exampleTFinal) ∧
      exampleTFinal.getDefinition "T" = some exampleTFinalized ∧
      exampleTFinalized._isValid = true ∧ exampleTFinalized._fields ≠ [] ∧
      exampleTFinalized.getSize < 2 ^ 32 ∧ narrowAll exampleTFinalized.getCommands = true) ∧
    (exampleT.finalizeAll32 3 = some (true, exampleTFinal.wrap32) ∧
      exampleTFinal.wrap32.getDefinition "T" = some exampleTFinalized.wrap32 ∧
      dstTotal exampleTFinalized.wrap32.getCommands = exampleTFinalized.wrap32.getSize ∧
      LayoutAll exampleTFinalized.wrap32.getCommands) :=
  ⟨⟨⟨by unfold Acyclic; decide, by unfold Fresh; decide, by decide, by decide⟩, by rfl, by rfl,
      by rfl, by rfl, by decide, by decide, by rfl⟩,
    finalizeAll32_layout exampleTRank 3 exampleT exampleTFinal true
      ⟨by unfold Acyclic; decide, by unfold Fresh; decide, by decide, by decide⟩ (by rfl)
      (by rfl) "T" exampleTFinalized (by rfl) (by rfl) (by decide) (by decide) (by rfl)⟩

end DefinitionRegistry

end cruise
